import Mathlib

/-!
# Connected component labeling (package `ccl`)

A shallow embedding of `ccl.go` (the generic Hoshen-Kopelman engine), `img.go`
(the blob/colour codec, the raster-scan image engine and `CollectBlobs`) and the grid
adapter `bitmap` of `ccl_test.go`.

Modelling conventions.

* Go `int` is the 64-bit type.  Labels, indices and counters are bounded by the length of a
  slice and are kept as mathematical integers `Int`; so are the pixel counts of `CCLImage`.
  The sums of the sizes that the nodes of a `CCLabeler` report wrap around (`wrapInt`).
  A `uint8(..)` conversion is reduction modulo 256 and a byte is a `Fin 256`.
* Go slices are lists.  An indexing expression that would panic makes the enclosing
  function return `none`.
* `find` contains two `for` loops whose termination depends on the contents of the
  equivalence array.  Both are run for at most `len(equivalence) + 1` condition checks:
  a walk that has not stopped by then has revisited a label and never stops, so `none`
  stands for "panics or does not return".
* The loops `for labeler.Next() { ... }` of `HoshenKopelman` take a bound `fuel` on the
  number of calls of `Next`; theorems that say that a run returns are stated for every
  bound that is large enough.  `firstPassSteps` and `firstPassImage` give the state of a
  first pass after a given number of turns of its loop.
* `sort.Slice` is a library routine whose order among ties is unspecified.  It is a
  parameter `sort` of the engines; theorems assume only that it returns a permutation of
  its input that is ordered by the comparison function (`SortSpec`).
-/

namespace ccl

/-! ## Constants -/

/-- NullLabel is the label that should be initially given to all nodes (`ccl.go`). -/
def NullLabel : Int := -1

/-- EmptyBlob refers to points not belonging to an input image (`img.go`). -/
def EmptyBlob : Int := -1

/-- The constant `math.MaxInt` on a 64-bit platform. -/
def MaxInt : Int := 9223372036854775807

/-! ## Slices -/

/-- Read `xs[i]` for a Go `int` index: `none` when the access panics. -/
def idx {α : Type} (xs : List α) (i : Int) : Option α :=
  if 0 ≤ i then xs[i.toNat]? else none

/-- Write `xs[i] = v` for a Go `int` index: `none` when the access panics. -/
def upd {α : Type} (xs : List α) (i : Int) (v : α) : Option (List α) :=
  if 0 ≤ i ∧ i.toNat < xs.length then some (xs.set i.toNat v) else none

/-! ## Blob/colour codec (`img.go`) -/

/-- The conversion `uint8(i)` of a Go `int`. -/
def uint8 (i : Int) : Fin 256 := ⟨(i % 256).toNat, by omega⟩

/-- The type `color.NRGBA`: four byte channels. -/
structure NRGBA where
  R : Fin 256
  G : Fin 256
  B : Fin 256
  A : Fin 256
deriving DecidableEq, Repr

/-- BlobFromColor returns a blob identifier from its color representation. -/
def BlobFromColor (r g b a : Fin 256) : Int :=
  let i : Int := (r.val : Int) * 256 * 256 * 256 + (g.val : Int) * 256 * 256
    + (b.val : Int) * 256 + (a.val : Int)
  i + EmptyBlob

/-- ColorFromBlob returns the color representation of a blob.  Go's `/` and `%` on `int`
truncate toward zero (`Int.tdiv`, `Int.tmod`). -/
def ColorFromBlob (v : Int) : NRGBA :=
  if v = EmptyBlob then ⟨0, 0, 0, 0⟩
  else
    let i := v - EmptyBlob
    let cR := uint8 (i.tdiv (256 * 256 * 256))
    let residue := i.tmod (256 * 256 * 256)
    let cG := uint8 (residue.tdiv (256 * 256))
    let residue2 := residue.tmod (256 * 256)
    let cB := uint8 (residue2.tdiv 256)
    let cA := uint8 (residue2.tmod 256)
    ⟨cR, cG, cB, cA⟩

/-- Decode a colour value: `BlobFromColor` applied to its four channels. -/
def decode (c : NRGBA) : Int := BlobFromColor c.R c.G c.B c.A

/-! ## Equivalence resolver (`find` in `ccl.go` and `img.go`) -/

/-- The first loop of `find`: `for equivalence[parent] != parent { parent = equivalence[parent] }`,
with a bound on the number of condition checks. -/
def findParent : Nat → List Int → Int → Option Int
  | 0, _, _ => none
  | fuel + 1, equivalence, parent =>
    match idx equivalence parent with
    | none => none
    | some p => if p ≠ parent then findParent fuel equivalence p else some parent

/-- The second loop of `find`, which squashes the links:
`for equivalence[label] != label { tmp := equivalence[label]; equivalence[label] = parent; label = tmp }`. -/
def squash : Nat → List Int → Int → Int → Option (List Int)
  | 0, _, _, _ => none
  | fuel + 1, equivalence, parent, label =>
    match idx equivalence label with
    | none => none
    | some tmp =>
      if tmp ≠ label then
        match upd equivalence label parent with
        | none => none
        | some equivalence1 => squash fuel equivalence1 parent tmp
      else some equivalence

/-- The closure `find` of `HoshenKopelman` and of `CCLImage` (the two are the same text):
returns the equivalence array as the call leaves it, and the root. -/
def find (equivalence : List Int) (label : Int) : Option (List Int × Int) :=
  match findParent (equivalence.length + 1) equivalence label with
  | none => none
  | some parent =>
    match squash (equivalence.length + 1) equivalence parent label with
    | none => none
    | some equivalence1 => some (equivalence1, parent)

/-! ## Forests (specification of the equivalence array) -/

/-- An index is valid for a slice of length `n`. -/
def InRange (n : Nat) (i : Int) : Prop := 0 ≤ i ∧ i < (n : Int)

/-- Following the entries of the array from `i` reaches the fixed point `r` in `d` steps. -/
inductive RootD (eq : List Int) : Int → Int → Nat → Prop
  | root {r : Int} : idx eq r = some r → RootD eq r r 0
  | step {i p r : Int} {d : Nat} : idx eq i = some p → p ≠ i → RootD eq p r d →
      RootD eq i r (d + 1)

/-- The label `r` is the root of `i`: the fixed point reached from `i`. -/
def RootOf (eq : List Int) (i r : Int) : Prop := ∃ d, RootD eq i r d

/-- Every valid label has a root: the array is a forest. -/
def Forest (eq : List Int) : Prop := ∀ i, InRange eq.length i → ∃ r, RootOf eq i r

/-! ## Generic engine (`ccl.go`) -/

/-- A CCLabeler is a container of nodes that can be labeled: the six methods of the Go
interface, acting on a container state `σ`; a method that panics returns `none`. -/
structure CCLabeler (σ : Type) where
  /-- Reset resets the iterator of the container. -/
  Reset : σ → Option σ
  /-- Next moves the iterator forward to the next node to be labeled.
  If there are no more nodes available, Next returns false. -/
  Next : σ → Option (Bool × σ)
  /-- Neighbors returns the labels of the neighbors of the current node. -/
  Neighbors : σ → Option (List Int)
  /-- GetLabel returns the label of the current node. -/
  GetLabel : σ → Option Int
  /-- SetLabel sets the label of the current node. -/
  SetLabel : σ → Int → Option σ
  /-- Size returns the size of the current node. -/
  Size : σ → Option Int

/-- The record `blob` of `ccl.go` (fields `label`, `size`) and the record `Blob` of `img.go`
(fields `ID`, `Size`): a label together with a size. -/
structure Blob where
  ID : Int
  Size : Int
deriving DecidableEq, Repr

/-- The local variables `equivalence`, `largestLabel`, `blobs` of `HoshenKopelman`. -/
structure HKState where
  equivalence : List Int
  largestLabel : Int
  blobs : List Blob
deriving DecidableEq, Repr

/-- The loop `for _, n := range neighbors { root := find(n); roots = append(roots, root);
if root < min { min = root } }`. -/
def findRoots : List Int → List Int → List Int → Int → Option (List Int × List Int × Int)
  | equivalence, [], roots, min => some (equivalence, roots, min)
  | equivalence, n :: rest, roots, min =>
    match find equivalence n with
    | none => none
    | some (equivalence1, root) =>
      findRoots equivalence1 rest (roots ++ [root]) (if root < min then root else min)

/-- The loop `for i, root := range roots { equivalence[root] = min; find(neighbors[i]) }`,
from index `i` on (the argument `roots` is what is left of the slice). -/
def linkRoots (neighbors : List Int) (min : Int) : List Int → Nat → List Int → Option (List Int)
  | equivalence, _, [] => some equivalence
  | equivalence, i, root :: rest =>
    match upd equivalence root min with
    | none => none
    | some equivalence1 =>
      match idx neighbors (i : Int) with
      | none => none
      | some n =>
        match find equivalence1 n with
        | none => none
        | some (equivalence2, _) => linkRoots neighbors min equivalence2 (i + 1) rest

/-- The value that a Go `int` (64 bits, two's complement) holds after an arithmetic operation
whose exact result is `i`. -/
def wrapInt (i : Int) : Int :=
  (i + 9223372036854775808) % 18446744073709551616 - 9223372036854775808

/-- The first pass `for labeler.Next() { ... }` of `HoshenKopelman`, for at most `fuel` calls
of `Next`.  The sum `blobs[min].size += labeler.Size()` wraps around as an `int` does. -/
def firstPass {σ : Type} (labeler : CCLabeler σ) : Nat → σ → HKState → Option (σ × HKState)
  | 0, _, _ => none
  | fuel + 1, s, st =>
    match labeler.Next s with
    | none => none
    | some (false, s1) => some (s1, st)
    | some (true, s1) =>
      match labeler.Neighbors s1 with
      | none => none
      | some neighbors =>
        if neighbors.length = 0 then
          -- If a node has no neighbors, give it a new label.
          match labeler.SetLabel s1 st.largestLabel with
          | none => none
          | some s2 =>
            match labeler.Size s2 with
            | none => none
            | some size =>
              firstPass labeler fuel s2
                { equivalence := st.equivalence ++ [st.largestLabel]
                  largestLabel := st.largestLabel + 1
                  blobs := st.blobs ++ [⟨st.largestLabel, size⟩] }
        else
          -- Find the smallest label among neighbors.
          match findRoots st.equivalence neighbors [] MaxInt with
          | none => none
          | some (equivalence1, roots, min) =>
            -- Set the root of all clusters to the smallest label.
            match linkRoots neighbors min equivalence1 0 roots with
            | none => none
            | some equivalence2 =>
              match labeler.SetLabel s1 min with
              | none => none
              | some s2 =>
                match labeler.Size s2 with
                | none => none
                | some size =>
                  match idx st.blobs min with
                  | none => none
                  | some b =>
                    match upd st.blobs min { b with Size := wrapInt (b.Size + size) } with
                    | none => none
                    | some blobs1 =>
                      firstPass labeler fuel s2
                        { equivalence := equivalence2
                          largestLabel := st.largestLabel
                          blobs := blobs1 }

/-- The loop of `HoshenKopelman` that moves the sizes to the roots:
`for _, b := range blobs { root := find(b.label); if root == b.label { continue };
blobs[root].size += b.size; blobs[b.label].size = 0 }`, from index `i` on, `k` iterations
being left; the element `b` is read when its iteration starts.  The sum wraps around as an
`int` does. -/
def aggregateWrap : Nat → Nat → List Int → List Blob → Option (List Int × List Blob)
  | 0, _, equivalence, blobs => some (equivalence, blobs)
  | k + 1, i, equivalence, blobs =>
    match blobs[i]? with
    | none => none
    | some b =>
      match find equivalence b.ID with
      | none => none
      | some (equivalence1, root) =>
        if root = b.ID then aggregateWrap k (i + 1) equivalence1 blobs
        else
          match idx blobs root with
          | none => none
          | some br =>
            match upd blobs root { br with Size := wrapInt (br.Size + b.Size) } with
            | none => none
            | some blobs1 =>
              match idx blobs1 b.ID with
              | none => none
              | some bl =>
                match upd blobs1 b.ID { bl with Size := 0 } with
                | none => none
                | some blobs2 => aggregateWrap k (i + 1) equivalence1 blobs2

/-- The first pass of `HoshenKopelman` with the sizes added as exact integers: it differs
from `firstPass` only where a sum of sizes leaves the range of `int`.  The invariants of the
first pass are stated on it. -/
def firstPassExact {σ : Type} (labeler : CCLabeler σ) : Nat → σ → HKState → Option (σ × HKState)
  | 0, _, _ => none
  | fuel + 1, s, st =>
    match labeler.Next s with
    | none => none
    | some (false, s1) => some (s1, st)
    | some (true, s1) =>
      match labeler.Neighbors s1 with
      | none => none
      | some neighbors =>
        if neighbors.length = 0 then
          -- If a node has no neighbors, give it a new label.
          match labeler.SetLabel s1 st.largestLabel with
          | none => none
          | some s2 =>
            match labeler.Size s2 with
            | none => none
            | some size =>
              firstPassExact labeler fuel s2
                { equivalence := st.equivalence ++ [st.largestLabel]
                  largestLabel := st.largestLabel + 1
                  blobs := st.blobs ++ [⟨st.largestLabel, size⟩] }
        else
          -- Find the smallest label among neighbors.
          match findRoots st.equivalence neighbors [] MaxInt with
          | none => none
          | some (equivalence1, roots, min) =>
            -- Set the root of all clusters to the smallest label.
            match linkRoots neighbors min equivalence1 0 roots with
            | none => none
            | some equivalence2 =>
              match labeler.SetLabel s1 min with
              | none => none
              | some s2 =>
                match labeler.Size s2 with
                | none => none
                | some size =>
                  match idx st.blobs min with
                  | none => none
                  | some b =>
                    match upd st.blobs min { b with Size := b.Size + size } with
                    | none => none
                    | some blobs1 =>
                      firstPassExact labeler fuel s2
                        { equivalence := equivalence2
                          largestLabel := st.largestLabel
                          blobs := blobs1 }

/-- The loop of `CCLImage` that moves the sizes to the roots:
`for _, blob := range counts { other := find(blob.ID); if other == blob.ID { continue };
counts[other].Size += blob.Size; counts[blob.ID].Size = 0 }`, from index `i` on, `k`
iterations being left; the element `blob` is read when its iteration starts.  The sizes are
counts of pixels, which stay below the length of the pixel buffer, and are added exactly.
It is also the loop of `HoshenKopelmanExact`. -/
def aggregate : Nat → Nat → List Int → List Blob → Option (List Int × List Blob)
  | 0, _, equivalence, blobs => some (equivalence, blobs)
  | k + 1, i, equivalence, blobs =>
    match blobs[i]? with
    | none => none
    | some b =>
      match find equivalence b.ID with
      | none => none
      | some (equivalence1, root) =>
        if root = b.ID then aggregate k (i + 1) equivalence1 blobs
        else
          match idx blobs root with
          | none => none
          | some br =>
            match upd blobs root { br with Size := br.Size + b.Size } with
            | none => none
            | some blobs1 =>
              match idx blobs1 b.ID with
              | none => none
              | some bl =>
                match upd blobs1 b.ID { bl with Size := 0 } with
                | none => none
                | some blobs2 => aggregate k (i + 1) equivalence1 blobs2

/-- The local variables of the loop that fills `mapping`: the equivalence array, `mapping`,
`numNotEmpty`, and the elements of the sorted slice as the loop has left them so far. -/
structure MapState where
  equivalence : List Int
  mapping : List Int
  numNotEmpty : Nat
  done : List Blob
deriving DecidableEq, Repr

/-- The loop that fills `mapping`, shared by `HoshenKopelman` and `CCLImage`:
`for i, b := range blobs { if b.size == 0 { mapping[b.label] = mapping[find(b.label)] }
else { mapping[b.label] = i; numNotEmpty++ } }`.  In `CCLImage` the second branch also
executes `counts[i].ID = i` (`setID = true`); element `i` of the slice is touched by
iteration `i` only, after it has been read. -/
def fillMapping (setID : Bool) : List Blob → Nat → MapState → Option MapState
  | [], _, st => some st
  | b :: rest, i, st =>
    if b.Size = 0 then
      match find st.equivalence b.ID with
      | none => none
      | some (equivalence1, root) =>
        match idx st.mapping root with
        | none => none
        | some m =>
          match upd st.mapping b.ID m with
          | none => none
          | some mapping1 =>
            fillMapping setID rest (i + 1)
              { equivalence := equivalence1, mapping := mapping1
                numNotEmpty := st.numNotEmpty, done := st.done ++ [b] }
    else
      match upd st.mapping b.ID (i : Int) with
      | none => none
      | some mapping1 =>
        fillMapping setID rest (i + 1)
          { equivalence := st.equivalence, mapping := mapping1
            numNotEmpty := st.numNotEmpty + 1
            done := st.done ++ [if setID then { b with ID := (i : Int) } else b] }

/-- The second pass `labeler.Reset(); for labeler.Next() { label := labeler.GetLabel();
mapped := mapping[label]; labeler.SetLabel(mapped) }`, after the call of `Reset`, for at most
`fuel` calls of `Next`. -/
def secondPass {σ : Type} (labeler : CCLabeler σ) (mapping : List Int) : Nat → σ → Option σ
  | 0, _ => none
  | fuel + 1, s =>
    match labeler.Next s with
    | none => none
    | some (false, s1) => some s1
    | some (true, s1) =>
      match labeler.GetLabel s1 with
      | none => none
      | some label =>
        match idx mapping label with
        | none => none
        | some mapped =>
          match labeler.SetLabel s1 mapped with
          | none => none
          | some s2 => secondPass labeler mapping fuel s2

/-- HoshenKopelman labels all nodes in the container using the Hoshen-Kopelman algorithm.
It returns the sizes of all labels in descending order.

`sort` stands for the call `sort.Slice(blobs, func(i, j int) bool { return blobs[i].size >
blobs[j].size })`; each of the two `for labeler.Next()` loops makes at most `fuel` calls of
`Next`.  The result is the container as the run leaves it, and the returned slice. -/
def HoshenKopelman {σ : Type} (labeler : CCLabeler σ) (sort : List Blob → List Blob)
    (fuel : Nat) (s : σ) : Option (σ × List Int) :=
  -- First pass.
  match firstPass labeler fuel s { equivalence := [], largestLabel := 0, blobs := [] } with
  | none => none
  | some (s1, st) =>
    -- Make the list of labels a contiguous sequence of natural numbers.
    match aggregateWrap st.blobs.length 0 st.equivalence st.blobs with
    | none => none
    | some (equivalence1, blobs1) =>
      let blobs2 := sort blobs1
      match fillMapping false blobs2 0
          { equivalence := equivalence1, mapping := List.replicate blobs2.length 0
            numNotEmpty := 0, done := [] } with
      | none => none
      | some ms =>
        let blobs3 := ms.done.take ms.numNotEmpty
        -- Second pass.
        match labeler.Reset s1 with
        | none => none
        | some s2 =>
          match secondPass labeler ms.mapping fuel s2 with
          | none => none
          | some s3 =>
            -- Return the sizes of the assigned labels.
            some (s3, blobs3.map (fun b => b.Size))

/-- `HoshenKopelman` with the sizes added as exact integers (`firstPassExact`, `aggregate`):
the two agree on every causal node source whose sizes are non-negative and add up to at most
`2^63 - 1` (`HoshenKopelman_eq_exact`).  The invariants of the run are stated on it. -/
def HoshenKopelmanExact {σ : Type} (labeler : CCLabeler σ) (sort : List Blob → List Blob)
    (fuel : Nat) (s : σ) : Option (σ × List Int) :=
  -- First pass.
  match firstPassExact labeler fuel s { equivalence := [], largestLabel := 0, blobs := [] } with
  | none => none
  | some (s1, st) =>
    -- Make the list of labels a contiguous sequence of natural numbers.
    match aggregate st.blobs.length 0 st.equivalence st.blobs with
    | none => none
    | some (equivalence1, blobs1) =>
      let blobs2 := sort blobs1
      match fillMapping false blobs2 0
          { equivalence := equivalence1, mapping := List.replicate blobs2.length 0
            numNotEmpty := 0, done := [] } with
      | none => none
      | some ms =>
        let blobs3 := ms.done.take ms.numNotEmpty
        -- Second pass.
        match labeler.Reset s1 with
        | none => none
        | some s2 =>
          match secondPass labeler ms.mapping fuel s2 with
          | none => none
          | some s3 =>
            -- Return the sizes of the assigned labels.
            some (s3, blobs3.map (fun b => b.Size))

/-! ### Node sources that obey the causal contract -/

/-- A node of a causal node source: the positions, in visiting order, of its neighbours,
and the size it reports. -/
structure GNode where
  nbrs : List Nat
  size : Int
deriving DecidableEq, Repr

/-- A node source obeying the contract of `CCLabeler`: the nodes in visiting order, the
label each one holds, and the number of calls of `Next` since the last reset (the current
node is the one at position `pos - 1`). -/
structure Source where
  nodes : List GNode
  labels : List Int
  pos : Nat
deriving DecidableEq, Repr

/-- The methods of a causal node source: `Next` steps through the nodes in order, `Neighbors`
returns the current labels of the neighbours of the current node, `GetLabel`, `SetLabel` and
`Size` act on the current node. -/
def Source.labeler : CCLabeler Source where
  Reset := fun s => some { s with pos := 0 }
  Next := fun s =>
    if s.pos < s.nodes.length then some (true, { s with pos := s.pos + 1 }) else some (false, s)
  Neighbors := fun s =>
    if s.pos = 0 then none
    else
      match s.nodes[s.pos - 1]? with
      | none => none
      | some nd => nd.nbrs.mapM (fun j => s.labels[j]?)
  GetLabel := fun s => if s.pos = 0 then none else s.labels[s.pos - 1]?
  SetLabel := fun s l =>
    if s.pos = 0 ∨ s.labels.length ≤ s.pos - 1 then none
    else some { s with labels := s.labels.set (s.pos - 1) l }
  Size := fun s =>
    if s.pos = 0 then none
    else
      match s.nodes[s.pos - 1]? with
      | none => none
      | some nd => some nd.size

/-- A fresh container: every node holds `NullLabel`, the iterator is at the start. -/
def Source.init (nodes : List GNode) : Source :=
  { nodes := nodes, labels := List.replicate nodes.length NullLabel, pos := 0 }

/-- The causal contract on the traversal order: every neighbour of a node is visited
strictly before the node. -/
def Causal (nodes : List GNode) : Prop :=
  ∀ p ∈ nodes.enum, ∀ j ∈ p.2.nbrs, j < p.1

/-- The neighbour relation of a node source: `j` is a neighbour of `i`. -/
def Nbr (nodes : List GNode) (i j : Nat) : Prop :=
  ∃ nd, nodes[i]? = some nd ∧ j ∈ nd.nbrs

/-- What is assumed of `sort.Slice`: it returns a permutation of the slice in which no
element is followed by one that the comparison function puts before it. -/
def SortSpec (sort : List Blob → List Blob) : Prop :=
  ∀ l, (sort l).Perm l ∧ (sort l).Pairwise (fun a b => b.Size ≤ a.Size)

/-- The size the node at position `i` reports. -/
def sizeAt (nodes : List GNode) (i : Nat) : Int :=
  match nodes[i]? with
  | none => 0
  | some nd => nd.size

/-- A sorting routine satisfying `SortSpec`: insertion sort by decreasing size. -/
def insertionSortBlobs (l : List Blob) : List Blob :=
  l.insertionSort (fun a b => b.Size ≤ a.Size)

/-! ## Specification of the first pass -/

/-- Two nodes are joined by a chain of the relation `R` that uses only the links of the
first `m` nodes. -/
def ConnUpTo (R : Nat → Nat → Prop) (m : Nat) : Nat → Nat → Prop :=
  Relation.EqvGen (fun i j => i < m ∧ R i j)

/-- The sum of the weights `w j` of the nodes `j < n` that satisfy `P`. -/
def wsum (n : Nat) (w : Nat → Int) (P : Nat → Prop) [DecidablePred P] : Int :=
  ∑ j in Finset.range n, if P j then w j else 0

/-- The state of a first pass after `m` nodes: `lab j` is the raw label given to node `j`
(`-1` for a node that is not labeled), `eq` the equivalence array, `blobs` the size records.
Labels are valid and each is held by a node, two labeled nodes have the same root exactly
when they are joined by a chain, and the record of a label holds the weight of the nodes
that were given this label. -/
structure LabInv (R : Nat → Nat → Prop) (w : Nat → Int) (lab : Nat → Int) (m : Nat)
    (eq : List Int) (blobs : List Blob) : Prop where
  forest : Forest eq
  len : blobs.length = eq.length
  range : ∀ i, i < m → lab i = -1 ∨ InRange eq.length (lab i)
  inhabited : ∀ l, InRange eq.length l → ∃ i, i < m ∧ lab i = l
  conn : ∀ i j, i < m → j < m → ∀ ri rj, RootOf eq (lab i) ri → RootOf eq (lab j) rj →
    (ri = rj ↔ ConnUpTo R m i j)
  size : ∀ l, InRange eq.length l → idx blobs l = some ⟨l, wsum m w (fun j => lab j = l)⟩

/-- The label held by node `j` of a causal node source (`-1` past the end). -/
def labOf (labels : List Int) (j : Nat) : Int := labels.getD j (-1)

/-- The state of `HoshenKopelman` over a causal node source when the first pass has visited
`m` nodes. -/
structure HKInv (nodes : List GNode) (m : Nat) (s : Source) (st : HKState) : Prop where
  nodes_eq : s.nodes = nodes
  pos_eq : s.pos = m
  le : m ≤ nodes.length
  labels_len : s.labels.length = nodes.length
  largest : st.largestLabel = (st.equivalence.length : Int)
  lab : LabInv (Nbr nodes) (sizeAt nodes) (labOf s.labels) m st.equivalence st.blobs
  labelled : ∀ j, j < m → InRange st.equivalence.length (labOf s.labels j)
  bound : st.equivalence.length ≤ m

/-! ## Specification of the finalization -/

/-- The label `r` is the root of `l`, as a decidable condition on the array. -/
abbrev rootIs (eq : List Int) (l r : Int) : Prop := findParent (eq.length + 1) eq l = some r

/-- The size held by the record of label `l` when the loop that moves the sizes to the roots
has dealt with the labels below `i`: a root holds the weight of the nodes of its own label
and of the labels of its class below `i`, another label holds nothing once it has been dealt
with. -/
def aggSize (n : Nat) (w : Nat → Int) (lab : Nat → Int) (eq0 : List Int) (i : Nat)
    (l : Int) : Int :=
  if rootIs eq0 l l then
    wsum n w (fun j => lab j = l ∨ (rootIs eq0 (lab j) l ∧ lab j < (i : Int)))
  else if l < (i : Int) then 0
  else wsum n w (fun j => lab j = l)

/-- The size held by the record of label `l` after the loop: the weight of its class for a
root, zero for another label. -/
def classSize (n : Nat) (w : Nat → Int) (lab : Nat → Int) (eq0 : List Int) (l : Int) : Int :=
  if rootIs eq0 l l then wsum n w (fun j => rootIs eq0 (lab j) l) else 0

/-- The elements of the sorted slice as the loop that fills `mapping` leaves them, the first
of them being at index `i`: in `CCLImage` (`setID = true`) an element of non-zero size gets
its index as ID. -/
def relabelFrom (setID : Bool) : Nat → List Blob → List Blob
  | _, [] => []
  | i, b :: rest =>
    (if b.Size = 0 then b else if setID then { b with ID := (i : Int) } else b)
      :: relabelFrom setID (i + 1) rest

/-- The class of node `j`: the root of its raw label (`-1` for a node without label). -/
def clsOf (eq0 : List Int) (lab : Nat → Int) (j : Nat) : Int :=
  match findParent (eq0.length + 1) eq0 (lab j) with
  | some r => r
  | none => -1

/-- A small causal node source used to instantiate the theorems: seven nodes of size 1,
where node 2 is a neighbour of node 0, node 4 of nodes 3 and 1, node 5 of node 4. -/
def exampleNodes : List GNode :=
  [⟨[], 1⟩, ⟨[], 1⟩, ⟨[0], 1⟩, ⟨[], 1⟩, ⟨[3, 1], 1⟩, ⟨[4], 1⟩, ⟨[], 1⟩]

/-! ## Raster-scan image engine (`img.go`) -/

/-- The type `image.NRGBA`: the pixel buffer `Pix`, the `Stride` between rows and the
bounds `Rect` (`Min` and `Max` corners). -/
structure Image where
  Pix : List (Fin 256)
  Stride : Int
  MinX : Int
  MinY : Int
  MaxX : Int
  MaxY : Int
deriving DecidableEq, Repr

/-- The ways in which `CCLImage` can fail: `log.Fatalf`, which ends the program (the pixel
buffer as it is at that point is recorded), or a run-time panic (an index out of range; an
access through `unsafe.Add` outside the buffer is counted as such). -/
inductive Failure where
  | fatal (pix : List (Fin 256))
  | panic
deriving DecidableEq, Repr

/-- The closure `setLabel` of `CCLImage`: writes the four channels of `ColorFromBlob(label)`
at the offsets `labelsPix`, .. , `labelsPix + 3` of the buffer. -/
def setLabel (pix : List (Fin 256)) (labelsPix : Nat) (label : Int) : Option (List (Fin 256)) :=
  let c := ColorFromBlob label
  if labelsPix + 3 < pix.length then
    some ((((pix.set labelsPix c.R).set (labelsPix + 1) c.G).set (labelsPix + 2) c.B).set
      (labelsPix + 3) c.A)
  else none

/-- The local variables of the first pass of `CCLImage`; the pointers `imgPix` and
`labelsPix` are kept as offsets from `&img.Pix[0]`. -/
structure ImgState where
  pix : List (Fin 256)
  imgPix : Nat
  labelsPix : Nat
  equivalence : List Int
  largestLabel : Int
  aboveBuf : List Int
  cur : Int
  above : Int
  left : Int
  counts : List Blob
deriving DecidableEq, Repr

/-- The test `*(*byte)(imgPix) == 0 && *(*byte)(unsafe.Add(imgPix, 1)) == 0 &&
*(*byte)(unsafe.Add(imgPix, 2)) == 0` (the operands are read from left to right, as far as
`&&` needs them). -/
def isBackground (pix : List (Fin 256)) (imgPix : Nat) : Option Bool :=
  match pix[imgPix]? with
  | none => none
  | some r =>
    if r ≠ 0 then some false
    else
      match pix[imgPix + 1]? with
      | none => none
      | some g =>
        if g ≠ 0 then some false
        else
          match pix[imgPix + 2]? with
          | none => none
          | some b => some (decide (b = 0))

/-- The `switch` of the first pass, for a foreground pixel whose neighbours hold `above` and
`left`: returns `equivalence`, `largestLabel`, `counts` and `cur`. -/
def resolve (equivalence : List Int) (largestLabel : Int) (counts : List Blob)
    (above left : Int) : Option (List Int × Int × List Blob × Int) :=
  if above = EmptyBlob ∧ left = EmptyBlob then
    -- cur = largestLabel; largestLabel++; equivalence[cur] = cur
    some (equivalence ++ [largestLabel], largestLabel + 1,
      counts ++ [{ ID := largestLabel, Size := 0 }], largestLabel)
  else if above ≠ EmptyBlob ∧ left = EmptyBlob then
    match find equivalence above with
    | none => none
    | some (equivalence1, cur) => some (equivalence1, largestLabel, counts, cur)
  else if above = EmptyBlob ∧ left ≠ EmptyBlob then
    match find equivalence left with
    | none => none
    | some (equivalence1, cur) => some (equivalence1, largestLabel, counts, cur)
  else
    -- equivalence[find(left)] = find(above); cur = find(left)
    match find equivalence left with
    | none => none
    | some (equivalence1, rootLeft) =>
      match find equivalence1 above with
      | none => none
      | some (equivalence2, rootAbove) =>
        match upd equivalence2 rootLeft rootAbove with
        | none => none
        | some equivalence3 =>
          match find equivalence3 left with
          | none => none
          | some (equivalence4, cur) => some (equivalence4, largestLabel, counts, cur)

/-- The body of the inner loop of the first pass of `CCLImage`, for the pixel `(x, y)`. -/
def pixelStep (y x : Nat) (st : ImgState) : Option ImgState :=
  match isBackground st.pix st.imgPix with
  | none => none
  | some bg =>
    let resolved : Option (List Int × Int × List Blob × Int × Int × Int) :=
      if bg then some (st.equivalence, st.largestLabel, st.counts, EmptyBlob, st.above, st.left)
      else
        let above? : Option Int := if y = 0 then some EmptyBlob else idx st.aboveBuf (x : Int)
        match above? with
        | none => none
        | some above =>
          let left := if x = 0 then EmptyBlob else st.left
          match resolve st.equivalence st.largestLabel st.counts above left with
          | none => none
          | some (equivalence1, largestLabel1, counts1, cur) =>
            -- counts[cur].Size++
            match idx counts1 cur with
            | none => none
            | some b =>
              match upd counts1 cur { b with Size := b.Size + 1 } with
              | none => none
              | some counts2 => some (equivalence1, largestLabel1, counts2, cur, above, left)
    match resolved with
    | none => none
    | some (equivalence1, largestLabel1, counts1, cur, above, _) =>
      match setLabel st.pix st.labelsPix cur with
      | none => none
      | some pix1 =>
        match upd st.aboveBuf (x : Int) cur with
        | none => none
        | some aboveBuf1 =>
          some { pix := pix1, imgPix := st.imgPix + 4, labelsPix := st.labelsPix + 4
                 equivalence := equivalence1, largestLabel := largestLabel1
                 aboveBuf := aboveBuf1, cur := cur, above := above, left := cur
                 counts := counts1 }

/-- The body of the inner loop of the second pass of `CCLImage`; the state is the buffer and
the offset `labelsPix`. -/
def relabelStep (mapping : List Int) (st : List (Fin 256) × Nat) : Option (List (Fin 256) × Nat) :=
  match st.1[st.2]?, st.1[st.2 + 1]?, st.1[st.2 + 2]?, st.1[st.2 + 3]? with
  | some r, some g, some b, some a =>
    let blob := BlobFromColor r g b a
    if blob ≠ EmptyBlob then
      match idx mapping blob with
      | none => none
      | some mapped =>
        match setLabel st.1 st.2 mapped with
        | none => none
        | some pix1 => some (pix1, st.2 + 4)
    else some (st.1, st.2 + 4)
  | _, _, _, _ => none

/-- The body of `CCLImage` after the check of the bounds: returns the pixel buffer as the
run leaves it and the returned slice.  `sort` stands for the call `sort.Slice(counts,
func(i, j int) bool { return counts[i].Size > counts[j].Size })`. -/
def CCLImageBody (sort : List Blob → List Blob) (img : Image) :
    Option (List (Fin 256) × List Blob) :=
  let imgW := img.MaxX
  let imgH := img.MaxY
  -- imgPix := unsafe.Pointer(&img.Pix[0])
  if img.Pix.length = 0 then none
  -- aboveBuf := make([]int, imgW)
  else if imgW < 0 then none
  else
    let st0 : ImgState :=
      { pix := img.Pix, imgPix := 0, labelsPix := 0, equivalence := [], largestLabel := 0
        aboveBuf := List.replicate imgW.toNat 0
        cur := EmptyBlob, above := EmptyBlob, left := EmptyBlob, counts := [] }
    match (List.range imgH.toNat).foldlM
        (fun st y => (List.range imgW.toNat).foldlM (fun st x => pixelStep y x st) st) st0 with
    | none => none
    | some st1 =>
      match aggregate st1.counts.length 0 st1.equivalence st1.counts with
      | none => none
      | some (equivalence1, counts1) =>
        let counts2 := sort counts1
        match fillMapping true counts2 0
            { equivalence := equivalence1, mapping := List.replicate counts2.length 0
              numNotEmpty := 0, done := [] } with
        | none => none
        | some ms =>
          let counts3 := ms.done.take ms.numNotEmpty
          match (List.range imgH.toNat).foldlM
              (fun st _ => (List.range imgW.toNat).foldlM (fun st _ => relabelStep ms.mapping st)
                st) (st1.pix, 0) with
          | none => none
          | some (pix2, _) => some (pix2, counts3)

/-- CCLImage performs connected components labeling on an image.NRGBA.
The image is modified in-place, and the blob each pixel belongs to
can be inferred from BlobFromColor.  The result is the image as the call leaves it and the
returned slice. -/
def CCLImage (sort : List Blob → List Blob) (img : Image) : Except Failure (Image × List Blob) :=
  if img.MinX ≠ 0 ∨ img.MinY ≠ 0 then Except.error (Failure.fatal img.Pix)
  else
    match CCLImageBody sort img with
    | none => Except.error Failure.panic
    | some (pix, counts) => Except.ok ({ img with Pix := pix }, counts)

/-- The method `PixOffset` of `image.NRGBA`. -/
def Image.PixOffset (img : Image) (x y : Int) : Int :=
  (y - img.MinY) * img.Stride + (x - img.MinX) * 4

/-- The body of the inner loop of `CollectBlobs`, for the pixel `(x, y)`. -/
def collectStep (img : Image) (y x : Int) (blobs : List Blob) : Option (List Blob) :=
  let i := img.PixOffset x y
  match idx img.Pix i, idx img.Pix (i + 1), idx img.Pix (i + 2), idx img.Pix (i + 3) with
  | some r, some g, some b, some a =>
    let blobID := BlobFromColor r g b a
    if blobID = EmptyBlob then some blobs
    else
      let blobs1 :=
        if blobID ≥ (blobs.length : Int) then
          blobs ++ List.replicate (blobID + 1 - (blobs.length : Int)).toNat { ID := 0, Size := 0 }
        else blobs
      match idx blobs1 blobID with
      | none => none
      | some bl =>
        match upd blobs1 blobID { bl with ID := blobID } with
        | none => none
        | some blobs2 =>
          match idx blobs2 blobID with
          | none => none
          | some bl2 => upd blobs2 blobID { bl2 with Size := bl2.Size + 1 }
  | _, _, _, _ => none

/-- CollectBlobs collects the blobs from an image returned by CCLImage. -/
def CollectBlobs (img : Image) : Option (List Blob) :=
  (List.range (img.MaxY - img.MinY).toNat).foldlM
    (fun blobs (dy : Nat) => (List.range (img.MaxX - img.MinX).toNat).foldlM
      (fun blobs (dx : Nat) => collectStep img (img.MinY + (dy : Int)) (img.MinX + (dx : Int)) blobs)
      blobs) []

/-- The id that the pixel `(x, y)` of an image decodes to, by `BlobFromColor`. -/
def Image.blobAt (img : Image) (x y : Nat) : Option Int :=
  let i := img.PixOffset (x : Int) (y : Int)
  match idx img.Pix i, idx img.Pix (i + 1), idx img.Pix (i + 2), idx img.Pix (i + 3) with
  | some r, some g, some b, some a => some (BlobFromColor r g b a)
  | _, _, _, _ => none

/-- The pixel `(x, y)` of an image is foreground: its R, G, B are not all zero. -/
def Image.isForeground (img : Image) (x y : Nat) : Prop :=
  let i := img.PixOffset (x : Int) (y : Int)
  ¬ (idx img.Pix i = some 0 ∧ idx img.Pix (i + 1) = some 0 ∧ idx img.Pix (i + 2) = some 0)

/-- An image with origin `(0,0)`, of width `w ≥ 1` and height `h ≥ 1`, with `Stride = 4 * w`
and a pixel buffer of `Stride * h` bytes. -/
def Image.WellFormed (img : Image) (w h : Nat) : Prop :=
  img.MinX = 0 ∧ img.MinY = 0 ∧ img.MaxX = (w : Int) ∧ img.MaxY = (h : Int) ∧ 1 ≤ w ∧ 1 ≤ h ∧
    img.Stride = 4 * (w : Int) ∧ img.Pix.length = 4 * w * h

/-- Two pixels are 4-adjacent: they differ by one in exactly one coordinate. -/
def Adjacent4 (p q : Nat × Nat) : Prop :=
  (p.1 = q.1 ∧ (p.2 + 1 = q.2 ∨ q.2 + 1 = p.2)) ∨ (p.2 = q.2 ∧ (p.1 + 1 = q.1 ∨ q.1 + 1 = p.1))

/-- One link of a chain of foreground pixels of an image of width `w` and height `h`: two
4-adjacent foreground pixels (pairs `(x, y)`). -/
def FgLink (img : Image) (w h : Nat) (p q : Nat × Nat) : Prop :=
  p.1 < w ∧ p.2 < h ∧ q.1 < w ∧ q.2 < h ∧ img.isForeground p.1 p.2 ∧ img.isForeground q.1 q.2 ∧
    Adjacent4 p q

/-- A small image used to instantiate the theorems, 3 pixels wide and 2 high:
foreground pixels at `(0,0)`, `(2,0)`, `(0,1)`, `(1,1)`, `(2,1)`. -/
def exampleImage : Image :=
  { Pix := [255, 0, 0, 255,  0, 0, 0, 255,  0, 9, 0, 0,
            0, 0, 1, 0,  7, 7, 7, 7,  1, 0, 0, 0]
    Stride := 12, MinX := 0, MinY := 0, MaxX := 3, MaxY := 2 }

/-! ## Specification of the first pass of `CCLImage` -/

/-- The channel number `i` (0 to 3) of a colour. -/
def chan (c : NRGBA) (i : Nat) : Fin 256 :=
  match i with
  | 0 => c.R
  | 1 => c.G
  | 2 => c.B
  | _ => c.A

/-- The pixel number `j` (in raster order) of the buffer `pix` is foreground. -/
def fgAt (pix : List (Fin 256)) (j : Nat) : Prop :=
  ¬ (pix[4 * j]? = some 0 ∧ pix[4 * j + 1]? = some 0 ∧ pix[4 * j + 2]? = some 0)

/-- The neighbour relation of the raster scan of an image of width `w`: the pixel `j` is the
foreground pixel above or to the left of the foreground pixel `i` (pixels are numbered in
raster order). -/
def ImgNbr (w : Nat) (fg : Nat → Prop) (i j : Nat) : Prop :=
  fg i ∧ fg j ∧ (j + w = i ∨ (j + 1 = i ∧ i % w ≠ 0))

/-- The state of the first pass of `CCLImage` on an image of width `w` with pixel buffer
`pix0`, when `k` pixels have been dealt with; `raw` lists the labels they were given (`-1`
for a background pixel). -/
structure ImgInv (w : Nat) (pix0 : List (Fin 256)) (k : Nat) (raw : List Int)
    (st : ImgState) : Prop where
  raw_len : raw.length = k
  pix_len : st.pix.length = pix0.length
  pix_done : ∀ j c, j < k → c < 4 →
    st.pix[4 * j + c]? = some (chan (ColorFromBlob (labOf raw j)) c)
  pix_rest : ∀ i, 4 * k ≤ i → st.pix[i]? = pix0[i]?
  img_ptr : st.imgPix = 4 * k
  labels_ptr : st.labelsPix = 4 * k
  largest : st.largestLabel = (st.equivalence.length : Int)
  above_len : st.aboveBuf.length = w
  above_buf : ∀ j, j < k → k ≤ j + w → idx st.aboveBuf ((j % w : Nat) : Int) = some (labOf raw j)
  left_eq : 0 < k → st.left = labOf raw (k - 1)
  bg : ∀ j, j < k → (labOf raw j = -1 ↔ ¬ fgAt pix0 j)
  lab : LabInv (ImgNbr w (fgAt pix0)) (fun _ => 1) (labOf raw) k st.equivalence st.counts

/-- The colour that the second pass of `CCLImage` leaves in a pixel that the first pass gave
the label `l`: the pixel is decoded, and if it does not decode to `EmptyBlob` it is given the
colour of `mapping[blob]`. -/
def finalColor (mapping : List Int) (l : Int) : NRGBA :=
  if decode (ColorFromBlob l) ≠ EmptyBlob then
    match idx mapping (decode (ColorFromBlob l)) with
    | some mapped => ColorFromBlob mapped
    | none => ColorFromBlob l
  else ColorFromBlob l

/-- The number of labels that the first pass of `CCLImage` creates on an image (the final
value of `largestLabel`). -/
def labelCount (img : Image) : Nat :=
  match (List.range img.MaxY.toNat).foldlM
      (fun st y => (List.range img.MaxX.toNat).foldlM (fun st x => pixelStep y x st) st)
      ({ pix := img.Pix, imgPix := 0, labelsPix := 0, equivalence := [], largestLabel := 0
         aboveBuf := List.replicate img.MaxX.toNat 0
         cur := EmptyBlob, above := EmptyBlob, left := EmptyBlob, counts := [] } : ImgState) with
  | some st => st.equivalence.length
  | none => 0

/-- A one-row image of width `w` whose pixels of even abscissa are foreground (R = 1) and
whose pixels of odd abscissa are background. -/
def stripes (w : Nat) : Image :=
  { Pix := (List.range (4 * w)).map (fun (i : Nat) => if i % 8 = 0 then (1 : Fin 256) else 0)
    Stride := 4 * (w : Int), MinX := 0, MinY := 0, MaxX := (w : Int), MaxY := 1 }

/-- The image `exampleImage` with its bounds moved one pixel to the right: the bounds start
at `(1,0)`. -/
def shiftedImage : Image :=
  { exampleImage with MinX := 1, MaxX := 4 }

/-- The label `i` is on the chain from `l`: it is reached from `l` by following the entries
of the array. -/
def OnChain (eq : List Int) (l i : Int) : Prop :=
  Relation.ReflTransGen (fun a b => idx eq a = some b) l i

/-- A small forest used to instantiate the theorems: label 4 points at 3, 3 at 1, 1 at 0;
labels 0 and 2 are roots. -/
def exampleForest : List Int := [0, 0, 2, 1, 3]

/-! ## Reference grid adapter (`ccl_test.go`) -/

/-- The type `bitmap` of `ccl_test.go`: the grid `data`, the grid `labels`, and the position
`x`, `y` of the iterator. -/
structure Bitmap where
  data : List (List Int)
  labels : List (List Int)
  x : Int
  y : Int
deriving DecidableEq, Repr

/-- The expression `g[y][x]` on a slice of slices: `none` when an access panics. -/
def cell (g : List (List Int)) (y x : Int) : Option Int :=
  match idx g y with
  | none => none
  | some row => idx row x

/-- The function `newBitmap`: every label is `NullLabel`, the iterator is at `(0, 0)`. -/
def newBitmap (data : List (List Int)) : Bitmap :=
  { data := data, labels := data.map (fun row => List.replicate row.length NullLabel)
    x := 0, y := 0 }

/-- The method `next` of `bitmap`: `bmp.x++; if bmp.x >= len(bmp.data[bmp.y]) { bmp.y++;
bmp.x = 0 }; if bmp.y >= len(bmp.data) { return false }; return true`. -/
def Bitmap.next (bmp : Bitmap) : Option (Bool × Bitmap) :=
  match idx bmp.data bmp.y with
  | none => none
  | some row =>
    let bmp1 : Bitmap :=
      if bmp.x + 1 ≥ (row.length : Int) then { bmp with x := 0, y := bmp.y + 1 }
      else { bmp with x := bmp.x + 1 }
    if bmp1.y ≥ (bmp.data.length : Int) then some (false, bmp1) else some (true, bmp1)

/-- The loop `for bmp.data[bmp.y][bmp.x] == 0 { if !bmp.next() { return false } }` of the
method `Next`, followed by `return true`, with a bound on the number of condition checks. -/
def Bitmap.skipZeros : Nat → Bitmap → Option (Bool × Bitmap)
  | 0, _ => none
  | fuel + 1, bmp =>
    match cell bmp.data bmp.y bmp.x with
    | none => none
    | some v =>
      if v = 0 then
        match bmp.next with
        | none => none
        | some (false, bmp1) => some (false, bmp1)
        | some (true, bmp1) => Bitmap.skipZeros fuel bmp1
      else some (true, bmp)

/-- The method `Next` of `bitmap`.  Every turn of its loop reads a cell of the grid and then
moves the iterator forward, so the loop makes at most as many condition checks as the grid
has cells, plus one. -/
def Bitmap.Next (bmp : Bitmap) : Option (Bool × Bitmap) :=
  match bmp.next with
  | none => none
  | some (false, bmp1) => some (false, bmp1)
  | some (true, bmp1) => Bitmap.skipZeros ((bmp.data.map List.length).sum + 1) bmp1

/-- The method `Neighbors` of `bitmap`: the labels of the non-zero cells above and to the
left of the current cell. -/
def Bitmap.Neighbors (bmp : Bitmap) : Option (List Int) :=
  let up : Option (List Int) :=
    if bmp.y > 0 then
      match cell bmp.data (bmp.y - 1) bmp.x with
      | none => none
      | some v =>
        if v ≠ 0 then
          match cell bmp.labels (bmp.y - 1) bmp.x with
          | none => none
          | some l => some [l]
        else some []
    else some []
  match up with
  | none => none
  | some neighbors =>
    if bmp.x > 0 then
      match cell bmp.data bmp.y (bmp.x - 1) with
      | none => none
      | some v =>
        if v ≠ 0 then
          match cell bmp.labels bmp.y (bmp.x - 1) with
          | none => none
          | some l => some (neighbors ++ [l])
        else some neighbors
    else some neighbors

/-- The method `SetLabel` of `bitmap`: `bmp.labels[bmp.y][bmp.x] = label`. -/
def Bitmap.SetLabel (bmp : Bitmap) (label : Int) : Option Bitmap :=
  match idx bmp.labels bmp.y with
  | none => none
  | some row =>
    match upd row bmp.x label with
    | none => none
    | some row1 =>
      match upd bmp.labels bmp.y row1 with
      | none => none
      | some labels1 => some { bmp with labels := labels1 }

/-- The reference grid adapter as a `CCLabeler`. -/
def Bitmap.labeler : CCLabeler Bitmap where
  Reset := fun bmp => some { bmp with x := 0, y := 0 }
  Next := Bitmap.Next
  Neighbors := Bitmap.Neighbors
  GetLabel := fun bmp => cell bmp.labels bmp.y bmp.x
  SetLabel := Bitmap.SetLabel
  Size := fun _ => some 1

/-- The grid `data` of the test `Example`. -/
def exampleData : List (List Int) :=
  [[0, 1, 0, 0, 0, 0, 0, 1, 1],
   [1, 1, 1, 0, 1, 0, 0, 1, 0],
   [0, 1, 0, 0, 1, 0, 0, 1, 0],
   [0, 1, 1, 1, 1, 0, 0, 1, 0],
   [0, 0, 0, 1, 0, 0, 0, 1, 0],
   [0, 1, 0, 1, 1, 1, 1, 1, 0],
   [1, 1, 1, 0, 0, 0, 0, 0, 1],
   [1, 0, 1, 1, 1, 0, 0, 0, 1],
   [1, 1, 1, 0, 0, 0, 0, 1, 1],
   [1, 0, 1, 0, 1, 0, 1, 1, 1]]

/-- The label grid that the test `Example` expects. -/
def exampleLabels : List (List Int) :=
  [[-1, 0, -1, -1, -1, -1, -1, 0, 0],
   [0, 0, 0, -1, 0, -1, -1, 0, -1],
   [-1, 0, -1, -1, 0, -1, -1, 0, -1],
   [-1, 0, 0, 0, 0, -1, -1, 0, -1],
   [-1, -1, -1, 0, -1, -1, -1, 0, -1],
   [-1, 1, -1, 0, 0, 0, 0, 0, -1],
   [1, 1, 1, -1, -1, -1, -1, -1, 2],
   [1, -1, 1, 1, 1, -1, -1, -1, 2],
   [1, 1, 1, -1, -1, -1, -1, 2, 2],
   [1, -1, 1, -1, 3, -1, 2, 2, 2]]

/-- The labels of the grid of the test `Example` after the first pass. -/
def exampleRawLabels : List (List Int) :=
  [[-1, 0, -1, -1, -1, -1, -1, 1, 1],
   [2, 0, 0, -1, 3, -1, -1, 1, -1],
   [-1, 0, -1, -1, 3, -1, -1, 1, -1],
   [-1, 0, 0, 0, 0, -1, -1, 1, -1],
   [-1, -1, -1, 0, -1, -1, -1, 1, -1],
   [-1, 4, -1, 0, 0, 0, 0, 0, -1],
   [5, 4, 4, -1, -1, -1, -1, -1, 6],
   [4, -1, 4, 4, 4, -1, -1, -1, 6],
   [4, 4, 4, -1, -1, -1, -1, 7, 6],
   [4, -1, 4, -1, 8, -1, 9, 6, 6]]

/-- The equivalence array of the test `Example` after the first pass. -/
def exampleEquivalence : List Int := [0, 0, 0, 0, 4, 4, 6, 6, 8, 6]

/-- The size records of the test `Example` after the sizes have been moved to the roots. -/
def exampleBlobs : List Blob :=
  [⟨0, 23⟩, ⟨1, 0⟩, ⟨2, 0⟩, ⟨3, 0⟩, ⟨4, 13⟩, ⟨5, 0⟩, ⟨6, 7⟩, ⟨7, 0⟩, ⟨8, 1⟩, ⟨9, 0⟩]

/-- The slice `mapping` of the test `Example`. -/
def exampleMapping : List Int := [0, 0, 0, 0, 1, 1, 2, 2, 3, 2]

/-- The image `image.NewNRGBA(image.Rect(0, 0, 0, 0))`: origin `(0,0)`, width and height 0,
`Stride = 0`, an empty pixel buffer. -/
def emptyImage : Image :=
  { Pix := [], Stride := 0, MinX := 0, MinY := 0, MaxX := 0, MaxY := 0 }

/-! ## The turns of the first pass -/

/-- The body of the loop `for labeler.Next() { ... }` of the first pass of `HoshenKopelman`,
for the node that `Next` has just moved to. -/
def firstPassBody {σ : Type} (labeler : CCLabeler σ) (s1 : σ) (st : HKState) :
    Option (σ × HKState) :=
  match labeler.Neighbors s1 with
  | none => none
  | some neighbors =>
    if neighbors.length = 0 then
      match labeler.SetLabel s1 st.largestLabel with
      | none => none
      | some s2 =>
        match labeler.Size s2 with
        | none => none
        | some size =>
          some (s2,
            { equivalence := st.equivalence ++ [st.largestLabel]
              largestLabel := st.largestLabel + 1
              blobs := st.blobs ++ [⟨st.largestLabel, size⟩] })
    else
      match findRoots st.equivalence neighbors [] MaxInt with
      | none => none
      | some (equivalence1, roots, min) =>
        match linkRoots neighbors min equivalence1 0 roots with
        | none => none
        | some equivalence2 =>
          match labeler.SetLabel s1 min with
          | none => none
          | some s2 =>
            match labeler.Size s2 with
            | none => none
            | some size =>
              match idx st.blobs min with
              | none => none
              | some b =>
                match upd st.blobs min { b with Size := wrapInt (b.Size + size) } with
                | none => none
                | some blobs1 =>
                  some (s2,
                    { equivalence := equivalence2
                      largestLabel := st.largestLabel
                      blobs := blobs1 })

/-- The first `n` turns of the loop of the first pass: the state in which the loop is when
`Next` has returned true `n` times and the body has been executed `n` times (`none` when a
turn panics, or when there are fewer than `n` nodes). -/
def firstPassSteps {σ : Type} (labeler : CCLabeler σ) : Nat → σ → HKState → Option (σ × HKState)
  | 0, s, st => some (s, st)
  | n + 1, s, st =>
    match labeler.Next s with
    | some (true, s1) =>
      match firstPassBody labeler s1 st with
      | none => none
      | some (s2, st2) => firstPassSteps labeler n s2 st2
    | _ => none

/-- The body of the loop of `firstPassExact`: the sizes are added as exact integers. -/
def firstPassBodyExact {σ : Type} (labeler : CCLabeler σ) (s1 : σ) (st : HKState) :
    Option (σ × HKState) :=
  match labeler.Neighbors s1 with
  | none => none
  | some neighbors =>
    if neighbors.length = 0 then
      match labeler.SetLabel s1 st.largestLabel with
      | none => none
      | some s2 =>
        match labeler.Size s2 with
        | none => none
        | some size =>
          some (s2,
            { equivalence := st.equivalence ++ [st.largestLabel]
              largestLabel := st.largestLabel + 1
              blobs := st.blobs ++ [⟨st.largestLabel, size⟩] })
    else
      match findRoots st.equivalence neighbors [] MaxInt with
      | none => none
      | some (equivalence1, roots, min) =>
        match linkRoots neighbors min equivalence1 0 roots with
        | none => none
        | some equivalence2 =>
          match labeler.SetLabel s1 min with
          | none => none
          | some s2 =>
            match labeler.Size s2 with
            | none => none
            | some size =>
              match idx st.blobs min with
              | none => none
              | some b =>
                match upd st.blobs min { b with Size := b.Size + size } with
                | none => none
                | some blobs1 =>
                  some (s2,
                    { equivalence := equivalence2
                      largestLabel := st.largestLabel
                      blobs := blobs1 })

/-- The first `n` turns of the loop of `firstPassExact`. -/
def firstPassStepsExact {σ : Type} (labeler : CCLabeler σ) : Nat → σ → HKState → Option (σ × HKState)
  | 0, s, st => some (s, st)
  | n + 1, s, st =>
    match labeler.Next s with
    | some (true, s1) =>
      match firstPassBodyExact labeler s1 st with
      | none => none
      | some (s2, st2) => firstPassStepsExact labeler n s2 st2
    | _ => none

/-- Two slices of size records hold the same labels, and sizes that differ by a multiple of
`2^64`. -/
def SizesAgree (bw be : List Blob) : Prop :=
  bw.length = be.length ∧ ∀ (i : Nat) (b c : Blob), bw[i]? = some b → be[i]? = some c →
    b.ID = c.ID ∧ b.Size % 18446744073709551616 = c.Size % 18446744073709551616

/-- A state of `HoshenKopelman` and a state of `HoshenKopelmanExact` that differ only by
multiples of `2^64` in the sizes. -/
def StateAgree (stw ste : HKState) : Prop :=
  stw.equivalence = ste.equivalence ∧ stw.largestLabel = ste.largestLabel ∧
    SizesAgree stw.blobs ste.blobs

/-- The size fits an `int`. -/
def InInt (i : Int) : Prop := -9223372036854775808 ≤ i ∧ i ≤ 9223372036854775807

/-- A causal node source whose sizes add up to more than the largest `int`: two nodes without
neighbours, of sizes `2^63 - 1` and `1`, and a node of size `1` that has both as
neighbours. -/
def overflowNodes : List GNode :=
  [⟨[], 9223372036854775807⟩, ⟨[], 1⟩, ⟨[0, 1], 1⟩]

/-- No entry of the array is larger than its index. -/
def Descending (eq : List Int) : Prop := ∀ i p, idx eq i = some p → p ≤ i

/-! ## Forests, as the specification words them -/

/-- The array is a forest: every entry is a valid index into the array, and following the
entries from any valid label reaches a label `r` with `equivalence[r] == r` in fewer steps
than the array has entries, each step moving to a different label (so no label is visited
twice). -/
def IsForest (eq : List Int) : Prop :=
  (∀ i p, idx eq i = some p → InRange eq.length p) ∧
    ∀ i, InRange eq.length i → ∃ r d, RootD eq i r d ∧ d < eq.length

/-- The first pass of `CCLImage` after `k` pixels, in raster order: the state of the loops
`for y := 0; y < imgH; y++ { for x := 0; x < imgW; x++ { ... } }` when the body of the inner
loop has been executed `k` times. -/
def firstPassImage (img : Image) (k : Nat) : Option ImgState :=
  (List.range k).foldlM
    (fun st j => pixelStep (j / img.MaxX.toNat) (j % img.MaxX.toNat) st)
    ({ pix := img.Pix, imgPix := 0, labelsPix := 0, equivalence := [], largestLabel := 0
       aboveBuf := List.replicate img.MaxX.toNat 0
       cur := EmptyBlob, above := EmptyBlob, left := EmptyBlob, counts := [] } : ImgState)

/-! # Theorems -/

/-! ## Codec -/

theorem decode_ColorFromBlob_aux (id : Int) (h1 : -1 ≤ id) (h2 : id ≤ 4294967294) :
    decode (ColorFromBlob id) = id := by
  unfold decode ColorFromBlob BlobFromColor EmptyBlob
  by_cases h : id = -1
  · subst h; simp
  · have hi : (0 : Int) ≤ id - -1 := by omega
    have e1 : (id - -1).tdiv (256 * 256 * 256) = (id - -1) / 16777216 :=
      Int.tdiv_eq_ediv hi (by norm_num)
    have e2 : (id - -1).tmod (256 * 256 * 256) = (id - -1) % 16777216 :=
      Int.tmod_eq_emod hi (by norm_num)
    have hr : (0 : Int) ≤ (id - -1) % 16777216 := by omega
    have e3 : ((id - -1) % 16777216).tdiv (256 * 256) = ((id - -1) % 16777216) / 65536 :=
      Int.tdiv_eq_ediv hr (by norm_num)
    have e4 : ((id - -1) % 16777216).tmod (256 * 256) = ((id - -1) % 16777216) % 65536 :=
      Int.tmod_eq_emod hr (by norm_num)
    have hr2 : (0 : Int) ≤ ((id - -1) % 16777216) % 65536 := by omega
    have e5 : (((id - -1) % 16777216) % 65536).tdiv 256
        = (((id - -1) % 16777216) % 65536) / 256 := Int.tdiv_eq_ediv hr2 (by norm_num)
    have e6 : (((id - -1) % 16777216) % 65536).tmod 256
        = (((id - -1) % 16777216) % 65536) % 256 := Int.tmod_eq_emod hr2 (by norm_num)
    simp only [if_neg h, e1, e2, e3, e4, e5, e6, uint8]
    simp only [Int.toNat_of_nonneg (Int.emod_nonneg _ (by norm_num : (256 : Int) ≠ 0))]
    omega

theorem ColorFromBlob_BlobFromColor_aux (r g b a : Fin 256) :
    ColorFromBlob (BlobFromColor r g b a) = ⟨r, g, b, a⟩ := by
  have hr := r.isLt
  have hg := g.isLt
  have hb := b.isLt
  have ha := a.isLt
  unfold ColorFromBlob
  by_cases h : BlobFromColor r g b a = EmptyBlob
  · rw [if_pos h]
    unfold BlobFromColor EmptyBlob at h
    simp only at h
    have : r.val = 0 ∧ g.val = 0 ∧ b.val = 0 ∧ a.val = 0 := by omega
    obtain ⟨h1, h2, h3, h4⟩ := this
    congr 1 <;> apply Fin.ext <;> simp [*]
  · rw [if_neg h]
    unfold BlobFromColor EmptyBlob
    simp only
    set i : Int := (r.val : Int) * 256 * 256 * 256 + (g.val : Int) * 256 * 256
      + (b.val : Int) * 256 + (a.val : Int) + -1 - -1 with hi_def
    have hi : (0 : Int) ≤ i := by omega
    have e1 : i.tdiv (256 * 256 * 256) = i / 16777216 := Int.tdiv_eq_ediv hi (by norm_num)
    have e2 : i.tmod (256 * 256 * 256) = i % 16777216 := Int.tmod_eq_emod hi (by norm_num)
    have hr' : (0 : Int) ≤ i % 16777216 := by omega
    have e3 : (i % 16777216).tdiv (256 * 256) = (i % 16777216) / 65536 :=
      Int.tdiv_eq_ediv hr' (by norm_num)
    have e4 : (i % 16777216).tmod (256 * 256) = (i % 16777216) % 65536 :=
      Int.tmod_eq_emod hr' (by norm_num)
    have hr2 : (0 : Int) ≤ (i % 16777216) % 65536 := by omega
    have e5 : ((i % 16777216) % 65536).tdiv 256 = ((i % 16777216) % 65536) / 256 :=
      Int.tdiv_eq_ediv hr2 (by norm_num)
    have e6 : ((i % 16777216) % 65536).tmod 256 = ((i % 16777216) % 65536) % 256 :=
      Int.tmod_eq_emod hr2 (by norm_num)
    simp only [e1, e2, e3, e4, e5, e6, uint8]
    congr 1 <;> apply Fin.ext <;> simp only [] <;> omega

theorem BlobFromColor_range_aux (r g b a : Fin 256) :
    -1 ≤ BlobFromColor r g b a ∧ BlobFromColor r g b a ≤ 4294967294 := by
  have hr := r.isLt
  have hg := g.isLt
  have hb := b.isLt
  have ha := a.isLt
  unfold BlobFromColor EmptyBlob
  constructor <;> simp only <;> omega

theorem BlobFromColor_eq_empty_iff (r g b a : Fin 256) :
    BlobFromColor r g b a = EmptyBlob ↔ (r = 0 ∧ g = 0 ∧ b = 0 ∧ a = 0) := by
  have hr := r.isLt
  have hg := g.isLt
  have hb := b.isLt
  have ha := a.isLt
  unfold BlobFromColor EmptyBlob
  simp only [Fin.ext_iff, Fin.val_zero]
  omega

/-- C5: codec round trip.  For every integer id with `-1 ≤ id ≤ 2^32 - 2`, applying
`BlobFromColor` to the channels R, G, B, A of `ColorFromBlob id` yields `id`. -/
theorem codec_round_trip (id : Int) (h1 : -1 ≤ id) (h2 : id ≤ 2 ^ 32 - 2) :
    BlobFromColor (ColorFromBlob id).R (ColorFromBlob id).G (ColorFromBlob id).B
      (ColorFromBlob id).A = id :=
  decode_ColorFromBlob_aux id h1 (by norm_num at h2; omega)

theorem codec_round_trip_witness :
    (-1 : Int) ≤ 66051 ∧ (66051 : Int) ≤ 2 ^ 32 - 2 ∧
    BlobFromColor (ColorFromBlob 66051).R (ColorFromBlob 66051).G (ColorFromBlob 66051).B
      (ColorFromBlob 66051).A = 66051 :=
  ⟨by decide, by decide, codec_round_trip 66051 (by decide) (by decide)⟩

/-- C6: `BlobFromColor` is a bijection from 4-byte tuples onto the integers
`-1 .. 2^32 - 2` with inverse `ColorFromBlob`: every tuple decodes into the range and is
recovered by `ColorFromBlob`, every id of the range is the decoding of a tuple, and
`(0,0,0,0)` is the one tuple that decodes to `EmptyBlob`. -/
theorem codec_bijection :
    (∀ r g b a : Fin 256,
      -1 ≤ BlobFromColor r g b a ∧ BlobFromColor r g b a ≤ 2 ^ 32 - 2 ∧
      ColorFromBlob (BlobFromColor r g b a) = ⟨r, g, b, a⟩ ∧
      (BlobFromColor r g b a = EmptyBlob ↔ (r = 0 ∧ g = 0 ∧ b = 0 ∧ a = 0))) ∧
    (∀ id : Int, -1 ≤ id ∧ id ≤ 2 ^ 32 - 2 →
      ∃ r g b a : Fin 256, BlobFromColor r g b a = id) ∧
    BlobFromColor 0 0 0 0 = EmptyBlob := by
  refine ⟨fun r g b a => ⟨(BlobFromColor_range_aux r g b a).1, ?_,
    ColorFromBlob_BlobFromColor_aux r g b a, BlobFromColor_eq_empty_iff r g b a⟩, ?_, ?_⟩
  · have := (BlobFromColor_range_aux r g b a).2
    norm_num; omega
  · rintro id ⟨h1, h2⟩
    exact ⟨_, _, _, _, decode_ColorFromBlob_aux id h1 (by norm_num at h2; omega)⟩
  · decide

/-! ## Slices: reading and writing -/

theorem idx_eq_some_iff {α : Type} {xs : List α} {i : Int} {v : α} :
    idx xs i = some v ↔ 0 ≤ i ∧ xs[i.toNat]? = some v := by
  unfold idx
  by_cases h : 0 ≤ i <;> simp [h]

theorem idx_inRange {α : Type} {xs : List α} {i : Int} {v : α} (h : idx xs i = some v) :
    InRange xs.length i := by
  rw [idx_eq_some_iff] at h
  obtain ⟨h0, h1⟩ := h
  obtain ⟨hlt, -⟩ := List.getElem?_eq_some.1 h1
  exact ⟨h0, by omega⟩

theorem idx_isSome_of_inRange {α : Type} {xs : List α} {i : Int} (h : InRange xs.length i) :
    ∃ v, idx xs i = some v := by
  obtain ⟨h0, h1⟩ := h
  have hlt : i.toNat < xs.length := by omega
  exact ⟨xs[i.toNat], by rw [idx_eq_some_iff]; exact ⟨h0, List.getElem?_eq_getElem hlt⟩⟩

theorem idx_natCast {α : Type} (xs : List α) (k : Nat) : idx xs (k : Int) = xs[k]? := by
  unfold idx
  simp

theorem upd_eq_some_iff {α : Type} {xs ys : List α} {i : Int} {v : α} :
    upd xs i v = some ys ↔ InRange xs.length i ∧ ys = xs.set i.toNat v := by
  unfold upd InRange
  by_cases h : 0 ≤ i ∧ i.toNat < xs.length
  · rw [if_pos h]
    constructor
    · intro e
      exact ⟨⟨h.1, by omega⟩, (Option.some.inj e).symm⟩
    · rintro ⟨-, e⟩
      rw [e]
  · rw [if_neg h]
    constructor
    · intro e; cases e
    · rintro ⟨⟨h0, h1⟩, -⟩
      exact absurd ⟨h0, by omega⟩ h

theorem upd_of_inRange {α : Type} {xs : List α} {i : Int} (v : α) (h : InRange xs.length i) :
    upd xs i v = some (xs.set i.toNat v) :=
  upd_eq_some_iff.2 ⟨h, rfl⟩

theorem idx_set_self {α : Type} {xs : List α} {i : Int} {v : α} (h : InRange xs.length i) :
    idx (xs.set i.toNat v) i = some v := by
  obtain ⟨h0, h1⟩ := h
  rw [idx_eq_some_iff]
  exact ⟨h0, List.getElem?_set_self (by omega)⟩

theorem idx_set_ne {α : Type} {xs : List α} {i j : Int} {v : α} (h0 : 0 ≤ i) (hne : i ≠ j) :
    idx (xs.set i.toNat v) j = idx xs j := by
  unfold idx
  by_cases hj : 0 ≤ j
  · simp only [if_pos hj]
    exact List.getElem?_set_ne (by omega)
  · simp only [if_neg hj]

theorem idx_append_left {α : Type} {xs ys : List α} {i : Int} (h : InRange xs.length i) :
    idx (xs ++ ys) i = idx xs i := by
  obtain ⟨h0, h1⟩ := h
  unfold idx
  simp only [if_pos h0]
  exact List.getElem?_append_left (by omega)

theorem idx_append_length {α : Type} (xs : List α) (v : α) :
    idx (xs ++ [v]) (xs.length : Int) = some v := by
  rw [idx_natCast]
  simp

theorem idx_append_of_some {α : Type} {xs ys : List α} {i : Int} {v : α}
    (h : idx xs i = some v) : idx (xs ++ ys) i = some v := by
  rw [idx_append_left (idx_inRange h), h]

/-! ## The equivalence array as a forest -/

theorem RootD.root_fixed {eq : List Int} {i r : Int} {d : Nat} (h : RootD eq i r d) :
    idx eq r = some r := by
  induction h with
  | root h => exact h
  | step _ _ _ ih => exact ih

theorem RootD.start_inRange {eq : List Int} {i r : Int} {d : Nat} (h : RootD eq i r d) :
    InRange eq.length i := by
  cases h with
  | root h => exact idx_inRange h
  | step h _ _ => exact idx_inRange h

theorem RootD.unique_depth {eq : List Int} {i r : Int} {d : Nat} (h : RootD eq i r d) :
    ∀ {r2 : Int} {d2 : Nat}, RootD eq i r2 d2 → r2 = r ∧ d2 = d := by
  induction h with
  | root h =>
    intro r2 d2 h2
    cases h2 with
    | root _ => exact ⟨rfl, rfl⟩
    | step h3 hne _ =>
      rw [h] at h3
      exact absurd (Option.some.inj h3).symm hne
  | step h hne _ ih =>
    intro r2 d2 h2
    cases h2 with
    | root h3 =>
      rw [h] at h3
      exact absurd (Option.some.inj h3) hne
    | step h3 _ h4 =>
      rw [h] at h3
      cases Option.some.inj h3
      obtain ⟨e1, e2⟩ := ih h4
      exact ⟨e1, by omega⟩

theorem RootOf.isRoot {eq : List Int} {i r : Int} (h : RootOf eq i r) : idx eq r = some r :=
  h.elim fun _ hd => hd.root_fixed

theorem RootOf.inRange {eq : List Int} {i r : Int} (h : RootOf eq i r) :
    InRange eq.length i :=
  h.elim fun _ hd => hd.start_inRange

theorem RootOf.root_inRange {eq : List Int} {i r : Int} (h : RootOf eq i r) :
    InRange eq.length r :=
  idx_inRange h.isRoot

theorem RootOf.unique {eq : List Int} {i r r2 : Int} (h : RootOf eq i r) (h2 : RootOf eq i r2) :
    r2 = r := by
  obtain ⟨d, hd⟩ := h
  obtain ⟨d2, hd2⟩ := h2
  exact (hd.unique_depth hd2).1

theorem RootOf.of_isRoot {eq : List Int} {r : Int} (h : idx eq r = some r) : RootOf eq r r :=
  ⟨0, RootD.root h⟩

theorem RootOf.root_root {eq : List Int} {i r : Int} (h : RootOf eq i r) : RootOf eq r r :=
  RootOf.of_isRoot h.isRoot

theorem RootOf.step {eq : List Int} {i p r : Int} (h : idx eq i = some p) (hr : RootOf eq p r) :
    RootOf eq i r := by
  by_cases hne : p = i
  · subst hne; exact hr
  · obtain ⟨d, hd⟩ := hr
    exact ⟨d + 1, RootD.step h hne hd⟩

theorem RootOf.parent {eq : List Int} {i p r : Int} (h : idx eq i = some p) (hr : RootOf eq i r) :
    RootOf eq p r := by
  obtain ⟨d, hd⟩ := hr
  cases hd with
  | root h2 =>
    rw [h] at h2
    cases Option.some.inj h2
    exact RootOf.of_isRoot h
  | step h2 _ h3 =>
    rw [h] at h2
    cases Option.some.inj h2
    exact ⟨_, h3⟩

/-- A walk to the root visits pairwise distinct valid labels, so it is shorter than the array. -/
theorem RootD.depth_lt {eq : List Int} {i r : Int} {d : Nat} (h : RootD eq i r d) :
    d < eq.length := by
  have key : ∀ {i r : Int} {d : Nat}, RootD eq i r d →
      ∃ s : Finset Int, s.card = d + 1 ∧ (∀ x ∈ s, InRange eq.length x) ∧
        ∀ x ∈ s, ∃ d2, d2 ≤ d ∧ RootD eq x r d2 := by
    intro i r d h
    induction h with
    | @root r h =>
      refine ⟨{r}, by simp, ?_, ?_⟩
      · intro x hx
        rw [Finset.mem_singleton] at hx
        subst hx
        exact idx_inRange h
      · intro x hx
        rw [Finset.mem_singleton] at hx
        subst hx
        exact ⟨0, le_refl _, RootD.root h⟩
    | @step i p r d h hne hp ih =>
      obtain ⟨s, hcard, hrange, hdepth⟩ := ih
      have hnot : i ∉ s := by
        intro hi
        obtain ⟨d2, hle, hd2⟩ := hdepth i hi
        have := ((RootD.step h hne hp).unique_depth hd2).2
        omega
      refine ⟨insert i s, by rw [Finset.card_insert_of_not_mem hnot, hcard], ?_, ?_⟩
      · intro x hx
        rw [Finset.mem_insert] at hx
        rcases hx with rfl | hx
        · exact idx_inRange h
        · exact hrange x hx
      · intro x hx
        rw [Finset.mem_insert] at hx
        rcases hx with rfl | hx
        · exact ⟨d + 1, le_refl _, RootD.step h hne hp⟩
        · obtain ⟨d2, hle, hd2⟩ := hdepth x hx
          exact ⟨d2, by omega, hd2⟩
  obtain ⟨s, hcard, hrange, -⟩ := key h
  have hsub : s ⊆ Finset.Ico (0 : Int) (eq.length : Int) := by
    intro x hx
    rw [Finset.mem_Ico]
    exact hrange x hx
  have := Finset.card_le_card hsub
  rw [Int.card_Ico, hcard] at this
  simp at this
  omega

/-! ## `find` on a forest -/

theorem findParent_of_rootD {eq : List Int} {i r : Int} {d : Nat} (h : RootD eq i r d) :
    ∀ fuel, d < fuel → findParent fuel eq i = some r := by
  induction h with
  | root h =>
    intro fuel hf
    obtain ⟨f, rfl⟩ : ∃ f, fuel = f + 1 := ⟨fuel - 1, by omega⟩
    simp [findParent, h]
  | step h hne _ ih =>
    intro fuel hf
    obtain ⟨f, rfl⟩ : ∃ f, fuel = f + 1 := ⟨fuel - 1, by omega⟩
    simp only [findParent, h, if_pos hne]
    exact ih f (by omega)

theorem findParent_of_rootOf {eq : List Int} {i r : Int} (h : RootOf eq i r) :
    findParent (eq.length + 1) eq i = some r := by
  obtain ⟨d, hd⟩ := h
  exact findParent_of_rootD hd _ (by have := hd.depth_lt; omega)

/-- What `findParent` returns is the root. -/
theorem rootOf_of_findParent : ∀ (fuel : Nat) (eq : List Int) (i r : Int),
    findParent fuel eq i = some r → RootOf eq i r := by
  intro fuel
  induction fuel with
  | zero => intro eq i r h; simp [findParent] at h
  | succ f ih =>
    intro eq i r h
    unfold findParent at h
    cases hp : idx eq i with
    | none => simp [hp] at h
    | some p =>
      simp only [hp] at h
      by_cases hne : p ≠ i
      · rw [if_pos hne] at h
        exact RootOf.step hp (ih eq p r h)
      · rw [if_neg hne] at h
        cases Option.some.inj h
        have hpi : p = i := not_not.1 hne
        subst hpi
        exact RootOf.of_isRoot hp

/-- Redirecting a label straight to its root changes no root. -/
theorem rootOf_set_iff {eq : List Int} {x r : Int} (hx : RootOf eq x r) (i q : Int) :
    RootOf (eq.set x.toNat r) i q ↔ RootOf eq i q := by
  have hx0 : 0 ≤ x := hx.inRange.1
  have hxr := hx.inRange
  have hrr : idx eq r = some r := hx.isRoot
  constructor
  · rintro ⟨d, hd⟩
    induction hd with
    | @root q h =>
      by_cases hq : q = x
      · subst hq
        rw [idx_set_self hxr] at h
        cases Option.some.inj h
        exact hx
      · rw [idx_set_ne hx0 (Ne.symm hq)] at h
        exact RootOf.of_isRoot h
    | @step i p q d h hne _ ih =>
      by_cases hi : i = x
      · subst hi
        rw [idx_set_self hxr] at h
        cases Option.some.inj h
        have := RootOf.unique (RootOf.of_isRoot hrr) ih
        subst this
        exact hx
      · rw [idx_set_ne hx0 (Ne.symm hi)] at h
        exact RootOf.step h ih
  · rintro ⟨d, hd⟩
    induction hd with
    | @root q h =>
      by_cases hq : q = x
      · subst hq
        have := RootOf.unique (RootOf.of_isRoot h) hx
        subst this
        exact RootOf.of_isRoot (idx_set_self hxr)
      · exact RootOf.of_isRoot (by rw [idx_set_ne hx0 (Ne.symm hq)]; exact h)
    | @step i p q d h hne hp ih =>
      by_cases hi : i = x
      · subst hi
        have e : r = q := RootOf.unique ⟨_, RootD.step h hne hp⟩ hx
        subst e
        have hr2 : RootOf (eq.set i.toNat r) r r := by
          by_cases hri : r = i
          · subst hri; exact RootOf.of_isRoot (idx_set_self hxr)
          · exact RootOf.of_isRoot (by rw [idx_set_ne hx0 (Ne.symm hri)]; exact hrr)
        exact RootOf.step (idx_set_self hxr) hr2
      · exact RootOf.step (by rw [idx_set_ne hx0 (Ne.symm hi)]; exact h) ih

/-- The squashing loop returns, keeps the length and changes no root. -/
theorem squash_spec : ∀ (fuel : Nat) (eq : List Int) (r label : Int) (d : Nat),
    RootD eq label r d → d < fuel →
    ∃ eq2, squash fuel eq r label = some eq2 ∧ eq2.length = eq.length ∧
      ∀ i q, RootOf eq2 i q ↔ RootOf eq i q := by
  intro fuel
  induction fuel with
  | zero => intro eq r label d _ hf; omega
  | succ f ih =>
    intro eq r label d hd hf
    cases hd with
    | root h =>
      exact ⟨eq, by simp [squash, h], rfl, fun _ _ => Iff.rfl⟩
    | @step _ p _ d2 h hne hp =>
      have hx : RootOf eq label r := ⟨_, RootD.step h hne hp⟩
      have hiff := rootOf_set_iff hx
      -- the parent still reaches the root, in at most as many steps as before
      have hp2 : ∃ d3, d3 ≤ d2 ∧ RootD (eq.set label.toNat r) p r d3 := by
        clear ih hf hiff
        have hx0 : 0 ≤ label := hx.inRange.1
        have key : ∀ {i q : Int} {e : Nat}, RootD eq i q e → q = r →
            ∃ d3, d3 ≤ e ∧ RootD (eq.set label.toNat r) i r d3 := by
          intro i q e hd
          induction hd with
          | @root q h2 =>
            intro hq
            subst hq
            by_cases hql : q = label
            · subst hql
              exact ⟨0, le_refl _, RootD.root (idx_set_self hx.inRange)⟩
            · exact ⟨0, le_refl _, RootD.root (by rw [idx_set_ne hx0 (Ne.symm hql)]; exact h2)⟩
          | @step i p2 q e h2 hne2 _ ih2 =>
            intro hq
            subst hq
            obtain ⟨d3, hle, hd3⟩ := ih2 rfl
            by_cases hil : i = label
            · subst hil
              by_cases hqi : q = i
              · subst hqi
                exact ⟨0, by omega, RootD.root (idx_set_self hx.inRange)⟩
              · refine ⟨1, by omega, RootD.step (idx_set_self hx.inRange) hqi (RootD.root ?_)⟩
                rw [idx_set_ne hx0 (Ne.symm hqi)]
                exact hx.isRoot
            · exact ⟨d3 + 1, by omega,
                RootD.step (by rw [idx_set_ne hx0 (Ne.symm hil)]; exact h2) hne2 hd3⟩
        exact key hp rfl
      obtain ⟨d3, hle, hd3⟩ := hp2
      obtain ⟨eq2, he, hlen, hroots⟩ := ih (eq.set label.toNat r) r p d3 hd3 (by omega)
      refine ⟨eq2, ?_, by rw [hlen, List.length_set], fun i q => (hroots i q).trans (hiff i q)⟩
      simp only [squash, h, if_pos hne, upd_of_inRange r hx.inRange]
      exact he

/-- On a forest `find` returns the root of a valid label, keeps the length of the array and
changes the root of no label. -/
theorem find_spec {eq : List Int} {label r : Int} (h : RootOf eq label r) :
    ∃ eq2, find eq label = some (eq2, r) ∧ eq2.length = eq.length ∧
      ∀ i q, RootOf eq2 i q ↔ RootOf eq i q := by
  obtain ⟨d, hd⟩ := h
  obtain ⟨eq2, he, hlen, hroots⟩ := squash_spec (eq.length + 1) eq r label d hd
    (by have := hd.depth_lt; omega)
  refine ⟨eq2, ?_, hlen, hroots⟩
  simp [find, findParent_of_rootOf ⟨d, hd⟩, he]

theorem Forest.of_iff {eq eq2 : List Int} (hf : Forest eq) (hlen : eq2.length = eq.length)
    (h : ∀ i q, RootOf eq2 i q ↔ RootOf eq i q) : Forest eq2 := by
  intro i hi
  rw [hlen] at hi
  obtain ⟨r, hr⟩ := hf i hi
  exact ⟨r, (h i r).2 hr⟩

/-- Whenever `find` returns, it returns the root and changes no root. -/
theorem find_sound {eq eq2 : List Int} {label r : Int} (h : find eq label = some (eq2, r)) :
    RootOf eq label r ∧ eq2.length = eq.length ∧ ∀ i q, RootOf eq2 i q ↔ RootOf eq i q := by
  have hr : RootOf eq label r := by
    unfold find at h
    cases hp : findParent (eq.length + 1) eq label with
    | none => simp [hp] at h
    | some p =>
      simp only [hp] at h
      cases hs : squash (eq.length + 1) eq p label with
      | none => simp [hs] at h
      | some e =>
        simp only [hs] at h
        cases Option.some.inj h
        exact rootOf_of_findParent _ _ _ _ hp
  obtain ⟨eq3, he, hlen, hroots⟩ := find_spec hr
  rw [h] at he
  cases Option.some.inj he
  exact ⟨hr, hlen, hroots⟩

/-! ## Linking and growing a forest -/

theorem set_eq_self_of_idx {α : Type} {xs : List α} {i : Int} {v : α} (h : idx xs i = some v) :
    xs.set i.toNat v = xs := by
  rw [idx_eq_some_iff] at h
  apply List.ext_getElem?
  intro n
  rw [List.getElem?_set]
  by_cases hn : i.toNat = n
  · subst hn
    obtain ⟨hlt, -⟩ := List.getElem?_eq_some.1 h.2
    simp [hlt, h.2]
  · simp [hn]

/-- Linking the root `a` to the root `b` sends the class of `a` to `b` and leaves the other
roots alone. -/
theorem rootOf_link {eq : List Int} {a b : Int} (ha : idx eq a = some a) (hb : idx eq b = some b)
    {l r : Int} (h : RootOf eq l r) :
    RootOf (eq.set a.toNat b) l (if r = a then b else r) := by
  have ha0 : 0 ≤ a := (idx_inRange ha).1
  have har := idx_inRange ha
  have hbb : RootOf (eq.set a.toNat b) b b := by
    by_cases hba : b = a
    · subst hba; exact RootOf.of_isRoot (idx_set_self har)
    · exact RootOf.of_isRoot (by rw [idx_set_ne ha0 (Ne.symm hba)]; exact hb)
  obtain ⟨d, hd⟩ := h
  induction hd with
  | @root r h =>
    by_cases hra : r = a
    · subst hra
      rw [if_pos rfl]
      exact RootOf.step (idx_set_self har) hbb
    · rw [if_neg hra]
      exact RootOf.of_isRoot (by rw [idx_set_ne ha0 (Ne.symm hra)]; exact h)
  | @step i p r d h hne _ ih =>
    have hia : i ≠ a := by
      rintro rfl
      rw [ha] at h
      exact hne (Option.some.inj h).symm
    exact RootOf.step (by rw [idx_set_ne ha0 (Ne.symm hia)]; exact h) ih

theorem rootOf_append {eq : List Int} {l r : Int} (v : Int) (h : RootOf eq l r) :
    RootOf (eq ++ [v]) l r := by
  obtain ⟨d, hd⟩ := h
  induction hd with
  | root h => exact RootOf.of_isRoot (idx_append_of_some h)
  | step h _ _ ih => exact RootOf.step (idx_append_of_some h) ih

theorem rootOf_append_new (eq : List Int) :
    RootOf (eq ++ [(eq.length : Int)]) (eq.length : Int) (eq.length : Int) :=
  RootOf.of_isRoot (idx_append_length eq _)

theorem inRange_succ {n : Nat} {i : Int} (h : InRange (n + 1) i) :
    InRange n i ∨ i = (n : Int) := by
  obtain ⟨h0, h1⟩ := h
  by_cases hi : i = (n : Int)
  · exact Or.inr hi
  · exact Or.inl ⟨h0, by push_cast at h1; omega⟩

theorem Forest.append {eq : List Int} (hf : Forest eq) : Forest (eq ++ [(eq.length : Int)]) := by
  intro i hi
  rw [List.length_append, List.length_singleton] at hi
  rcases inRange_succ hi with h | h
  · obtain ⟨r, hr⟩ := hf i h
    exact ⟨r, rootOf_append _ hr⟩
  · subst h
    exact ⟨_, rootOf_append_new eq⟩

theorem Forest.nil : Forest [] := by
  intro i hi
  obtain ⟨h0, h1⟩ := hi
  simp at h1
  omega

/-! ## Chains of the neighbour relation -/

theorem ConnUpTo.refl (R : Nat → Nat → Prop) (m i : Nat) : ConnUpTo R m i i :=
  Relation.EqvGen.refl i

theorem ConnUpTo.symm {R : Nat → Nat → Prop} {m i j : Nat} (h : ConnUpTo R m i j) :
    ConnUpTo R m j i :=
  Relation.EqvGen.symm _ _ h

theorem ConnUpTo.trans {R : Nat → Nat → Prop} {m i j k : Nat} (h : ConnUpTo R m i j)
    (h2 : ConnUpTo R m j k) : ConnUpTo R m i k :=
  Relation.EqvGen.trans _ _ _ h h2

theorem ConnUpTo.mono {R : Nat → Nat → Prop} {m i j : Nat} (h : ConnUpTo R m i j) :
    ConnUpTo R (m + 1) i j :=
  Relation.EqvGen.mono (fun _ _ hab => ⟨by omega, hab.2⟩) h

/-- A node that has not been reached yet is joined to no other node. -/
theorem ConnUpTo.eq_of_ge {R : Nat → Nat → Prop} (hc : ∀ i j, R i j → j < i) {m i j : Nat}
    (h : ConnUpTo R m i j) : m ≤ i ∨ m ≤ j → i = j := by
  induction h with
  | rel a b hab =>
    intro hm
    have := hc a b hab.2
    omega
  | refl a => intro _; rfl
  | symm a b _ ih =>
    intro hm
    exact (ih hm.symm).symm
  | trans a b c _ _ ih1 ih2 =>
    intro hm
    rcases hm with hm | hm
    · have e := ih1 (Or.inl hm)
      subst e
      exact ih2 (Or.inl hm)
    · have e := ih2 (Or.inr hm)
      subst e
      exact ih1 (Or.inr hm)

/-- The chains after node `m` has been taken in: the old chains, and the chains through `m`
between nodes that were joined to a neighbour of `m`. -/
theorem connUpTo_succ_iff {R : Nat → Nat → Prop} (hc : ∀ i j, R i j → j < i) (m i j : Nat) :
    ConnUpTo R (m + 1) i j ↔
      ConnUpTo R m i j ∨
        ((i = m ∨ ∃ n, R m n ∧ ConnUpTo R m i n) ∧ (j = m ∨ ∃ n, R m n ∧ ConnUpTo R m j n)) := by
  constructor
  · intro h
    induction h with
    | rel a b hab =>
      by_cases ha : a = m
      · subst ha
        exact Or.inr ⟨Or.inl rfl, Or.inr ⟨b, hab.2, ConnUpTo.refl _ _ _⟩⟩
      · exact Or.inl (Relation.EqvGen.rel _ _ ⟨by omega, hab.2⟩)
    | refl a => exact Or.inl (ConnUpTo.refl _ _ _)
    | symm a b _ ih =>
      rcases ih with h | ⟨h1, h2⟩
      · exact Or.inl h.symm
      · exact Or.inr ⟨h2, h1⟩
    | trans a b c _ _ ih1 ih2 =>
      have hX : ∀ {x y : Nat}, ConnUpTo R m x y → (y = m ∨ ∃ n, R m n ∧ ConnUpTo R m y n) →
          (x = m ∨ ∃ n, R m n ∧ ConnUpTo R m x n) := by
        intro x y hxy hy
        rcases hy with rfl | ⟨n, hn, hyn⟩
        · exact Or.inl (ConnUpTo.eq_of_ge hc hxy (Or.inr (le_refl _)))
        · exact Or.inr ⟨n, hn, hxy.trans hyn⟩
      rcases ih1 with h1 | ⟨h1a, h1b⟩
      · rcases ih2 with h2 | ⟨h2a, h2b⟩
        · exact Or.inl (h1.trans h2)
        · exact Or.inr ⟨hX h1 h2a, h2b⟩
      · rcases ih2 with h2 | ⟨h2a, h2b⟩
        · exact Or.inr ⟨h1a, hX h2.symm h1b⟩
        · exact Or.inr ⟨h1a, h2b⟩
  · intro h
    have hX : ∀ {x : Nat}, (x = m ∨ ∃ n, R m n ∧ ConnUpTo R m x n) → ConnUpTo R (m + 1) x m := by
      intro x hx
      rcases hx with rfl | ⟨n, hn, hxn⟩
      · exact ConnUpTo.refl _ _ _
      · exact hxn.mono.trans (Relation.EqvGen.symm _ _ (Relation.EqvGen.rel _ _ ⟨by omega, hn⟩))
    rcases h with h | ⟨h1, h2⟩
    · exact h.mono
    · exact (hX h1).trans (hX h2).symm

/-! ## Sums of weights -/

theorem wsum_congr {n : Nat} {w : Nat → Int} {P Q : Nat → Prop} [DecidablePred P]
    [DecidablePred Q] (h : ∀ j, j < n → (P j ↔ Q j)) : wsum n w P = wsum n w Q := by
  unfold wsum
  apply Finset.sum_congr rfl
  intro j hj
  rw [Finset.mem_range] at hj
  by_cases hp : P j
  · rw [if_pos hp, if_pos ((h j hj).1 hp)]
  · rw [if_neg hp, if_neg (fun hq => hp ((h j hj).2 hq))]

theorem wsum_succ (n : Nat) (w : Nat → Int) (P : Nat → Prop) [DecidablePred P] :
    wsum (n + 1) w P = wsum n w P + (if P n then w n else 0) := by
  unfold wsum
  rw [Finset.sum_range_succ]

theorem wsum_false {n : Nat} {w : Nat → Int} {P : Nat → Prop} [DecidablePred P]
    (h : ∀ j, j < n → ¬ P j) : wsum n w P = 0 := by
  unfold wsum
  apply Finset.sum_eq_zero
  intro j hj
  rw [Finset.mem_range] at hj
  rw [if_neg (h j hj)]

theorem wsum_add {n : Nat} {w : Nat → Int} {P Q : Nat → Prop} [DecidablePred P]
    [DecidablePred Q] (h : ∀ j, j < n → ¬ (P j ∧ Q j)) :
    wsum n w (fun j => P j ∨ Q j) = wsum n w P + wsum n w Q := by
  unfold wsum
  rw [← Finset.sum_add_distrib]
  apply Finset.sum_congr rfl
  intro j hj
  rw [Finset.mem_range] at hj
  by_cases hp : P j
  · have hq : ¬ Q j := fun hq => h j hj ⟨hp, hq⟩
    simp [hp, hq]
  · by_cases hq : Q j
    · simp [hp, hq]
    · simp [hp, hq]

theorem wsum_nonneg {n : Nat} {w : Nat → Int} {P : Nat → Prop} [DecidablePred P]
    (h : ∀ j, j < n → 0 ≤ w j) : 0 ≤ wsum n w P := by
  unfold wsum
  apply Finset.sum_nonneg
  intro j hj
  rw [Finset.mem_range] at hj
  by_cases hp : P j
  · rw [if_pos hp]; exact h j hj
  · rw [if_neg hp]

theorem wsum_pos {n : Nat} {w : Nat → Int} {P : Nat → Prop} [DecidablePred P]
    (h : ∀ j, j < n → 1 ≤ w j) {i : Nat} (hi : i < n) (hp : P i) : 1 ≤ wsum n w P := by
  unfold wsum
  have h1 : (if P i then w i else 0) ≤ ∑ j in Finset.range n, if P j then w j else 0 := by
    apply Finset.single_le_sum (f := fun j => if P j then w j else 0)
    · intro j hj
      rw [Finset.mem_range] at hj
      by_cases hq : P j
      · simp only [if_pos hq]; have := h j hj; omega
      · simp only [if_neg hq]; exact le_refl _
    · exact Finset.mem_range.2 hi
  rw [if_pos hp] at h1
  have := h i hi
  omega

/-! ## Steps of a first pass -/

theorem LabInv.congr {R : Nat → Nat → Prop} {w : Nat → Int} {lab lab2 : Nat → Int} {m : Nat}
    {eq : List Int} {blobs : List Blob} (h : LabInv R w lab m eq blobs)
    (he : ∀ i, i < m → lab2 i = lab i) : LabInv R w lab2 m eq blobs where
  forest := h.forest
  len := h.len
  range := fun i hi => by rw [he i hi]; exact h.range i hi
  inhabited := fun l hl => by
    obtain ⟨i, hi, hli⟩ := h.inhabited l hl
    exact ⟨i, hi, by rw [he i hi]; exact hli⟩
  conn := fun i j hi hj ri rj hri hrj => by
    rw [he i hi] at hri
    rw [he j hj] at hrj
    exact h.conn i j hi hj ri rj hri hrj
  size := fun l hl => by
    rw [h.size l hl]
    congr 2
    exact wsum_congr (fun j hj => by rw [he j hj])

theorem LabInv.empty (R : Nat → Nat → Prop) (w : Nat → Int) (lab : Nat → Int) :
    LabInv R w lab 0 [] [] where
  forest := Forest.nil
  len := rfl
  range := fun i hi => by omega
  inhabited := fun l hl => by
    obtain ⟨h0, h1⟩ := hl
    simp at h1
    omega
  conn := fun i j hi _ => by omega
  size := fun l hl => by
    obtain ⟨h0, h1⟩ := hl
    simp at h1
    omega

theorem not_rootOf_neg_one (eq : List Int) (r : Int) : ¬ RootOf eq (-1) r := by
  intro h
  have := h.inRange.1
  omega

/-- A node that is not labeled and has no neighbour (a background pixel). -/
theorem LabInv.skip {R : Nat → Nat → Prop} {w : Nat → Int} {lab : Nat → Int} {m : Nat}
    {eq : List Int} {blobs : List Blob} (h : LabInv R w lab m eq blobs)
    (hc : ∀ i j, R i j → j < i) (hR : ∀ n, ¬ R m n) (hm : lab m = -1) :
    LabInv R w lab (m + 1) eq blobs where
  forest := h.forest
  len := h.len
  range := fun i hi => by
    by_cases him : i = m
    · subst him; exact Or.inl hm
    · exact h.range i (by omega)
  inhabited := fun l hl => by
    obtain ⟨i, hi, hli⟩ := h.inhabited l hl
    exact ⟨i, by omega, hli⟩
  conn := fun i j hi hj ri rj hri hrj => by
    have him : i ≠ m := by
      rintro rfl
      rw [hm] at hri
      exact not_rootOf_neg_one _ _ hri
    have hjm : j ≠ m := by
      rintro rfl
      rw [hm] at hrj
      exact not_rootOf_neg_one _ _ hrj
    rw [h.conn i j (by omega) (by omega) ri rj hri hrj, connUpTo_succ_iff hc]
    constructor
    · intro h1; exact Or.inl h1
    · rintro (h1 | ⟨h1, -⟩)
      · exact h1
      · rcases h1 with h1 | ⟨n, hn, -⟩
        · exact absurd h1 him
        · exact absurd hn (hR n)
  size := fun l hl => by
    rw [h.size l hl, wsum_succ]
    have : ¬ lab m = l := by
      rw [hm]
      intro e
      have := hl.1
      omega
    rw [if_neg this, add_zero]

theorem connUpTo_succ_isolated {R : Nat → Nat → Prop} (hc : ∀ i j, R i j → j < i) {m : Nat}
    (hR : ∀ n, ¬ R m n) (i j : Nat) :
    ConnUpTo R (m + 1) i j ↔ ConnUpTo R m i j ∨ (i = m ∧ j = m) := by
  rw [connUpTo_succ_iff hc]
  constructor
  · rintro (h1 | ⟨h1, h2⟩)
    · exact Or.inl h1
    · rcases h1 with h1 | ⟨n, hn, -⟩
      · rcases h2 with h2 | ⟨n, hn, -⟩
        · exact Or.inr ⟨h1, h2⟩
        · exact absurd hn (hR n)
      · exact absurd hn (hR n)
  · rintro (h1 | ⟨h1, h2⟩)
    · exact Or.inl h1
    · exact Or.inr ⟨Or.inl h1, Or.inl h2⟩

/-- A node without neighbours that is given the next new label. -/
theorem LabInv.fresh {R : Nat → Nat → Prop} {w : Nat → Int} {lab : Nat → Int} {m : Nat}
    {eq : List Int} {blobs : List Blob} (h : LabInv R w lab m eq blobs)
    (hc : ∀ i j, R i j → j < i) (hR : ∀ n, ¬ R m n) (hm : lab m = (eq.length : Int)) :
    LabInv R w lab (m + 1) (eq ++ [(eq.length : Int)])
      (blobs ++ [⟨(eq.length : Int), w m⟩]) := by
  -- the root of an old label is its old root, and it is not the new label
  have hold : ∀ {x : Nat} {r : Int}, x < m → RootOf (eq ++ [(eq.length : Int)]) (lab x) r →
      RootOf eq (lab x) r ∧ r ≠ (eq.length : Int) := by
    intro x r hx hr
    rcases h.range x hx with h1 | h1
    · rw [h1] at hr
      exact absurd hr (not_rootOf_neg_one _ _)
    · obtain ⟨r0, hr0⟩ := h.forest _ h1
      have e := RootOf.unique (rootOf_append _ hr0) hr
      subst e
      exact ⟨hr0, by have := hr0.root_inRange.2; omega⟩
  have hnew : ∀ {r : Int}, RootOf (eq ++ [(eq.length : Int)]) (lab m) r → r = (eq.length : Int) := by
    intro r hr
    rw [hm] at hr
    exact RootOf.unique (rootOf_append_new eq) hr
  refine ⟨h.forest.append, by simp [h.len], ?_, ?_, ?_, ?_⟩
  · intro i hi
    rw [List.length_append, List.length_singleton]
    by_cases him : i = m
    · subst him
      rw [hm]
      exact Or.inr ⟨by omega, by push_cast; omega⟩
    · rcases h.range i (by omega) with h1 | h1
      · exact Or.inl h1
      · exact Or.inr ⟨h1.1, by have := h1.2; push_cast; omega⟩
  · intro l hl
    rw [List.length_append, List.length_singleton] at hl
    rcases inRange_succ hl with h1 | h1
    · obtain ⟨i, hi, hli⟩ := h.inhabited l h1
      exact ⟨i, by omega, hli⟩
    · exact ⟨m, by omega, by rw [hm, h1]⟩
  · intro i j hi hj ri rj hri hrj
    rw [connUpTo_succ_isolated hc hR]
    by_cases him : i = m
    · subst him
      have e1 := hnew hri
      by_cases hjm : j = i
      · subst hjm
        have e2 := hnew hrj
        exact ⟨fun _ => Or.inr ⟨rfl, rfl⟩, fun _ => by rw [e1, e2]⟩
      · have h2 := hold (by omega : j < i) hrj
        constructor
        · intro e
          rw [e1] at e
          exact absurd e.symm h2.2
        · rintro (h1 | ⟨-, h1⟩)
          · exact absurd (ConnUpTo.eq_of_ge hc h1 (Or.inl (le_refl _))).symm hjm
          · exact absurd h1 hjm
    · have h1 := hold (by omega : i < m) hri
      by_cases hjm : j = m
      · subst hjm
        have e2 := hnew hrj
        constructor
        · intro e
          rw [e2] at e
          exact absurd e h1.2
        · rintro (h3 | ⟨h3, -⟩)
          · exact absurd (ConnUpTo.eq_of_ge hc h3 (Or.inr (le_refl _))) him
          · exact absurd h3 him
      · have h2 := hold (by omega : j < m) hrj
        rw [h.conn i j (by omega) (by omega) ri rj h1.1 h2.1]
        constructor
        · intro h3; exact Or.inl h3
        · rintro (h3 | ⟨h3, -⟩)
          · exact h3
          · exact absurd h3 him
  · intro l hl
    rw [List.length_append, List.length_singleton] at hl
    rw [wsum_succ]
    rcases inRange_succ hl with h1 | h1
    · have hne : ¬ lab m = l := by
        rw [hm]; intro e; have := h1.2; omega
      rw [if_neg hne, add_zero, idx_append_left (by rw [h.len]; exact h1)]
      exact h.size l h1
    · subst h1
      have e0 : wsum m w (fun j => lab j = (eq.length : Int)) = 0 := by
        apply wsum_false
        intro j hj e
        rcases h.range j hj with h2 | h2
        · rw [e] at h2; omega
        · rw [e] at h2; have := h2.2; omega
      rw [if_pos hm, e0, zero_add]
      have := idx_append_length blobs (⟨(eq.length : Int), w m⟩ : Blob)
      rw [h.len] at this
      exact this

/-- A node with neighbours: the classes of its neighbours are merged into one class, whose
root `c` becomes the label of the node. -/
theorem LabInv.merge {R : Nat → Nat → Prop} {w : Nat → Int} {lab : Nat → Int} {m : Nat}
    {eq : List Int} {blobs : List Blob} (h : LabInv R w lab m eq blobs)
    (hc : ∀ i j, R i j → j < i) (NL : List Int)
    (hN1 : ∀ n, R m n → lab n ∈ NL) (hN2 : ∀ l, l ∈ NL → ∃ n, R m n ∧ lab n = l)
    (hNr : ∀ l, l ∈ NL → ∃ r, RootOf eq l r)
    {c : Int} (hc1 : ∃ l, l ∈ NL ∧ RootOf eq l c) (hm : lab m = c)
    {eq2 : List Int} (hlen : eq2.length = eq.length)
    (hU1 : ∀ l r, RootOf eq l r → (∃ l2, l2 ∈ NL ∧ RootOf eq l2 r) → RootOf eq2 l c)
    (hU2 : ∀ l r, RootOf eq l r → ¬ (∃ l2, l2 ∈ NL ∧ RootOf eq l2 r) → RootOf eq2 l r)
    {b : Blob} (hb : idx blobs c = some b) :
    LabInv R w lab (m + 1) eq2 (blobs.set c.toNat { b with Size := b.Size + w m }) := by
  obtain ⟨l0, hl0, hl0c⟩ := hc1
  have hcc : RootOf eq c c := hl0c.root_root
  have hcM : ∃ l2, l2 ∈ NL ∧ RootOf eq l2 c := ⟨l0, hl0, hl0c⟩
  have hcc2 : RootOf eq2 c c := hU1 c c hcc hcM
  have hcr : InRange eq.length c := hcc.inRange
  -- old and new root of an old node
  have hold : ∀ {x : Nat} {r2 : Int}, x < m → RootOf eq2 (lab x) r2 →
      ∃ r, RootOf eq (lab x) r ∧
        (((∃ l2, l2 ∈ NL ∧ RootOf eq l2 r) ∧ r2 = c) ∨
          (¬ (∃ l2, l2 ∈ NL ∧ RootOf eq l2 r) ∧ r2 = r)) := by
    intro x r2 hx hr2
    have hxr : InRange eq.length (lab x) := by
      have := hr2.inRange
      rw [hlen] at this
      exact this
    obtain ⟨r, hr⟩ := h.forest _ hxr
    refine ⟨r, hr, ?_⟩
    by_cases hM : ∃ l2, l2 ∈ NL ∧ RootOf eq l2 r
    · exact Or.inl ⟨hM, RootOf.unique (hU1 _ _ hr hM) hr2⟩
    · exact Or.inr ⟨hM, RootOf.unique (hU2 _ _ hr hM) hr2⟩
  -- being joined to a neighbour of `m` is having one's root among the roots of `NL`
  have hX : ∀ {x : Nat} {r : Int}, x < m → RootOf eq (lab x) r →
      ((x = m ∨ ∃ n, R m n ∧ ConnUpTo R m x n) ↔ ∃ l2, l2 ∈ NL ∧ RootOf eq l2 r) := by
    intro x r hx hr
    constructor
    · rintro (h1 | ⟨n, hn, hxn⟩)
      · omega
      · have hnm := hc m n hn
        obtain ⟨rn, hrn⟩ := hNr _ (hN1 n hn)
        have := (h.conn x n hx hnm r rn hr hrn).2 hxn
        subst this
        exact ⟨lab n, hN1 n hn, hrn⟩
    · rintro ⟨l2, hl2, hr2⟩
      obtain ⟨n, hn, hnl⟩ := hN2 l2 hl2
      subst hnl
      exact Or.inr ⟨n, hn, (h.conn x n hx (hc m n hn) r r hr hr2).1 rfl⟩
  have hnew : ∀ {r2 : Int}, RootOf eq2 (lab m) r2 → r2 = c := by
    intro r2 hr2
    rw [hm] at hr2
    exact RootOf.unique hcc2 hr2
  have hXm : (m = m ∨ ∃ n, R m n ∧ ConnUpTo R m m n) := Or.inl rfl
  -- the case of the new node against an old one
  have hmixed : ∀ {j : Nat} {rj : Int}, j < m → RootOf eq2 (lab j) rj →
      (c = rj ↔ ConnUpTo R (m + 1) m j) := by
    intro j rj hj hrj
    obtain ⟨r, hr, hcase⟩ := hold hj hrj
    rw [connUpTo_succ_iff hc]
    rcases hcase with ⟨hM, e⟩ | ⟨hM, e⟩
    · exact ⟨fun _ => Or.inr ⟨hXm, (hX hj hr).2 hM⟩, fun _ => e.symm⟩
    · constructor
      · intro e2
        rw [e] at e2
        rw [← e2] at hM
        exact absurd hcM hM
      · rintro (h1 | ⟨-, h1⟩)
        · have := ConnUpTo.eq_of_ge hc h1 (Or.inl (le_refl _))
          omega
        · exact absurd ((hX hj hr).1 h1) hM
  refine ⟨?_, by rw [List.length_set, h.len, hlen], ?_, ?_, ?_, ?_⟩
  · intro i hi
    rw [hlen] at hi
    obtain ⟨r, hr⟩ := h.forest i hi
    by_cases hM : ∃ l2, l2 ∈ NL ∧ RootOf eq l2 r
    · exact ⟨c, hU1 _ _ hr hM⟩
    · exact ⟨r, hU2 _ _ hr hM⟩
  · intro i hi
    rw [hlen]
    by_cases him : i = m
    · subst him
      rw [hm]
      exact Or.inr hcr
    · exact h.range i (by omega)
  · intro l hl
    rw [hlen] at hl
    obtain ⟨i, hi, hli⟩ := h.inhabited l hl
    exact ⟨i, by omega, hli⟩
  · intro i j hi hj ri rj hri hrj
    by_cases him : i = m
    · subst him
      have e1 := hnew hri
      subst e1
      by_cases hjm : j = i
      · subst hjm
        have e2 := hnew hrj
        exact ⟨fun _ => ConnUpTo.refl _ _ _, fun _ => e2.symm⟩
      · exact hmixed (by omega) hrj
    · by_cases hjm : j = m
      · subst hjm
        have e2 := hnew hrj
        subst e2
        have := hmixed (by omega : i < j) hri
        exact ⟨fun e => (this.1 e.symm).symm, fun hcn => (this.2 hcn.symm).symm⟩
      · have him2 : i < m := by omega
        have hjm2 : j < m := by omega
        obtain ⟨r1, hr1, hcase1⟩ := hold him2 hri
        obtain ⟨r2, hr2, hcase2⟩ := hold hjm2 hrj
        rw [connUpTo_succ_iff hc, ← h.conn i j him2 hjm2 r1 r2 hr1 hr2, hX him2 hr1, hX hjm2 hr2]
        rcases hcase1 with ⟨hM1, e1⟩ | ⟨hM1, e1⟩
        · rcases hcase2 with ⟨hM2, e2⟩ | ⟨hM2, e2⟩
          · exact ⟨fun _ => Or.inr ⟨hM1, hM2⟩, fun _ => by rw [e1, e2]⟩
          · constructor
            · intro e
              rw [e1, e2] at e
              rw [← e] at hM2
              exact absurd hcM hM2
            · rintro (h1 | ⟨-, h1⟩)
              · rw [← h1] at hM2
                exact absurd hM1 hM2
              · exact absurd h1 hM2
        · rcases hcase2 with ⟨hM2, e2⟩ | ⟨hM2, e2⟩
          · constructor
            · intro e
              rw [e1, e2] at e
              rw [e] at hM1
              exact absurd hcM hM1
            · rintro (h1 | ⟨h1, -⟩)
              · rw [h1] at hM1
                exact absurd hM2 hM1
              · exact absurd h1 hM1
          · rw [e1, e2]
            constructor
            · intro e; exact Or.inl e
            · rintro (h1 | ⟨h1, -⟩)
              · exact h1
              · exact absurd h1 hM1
  · intro l hl
    rw [hlen] at hl
    rw [wsum_succ]
    have hbc := h.size c hcr
    rw [hb] at hbc
    have hbc2 := Option.some.inj hbc
    by_cases hlc : l = c
    · subst hlc
      rw [if_pos hm, idx_set_self (by rw [h.len]; exact hcr), hbc2]
    · have hne : ¬ lab m = l := by rw [hm]; exact fun e => hlc e.symm
      rw [if_neg hne, add_zero, idx_set_ne hcr.1 (Ne.symm hlc)]
      exact h.size l hl

/-! ## The loops of the first pass of `HoshenKopelman` -/

/-- The loop over the neighbours returns the roots of the neighbours, in order, and the
smallest of `min` and these roots; it changes no root. -/
theorem findRoots_spec : ∀ (neighbors : List Int) (eq roots : List Int) (min : Int),
    (∀ l, l ∈ neighbors → ∃ r, RootOf eq l r) →
    ∃ eq2 rs min2, findRoots eq neighbors roots min = some (eq2, roots ++ rs, min2) ∧
      eq2.length = eq.length ∧ (∀ i q, RootOf eq2 i q ↔ RootOf eq i q) ∧
      List.Forall₂ (fun l r => RootOf eq l r) neighbors rs ∧
      (min2 = min ∨ min2 ∈ rs) ∧ min2 ≤ min ∧ ∀ r, r ∈ rs → min2 ≤ r := by
  intro neighbors
  induction neighbors with
  | nil =>
    intro eq roots min _
    exact ⟨eq, [], min, by simp [findRoots], rfl, fun _ _ => Iff.rfl, List.Forall₂.nil,
      Or.inl rfl, le_refl _, fun r hr => by simp at hr⟩
  | cons n rest ih =>
    intro eq roots min hN
    obtain ⟨r, hr⟩ := hN n (List.mem_cons_self _ _)
    obtain ⟨eq1, hfind, hlen1, hroots1⟩ := find_spec hr
    have hN2 : ∀ l, l ∈ rest → ∃ r, RootOf eq1 l r := by
      intro l hl
      obtain ⟨q, hq⟩ := hN l (List.mem_cons_of_mem _ hl)
      exact ⟨q, (hroots1 l q).2 hq⟩
    obtain ⟨eq2, rs, min2, hrun, hlen2, hroots2, hall, hmin, hle, hlow⟩ :=
      ih eq1 (roots ++ [r]) (if r < min then r else min) hN2
    refine ⟨eq2, r :: rs, min2, ?_, by rw [hlen2, hlen1],
      fun i q => (hroots2 i q).trans (hroots1 i q), ?_, ?_, ?_, ?_⟩
    · simp only [findRoots, hfind, hrun, List.append_assoc, List.singleton_append]
    · refine List.Forall₂.cons hr ?_
      exact hall.imp (fun {a b} hab => (hroots1 a b).1 hab)
    · rcases hmin with h1 | h1
      · by_cases hlt : r < min
        · rw [if_pos hlt] at h1
          exact Or.inr (by rw [h1]; exact List.mem_cons_self _ _)
        · rw [if_neg hlt] at h1
          exact Or.inl h1
      · exact Or.inr (List.mem_cons_of_mem _ h1)
    · by_cases hlt : r < min
      · rw [if_pos hlt] at hle; omega
      · rw [if_neg hlt] at hle; exact hle
    · intro q hq
      rcases List.mem_cons.1 hq with h1 | h1
      · subst h1
        by_cases hlt : q < min
        · rw [if_pos hlt] at hle; exact hle
        · rw [if_neg hlt] at hle; omega
      · exact hlow q h1

/-- The loop that links the roots to `min` sends the class of every listed root to `min`
and leaves the other roots alone. -/
theorem linkRoots_spec (neighbors : List Int) (min : Int) (eq0 : List Int)
    (hmin : RootOf eq0 min min) : ∀ (rest : List Int) (eq : List Int) (i : Nat) (P : List Int),
    (∀ ρ, ρ ∈ rest → RootOf eq0 ρ ρ) → eq.length = eq0.length →
    (∀ l r, RootOf eq0 l r → RootOf eq l (if r ∈ P then min else r)) →
    (∀ k, i ≤ k → k < i + rest.length → ∃ n r, neighbors[k]? = some n ∧ RootOf eq0 n r) →
    ∃ eq2, linkRoots neighbors min eq i rest = some eq2 ∧ eq2.length = eq0.length ∧
      ∀ l r, RootOf eq0 l r → RootOf eq2 l (if r ∈ P ∨ r ∈ rest then min else r) := by
  intro rest
  induction rest with
  | nil =>
    intro eq i P _ hlen hinv _
    refine ⟨eq, by simp [linkRoots], hlen, ?_⟩
    intro l r hr
    have := hinv l r hr
    simpa using this
  | cons ρ rest ih =>
    intro eq i P hroots hlen hinv hnb
    have hρ := hroots ρ (List.mem_cons_self _ _)
    have hminc : RootOf eq min min := by
      have := hinv min min hmin
      simpa using this
    -- the array after `equivalence[root] = min`
    have hinv1 : ∀ l r, RootOf eq0 l r →
        RootOf (eq.set ρ.toNat min) l (if r ∈ ρ :: P then min else r) := by
      have hρc := hinv ρ ρ hρ
      by_cases hP : ρ ∈ P
      · rw [if_pos hP] at hρc
        intro l r hr
        rw [rootOf_set_iff hρc]
        have := hinv l r hr
        by_cases hrP : r ∈ P
        · rw [if_pos hrP] at this
          rw [if_pos (List.mem_cons_of_mem _ hrP)]
          exact this
        · rw [if_neg hrP] at this
          have hne : r ≠ ρ := fun e => hrP (e ▸ hP)
          rw [if_neg (by simp [hne, hrP])]
          exact this
      · rw [if_neg hP] at hρc
        intro l r hr
        have h1 := rootOf_link hρc.isRoot hminc.isRoot (hinv l r hr)
        by_cases hrP : r ∈ P
        · rw [if_pos hrP] at h1
          rw [if_pos (List.mem_cons_of_mem _ hrP)]
          by_cases hmρ : min = ρ
          · rw [if_pos hmρ] at h1; exact h1
          · rw [if_neg hmρ] at h1; exact h1
        · rw [if_neg hrP] at h1
          by_cases hrρ : r = ρ
          · rw [if_pos hrρ] at h1
            rw [if_pos (by simp [hrρ])]
            exact h1
          · rw [if_neg hrρ] at h1
            rw [if_neg (by simp [hrρ, hrP])]
            exact h1
    have hρr : InRange eq.length ρ := by rw [hlen]; exact hρ.inRange
    obtain ⟨n, rn, hn, hrn⟩ := hnb i (le_refl _) (by simp)
    have hrn1 := hinv1 n rn hrn
    obtain ⟨eq2, hfind, hlen2, hroots2⟩ := find_spec hrn1
    have hinv2 : ∀ l r, RootOf eq0 l r → RootOf eq2 l (if r ∈ ρ :: P then min else r) :=
      fun l r hr => (hroots2 l _).2 (hinv1 l r hr)
    obtain ⟨eq3, hrun, hlen3, hfinal⟩ := ih eq2 (i + 1) (ρ :: P)
      (fun q hq => hroots q (List.mem_cons_of_mem _ hq))
      (by rw [hlen2, List.length_set, hlen]) hinv2
      (fun k hk1 hk2 => hnb k (by omega) (by simp only [List.length_cons]; omega))
    refine ⟨eq3, ?_, hlen3, ?_⟩
    · simp only [linkRoots, upd_of_inRange min hρr, idx_natCast, hn, hfind]
      exact hrun
    · intro l r hr
      have := hfinal l r hr
      have hiff : (r ∈ ρ :: P ∨ r ∈ rest) ↔ (r ∈ P ∨ r ∈ ρ :: rest) := by
        simp only [List.mem_cons]
        tauto
      by_cases hc : r ∈ P ∨ r ∈ ρ :: rest
      · rw [if_pos hc]
        rw [if_pos (hiff.2 hc)] at this
        exact this
      · rw [if_neg hc]
        rw [if_neg (fun h => hc (hiff.1 h))] at this
        exact this

/-! ## The first pass of `HoshenKopelmanExact` over a causal node source -/

theorem labOf_set_ne {labels : List Int} {m j : Nat} (c : Int) (h : j ≠ m) :
    labOf (labels.set m c) j = labOf labels j := by
  unfold labOf
  rw [List.getD_eq_getElem?_getD, List.getD_eq_getElem?_getD, List.getElem?_set_ne (Ne.symm h)]

theorem labOf_set_self {labels : List Int} {m : Nat} (c : Int) (h : m < labels.length) :
    labOf (labels.set m c) m = c := by
  unfold labOf
  rw [List.getD_eq_getElem?_getD, List.getElem?_set_self h]
  rfl

theorem labOf_of_lt {labels : List Int} {j : Nat} (h : j < labels.length) :
    labels[j]? = some (labOf labels j) := by
  unfold labOf
  rw [List.getD_eq_getElem?_getD, List.getElem?_eq_getElem h]
  rfl

theorem mapM_labels (labels : List Int) : ∀ (l : List Nat), (∀ j, j ∈ l → j < labels.length) →
    l.mapM (fun j => labels[j]?) = some (l.map (labOf labels)) := by
  intro l
  induction l with
  | nil => intro _; rfl
  | cons a l ih =>
    intro h
    rw [List.mapM_cons, labOf_of_lt (h a (List.mem_cons_self _ _)),
      ih (fun j hj => h j (List.mem_cons_of_mem _ hj))]
    rfl

theorem causal_lt {nodes : List GNode} (hc : Causal nodes) : ∀ i j, Nbr nodes i j → j < i := by
  rintro i j ⟨nd, hnd, hj⟩
  exact hc (i, nd) (List.mk_mem_enum_iff_getElem?.2 hnd) j hj

theorem sizeAt_of_get {nodes : List GNode} {i : Nat} {nd : GNode} (h : nodes[i]? = some nd) :
    sizeAt nodes i = nd.size := by
  unfold sizeAt
  rw [h]

theorem firstPassExact_done {σ : Type} (labeler : CCLabeler σ) (fuel : Nat) (s s1 : σ) (st : HKState)
    (h : labeler.Next s = some (false, s1)) :
    firstPassExact labeler (fuel + 1) s st = some (s1, st) := by
  simp only [firstPassExact, h]

theorem firstPassExact_fresh {σ : Type} (labeler : CCLabeler σ) (fuel : Nat) (s s1 s2 : σ)
    (st : HKState) (size : Int) (h : labeler.Next s = some (true, s1))
    (hn : labeler.Neighbors s1 = some []) (hs : labeler.SetLabel s1 st.largestLabel = some s2)
    (hz : labeler.Size s2 = some size) :
    firstPassExact labeler (fuel + 1) s st = firstPassExact labeler fuel s2
      { equivalence := st.equivalence ++ [st.largestLabel]
        largestLabel := st.largestLabel + 1
        blobs := st.blobs ++ [⟨st.largestLabel, size⟩] } := by
  simp only [firstPassExact, h, hn, List.length_nil, if_true, hs, hz]

theorem firstPassExact_merge {σ : Type} (labeler : CCLabeler σ) (fuel : Nat) (s s1 s2 : σ)
    (st : HKState) (size : Int) (neighbors eq1 roots eq2 : List Int) (min : Int) (b : Blob)
    (blobs1 : List Blob) (h : labeler.Next s = some (true, s1))
    (hn : labeler.Neighbors s1 = some neighbors) (hne : neighbors ≠ [])
    (hf : findRoots st.equivalence neighbors [] MaxInt = some (eq1, roots, min))
    (hl : linkRoots neighbors min eq1 0 roots = some eq2)
    (hs : labeler.SetLabel s1 min = some s2) (hz : labeler.Size s2 = some size)
    (hb : idx st.blobs min = some b)
    (hu : upd st.blobs min { b with Size := b.Size + size } = some blobs1) :
    firstPassExact labeler (fuel + 1) s st = firstPassExact labeler fuel s2
      { equivalence := eq2, largestLabel := st.largestLabel, blobs := blobs1 } := by
  have hlen : ¬ neighbors.length = 0 := by
    intro e
    exact hne (List.length_eq_zero.1 e)
  simp only [firstPassExact, h, hn, if_neg hlen, hf, hl, hs, hz, hb, hu]

theorem HKInv.init (nodes : List GNode) :
    HKInv nodes 0 (Source.init nodes) { equivalence := [], largestLabel := 0, blobs := [] } where
  nodes_eq := rfl
  pos_eq := rfl
  le := Nat.zero_le _
  labels_len := by simp [Source.init]
  largest := rfl
  lab := LabInv.empty _ _ _
  labelled := fun j hj => by omega
  bound := le_refl _

/-- One iteration of the first pass over a causal node source. -/
theorem HKInv.advance {nodes : List GNode} (hc : Causal nodes)
    (hbig : (nodes.length : Int) ≤ MaxInt) {m : Nat} {s : Source} {st : HKState}
    (h : HKInv nodes m s st) (hm : m < nodes.length) :
    ∃ s2 st2, (∀ fuel, firstPassExact Source.labeler (fuel + 1) s st
        = firstPassExact Source.labeler fuel s2 st2) ∧ HKInv nodes (m + 1) s2 st2 := by
  obtain ⟨snodes, labels, pos⟩ := s
  obtain ⟨eq, ll, blobs⟩ := st
  have e1 := h.nodes_eq
  have e2 := h.pos_eq
  have e3 := h.largest
  simp only at e1 e2 e3
  subst e1 e2 e3
  obtain ⟨nd, hnd⟩ : ∃ nd, snodes[pos]? = some nd := ⟨snodes[pos], List.getElem?_eq_getElem hm⟩
  have hcl := causal_lt hc
  have hnb : ∀ j, j ∈ nd.nbrs → j < pos := fun j hj => hcl pos j ⟨nd, hnd, hj⟩
  have hlablen : labels.length = snodes.length := h.labels_len
  have hnext : Source.labeler.Next ⟨snodes, labels, pos⟩ = some (true, ⟨snodes, labels, pos + 1⟩) := by
    simp only [Source.labeler]
    rw [if_pos hm]
  have hneigh : Source.labeler.Neighbors ⟨snodes, labels, pos + 1⟩
      = some (nd.nbrs.map (labOf labels)) := by
    simp only [Source.labeler, Nat.add_sub_cancel, hnd]
    rw [if_neg (by omega)]
    exact mapM_labels labels nd.nbrs (fun j hj => by rw [hlablen]; have := hnb j hj; omega)
  have hset : ∀ c, Source.labeler.SetLabel ⟨snodes, labels, pos + 1⟩ c
      = some ⟨snodes, labels.set pos c, pos + 1⟩ := by
    intro c
    simp only [Source.labeler, Nat.add_sub_cancel]
    rw [if_neg (by omega)]
  have hsize : ∀ c, Source.labeler.Size ⟨snodes, labels.set pos c, pos + 1⟩
      = some (sizeAt snodes pos) := by
    intro c
    simp only [Source.labeler, Nat.add_sub_cancel, hnd, sizeAt]
    rw [if_neg (by omega)]
  have hmlen : pos < labels.length := by rw [hlablen]; exact hm
  have hbound : eq.length ≤ pos := h.bound
  have hlabelled : ∀ j, j < pos → InRange eq.length (labOf labels j) := h.labelled
  have hlab0 : LabInv (Nbr snodes) (sizeAt snodes) (labOf labels) pos eq blobs := h.lab
  -- the invariant, read with the labels after the assignment to the node
  have hlab : ∀ c, LabInv (Nbr snodes) (sizeAt snodes) (labOf (labels.set pos c)) pos eq blobs :=
    fun c => hlab0.congr (fun i hi => labOf_set_ne c (by omega))
  have hR : ∀ n, Nbr snodes pos n ↔ n ∈ nd.nbrs := by
    intro n
    constructor
    · rintro ⟨nd2, hnd2, hn⟩
      rw [hnd] at hnd2
      cases Option.some.inj hnd2
      exact hn
    · intro hn
      exact ⟨nd, hnd, hn⟩
  by_cases hnil : nd.nbrs = []
  · -- no neighbour: a new label
    refine ⟨⟨snodes, labels.set pos (eq.length : Int), pos + 1⟩,
      { equivalence := eq ++ [(eq.length : Int)]
        largestLabel := (eq.length : Int) + 1
        blobs := blobs ++ [⟨(eq.length : Int), sizeAt snodes pos⟩] }, ?_, ?_⟩
    · intro fuel
      exact firstPassExact_fresh _ fuel _ _ _ _ _ hnext (by rw [hneigh, hnil]; rfl) (hset _)
        (hsize _)
    · have hfresh := (hlab (eq.length : Int)).fresh hcl
        (fun n hn => by rw [hR, hnil] at hn; simp at hn)
        (labOf_set_self _ hmlen)
      refine ⟨rfl, rfl, hm, by simp only [List.length_set]; exact hlablen, ?_, hfresh, ?_, ?_⟩
      · simp only [List.length_append, List.length_singleton]
        push_cast
        rfl
      · intro j hj
        simp only [List.length_append, List.length_singleton]
        by_cases hjm : j = pos
        · subst hjm
          rw [labOf_set_self _ hmlen]
          exact ⟨by omega, by push_cast; omega⟩
        · rw [labOf_set_ne _ hjm]
          have := hlabelled j (by omega)
          exact ⟨this.1, by have := this.2; push_cast; omega⟩
      · simp only [List.length_append, List.length_singleton]
        omega
  · -- neighbours: merge their classes
    have hNroot : ∀ l, l ∈ nd.nbrs.map (labOf labels) → ∃ r, RootOf eq l r := by
      intro l hl
      obtain ⟨j, hj, rfl⟩ := List.mem_map.1 hl
      exact hlab0.forest _ (hlabelled j (hnb j hj))
    obtain ⟨eq1, rs, min, hfr, hlen1, hroots1, hall, hmin, -, hlow⟩ :=
      findRoots_spec (nd.nbrs.map (labOf labels)) eq [] MaxInt hNroot
    rw [List.nil_append] at hfr
    have hne : nd.nbrs.map (labOf labels) ≠ [] := by
      intro e
      exact hnil (List.map_eq_nil_iff.1 e)
    -- the roots are labels, hence smaller than `MaxInt`
    have hrs : ∀ r, r ∈ rs → ∃ l, l ∈ nd.nbrs.map (labOf labels) ∧ RootOf eq l r := by
      intro r hr
      obtain ⟨k, hk, rfl⟩ := List.getElem_of_mem hr
      have hk2 : k < (nd.nbrs.map (labOf labels)).length := by rw [hall.length_eq]; exact hk
      exact ⟨_, List.getElem_mem hk2, List.Forall₂.get hall hk2 hk⟩
    have hminrs : min ∈ rs := by
      rcases hmin with h1 | h1
      · exfalso
        obtain ⟨l0, hl0⟩ := List.exists_mem_of_ne_nil _ hne
        obtain ⟨k, hk, hk2⟩ := List.getElem_of_mem hl0
        have hk3 : k < rs.length := by rw [← hall.length_eq]; exact hk
        have h2 := hlow _ (List.getElem_mem hk3)
        obtain ⟨l, -, hl⟩ := hrs _ (List.getElem_mem hk3)
        have h3 := hl.root_inRange.2
        rw [h1] at h2
        omega
      · exact h1
    obtain ⟨lmin, hlmin, hrmin⟩ := hrs min hminrs
    have hminroot1 : RootOf eq1 min min := (hroots1 _ _).2 hrmin.root_root
    obtain ⟨eq2, hlink, hlen2, hfinal⟩ := linkRoots_spec (nd.nbrs.map (labOf labels)) min eq1
      hminroot1 rs eq1 0 [] (fun ρ hρ => by
        obtain ⟨l, -, hl⟩ := hrs ρ hρ
        exact (hroots1 _ _).2 hl.root_root) rfl
      (fun l r hr => by simpa using hr)
      (fun k _ hk => by
        have hk2 : k < (nd.nbrs.map (labOf labels)).length := by
          rw [hall.length_eq]; omega
        obtain ⟨r, hr⟩ := hNroot _ (List.getElem_mem hk2)
        exact ⟨_, r, List.getElem?_eq_getElem hk2, (hroots1 _ _).2 hr⟩)
    have hminr : InRange blobs.length min := by
      rw [hlab0.len]; exact hrmin.root_inRange
    obtain ⟨b, hb⟩ := idx_isSome_of_inRange hminr
    have hmem : ∀ r, (∃ l2, l2 ∈ nd.nbrs.map (labOf labels) ∧ RootOf eq l2 r) ↔ r ∈ rs := by
      intro r
      constructor
      · rintro ⟨l2, hl2, hr2⟩
        obtain ⟨k, hk, rfl⟩ := List.getElem_of_mem hl2
        have hk3 : k < rs.length := by rw [← hall.length_eq]; exact hk
        have := RootOf.unique hr2 (List.Forall₂.get hall hk hk3)
        rw [← this]
        exact List.getElem_mem hk3
      · exact hrs r
    refine ⟨⟨snodes, labels.set pos min, pos + 1⟩,
      { equivalence := eq2, largestLabel := (eq.length : Int)
        blobs := blobs.set min.toNat { b with Size := b.Size + sizeAt snodes pos } }, ?_, ?_⟩
    · intro fuel
      exact firstPassExact_merge _ fuel _ _ _ _ _ _ eq1 rs eq2 min b _ hnext hneigh hne hfr hlink
        (hset _) (hsize _) hb (upd_of_inRange _ hminr)
    · have hmapeq : nd.nbrs.map (labOf (labels.set pos min)) = nd.nbrs.map (labOf labels) := by
        apply List.map_congr_left
        intro j hj
        exact labOf_set_ne _ (by have := hnb j hj; omega)
      have hmerge := (hlab min).merge hcl (nd.nbrs.map (labOf labels))
        (fun n hn => by
          rw [hR] at hn
          rw [← hmapeq]
          exact List.mem_map_of_mem _ hn)
        (fun l hl => by
          rw [← hmapeq] at hl
          obtain ⟨j, hj, rfl⟩ := List.mem_map.1 hl
          exact ⟨j, (hR j).2 hj, rfl⟩)
        hNroot ⟨lmin, hlmin, hrmin⟩ (labOf_set_self _ hmlen) (by rw [hlen2, hlen1])
        (fun l r hr hM => by
          have := hfinal l r ((hroots1 _ _).2 hr)
          rw [if_pos (Or.inr ((hmem r).1 hM))] at this
          exact this)
        (fun l r hr hM => by
          have := hfinal l r ((hroots1 _ _).2 hr)
          rw [if_neg (by
            rintro (h1 | h1)
            · simp at h1
            · exact hM ((hmem r).2 h1))] at this
          exact this) hb
      refine ⟨rfl, rfl, hm, by simp only [List.length_set]; exact hlablen, ?_, hmerge, ?_, ?_⟩
      · simp only [hlen2, hlen1]
      · intro j hj
        simp only [hlen2, hlen1]
        by_cases hjm : j = pos
        · subst hjm
          rw [labOf_set_self _ hmlen]
          exact hrmin.root_inRange
        · rw [labOf_set_ne _ hjm]
          exact hlabelled j (by omega)
      · simp only [hlen2, hlen1]
        omega

/-- The first pass over a causal node source returns, having visited every node. -/
theorem firstPassExact_spec {nodes : List GNode} (hc : Causal nodes)
    (hbig : (nodes.length : Int) ≤ MaxInt) : ∀ (fuel m : Nat) (s : Source) (st : HKState),
    HKInv nodes m s st → nodes.length - m < fuel →
    ∃ s2 st2, firstPassExact Source.labeler fuel s st = some (s2, st2) ∧
      HKInv nodes nodes.length s2 st2 := by
  intro fuel
  induction fuel with
  | zero => intro m s st _ hf; omega
  | succ f ih =>
    intro m s st h hf
    by_cases hm : m < nodes.length
    · obtain ⟨s2, st2, hstep, hinv⟩ := h.advance hc hbig hm
      rw [hstep f]
      exact ih (m + 1) s2 st2 hinv (by omega)
    · have hmn : m = nodes.length := by have := h.le; omega
      subst hmn
      refine ⟨s, st, ?_, h⟩
      apply firstPassExact_done
      simp only [Source.labeler]
      rw [if_neg (by rw [h.pos_eq, h.nodes_eq]; omega)]

/-! ## The loop that moves the sizes to the roots -/

theorem rootIs_iff {eq : List Int} {l r : Int} : rootIs eq l r ↔ RootOf eq l r :=
  ⟨fun h => rootOf_of_findParent _ _ _ _ h, fun h => findParent_of_rootOf h⟩

theorem aggregate_loop {R : Nat → Nat → Prop} {w : Nat → Int} {lab : Nat → Int} {n : Nat}
    {eq0 : List Int} {blobs0 : List Blob} (h : LabInv R w lab n eq0 blobs0) :
    ∀ (k i : Nat) (eq : List Int) (blobs : List Blob), i + k = eq0.length →
      eq.length = eq0.length → (∀ x q, RootOf eq x q ↔ RootOf eq0 x q) →
      blobs.length = eq0.length →
      (∀ l, InRange eq0.length l → idx blobs l = some ⟨l, aggSize n w lab eq0 i l⟩) →
      ∃ eq2 blobs2, aggregate k i eq blobs = some (eq2, blobs2) ∧ eq2.length = eq0.length ∧
        (∀ x q, RootOf eq2 x q ↔ RootOf eq0 x q) ∧ blobs2.length = eq0.length ∧
        ∀ l, InRange eq0.length l →
          idx blobs2 l = some ⟨l, aggSize n w lab eq0 eq0.length l⟩ := by
  intro k
  induction k with
  | zero =>
    intro i eq blobs hik hlen hroots hblen hsz
    have : i = eq0.length := by omega
    subst this
    exact ⟨eq, blobs, rfl, hlen, hroots, hblen, hsz⟩
  | succ k ih =>
    intro i eq blobs hik hlen hroots hblen hsz
    have hir : InRange eq0.length (i : Int) := ⟨by omega, by omega⟩
    have hbi := hsz _ hir
    rw [idx_natCast] at hbi
    obtain ⟨r, hr0⟩ := h.forest _ hir
    have hr : RootOf eq (i : Int) r := (hroots _ _).2 hr0
    obtain ⟨eq1, hfind, hlen1, hroots1⟩ := find_spec hr
    have hroots1' : ∀ x q, RootOf eq1 x q ↔ RootOf eq0 x q :=
      fun x q => (hroots1 x q).trans (hroots x q)
    by_cases hri : r = (i : Int)
    · -- a root: nothing moves
      subst hri
      have hsz2 : ∀ l, InRange eq0.length l →
          idx blobs l = some ⟨l, aggSize n w lab eq0 (i + 1) l⟩ := by
        intro l hl
        rw [hsz l hl]
        congr 2
        unfold aggSize
        by_cases hroot : rootIs eq0 l l
        · rw [if_pos hroot, if_pos hroot]
          apply wsum_congr
          intro j _
          constructor
          · rintro (h1 | ⟨h1, h2⟩)
            · exact Or.inl h1
            · exact Or.inr ⟨h1, by push_cast; omega⟩
          · rintro (h1 | ⟨h1, h2⟩)
            · exact Or.inl h1
            · by_cases hji : lab j = (i : Int)
              · left
                rw [hji] at h1
                rw [hji]
                exact (RootOf.unique hr0 (rootIs_iff.1 h1)).symm
              · exact Or.inr ⟨h1, by push_cast at h2; omega⟩
        · rw [if_neg hroot, if_neg hroot]
          have hli : l ≠ (i : Int) := by
            rintro rfl
            exact hroot (rootIs_iff.2 hr0)
          by_cases hlt : l < (i : Int)
          · rw [if_pos hlt, if_pos (by push_cast; omega)]
          · rw [if_neg hlt, if_neg (by push_cast; omega)]
      obtain ⟨eq2, blobs2, hrun, hrest⟩ := ih (i + 1) eq1 blobs (by omega) (by rw [hlen1, hlen])
        hroots1' hblen hsz2
      refine ⟨eq2, blobs2, ?_, hrest⟩
      simp only [aggregate, hbi, hfind, if_true]
      exact hrun
    · -- not a root: its size moves to the root
      have hrr : InRange eq0.length r := hr0.root_inRange
      have hbr := hsz _ hrr
      have hrroot : rootIs eq0 r r := rootIs_iff.2 hr0.root_root
      have hinot : ¬ rootIs eq0 (i : Int) (i : Int) := by
        intro hroot
        exact hri (RootOf.unique (rootIs_iff.1 hroot) hr0)
      have hbsize : aggSize n w lab eq0 i (i : Int) = wsum n w (fun j => lab j = (i : Int)) := by
        unfold aggSize
        rw [if_neg hinot, if_neg (by omega)]
      have hrb : InRange blobs.length r := by rw [hblen]; exact hrr
      have hib : InRange (blobs.set r.toNat
          ⟨r, aggSize n w lab eq0 i r + aggSize n w lab eq0 i (i : Int)⟩).length (i : Int) := by
        rw [List.length_set, hblen]; exact hir
      have hsz2 : ∀ l, InRange eq0.length l →
          idx ((blobs.set r.toNat
            ⟨r, aggSize n w lab eq0 i r + aggSize n w lab eq0 i (i : Int)⟩).set
              (i : Int).toNat ⟨(i : Int), 0⟩) l
            = some ⟨l, aggSize n w lab eq0 (i + 1) l⟩ := by
        intro l hl
        by_cases hli : l = (i : Int)
        · subst hli
          rw [idx_set_self hib]
          congr 2
          unfold aggSize
          rw [if_neg hinot, if_pos (by push_cast; omega)]
        · rw [idx_set_ne hir.1 (Ne.symm hli)]
          by_cases hlr : l = r
          · subst hlr
            rw [idx_set_self hrb, hbsize]
            congr 2
            unfold aggSize
            rw [if_pos hrroot, if_pos hrroot, ← wsum_add]
            · apply wsum_congr
              intro j _
              constructor
              · rintro ((h1 | ⟨h1, h2⟩) | h1)
                · exact Or.inl h1
                · exact Or.inr ⟨h1, by push_cast; omega⟩
                · refine Or.inr ⟨?_, by rw [h1]; push_cast; omega⟩
                  rw [h1]
                  exact rootIs_iff.2 hr0
              · rintro (h1 | ⟨h1, h2⟩)
                · exact Or.inl (Or.inl h1)
                · by_cases hji : lab j = (i : Int)
                  · exact Or.inr hji
                  · exact Or.inl (Or.inr ⟨h1, by push_cast at h2; omega⟩)
            · rintro j _ ⟨h1 | ⟨h1, h2⟩, h3⟩
              · rw [h1] at h3
                exact hri h3
              · omega
          · rw [idx_set_ne hrr.1 (Ne.symm hlr), hsz l hl]
            congr 2
            unfold aggSize
            by_cases hroot : rootIs eq0 l l
            · rw [if_pos hroot, if_pos hroot]
              apply wsum_congr
              intro j _
              constructor
              · rintro (h1 | ⟨h1, h2⟩)
                · exact Or.inl h1
                · exact Or.inr ⟨h1, by push_cast; omega⟩
              · rintro (h1 | ⟨h1, h2⟩)
                · exact Or.inl h1
                · by_cases hji : lab j = (i : Int)
                  · exfalso
                    rw [hji] at h1
                    exact hlr (RootOf.unique hr0 (rootIs_iff.1 h1))
                  · exact Or.inr ⟨h1, by push_cast at h2; omega⟩
            · rw [if_neg hroot, if_neg hroot]
              by_cases hlt : l < (i : Int)
              · rw [if_pos hlt, if_pos (by push_cast; omega)]
              · rw [if_neg hlt, if_neg (by push_cast; omega)]
      obtain ⟨eq2, blobs2, hrun, hrest⟩ := ih (i + 1) eq1 _ (by omega) (by rw [hlen1, hlen])
        hroots1' (by rw [List.length_set, List.length_set, hblen]) hsz2
      refine ⟨eq2, blobs2, ?_, hrest⟩
      have hbi2 : idx (blobs.set r.toNat
          ⟨r, aggSize n w lab eq0 i r + aggSize n w lab eq0 i (i : Int)⟩) (i : Int)
          = some ⟨(i : Int), aggSize n w lab eq0 i (i : Int)⟩ := by
        rw [idx_set_ne hrr.1 hri, hsz _ hir]
      simp only [aggregate, hbi, hfind, if_neg hri, hbr, upd_of_inRange _ hrb, hbi2,
        upd_of_inRange _ hib]
      exact hrun

/-- The loop that moves the sizes to the roots returns; it changes no root, and leaves in
the record of each root the weight of its class and in every other record zero. -/
theorem aggregate_spec {R : Nat → Nat → Prop} {w : Nat → Int} {lab : Nat → Int} {n : Nat}
    {eq0 : List Int} {blobs0 : List Blob} (h : LabInv R w lab n eq0 blobs0) :
    ∃ eq2 blobs2, aggregate blobs0.length 0 eq0 blobs0 = some (eq2, blobs2) ∧
      eq2.length = eq0.length ∧ (∀ x q, RootOf eq2 x q ↔ RootOf eq0 x q) ∧
      blobs2.length = eq0.length ∧
      ∀ l, InRange eq0.length l → idx blobs2 l = some ⟨l, classSize n w lab eq0 l⟩ := by
  have hinit : ∀ l, InRange eq0.length l →
      idx blobs0 l = some ⟨l, aggSize n w lab eq0 0 l⟩ := by
    intro l hl
    rw [h.size l hl]
    congr 2
    unfold aggSize
    by_cases hroot : rootIs eq0 l l
    · rw [if_pos hroot]
      apply wsum_congr
      intro j hj
      constructor
      · intro h1; exact Or.inl h1
      · rintro (h1 | ⟨h1, h2⟩)
        · exact h1
        · have := (rootIs_iff.1 h1).inRange.1
          push_cast at h2
          omega
    · rw [if_neg hroot, if_neg (by have := hl.1; push_cast; omega)]
  obtain ⟨eq2, blobs2, hrun, hlen, hroots, hblen, hsz⟩ :=
    aggregate_loop h blobs0.length 0 eq0 blobs0 (by rw [h.len]; omega) rfl
      (fun _ _ => Iff.rfl) h.len hinit
  refine ⟨eq2, blobs2, hrun, hlen, hroots, hblen, ?_⟩
  intro l hl
  rw [hsz l hl]
  congr 2
  unfold aggSize classSize
  by_cases hroot : rootIs eq0 l l
  · rw [if_pos hroot, if_pos hroot]
    apply wsum_congr
    intro j hj
    constructor
    · rintro (h1 | ⟨h1, -⟩)
      · rw [h1]; exact hroot
      · exact h1
    · intro h1
      exact Or.inr ⟨h1, (rootIs_iff.1 h1).inRange.2⟩
  · rw [if_neg hroot, if_neg hroot, if_pos hl.2]

/-! ## The loop that fills `mapping` -/

theorem relabelFrom_false : ∀ (bs : List Blob) (i : Nat), relabelFrom false i bs = bs := by
  intro bs
  induction bs with
  | nil => intro i; rfl
  | cons b rest ih =>
    intro i
    simp only [relabelFrom, ih (i + 1)]
    by_cases hb : b.Size = 0
    · rw [if_pos hb]
    · rw [if_neg hb]; rfl

theorem relabelFrom_length (setID : Bool) : ∀ (bs : List Blob) (i : Nat),
    (relabelFrom setID i bs).length = bs.length := by
  intro bs
  induction bs with
  | nil => intro i; rfl
  | cons b rest ih => intro i; simp only [relabelFrom, List.length_cons, ih (i + 1)]

/-- Whenever the loop returns, it has counted the elements of non-zero size and left the
elements as `relabelFrom` says. -/
theorem fillMapping_done (setID : Bool) : ∀ (bs : List Blob) (i : Nat) (st ms : MapState),
    fillMapping setID bs i st = some ms →
    ms.done = st.done ++ relabelFrom setID i bs ∧
      ms.numNotEmpty = st.numNotEmpty + bs.countP (fun b => decide (b.Size ≠ 0)) := by
  intro bs
  induction bs with
  | nil =>
    intro i st ms h
    simp only [fillMapping] at h
    cases Option.some.inj h
    simp [relabelFrom]
  | cons b rest ih =>
    intro i st ms h
    unfold fillMapping at h
    by_cases hb : b.Size = 0
    · rw [if_pos hb] at h
      cases hf : find st.equivalence b.ID with
      | none => simp [hf] at h
      | some p =>
        obtain ⟨eq1, root⟩ := p
        simp only [hf] at h
        cases hi : idx st.mapping root with
        | none => simp [hi] at h
        | some m =>
          simp only [hi] at h
          cases hu : upd st.mapping b.ID m with
          | none => simp [hu] at h
          | some mapping1 =>
            simp only [hu] at h
            obtain ⟨h1, h2⟩ := ih _ _ _ h
            simp only at h1 h2
            refine ⟨?_, ?_⟩
            · rw [h1]
              simp [relabelFrom, hb]
            · rw [h2]
              simp [hb]
    · rw [if_neg hb] at h
      cases hu : upd st.mapping b.ID (i : Int) with
      | none => simp [hu] at h
      | some mapping1 =>
        simp only [hu] at h
        obtain ⟨h1, h2⟩ := ih _ _ _ h
        simp only at h1 h2
        refine ⟨?_, ?_⟩
        · rw [h1]
          simp [relabelFrom, hb]
        · rw [h2]
          simp [hb]
          omega

/-- The loop returns when the array is a forest and every ID is a valid label. -/
theorem fillMapping_total (setID : Bool) (L : Nat) : ∀ (bs : List Blob) (i : Nat)
    (st : MapState), (∀ b, b ∈ bs → InRange L b.ID) → st.mapping.length = L →
    st.equivalence.length = L → Forest st.equivalence →
    ∃ ms, fillMapping setID bs i st = some ms ∧ ms.mapping.length = L := by
  intro bs
  induction bs with
  | nil =>
    intro i st _ hm _ _
    exact ⟨st, rfl, hm⟩
  | cons b rest ih =>
    intro i st hr hm he hf
    have hbr := hr b (List.mem_cons_self _ _)
    have hrest : ∀ c, c ∈ rest → InRange L c.ID := fun c hc => hr c (List.mem_cons_of_mem _ hc)
    by_cases hb : b.Size = 0
    · obtain ⟨r, hroot⟩ := hf b.ID (by rw [he]; exact hbr)
      obtain ⟨eq1, hfind, hlen1, hroots1⟩ := find_spec hroot
      obtain ⟨m, hm1⟩ := @idx_isSome_of_inRange _ st.mapping _
        (by rw [hm, ← he]; exact hroot.root_inRange)
      obtain ⟨ms, hrun, hlen⟩ := ih (i + 1)
        { equivalence := eq1, mapping := st.mapping.set b.ID.toNat m
          numNotEmpty := st.numNotEmpty, done := st.done ++ [b] } hrest
        (by simp only [List.length_set]; exact hm) (by simp only [hlen1]; exact he)
        (hf.of_iff hlen1 hroots1)
      refine ⟨ms, ?_, hlen⟩
      simp only [fillMapping, if_pos hb, hfind, hm1,
        upd_of_inRange m (by rw [hm]; exact hbr : InRange st.mapping.length b.ID)]
      exact hrun
    · obtain ⟨ms, hrun, hlen⟩ := ih (i + 1)
        { equivalence := st.equivalence, mapping := st.mapping.set b.ID.toNat (i : Int)
          numNotEmpty := st.numNotEmpty + 1
          done := st.done ++ [if setID then { b with ID := (i : Int) } else b] } hrest
        (by simp only [List.length_set]; exact hm) he hf
      refine ⟨ms, ?_, hlen⟩
      simp only [fillMapping, if_neg hb,
        upd_of_inRange (i : Int) (by rw [hm]; exact hbr : InRange st.mapping.length b.ID)]
      exact hrun

/-- When the elements of non-zero size are the roots and come first, the loop maps every
label to the index of the element of its root. -/
theorem fillMapping_spec (setID : Bool) (eq0 : List Int) (sorted : List Blob)
    (hrange : ∀ b, b ∈ sorted → InRange eq0.length b.ID)
    (hinj : ∀ (p q : Nat) (b c : Blob), sorted[p]? = some b → sorted[q]? = some c → b.ID = c.ID → p = q)
    (hdesc : sorted.Pairwise (fun a b => b.Size ≤ a.Size))
    (hnz : ∀ b, b ∈ sorted → b.Size ≠ 0 → RootOf eq0 b.ID b.ID)
    (hz : ∀ b, b ∈ sorted → b.Size = 0 →
      ∃ r c, RootOf eq0 b.ID r ∧ c ∈ sorted ∧ c.ID = r ∧ 0 < c.Size) :
    ∀ (bs pre : List Blob) (st : MapState), sorted = pre ++ bs →
      st.mapping.length = eq0.length → st.equivalence.length = eq0.length →
      (∀ x q, RootOf st.equivalence x q ↔ RootOf eq0 x q) →
      (∀ (p : Nat) (b : Blob), p < pre.length → sorted[p]? = some b →
        ∃ (q : Nat) (c : Blob), sorted[q]? = some c ∧ c.Size ≠ 0 ∧ RootOf eq0 b.ID c.ID ∧
          idx st.mapping b.ID = some (q : Int)) →
      ∃ ms, fillMapping setID bs pre.length st = some ms ∧ ms.mapping.length = eq0.length ∧
        ∀ (p : Nat) (b : Blob), sorted[p]? = some b →
          ∃ (q : Nat) (c : Blob), sorted[q]? = some c ∧ c.Size ≠ 0 ∧ RootOf eq0 b.ID c.ID ∧
            idx ms.mapping b.ID = some (q : Int) := by
  intro bs
  induction bs with
  | nil =>
    intro pre st hs hm _ _ hinv
    refine ⟨st, rfl, hm, ?_⟩
    intro p b hp
    have hlt : p < sorted.length := (List.getElem?_eq_some.1 hp).1
    rw [hs, List.append_nil] at hlt
    exact hinv p b hlt hp
  | cons b rest ih =>
    intro pre st hs hm he hroots hinv
    have hbget : sorted[pre.length]? = some b := by
      rw [hs, List.getElem?_append_right (le_refl _)]
      simp
    have hbmem : b ∈ sorted := by
      rw [hs]; simp
    have hbr := hrange b hbmem
    have hs2 : sorted = (pre ++ [b]) ++ rest := by rw [hs]; simp
    have hlen2 : (pre ++ [b]).length = pre.length + 1 := by simp
    -- the other entries of `mapping` are not touched
    have hkeep : ∀ (v : Int) (p : Nat) (c : Blob), p < pre.length → sorted[p]? = some c →
        idx (st.mapping.set b.ID.toNat v) c.ID = idx st.mapping c.ID := by
      intro v p c hp hc
      apply idx_set_ne hbr.1
      intro e
      have := hinj _ _ _ _ hbget hc e
      omega
    have hbm : InRange st.mapping.length b.ID := by rw [hm]; exact hbr
    by_cases hb : b.Size = 0
    · obtain ⟨r, c, hroot, hcmem, hcid, hcpos⟩ := hz b hbmem hb
      obtain ⟨eq1, hfind, hlen1, hroots1⟩ := find_spec ((hroots _ _).2 hroot)
      -- the element of the root comes before
      obtain ⟨q, hq, hqc⟩ := List.getElem_of_mem hcmem
      have hqget : sorted[q]? = some c := by rw [List.getElem?_eq_getElem hq, hqc]
      have hqlt : q < pre.length := by
        by_contra hge
        have hne : q ≠ pre.length := by
          rintro rfl
          rw [hbget] at hqget
          cases Option.some.inj hqget
          omega
        have hlt : pre.length < q := by omega
        have hpl : pre.length < sorted.length := (List.getElem?_eq_some.1 hbget).1
        have := List.pairwise_iff_getElem.1 hdesc pre.length q hpl hq hlt
        rw [hqc] at this
        have hb2 : sorted[pre.length] = b := by
          have := List.getElem?_eq_getElem hpl
          rw [hbget] at this
          exact (Option.some.inj this).symm
        rw [hb2] at this
        omega
      obtain ⟨q2, c2, hq2, hc2nz, hc2root, hc2idx⟩ := hinv q c hqlt hqget
      have hc2id : c2.ID = r := by
        rw [hcid] at hc2root
        exact RootOf.unique hroot.root_root hc2root
      rw [hcid] at hc2idx
      obtain ⟨ms, hrun, hmlen, hfinal⟩ := ih (pre ++ [b])
        { equivalence := eq1, mapping := st.mapping.set b.ID.toNat (q2 : Int)
          numNotEmpty := st.numNotEmpty, done := st.done ++ [b] } hs2
        (by simp only [List.length_set]; exact hm) (by simp only [hlen1]; exact he)
        (fun x y => (hroots1 x y).trans (hroots x y))
        (by
          intro p d hp hd
          rw [hlen2] at hp
          by_cases hpp : p = pre.length
          · subst hpp
            rw [hbget] at hd
            cases Option.some.inj hd
            refine ⟨q2, c2, hq2, hc2nz, by rw [hc2id]; exact hroot, ?_⟩
            exact idx_set_self hbm
          · obtain ⟨q3, c3, h1, h2, h3, h4⟩ := hinv p d (by omega) hd
            refine ⟨q3, c3, h1, h2, h3, ?_⟩
            simp only
            rw [hkeep _ p d (by omega) hd]
            exact h4)
      refine ⟨ms, ?_, hmlen, hfinal⟩
      rw [hlen2] at hrun
      simp only [fillMapping, if_pos hb, hfind, hc2idx, upd_of_inRange (q2 : Int) hbm]
      exact hrun
    · obtain ⟨ms, hrun, hmlen, hfinal⟩ := ih (pre ++ [b])
        { equivalence := st.equivalence, mapping := st.mapping.set b.ID.toNat (pre.length : Int)
          numNotEmpty := st.numNotEmpty + 1
          done := st.done ++ [if setID then { b with ID := (pre.length : Int) } else b] } hs2
        (by simp only [List.length_set]; exact hm) he hroots
        (by
          intro p d hp hd
          rw [hlen2] at hp
          by_cases hpp : p = pre.length
          · subst hpp
            rw [hbget] at hd
            cases Option.some.inj hd
            exact ⟨pre.length, b, hbget, hb, hnz b hbmem hb, idx_set_self hbm⟩
          · obtain ⟨q3, c3, h1, h2, h3, h4⟩ := hinv p d (by omega) hd
            refine ⟨q3, c3, h1, h2, h3, ?_⟩
            simp only
            rw [hkeep _ p d (by omega) hd]
            exact h4)
      refine ⟨ms, ?_, hmlen, hfinal⟩
      rw [hlen2] at hrun
      simp only [fillMapping, if_neg hb, upd_of_inRange (pre.length : Int) hbm]
      exact hrun

/-! ## Lists of size records -/

theorem list_eq_map_range {α : Type} {xs : List α} {L : Nat} (f : Nat → α)
    (hlen : xs.length = L) (h : ∀ i, i < L → xs[i]? = some (f i)) :
    xs = (List.range L).map f := by
  apply List.ext_getElem?
  intro i
  rw [List.getElem?_map]
  by_cases hi : i < L
  · rw [h i hi, List.getElem?_range hi]
    rfl
  · rw [List.getElem?_eq_none (by omega), List.getElem?_eq_none (by simp; omega)]
    rfl

theorem sum_map_range (f : Nat → Int) (L : Nat) :
    ((List.range L).map f).sum = ∑ i in Finset.range L, f i := by
  induction L with
  | zero => simp
  | succ L ih => rw [List.sum_range_succ, Finset.sum_range_succ, ih]

/-- In a slice of non-negative sizes ordered by decreasing size, the elements of non-zero
size are exactly the first ones. -/
theorem nonzero_first : ∀ (l : List Blob), l.Pairwise (fun a b => b.Size ≤ a.Size) →
    (∀ b, b ∈ l → 0 ≤ b.Size) → ∀ (q : Nat) (c : Blob), l[q]? = some c →
    (c.Size ≠ 0 ↔ q < l.countP (fun b => decide (b.Size ≠ 0))) := by
  intro l
  induction l with
  | nil => intro _ _ q c h; simp at h
  | cons a l ih =>
    intro hd hn q c hq
    rw [List.pairwise_cons] at hd
    have hn2 : ∀ b, b ∈ l → 0 ≤ b.Size := fun b hb => hn b (List.mem_cons_of_mem _ hb)
    rw [List.countP_cons]
    by_cases ha : a.Size = 0
    · have hzero : ∀ b, b ∈ l → b.Size = 0 := by
        intro b hb
        have h1 := hd.1 b hb
        have h2 := hn2 b hb
        omega
      have hcount : l.countP (fun b => decide (b.Size ≠ 0)) = 0 := by
        rw [List.countP_eq_zero]
        intro b hb
        simp [hzero b hb]
      have hc : c.Size = 0 := by
        cases q with
        | zero =>
          simp at hq
          rw [← hq]; exact ha
        | succ q =>
          rw [List.getElem?_cons_succ] at hq
          exact hzero c (List.mem_iff_getElem?.2 ⟨q, hq⟩)
      rw [hcount]
      simp [ha, hc]
    · cases q with
      | zero =>
        simp at hq
        subst hq
        simp [ha]
      | succ q =>
        rw [List.getElem?_cons_succ] at hq
        have := ih hd.2 hn2 q c hq
        rw [this]
        simp [ha]

theorem sum_take_nonzero : ∀ (l : List Blob), l.Pairwise (fun a b => b.Size ≤ a.Size) →
    (∀ b, b ∈ l → 0 ≤ b.Size) →
    ((l.take (l.countP (fun b => decide (b.Size ≠ 0)))).map (fun b => b.Size)).sum
      = (l.map (fun b => b.Size)).sum := by
  intro l
  induction l with
  | nil => intro _ _; simp
  | cons a l ih =>
    intro hd hn
    rw [List.pairwise_cons] at hd
    have hn2 : ∀ b, b ∈ l → 0 ≤ b.Size := fun b hb => hn b (List.mem_cons_of_mem _ hb)
    rw [List.countP_cons]
    by_cases ha : a.Size = 0
    · have hzero : ∀ b, b ∈ l → b.Size = 0 := by
        intro b hb
        have h1 := hd.1 b hb
        have h2 := hn2 b hb
        omega
      have hcount : l.countP (fun b => decide (b.Size ≠ 0)) = 0 := by
        rw [List.countP_eq_zero]
        intro b hb
        simp [hzero b hb]
      have hsum : (l.map (fun b => b.Size)).sum = 0 := by
        apply List.sum_eq_zero
        intro x hx
        obtain ⟨b, hb, rfl⟩ := List.mem_map.1 hx
        exact hzero b hb
      rw [hcount]
      simp [ha, hsum]
    · have h1 : (if decide (a.Size ≠ 0) = true then 1 else 0) = 1 := by simp [ha]
      rw [h1, List.take_succ_cons, List.map_cons, List.sum_cons, List.map_cons, List.sum_cons,
        ih hd.2 hn2]

theorem relabelFrom_getElem? (setID : Bool) : ∀ (bs : List Blob) (i p : Nat),
    (relabelFrom setID i bs)[p]? = bs[p]?.map (fun b =>
      if b.Size = 0 then b else if setID then { b with ID := ((i + p : Nat) : Int) } else b) := by
  intro bs
  induction bs with
  | nil => intro i p; simp [relabelFrom]
  | cons b rest ih =>
    intro i p
    cases p with
    | zero => simp [relabelFrom]
    | succ p =>
      simp only [relabelFrom, List.getElem?_cons_succ, ih (i + 1) p]
      have : i + 1 + p = i + (p + 1) := by omega
      rw [this]

theorem getElem?_inj_of_nodup_map {α β : Type} (f : α → β) {l : List α}
    (h : (l.map f).Nodup) (p q : Nat) (b c : α) (hp : l[p]? = some b) (hq : l[q]? = some c)
    (e : f b = f c) : p = q := by
  obtain ⟨hp1, hp2⟩ := List.getElem?_eq_some.1 hp
  obtain ⟨hq1, hq2⟩ := List.getElem?_eq_some.1 hq
  have hp3 : p < (l.map f).length := by simp [hp1]
  have hq3 : q < (l.map f).length := by simp [hq1]
  apply (@List.Nodup.getElem_inj_iff _ _ h p hp3 q hq3).1
  simp [hp2, hq2, e]

/-! ## Classes of nodes -/

theorem clsOf_spec {eq0 : List Int} {lab : Nat → Int} {j : Nat} {r : Int}
    (h : RootOf eq0 (lab j) r) : clsOf eq0 lab j = r := by
  unfold clsOf
  rw [findParent_of_rootOf h]

theorem rootOf_clsOf {eq0 : List Int} {lab : Nat → Int} {j : Nat} (hf : Forest eq0)
    (h : InRange eq0.length (lab j)) : RootOf eq0 (lab j) (clsOf eq0 lab j) := by
  obtain ⟨r, hr⟩ := hf _ h
  rw [clsOf_spec hr]
  exact hr

/-! ## The finalization: sizes to the roots, ranking, mapping -/

theorem classSize_nonneg {n : Nat} {w : Nat → Int} (lab : Nat → Int) (eq0 : List Int)
    (hw : ∀ j, j < n → 0 ≤ w j) (l : Int) : 0 ≤ classSize n w lab eq0 l := by
  unfold classSize
  by_cases hroot : rootIs eq0 l l
  · rw [if_pos hroot]; exact wsum_nonneg hw
  · rw [if_neg hroot]

/-- The slice after the sizes have been moved to the roots. -/
theorem aggregate_list {R : Nat → Nat → Prop} {w : Nat → Int} {lab : Nat → Int} {n : Nat}
    {eq0 : List Int} {blobs0 : List Blob} (h : LabInv R w lab n eq0 blobs0) :
    ∃ eq2, aggregate blobs0.length 0 eq0 blobs0 = some (eq2,
        (List.range eq0.length).map (fun (i : Nat) => (⟨(i : Int), classSize n w lab eq0 (i : Int)⟩ : Blob))) ∧
      eq2.length = eq0.length ∧ (∀ x q, RootOf eq2 x q ↔ RootOf eq0 x q) := by
  obtain ⟨eq2, blobs2, hrun, hlen, hroots, hblen, hsz⟩ := aggregate_spec h
  refine ⟨eq2, ?_, hlen, hroots⟩
  rw [hrun]
  congr 2
  apply list_eq_map_range _ hblen
  intro i hi
  have := hsz (i : Int) ⟨by omega, by omega⟩
  rw [idx_natCast] at this
  exact this

theorem finalize_spec (setID : Bool) {R : Nat → Nat → Prop} {w : Nat → Int} {lab : Nat → Int}
    {n : Nat} {eq0 : List Int} {blobs0 : List Blob} (h : LabInv R w lab n eq0 blobs0)
    (hw : ∀ j, j < n → 1 ≤ w j) {sort : List Blob → List Blob} (hs : SortSpec sort) :
    ∃ eq2 blobs2 ms,
      aggregate blobs0.length 0 eq0 blobs0 = some (eq2, blobs2) ∧
      fillMapping setID (sort blobs2) 0
        { equivalence := eq2, mapping := List.replicate (sort blobs2).length 0
          numNotEmpty := 0, done := [] } = some ms ∧
      ms.mapping.length = eq0.length ∧
      ∃ roots : List Int, roots.Nodup ∧
        (∀ l, InRange eq0.length l → ∃ (p : Nat) (r : Int), roots[p]? = some r ∧
          RootOf eq0 l r ∧ idx ms.mapping l = some (p : Int)) ∧
        (∀ (p : Nat) (r : Int), roots[p]? = some r → RootOf eq0 r r) ∧
        (ms.done.take ms.numNotEmpty).length = roots.length ∧
        (∀ (p : Nat) (r : Int), roots[p]? = some r →
          (ms.done.take ms.numNotEmpty)[p]? =
            some ⟨if setID then (p : Int) else r,
              wsum n w (fun j => rootIs eq0 (lab j) r)⟩) := by
  obtain ⟨eq2, hagg, hlen2, hroots2⟩ := aggregate_list h
  set blobs2 : List Blob :=
    (List.range eq0.length).map (fun (i : Nat) => (⟨(i : Int), classSize n w lab eq0 (i : Int)⟩ : Blob))
    with hblobs2
  obtain ⟨hperm, hdesc⟩ := hs blobs2
  set sorted := sort blobs2 with hsorted
  have hslen : sorted.length = eq0.length := by
    rw [hperm.length_eq, hblobs2]; simp
  -- the elements of the sorted slice
  have hmem : ∀ b, b ∈ sorted → InRange eq0.length b.ID ∧ b.Size = classSize n w lab eq0 b.ID := by
    intro b hb
    rw [hperm.mem_iff, hblobs2] at hb
    obtain ⟨i, hi, rfl⟩ := List.mem_map.1 hb
    rw [List.mem_range] at hi
    exact ⟨⟨by simp, by simp; omega⟩, rfl⟩
  have hmem2 : ∀ l, InRange eq0.length l → (⟨l, classSize n w lab eq0 l⟩ : Blob) ∈ sorted := by
    intro l hl
    rw [hperm.mem_iff, hblobs2]
    refine List.mem_map.2 ⟨l.toNat, List.mem_range.2 (by have := hl.1; have := hl.2; omega), ?_⟩
    have : ((l.toNat : Nat) : Int) = l := Int.toNat_of_nonneg hl.1
    rw [this]
  have hnodup : (sorted.map (fun b => b.ID)).Nodup := by
    rw [(hperm.map (fun b => b.ID)).nodup_iff, hblobs2, List.map_map]
    apply List.Nodup.map _ (List.nodup_range _)
    intro a b hab
    simpa using hab
  have hinj := getElem?_inj_of_nodup_map (fun b : Blob => b.ID) hnodup
  have hpos : ∀ r, RootOf eq0 r r → 0 < classSize n w lab eq0 r := by
    intro r hr
    unfold classSize
    rw [if_pos (rootIs_iff.2 hr)]
    obtain ⟨j, hj, hjr⟩ := h.inhabited r hr.inRange
    have := wsum_pos (P := fun j => rootIs eq0 (lab j) r) hw hj
      (by simp only [hjr]; exact rootIs_iff.2 hr)
    omega
  have hnonneg : ∀ b, b ∈ sorted → 0 ≤ b.Size := by
    intro b hb
    rw [(hmem b hb).2]
    exact classSize_nonneg lab eq0 (fun j hj => by have := hw j hj; omega) _
  have hnz : ∀ b, b ∈ sorted → b.Size ≠ 0 → RootOf eq0 b.ID b.ID := by
    intro b hb hne
    rw [(hmem b hb).2] at hne
    unfold classSize at hne
    by_cases hroot : rootIs eq0 b.ID b.ID
    · exact rootIs_iff.1 hroot
    · rw [if_neg hroot] at hne
      exact absurd rfl hne
  have hz : ∀ b, b ∈ sorted → b.Size = 0 →
      ∃ r c, RootOf eq0 b.ID r ∧ c ∈ sorted ∧ c.ID = r ∧ 0 < c.Size := by
    intro b hb _
    obtain ⟨r, hr⟩ := h.forest _ (hmem b hb).1
    exact ⟨r, ⟨r, classSize n w lab eq0 r⟩, hr, hmem2 r hr.root_inRange, rfl,
      hpos r hr.root_root⟩
  obtain ⟨ms, hrun, hmlen, hfinal⟩ := fillMapping_spec setID eq0 sorted
    (fun b hb => (hmem b hb).1) hinj hdesc hnz hz sorted []
    { equivalence := eq2, mapping := List.replicate sorted.length 0, numNotEmpty := 0, done := [] }
    (by simp) (by simp [hslen]) hlen2 hroots2 (fun p b hp _ => by simp at hp)
  obtain ⟨hdone, hnum⟩ := fillMapping_done setID sorted 0 _ ms hrun
  simp only [List.nil_append, Nat.zero_add] at hdone hnum
  have hfirst := nonzero_first sorted hdesc hnonneg
  rw [← hnum] at hfirst
  refine ⟨eq2, blobs2, ms, hagg, hrun, hmlen, (sorted.take ms.numNotEmpty).map (fun b => b.ID),
    ?_, ?_, ?_, ?_, ?_⟩
  · exact List.Nodup.sublist (List.Sublist.map _ (List.take_sublist _ _)) hnodup
  · intro l hl
    obtain ⟨q0, hq0, hq0b⟩ := List.getElem_of_mem (hmem2 l hl)
    obtain ⟨q, c, hq, hcnz, hcroot, hcidx⟩ := hfinal q0 _ (by rw [List.getElem?_eq_getElem hq0, hq0b])
    refine ⟨q, c.ID, ?_, hcroot, hcidx⟩
    rw [List.getElem?_map, List.getElem?_take, if_pos ((hfirst q c hq).1 hcnz), hq]
    rfl
  · intro p r hp
    rw [List.getElem?_map, List.getElem?_take] at hp
    by_cases hpk : p < ms.numNotEmpty
    · rw [if_pos hpk] at hp
      cases hc : sorted[p]? with
      | none => rw [hc] at hp; simp at hp
      | some c =>
        rw [hc] at hp
        simp at hp
        subst hp
        exact hnz c (List.mem_iff_getElem?.2 ⟨p, hc⟩) ((hfirst p c hc).2 hpk)
    · rw [if_neg hpk] at hp
      simp at hp
  · rw [hdone]
    simp [relabelFrom_length]
  · intro p r hp
    rw [List.getElem?_map, List.getElem?_take] at hp
    by_cases hpk : p < ms.numNotEmpty
    · rw [if_pos hpk] at hp
      cases hc : sorted[p]? with
      | none => rw [hc] at hp; simp at hp
      | some c =>
        rw [hc] at hp
        simp at hp
        subst hp
        have hcm : c ∈ sorted := List.mem_iff_getElem?.2 ⟨p, hc⟩
        have hcnz : c.Size ≠ 0 := (hfirst p c hc).2 hpk
        have hcroot := hnz c hcm hcnz
        have hcsize : c.Size = wsum n w (fun j => rootIs eq0 (lab j) c.ID) := by
          rw [(hmem c hcm).2]
          unfold classSize
          rw [if_pos (rootIs_iff.2 hcroot)]
        rw [hdone, List.getElem?_take, if_pos hpk, relabelFrom_getElem?, hc]
        simp only [Option.map_some', if_neg hcnz, Nat.zero_add]
        cases setID with
        | true => simp [hcsize]
        | false =>
          simp only [Bool.false_eq_true, if_false]
          rw [← hcsize]
    · rw [if_neg hpk] at hp
      simp at hp

/-! ## The second pass of `HoshenKopelman` over a causal node source -/

theorem secondPass_spec (nodes : List GNode) (mapping : List Int) :
    ∀ (fuel m : Nat) (s : Source), s.nodes = nodes → s.pos = m → m ≤ nodes.length →
      s.labels.length = nodes.length →
      (∀ j, m ≤ j → j < nodes.length → ∃ v, idx mapping (labOf s.labels j) = some v) →
      nodes.length - m < fuel →
      ∃ s2, secondPass Source.labeler mapping fuel s = some s2 ∧ s2.nodes = nodes ∧
        s2.labels.length = nodes.length ∧
        ∀ j, j < nodes.length →
          (j < m → labOf s2.labels j = labOf s.labels j) ∧
          (m ≤ j → idx mapping (labOf s.labels j) = some (labOf s2.labels j)) := by
  intro fuel
  induction fuel with
  | zero => intro m s _ _ _ _ _ hf; omega
  | succ f ih =>
    intro m s hn hp hm hl hmap hf
    obtain ⟨snodes, labels, pos⟩ := s
    simp only at hn hp hl
    subst hn hp
    by_cases hlt : pos < snodes.length
    · have hnext : Source.labeler.Next ⟨snodes, labels, pos⟩
          = some (true, ⟨snodes, labels, pos + 1⟩) := by
        simp only [Source.labeler]
        rw [if_pos hlt]
      have hget : Source.labeler.GetLabel ⟨snodes, labels, pos + 1⟩
          = some (labOf labels pos) := by
        simp only [Source.labeler, Nat.add_sub_cancel]
        rw [if_neg (by omega)]
        exact labOf_of_lt (by omega)
      obtain ⟨v, hv⟩ := hmap pos (le_refl _) hlt
      have hset : Source.labeler.SetLabel ⟨snodes, labels, pos + 1⟩ v
          = some ⟨snodes, labels.set pos v, pos + 1⟩ := by
        simp only [Source.labeler, Nat.add_sub_cancel]
        rw [if_neg (by omega)]
      obtain ⟨s2, hrun, hn2, hl2, hfin⟩ := ih (pos + 1) ⟨snodes, labels.set pos v, pos + 1⟩ rfl rfl
        hlt (by simp only [List.length_set]; exact hl)
        (fun j hjm hj => by
          rw [labOf_set_ne _ (by omega)]
          exact hmap j (by omega) hj) (by omega)
      refine ⟨s2, ?_, hn2, hl2, ?_⟩
      · simp only [secondPass, hnext, hget, hv, hset]
        exact hrun
      · intro j hj
        obtain ⟨h1, h2⟩ := hfin j hj
        simp only at h1 h2
        constructor
        · intro hjm
          rw [h1 (by omega), labOf_set_ne _ (by omega)]
        · intro hjm
          by_cases hjp : j = pos
          · subst hjp
            rw [h1 (by omega), labOf_set_self _ (by omega)]
            exact hv
          · have := h2 (by omega)
            rw [labOf_set_ne _ hjp] at this
            exact this
    · have hmn : pos = snodes.length := by omega
      refine ⟨⟨snodes, labels, pos⟩, ?_, rfl, hl, ?_⟩
      · simp only [secondPass, Source.labeler]
        rw [if_neg hlt]
      · intro j hj
        exact ⟨fun _ => rfl, fun h => by omega⟩

/-! ## `HoshenKopelmanExact` over a causal node source -/

theorem sizeAt_ge_one {nodes : List GNode} (hw : ∀ nd, nd ∈ nodes → 1 ≤ nd.size) :
    ∀ j, j < nodes.length → 1 ≤ sizeAt nodes j := by
  intro j hj
  unfold sizeAt
  rw [List.getElem?_eq_getElem hj]
  exact hw _ (List.getElem_mem hj)

/-- When every node reports a size of at least 1, `HoshenKopelmanExact` returns; the final
label of a node is the rank of its class in the list `roots` of the roots of the classes,
and the returned sizes are the weights of the classes, in the same order. -/
theorem HoshenKopelmanExact_spec {nodes : List GNode} (hc : Causal nodes)
    (hbig : (nodes.length : Int) ≤ MaxInt) {sort : List Blob → List Blob} (hs : SortSpec sort)
    (hw : ∀ nd, nd ∈ nodes → 1 ≤ nd.size) {fuel : Nat} (hf : nodes.length < fuel) :
    ∃ s3 sizes, HoshenKopelmanExact Source.labeler sort fuel (Source.init nodes) = some (s3, sizes) ∧
      s3.nodes = nodes ∧ s3.labels.length = nodes.length ∧
      ∃ (cls : Nat → Int) (roots : List Int), roots.Nodup ∧ sizes.length = roots.length ∧
        (∀ j, j < nodes.length →
          ∃ p : Nat, roots[p]? = some (cls j) ∧ labOf s3.labels j = (p : Int)) ∧
        (∀ (p : Nat) (r : Int), roots[p]? = some r → ∃ j, j < nodes.length ∧ cls j = r) ∧
        (∀ (p : Nat) (r : Int), roots[p]? = some r →
          sizes[p]? = some (wsum nodes.length (sizeAt nodes) (fun j => cls j = r))) ∧
        (∀ i j, i < nodes.length → j < nodes.length →
          (cls i = cls j ↔ ConnUpTo (Nbr nodes) nodes.length i j)) := by
  obtain ⟨s1, st1, hfp, hinv⟩ := firstPassExact_spec hc hbig fuel 0 (Source.init nodes) _
    (HKInv.init nodes) (by omega)
  obtain ⟨eq2, blobs2, ms, hagg, hfill, hmlen, roots, hnodup, hmap, hroot, hlen, hsz⟩ :=
    finalize_spec false hinv.lab (sizeAt_ge_one hw) hs
  have hreset : Source.labeler.Reset s1 = some { s1 with pos := 0 } := rfl
  obtain ⟨s3, hsp, hn3, hl3, hfin⟩ := secondPass_spec nodes ms.mapping fuel 0 { s1 with pos := 0 }
    hinv.nodes_eq rfl (Nat.zero_le _) hinv.labels_len
    (fun j _ hj => by
      obtain ⟨p, r, -, -, hidx⟩ := hmap _ (hinv.labelled j hj)
      exact ⟨_, hidx⟩) (by omega)
  refine ⟨s3, (ms.done.take ms.numNotEmpty).map (fun b => b.Size), ?_, hn3, hl3,
    clsOf st1.equivalence (labOf s1.labels), roots, hnodup, by rw [List.length_map, hlen],
    ?_, ?_, ?_, ?_⟩
  · simp only [HoshenKopelmanExact, hfp, hagg, hfill, hreset, hsp]
  · intro j hj
    obtain ⟨p, r, hp, hr, hidx⟩ := hmap _ (hinv.labelled j hj)
    refine ⟨p, by rw [clsOf_spec hr]; exact hp, ?_⟩
    have := (hfin j hj).2 (Nat.zero_le _)
    simp only at this
    rw [hidx] at this
    exact (Option.some.inj this).symm
  · intro p r hp
    obtain ⟨j, hj, hjr⟩ := hinv.lab.inhabited r (hroot p r hp).inRange
    refine ⟨j, hj, clsOf_spec ?_⟩
    rw [hjr]
    exact hroot p r hp
  · intro p r hp
    rw [List.getElem?_map, hsz p r hp]
    simp only [Option.map_some', Bool.false_eq_true, if_false]
    congr 1
    apply wsum_congr
    intro j hj
    constructor
    · intro h1; exact clsOf_spec (rootIs_iff.1 h1)
    · intro h1
      rw [← h1]
      exact rootIs_iff.2 (rootOf_clsOf hinv.lab.forest (hinv.labelled j hj))
  · intro i j hi hj
    exact hinv.lab.conn i j hi hj _ _
      (rootOf_clsOf hinv.lab.forest (hinv.labelled i hi))
      (rootOf_clsOf hinv.lab.forest (hinv.labelled j hj))

/-- Whatever sizes the nodes report, `HoshenKopelmanExact` over a causal node source returns:
the sorted size records, cut after the records of non-zero size. -/
theorem HoshenKopelmanExact_total {nodes : List GNode} (hc : Causal nodes)
    (hbig : (nodes.length : Int) ≤ MaxInt) {sort : List Blob → List Blob} (hs : SortSpec sort)
    {fuel : Nat} (hf : nodes.length < fuel) :
    ∃ (s1 : Source) (st1 : HKState) (s3 : Source), HKInv nodes nodes.length s1 st1 ∧
      s3.labels.length = nodes.length ∧
      HoshenKopelmanExact Source.labeler sort fuel (Source.init nodes) = some (s3,
        ((sort ((List.range st1.equivalence.length).map (fun (i : Nat) =>
            (⟨(i : Int), classSize nodes.length (sizeAt nodes) (labOf s1.labels)
              st1.equivalence (i : Int)⟩ : Blob)))).take
          ((sort ((List.range st1.equivalence.length).map (fun (i : Nat) =>
            (⟨(i : Int), classSize nodes.length (sizeAt nodes) (labOf s1.labels)
              st1.equivalence (i : Int)⟩ : Blob)))).countP (fun b => decide (b.Size ≠ 0)))).map
          (fun b => b.Size)) := by
  obtain ⟨s1, st1, hfp, hinv⟩ := firstPassExact_spec hc hbig fuel 0 (Source.init nodes) _
    (HKInv.init nodes) (by omega)
  obtain ⟨eq2, hagg, hlen2, hroots2⟩ := aggregate_list hinv.lab
  set blobs2 : List Blob := (List.range st1.equivalence.length).map (fun (i : Nat) =>
    (⟨(i : Int), classSize nodes.length (sizeAt nodes) (labOf s1.labels)
      st1.equivalence (i : Int)⟩ : Blob)) with hblobs2
  obtain ⟨hperm, -⟩ := hs blobs2
  have hslen : (sort blobs2).length = st1.equivalence.length := by
    rw [hperm.length_eq, hblobs2]; simp
  have hmem : ∀ b, b ∈ sort blobs2 → InRange st1.equivalence.length b.ID := by
    intro b hb
    rw [hperm.mem_iff, hblobs2] at hb
    obtain ⟨i, hi, rfl⟩ := List.mem_map.1 hb
    rw [List.mem_range] at hi
    exact ⟨by simp, by simp; omega⟩
  obtain ⟨ms, hfill, hmlen⟩ := fillMapping_total false st1.equivalence.length (sort blobs2) 0
    { equivalence := eq2, mapping := List.replicate (sort blobs2).length 0
      numNotEmpty := 0, done := [] } hmem (by simp [hslen]) hlen2
    (hinv.lab.forest.of_iff hlen2 hroots2)
  obtain ⟨hdone, hnum⟩ := fillMapping_done false _ 0 _ ms hfill
  simp only [List.nil_append, Nat.zero_add, relabelFrom_false] at hdone hnum
  have hreset : Source.labeler.Reset s1 = some { s1 with pos := 0 } := rfl
  obtain ⟨s3, hsp, hn3, hl3, -⟩ := secondPass_spec nodes ms.mapping fuel 0 { s1 with pos := 0 }
    hinv.nodes_eq rfl (Nat.zero_le _) hinv.labels_len
    (fun j _ hj => idx_isSome_of_inRange (by rw [hmlen]; exact hinv.labelled j hj)) (by omega)
  refine ⟨s1, st1, s3, hinv, hl3, ?_⟩
  simp only [HoshenKopelmanExact, hfp, hagg, hfill, hreset, hsp, hdone, hnum]

/-- Whenever `HoshenKopelmanExact` returns, the returned slice is an initial part of the sorted slice of
size records. -/
theorem HoshenKopelmanExact_sizes_take {σ : Type} (labeler : CCLabeler σ)
    (sort : List Blob → List Blob) (fuel : Nat) (s s2 : σ) (sizes : List Int)
    (h : HoshenKopelmanExact labeler sort fuel s = some (s2, sizes)) :
    ∃ (blobs1 : List Blob) (k : Nat), sizes = ((sort blobs1).take k).map (fun b => b.Size) := by
  unfold HoshenKopelmanExact at h
  cases h1 : firstPassExact labeler fuel s { equivalence := [], largestLabel := 0, blobs := [] } with
  | none => simp [h1] at h
  | some p1 =>
    obtain ⟨s1, st⟩ := p1
    simp only [h1] at h
    cases h2 : aggregate st.blobs.length 0 st.equivalence st.blobs with
    | none => simp [h2] at h
    | some p2 =>
      obtain ⟨eq1, blobs1⟩ := p2
      simp only [h2] at h
      cases h3 : fillMapping false (sort blobs1) 0
          { equivalence := eq1, mapping := List.replicate (sort blobs1).length 0
            numNotEmpty := 0, done := [] } with
      | none => simp [h3] at h
      | some ms =>
        simp only [h3] at h
        cases h4 : labeler.Reset s1 with
        | none => simp [h4] at h
        | some s4 =>
          simp only [h4] at h
          cases h5 : secondPass labeler ms.mapping fuel s4 with
          | none => simp [h5] at h
          | some s5 =>
            simp only [h5] at h
            obtain ⟨hdone, -⟩ := fillMapping_done false _ 0 _ ms h3
            simp only [List.nil_append, relabelFrom_false] at hdone
            refine ⟨blobs1, ms.numNotEmpty, ?_⟩
            have := (Prod.mk.inj (Option.some.inj h)).2
            rw [← this, hdone]

theorem insertionSortBlobs_spec : SortSpec insertionSortBlobs := by
  intro l
  unfold insertionSortBlobs
  refine ⟨List.perm_insertionSort _ l, ?_⟩
  have : IsTotal Blob (fun a b => b.Size ≤ a.Size) := ⟨fun a b => le_total b.Size a.Size⟩
  have : IsTrans Blob (fun a b => b.Size ≤ a.Size) := ⟨fun a b c h1 h2 => le_trans h2 h1⟩
  exact List.sorted_insertionSort (fun a b : Blob => b.Size ≤ a.Size) l

/-! ## Properties of `HoshenKopelmanExact` -/

theorem connUpTo_full (nodes : List GNode) (i j : Nat) :
    ConnUpTo (Nbr nodes) nodes.length i j ↔ Relation.EqvGen (Nbr nodes) i j := by
  constructor
  · exact Relation.EqvGen.mono (fun _ _ h => h.2)
  · apply Relation.EqvGen.mono
    rintro a b ⟨nd, hnd, hb⟩
    exact ⟨(List.getElem?_eq_some.1 hnd).1, nd, hnd, hb⟩

theorem labels_get_eq {labels : List Int} {i : Nat} (hi : i < labels.length) (v : Int) :
    labels[i]? = some v ↔ labOf labels i = v := by
  rw [labOf_of_lt hi]
  exact ⟨fun h => Option.some.inj h, fun h => by rw [h]⟩

theorem causal_exampleNodes : Causal exampleNodes := by
  unfold Causal exampleNodes
  decide

theorem sizes_exampleNodes : ∀ nd, nd ∈ exampleNodes → 1 ≤ nd.size := by
  unfold exampleNodes
  decide

theorem big_exampleNodes : (exampleNodes.length : Int) ≤ MaxInt := by
  unfold exampleNodes MaxInt
  decide

/-- With the sizes added exactly:
for every causal node source whose nodes all report a size of at least 1, after
`HoshenKopelmanExact` two visited nodes hold the same label if and only if they are linked by a
chain of the neighbour relation. -/
theorem same_label_iff_chain_exact (nodes : List GNode) (sort : List Blob → List Blob)
    (fuel : Nat) (hc : Causal nodes) (hw : ∀ nd, nd ∈ nodes → 1 ≤ nd.size)
    (hs : SortSpec sort) (hbig : (nodes.length : Int) ≤ MaxInt) (hf : nodes.length < fuel) :
    ∃ s sizes, HoshenKopelmanExact Source.labeler sort fuel (Source.init nodes) = some (s, sizes) ∧
      s.labels.length = nodes.length ∧
      ∀ i j, i < nodes.length → j < nodes.length →
        (s.labels[i]? = s.labels[j]? ↔ Relation.EqvGen (Nbr nodes) i j) := by
  obtain ⟨s3, sizes, hrun, -, hl3, cls, roots, hnodup, -, hfin, -, -, hconn⟩ :=
    HoshenKopelmanExact_spec hc hbig hs hw hf
  refine ⟨s3, sizes, hrun, hl3, ?_⟩
  intro i j hi hj
  rw [← connUpTo_full, ← hconn i j hi hj, labOf_of_lt (by omega : i < s3.labels.length),
    labOf_of_lt (by omega : j < s3.labels.length)]
  obtain ⟨p, hp, hpi⟩ := hfin i hi
  obtain ⟨q, hq, hqj⟩ := hfin j hj
  rw [hpi, hqj]
  constructor
  · intro e
    have e2 : p = q := by
      have := Option.some.inj e
      omega
    subst e2
    rw [hp] at hq
    exact Option.some.inj hq
  · intro e
    rw [e] at hp
    have := getElem?_inj_of_nodup_map (fun x : Int => x) (by simpa using hnodup) p q _ _ hp hq rfl
    rw [this]

/-- With the sizes added exactly:
for every causal node source whose nodes all report a size of at least 1, the list
`sizes` returned by `HoshenKopelmanExact` is indexable by final label: every visited node ends
with a label in `[0, len(sizes))`, and `sizes[p]` is the sum of the sizes of the visited
nodes whose final label is `p`. -/
theorem sizes_indexed_by_label_exact (nodes : List GNode) (sort : List Blob → List Blob)
    (fuel : Nat) (hc : Causal nodes) (hw : ∀ nd, nd ∈ nodes → 1 ≤ nd.size)
    (hs : SortSpec sort) (hbig : (nodes.length : Int) ≤ MaxInt) (hf : nodes.length < fuel) :
    ∃ s sizes, HoshenKopelmanExact Source.labeler sort fuel (Source.init nodes) = some (s, sizes) ∧
      s.labels.length = nodes.length ∧
      (∀ j, j < nodes.length → ∃ p : Nat, p < sizes.length ∧ s.labels[j]? = some (p : Int)) ∧
      ∀ p : Nat, p < sizes.length →
        sizes[p]? = some (wsum nodes.length (sizeAt nodes)
          (fun j => s.labels[j]? = some (p : Int))) := by
  obtain ⟨s3, sizes, hrun, -, hl3, cls, roots, hnodup, hlen, hfin, -, hsz, -⟩ :=
    HoshenKopelmanExact_spec hc hbig hs hw hf
  refine ⟨s3, sizes, hrun, hl3, ?_, ?_⟩
  · intro j hj
    obtain ⟨p, hp, hpj⟩ := hfin j hj
    refine ⟨p, ?_, ?_⟩
    · rw [hlen]; exact (List.getElem?_eq_some.1 hp).1
    · rw [labels_get_eq (by omega)]; exact hpj
  · intro p hp
    rw [hlen] at hp
    rw [hsz p _ (List.getElem?_eq_getElem hp)]
    congr 1
    apply wsum_congr
    intro j hj
    rw [labels_get_eq (by omega)]
    obtain ⟨q, hq, hqj⟩ := hfin j hj
    rw [hqj]
    constructor
    · intro e
      rw [e] at hq
      have := getElem?_inj_of_nodup_map (fun x : Int => x) (by simpa using hnodup) q p _ _ hq
        (List.getElem?_eq_getElem hp) rfl
      rw [this]
    · intro e
      have e2 : q = p := by omega
      subst e2
      rw [List.getElem?_eq_getElem hp] at hq
      exact (Option.some.inj hq).symm

/-- The sizes left in the records after the sizes have been moved to the roots add up to the
weight of all the nodes. -/
theorem sum_classSize {R : Nat → Nat → Prop} {w : Nat → Int} {lab : Nat → Int} {n : Nat}
    {eq0 : List Int} {blobs0 : List Blob} (h : LabInv R w lab n eq0 blobs0)
    (hlab : ∀ j, j < n → InRange eq0.length (lab j)) :
    ∑ l in Finset.range eq0.length, classSize n w lab eq0 (l : Int)
      = ∑ j in Finset.range n, w j := by
  have h1 : ∀ l : Int, classSize n w lab eq0 l
      = ∑ j in Finset.range n, if rootIs eq0 (lab j) l then w j else 0 := by
    intro l
    unfold classSize
    by_cases hroot : rootIs eq0 l l
    · rw [if_pos hroot]; rfl
    · rw [if_neg hroot]
      symm
      apply Finset.sum_eq_zero
      intro j _
      rw [if_neg]
      intro hr
      exact hroot (rootIs_iff.2 (rootIs_iff.1 hr).root_root)
  simp only [h1]
  rw [Finset.sum_comm]
  apply Finset.sum_congr rfl
  intro j hj
  rw [Finset.mem_range] at hj
  have hr := rootOf_clsOf h.forest (hlab j hj)
  have hcr := hr.root_inRange
  have h2 : ∀ l : Nat, (rootIs eq0 (lab j) (l : Int)) ↔ (clsOf eq0 lab j).toNat = l := by
    intro l
    constructor
    · intro h3
      rw [clsOf_spec (rootIs_iff.1 h3)]
      simp
    · intro h3
      have : ((l : Nat) : Int) = clsOf eq0 lab j := by
        rw [← h3]; exact Int.toNat_of_nonneg hcr.1
      rw [this]
      exact rootIs_iff.2 hr
  simp only [h2]
  rw [Finset.sum_ite_eq, if_pos]
  rw [Finset.mem_range]
  have := hcr.1
  have := hcr.2
  omega

theorem sum_sizes_eq (nodes : List GNode) :
    (nodes.map (fun nd => nd.size)).sum = ∑ j in Finset.range nodes.length, sizeAt nodes j := by
  rw [← sum_map_range]
  congr 1
  apply list_eq_map_range _ (by simp)
  intro i hi
  rw [List.getElem?_map, List.getElem?_eq_getElem hi]
  simp only [Option.map_some', sizeAt, List.getElem?_eq_getElem hi]

/-- With the sizes added exactly:
for every causal node source whose nodes report non-negative sizes, the sum of the
sizes returned by `HoshenKopelmanExact` equals the sum of the sizes of all the nodes visited in
the first pass. -/
theorem sizes_sum_exact (nodes : List GNode) (sort : List Blob → List Blob)
    (fuel : Nat) (hc : Causal nodes) (hw : ∀ nd, nd ∈ nodes → 0 ≤ nd.size)
    (hs : SortSpec sort) (hbig : (nodes.length : Int) ≤ MaxInt) (hf : nodes.length < fuel) :
    ∃ s sizes, HoshenKopelmanExact Source.labeler sort fuel (Source.init nodes) = some (s, sizes) ∧
      sizes.sum = (nodes.map (fun nd => nd.size)).sum := by
  obtain ⟨s1, st1, s3, hinv, -, hrun⟩ := HoshenKopelmanExact_total hc hbig hs hf
  refine ⟨s3, _, hrun, ?_⟩
  set blobs2 : List Blob := (List.range st1.equivalence.length).map (fun (i : Nat) =>
    (⟨(i : Int), classSize nodes.length (sizeAt nodes) (labOf s1.labels)
      st1.equivalence (i : Int)⟩ : Blob)) with hblobs2
  obtain ⟨hperm, hdesc⟩ := hs blobs2
  have hw2 : ∀ j, j < nodes.length → 0 ≤ sizeAt nodes j := by
    intro j hj
    unfold sizeAt
    rw [List.getElem?_eq_getElem hj]
    exact hw _ (List.getElem_mem hj)
  have hnonneg : ∀ b, b ∈ sort blobs2 → 0 ≤ b.Size := by
    intro b hb
    rw [hperm.mem_iff, hblobs2] at hb
    obtain ⟨i, -, rfl⟩ := List.mem_map.1 hb
    exact classSize_nonneg _ _ hw2 _
  rw [sum_take_nonzero _ hdesc hnonneg, (hperm.map (fun b => b.Size)).sum_eq, hblobs2,
    List.map_map, sum_map_range, sum_sizes_eq]
  exact sum_classSize hinv.lab hinv.labelled

/-- With the sizes added exactly:
for every causal node source whose nodes all report a size of at least 1,
after `HoshenKopelmanExact` the number `k` of returned sizes equals the number of distinct labels
held by visited nodes, and those labels are exactly the range `0 .. k-1`. -/
theorem label_range_exact (nodes : List GNode) (sort : List Blob → List Blob)
    (fuel : Nat) (hc : Causal nodes) (hw : ∀ nd, nd ∈ nodes → 1 ≤ nd.size)
    (hs : SortSpec sort) (hbig : (nodes.length : Int) ≤ MaxInt) (hf : nodes.length < fuel) :
    ∃ s sizes, HoshenKopelmanExact Source.labeler sort fuel (Source.init nodes) = some (s, sizes) ∧
      s.labels.length = nodes.length ∧
      (∀ j, j < nodes.length → ∃ p : Nat, p < sizes.length ∧ s.labels[j]? = some (p : Int)) ∧
      (∀ p : Nat, p < sizes.length → ∃ j, j < nodes.length ∧ s.labels[j]? = some (p : Int)) ∧
      s.labels.dedup.length = sizes.length := by
  obtain ⟨s3, sizes, hrun, -, hl3, cls, roots, hnodup, hlen, hfin, hsurj, -, -⟩ :=
    HoshenKopelmanExact_spec hc hbig hs hw hf
  have h1 : ∀ j, j < nodes.length →
      ∃ p : Nat, p < sizes.length ∧ s3.labels[j]? = some (p : Int) := by
    intro j hj
    obtain ⟨p, hp, hpj⟩ := hfin j hj
    refine ⟨p, ?_, ?_⟩
    · rw [hlen]; exact (List.getElem?_eq_some.1 hp).1
    · rw [labels_get_eq (by omega)]; exact hpj
  have h2 : ∀ p : Nat, p < sizes.length →
      ∃ j, j < nodes.length ∧ s3.labels[j]? = some (p : Int) := by
    intro p hp
    rw [hlen] at hp
    obtain ⟨j, hj, hjr⟩ := hsurj p _ (List.getElem?_eq_getElem hp)
    refine ⟨j, hj, ?_⟩
    obtain ⟨q, hq, hqj⟩ := hfin j hj
    rw [labels_get_eq (by omega), hqj]
    rw [hjr] at hq
    have := getElem?_inj_of_nodup_map (fun x : Int => x) (by simpa using hnodup) q p _ _ hq
      (List.getElem?_eq_getElem hp) rfl
    rw [this]
  refine ⟨s3, sizes, hrun, hl3, h1, h2, ?_⟩
  rw [← List.card_toFinset]
  have hset : s3.labels.toFinset = (Finset.range sizes.length).image (fun p : Nat => (p : Int)) := by
    ext x
    rw [List.mem_toFinset, Finset.mem_image]
    constructor
    · intro hx
      obtain ⟨j, hj, hjx⟩ := List.getElem_of_mem hx
      obtain ⟨p, hp, hpj⟩ := h1 j (by omega)
      rw [List.getElem?_eq_getElem hj, hjx] at hpj
      exact ⟨p, Finset.mem_range.2 hp, (Option.some.inj hpj).symm⟩
    · rintro ⟨p, hp, rfl⟩
      obtain ⟨j, hj, hjp⟩ := h2 p (Finset.mem_range.1 hp)
      exact List.mem_iff_getElem?.2 ⟨j, hjp⟩
  rw [hset, Finset.card_image_of_injective _ Nat.cast_injective, Finset.card_range]

/-! ## Loops over a range -/

theorem foldlM_range_inv {σ : Type} (f : σ → Nat → Option σ) (P : Nat → σ → Prop) (n : Nat)
    (hstep : ∀ i s, i < n → P i s → ∃ s2, f s i = some s2 ∧ P (i + 1) s2) (s0 : σ)
    (h0 : P 0 s0) : ∃ s2, (List.range n).foldlM f s0 = some s2 ∧ P n s2 := by
  induction n with
  | zero => exact ⟨s0, rfl, h0⟩
  | succ n ih =>
    obtain ⟨s1, h1, hp1⟩ := ih (fun i s hi hp => hstep i s (by omega) hp)
    obtain ⟨s2, h2, hp2⟩ := hstep n s1 (by omega) hp1
    refine ⟨s2, ?_, hp2⟩
    rw [List.range_succ, List.foldlM_append, h1]
    simp [h2]

/-- A loop over the rows that contains a loop over the columns goes through the pixels in
raster order. -/
theorem foldlM_raster_inv {σ : Type} (f : Nat → Nat → σ → Option σ) (P : Nat → σ → Prop)
    (w h : Nat)
    (hstep : ∀ y x s, y < h → x < w → P (y * w + x) s →
      ∃ s2, f y x s = some s2 ∧ P (y * w + x + 1) s2) (s0 : σ) (h0 : P 0 s0) :
    ∃ s2, (List.range h).foldlM
        (fun st y => (List.range w).foldlM (fun st x => f y x st) st) s0 = some s2 ∧
      P (h * w) s2 := by
  apply foldlM_range_inv _ (fun y s => P (y * w) s) h _ s0 (by simpa using h0)
  intro y s hy hp
  obtain ⟨s2, h2, hp2⟩ := foldlM_range_inv (fun st x => f y x st) (fun x s => P (y * w + x) s) w
    (fun x s hx hp => hstep y x s hy hx hp) s (by simpa using hp)
  refine ⟨s2, h2, ?_⟩
  have : (y + 1) * w = y * w + w := by ring
  show P ((y + 1) * w) s2
  rw [this]
  exact hp2

/-! ## Bytes of the pixel buffer -/

theorem setLabel_spec (pix : List (Fin 256)) (p : Nat) (l : Int) (h : p + 3 < pix.length) :
    ∃ pix2, setLabel pix p l = some pix2 ∧ pix2.length = pix.length ∧
      ∀ i, pix2[i]? =
        if p ≤ i ∧ i < p + 4 then some (chan (ColorFromBlob l) (i - p)) else pix[i]? := by
  refine ⟨(((pix.set p (ColorFromBlob l).R).set (p + 1) (ColorFromBlob l).G).set (p + 2)
    (ColorFromBlob l).B).set (p + 3) (ColorFromBlob l).A, by simp only [setLabel, if_pos h],
    by simp, ?_⟩
  intro i
  simp only [List.getElem?_set, List.length_set]
  by_cases h3 : p + 3 = i
  · subst h3
    have : p + 3 - p = 3 := by omega
    simp [h, this, chan]
  · by_cases h2 : p + 2 = i
    · subst h2
      have : p + 2 - p = 2 := by omega
      have hlt : p + 2 < pix.length := by omega
      simp [hlt, this, chan]
    · by_cases h1 : p + 1 = i
      · subst h1
        have : p + 1 - p = 1 := by omega
        have hlt : p + 1 < pix.length := by omega
        simp [hlt, this, chan]
      · by_cases h0 : p = i
        · subst h0
          have hlt : p < pix.length := by omega
          simp [hlt, chan]
        · have hn : ¬ (p ≤ i ∧ i < p + 4) := by omega
          simp [h3, h2, h1, h0, hn]

theorem isBackground_spec (pix : List (Fin 256)) (j : Nat) (h : 4 * j + 3 < pix.length) :
    ∃ b, isBackground pix (4 * j) = some b ∧ (b = true ↔ ¬ fgAt pix j) := by
  have h0 : 4 * j < pix.length := by omega
  have h1 : 4 * j + 1 < pix.length := by omega
  have h2 : 4 * j + 2 < pix.length := by omega
  unfold isBackground fgAt
  rw [List.getElem?_eq_getElem h0, List.getElem?_eq_getElem h1, List.getElem?_eq_getElem h2]
  simp only [Option.some.injEq]
  by_cases e0 : pix[4 * j] = 0
  · by_cases e1 : pix[4 * j + 1] = 0
    · by_cases e2 : pix[4 * j + 2] = 0
      · exact ⟨true, by simp [e0, e1, e2], by simp [e0, e1, e2]⟩
      · exact ⟨false, by simp [e0, e1, e2], by simp [e0, e1, e2]⟩
    · exact ⟨false, by simp [e0, e1], by simp [e0, e1]⟩
  · exact ⟨false, by simp [e0], by simp [e0]⟩

theorem mod_ne_of_lt_of_lt {w j k : Nat} (h1 : j < k) (h2 : k < j + w) : j % w ≠ k % w := by
  intro e
  have h3 : (k - j) % w = 0 := Nat.sub_mod_eq_zero_of_mod_eq e.symm
  have h4 : w ∣ k - j := Nat.dvd_of_mod_eq_zero h3
  have h5 := Nat.le_of_dvd (by omega) h4
  omega

theorem labOf_append_lt {raw : List Int} {j : Nat} (c : Int) (h : j < raw.length) :
    labOf (raw ++ [c]) j = labOf raw j := by
  unfold labOf
  rw [List.getD_eq_getElem?_getD, List.getD_eq_getElem?_getD, List.getElem?_append_left h]

theorem labOf_append_self (raw : List Int) (c : Int) : labOf (raw ++ [c]) raw.length = c := by
  unfold labOf
  rw [List.getD_eq_getElem?_getD]
  simp

/-! ## The first pass of `CCLImage` -/

/-- The `switch` of the first pass when the pixel has a labeled neighbour: the classes of
`above` and `left` (those that are not `EmptyBlob`) are merged, and `cur` is their root. -/
theorem resolve_merge {eq : List Int} (ll : Int) (counts : List Blob) {above left : Int}
    (ha : above = -1 ∨ ∃ r, RootOf eq above r) (hl : left = -1 ∨ ∃ r, RootOf eq left r)
    (hne : ¬ (above = -1 ∧ left = -1)) :
    ∃ eq2 c, resolve eq ll counts above left = some (eq2, ll, counts, c) ∧
      eq2.length = eq.length ∧
      (∃ l, l ∈ (if above = -1 then [] else [above]) ++ (if left = -1 then [] else [left]) ∧
        RootOf eq l c) ∧
      (∀ l r, RootOf eq l r →
        (∃ l2, l2 ∈ (if above = -1 then [] else [above]) ++ (if left = -1 then [] else [left]) ∧
          RootOf eq l2 r) → RootOf eq2 l c) ∧
      (∀ l r, RootOf eq l r →
        ¬ (∃ l2, l2 ∈ (if above = -1 then [] else [above]) ++ (if left = -1 then [] else [left]) ∧
          RootOf eq l2 r) → RootOf eq2 l r) := by
  by_cases hA : above = -1
  · have hL : left ≠ -1 := fun e => hne ⟨hA, e⟩
    obtain ⟨rl, hrl⟩ := hl.resolve_left hL
    obtain ⟨eq1, hfind, hlen1, hroots1⟩ := find_spec hrl
    refine ⟨eq1, rl, ?_, hlen1, ⟨left, by simp [hA, hL], hrl⟩, ?_, ?_⟩
    · unfold resolve EmptyBlob
      rw [if_neg (fun h => hL h.2), if_neg (fun h => hL h.2), if_pos ⟨hA, hL⟩]
      simp only [hfind]
    · rintro l r hr ⟨l2, hl2, hr2⟩
      simp [hA, hL] at hl2
      subst hl2
      have := RootOf.unique hrl hr2
      subst this
      exact (hroots1 _ _).2 hr
    · intro l r hr _
      exact (hroots1 _ _).2 hr
  · obtain ⟨ra, hra⟩ := ha.resolve_left hA
    by_cases hL : left = -1
    · obtain ⟨eq1, hfind, hlen1, hroots1⟩ := find_spec hra
      refine ⟨eq1, ra, ?_, hlen1, ⟨above, by simp [hA, hL], hra⟩, ?_, ?_⟩
      · unfold resolve EmptyBlob
        rw [if_neg (fun h => hA h.1), if_pos ⟨hA, hL⟩]
        simp only [hfind]
      · rintro l r hr ⟨l2, hl2, hr2⟩
        simp [hA, hL] at hl2
        subst hl2
        have := RootOf.unique hra hr2
        subst this
        exact (hroots1 _ _).2 hr
      · intro l r hr _
        exact (hroots1 _ _).2 hr
    · obtain ⟨rl, hrl⟩ := hl.resolve_left hL
      obtain ⟨eq1, hfind1, hlen1, hroots1⟩ := find_spec hrl
      obtain ⟨eq2, hfind2, hlen2, hroots2⟩ := find_spec ((hroots1 _ _).2 hra)
      have hroots12 : ∀ x q, RootOf eq2 x q ↔ RootOf eq x q :=
        fun x q => (hroots2 x q).trans (hroots1 x q)
      have hrl2 : RootOf eq2 rl rl := (hroots12 _ _).2 hrl.root_root
      have hra2 : RootOf eq2 ra ra := (hroots12 _ _).2 hra.root_root
      have hlink : ∀ l r, RootOf eq l r →
          RootOf (eq2.set rl.toNat ra) l (if r = rl then ra else r) :=
        fun l r hr => rootOf_link hrl2.isRoot hra2.isRoot ((hroots12 _ _).2 hr)
      have hleft3 := hlink left rl hrl
      rw [if_pos rfl] at hleft3
      obtain ⟨eq4, hfind4, hlen4, hroots4⟩ := find_spec hleft3
      refine ⟨eq4, ra, ?_, by rw [hlen4, List.length_set, hlen2, hlen1],
        ⟨above, by simp [hA, hL], hra⟩, ?_, ?_⟩
      · unfold resolve EmptyBlob
        rw [if_neg (fun h => hA h.1), if_neg (fun h => hL h.2), if_neg (fun h => hA h.1)]
        simp only [hfind1, hfind2, upd_of_inRange ra hrl2.inRange, hfind4]
      · rintro l r hr ⟨l2, hl2, hr2⟩
        have h1 := (hroots4 _ _).2 (hlink l r hr)
        simp [hA, hL] at hl2
        rcases hl2 with rfl | rfl
        · have := RootOf.unique hra hr2
          subst this
          by_cases e : r = rl
          · rw [if_pos e] at h1; exact h1
          · rw [if_neg e] at h1; exact h1
        · have := RootOf.unique hrl hr2
          subst this
          rw [if_pos rfl] at h1
          exact h1
      · intro l r hr hM
        have h1 := (hroots4 _ _).2 (hlink l r hr)
        have hne2 : r ≠ rl := by
          rintro rfl
          exact hM ⟨left, by simp [hA, hL], hrl⟩
        rw [if_neg hne2] at h1
        exact h1

theorem imgNbr_lt {w : Nat} (hw : 0 < w) (fg : Nat → Prop) :
    ∀ i j, ImgNbr w fg i j → j < i := by
  rintro i j ⟨-, -, h | ⟨h, -⟩⟩ <;> omega

theorem set_append_last {α : Type} (xs : List α) (a b : α) :
    (xs ++ [a]).set xs.length b = xs ++ [b] := by
  induction xs with
  | nil => rfl
  | cons x xs ih => simp [ih]

/-- The end of the body of the inner loop: the label is written into the pixel and into the
row buffer. -/
theorem ImgInv.finish {w : Nat} {pix0 : List (Fin 256)} {k : Nat} {raw : List Int}
    {st : ImgState} (h : ImgInv w pix0 k raw st) (hw : 0 < w) {x : Nat} (hx : x = k % w)
    (hlen : 4 * k + 3 < pix0.length) (eq1 : List Int) (ll1 : Int) (counts1 : List Blob)
    (cur above : Int)
    (hlab : LabInv (ImgNbr w (fgAt pix0)) (fun _ => 1) (labOf (raw ++ [cur])) (k + 1) eq1 counts1)
    (hll : ll1 = (eq1.length : Int)) (hbg : cur = -1 ↔ ¬ fgAt pix0 k) :
    ∃ pix1 aboveBuf1, setLabel st.pix st.labelsPix cur = some pix1 ∧
      upd st.aboveBuf (x : Int) cur = some aboveBuf1 ∧
      ImgInv w pix0 (k + 1) (raw ++ [cur])
        { pix := pix1, imgPix := st.imgPix + 4, labelsPix := st.labelsPix + 4
          equivalence := eq1, largestLabel := ll1, aboveBuf := aboveBuf1
          cur := cur, above := above, left := cur, counts := counts1 } := by
  have hxw : x < w := by rw [hx]; exact Nat.mod_lt _ hw
  obtain ⟨pix1, hset, hplen, hpget⟩ := setLabel_spec st.pix st.labelsPix cur
    (by rw [h.labels_ptr, h.pix_len]; exact hlen)
  have hxr : InRange st.aboveBuf.length (x : Int) := by
    rw [h.above_len]; exact ⟨by omega, by omega⟩
  refine ⟨pix1, _, hset, upd_of_inRange cur hxr, ?_⟩
  have hrl := h.raw_len
  refine ⟨by simp [hrl], by rw [hplen]; exact h.pix_len, ?_, ?_, by simp only [h.img_ptr]; ring,
    by simp only [h.labels_ptr]; ring, hll, by simp only [List.length_set]; exact h.above_len,
    ?_, ?_, ?_, hlab⟩
  · intro j c hj hc
    simp only
    rw [hpget, h.labels_ptr]
    by_cases hjk : j = k
    · subst hjk
      rw [if_pos (by omega)]
      have : 4 * j + c - 4 * j = c := by omega
      rw [this, ← hrl, labOf_append_self]
    · rw [if_neg (by omega), h.pix_done j c (by omega) hc, labOf_append_lt _ (by omega)]
  · intro i hi
    simp only
    rw [hpget, h.labels_ptr, if_neg (by omega)]
    exact h.pix_rest i (by omega)
  · intro j hj hjw
    simp only
    by_cases hjk : j = k
    · subst hjk
      have : (Int.toNat (x : Int)) = x := by simp
      rw [← hx, idx_set_self hxr, ← hrl, labOf_append_self]
    · have hne : (x : Int) ≠ ((j % w : Nat) : Int) := by
        rw [hx]
        intro e
        have e2 : k % w = j % w := by exact_mod_cast e
        exact mod_ne_of_lt_of_lt (by omega : j < k) (by omega) e2.symm
      rw [idx_set_ne hxr.1 hne, labOf_append_lt _ (by omega)]
      exact h.above_buf j (by omega) (by omega)
  · intro _
    simp only [Nat.add_sub_cancel]
    rw [← hrl, labOf_append_self]
  · intro j hj
    by_cases hjk : j = k
    · subst hjk
      rw [← hrl, labOf_append_self]
      rw [hrl]
      exact hbg
    · rw [labOf_append_lt _ (by omega)]
      exact h.bg j (by omega)

/-- One iteration of the inner loop of the first pass of `CCLImage`. -/
theorem ImgInv.pixel {w : Nat} {pix0 : List (Fin 256)} {k : Nat} {raw : List Int}
    {st : ImgState} (h : ImgInv w pix0 k raw st) (hw : 0 < w) {y x : Nat} (hx : x = k % w)
    (hy : y = 0 ↔ k < w) (hlen : 4 * k + 3 < pix0.length) :
    ∃ st2 c, pixelStep y x st = some st2 ∧ ImgInv w pix0 (k + 1) (raw ++ [c]) st2 := by
  have hcl := imgNbr_lt hw (fgAt pix0)
  have hrl := h.raw_len
  obtain ⟨b, hb, hbfg⟩ := isBackground_spec st.pix k (by rw [h.pix_len]; exact hlen)
  have hfgeq : fgAt st.pix k ↔ fgAt pix0 k := by
    unfold fgAt
    rw [h.pix_rest (4 * k) (by omega), h.pix_rest (4 * k + 1) (by omega),
      h.pix_rest (4 * k + 2) (by omega)]
  rw [hfgeq] at hbfg
  rw [← h.img_ptr] at hb
  have hlabk : ∀ c, LabInv (ImgNbr w (fgAt pix0)) (fun _ => 1) (labOf (raw ++ [c])) k
      st.equivalence st.counts :=
    fun c => h.lab.congr (fun i hi => labOf_append_lt c (by omega))
  have hlabself : ∀ c, labOf (raw ++ [c]) k = c := fun c => by
    rw [← hrl]; exact labOf_append_self raw c
  cases b with
  | true =>
    have hnfg : ¬ fgAt pix0 k := hbfg.1 rfl
    have hskip := (hlabk (-1)).skip hcl (fun n hn => hnfg hn.1) (hlabself _)
    obtain ⟨pix1, ab1, hset, hupd, hinv⟩ := h.finish hw hx hlen st.equivalence st.largestLabel
      st.counts (-1) st.above hskip h.largest (by simp [hnfg])
    refine ⟨_, -1, ?_, hinv⟩
    simp only [pixelStep, hb, EmptyBlob, if_true, hset, hupd]
  | false =>
    have hfg : fgAt pix0 k := by
      by_contra hn
      have := hbfg.2 hn
      cases this
    -- a label of an earlier pixel is `-1` or has a root
    have hroot : ∀ j, j < k → labOf raw j ≠ -1 → ∃ r, RootOf st.equivalence (labOf raw j) r := by
      intro j hj hne
      rcases h.lab.range j hj with h1 | h1
      · exact absurd h1 hne
      · exact h.lab.forest _ h1
    -- the label above and the label to the left
    obtain ⟨aboveV, habove, hA1, hA2, hA3⟩ : ∃ aboveV : Int,
        (if y = 0 then some EmptyBlob else idx st.aboveBuf (x : Int)) = some aboveV ∧
        (aboveV = -1 ∨ ∃ r, RootOf st.equivalence aboveV r) ∧
        (aboveV ≠ -1 → ∃ n, n + w = k ∧ fgAt pix0 n ∧ labOf raw n = aboveV) ∧
        (∀ n, n + w = k → fgAt pix0 n → labOf raw n = aboveV ∧ aboveV ≠ -1) := by
      by_cases hy0 : y = 0
      · refine ⟨-1, by rw [if_pos hy0]; rfl, Or.inl rfl, fun hne => absurd rfl hne, ?_⟩
        intro n hn _
        have := hy.1 hy0
        omega
      · have hkw : w ≤ k := by
          by_contra hlt
          exact hy0 (hy.2 (by omega))
        have hmod : (k - w) % w = x := by
          rw [hx]
          have : k = (k - w) + w := by omega
          conv_rhs => rw [this, Nat.add_mod_right]
        have hbuf := h.above_buf (k - w) (by omega) (by omega)
        rw [hmod] at hbuf
        refine ⟨labOf raw (k - w), by rw [if_neg hy0]; exact hbuf, ?_, ?_, ?_⟩
        · by_cases hne : labOf raw (k - w) = -1
          · exact Or.inl hne
          · exact Or.inr (hroot _ (by omega) hne)
        · intro hne
          refine ⟨k - w, by omega, ?_, rfl⟩
          by_contra hnfg
          exact hne ((h.bg (k - w) (by omega)).2 hnfg)
        · intro n hn hfgn
          have : n = k - w := by omega
          subst this
          refine ⟨rfl, ?_⟩
          intro e
          exact (h.bg (k - w) (by omega)).1 e hfgn
    obtain ⟨leftV, hleft, hL1, hL2, hL3⟩ : ∃ leftV : Int,
        (if x = 0 then EmptyBlob else st.left) = leftV ∧
        (leftV = -1 ∨ ∃ r, RootOf st.equivalence leftV r) ∧
        (leftV ≠ -1 → ∃ n, n + 1 = k ∧ k % w ≠ 0 ∧ fgAt pix0 n ∧ labOf raw n = leftV) ∧
        (∀ n, n + 1 = k → k % w ≠ 0 → fgAt pix0 n → labOf raw n = leftV ∧ leftV ≠ -1) := by
      by_cases hx0 : x = 0
      · refine ⟨-1, by rw [if_pos hx0]; rfl, Or.inl rfl, fun hne => absurd rfl hne, ?_⟩
        intro n _ hn _
        rw [← hx] at hn
        exact absurd hx0 hn
      · have hk0 : 0 < k := by
          by_contra hk
          have : k = 0 := by omega
          rw [this] at hx
          simp at hx
          exact hx0 hx
        refine ⟨labOf raw (k - 1), by rw [if_neg hx0]; exact h.left_eq hk0, ?_, ?_, ?_⟩
        · by_cases hne : labOf raw (k - 1) = -1
          · exact Or.inl hne
          · exact Or.inr (hroot _ (by omega) hne)
        · intro hne
          refine ⟨k - 1, by omega, by rw [← hx]; exact hx0, ?_, rfl⟩
          by_contra hnfg
          exact hne ((h.bg (k - 1) (by omega)).2 hnfg)
        · intro n hn _ hfgn
          have : n = k - 1 := by omega
          subst this
          refine ⟨rfl, ?_⟩
          intro e
          exact (h.bg (k - 1) (by omega)).1 e hfgn
    by_cases hboth : aboveV = -1 ∧ leftV = -1
    · -- no labeled neighbour: a new label
      have hR : ∀ n, ¬ ImgNbr w (fgAt pix0) k n := by
        rintro n ⟨-, hfgn, h1 | ⟨h1, h2⟩⟩
        · exact (hA3 n h1 hfgn).2 hboth.1
        · exact (hL3 n h1 h2 hfgn).2 hboth.2
      have hfresh := (hlabk (st.equivalence.length : Int)).fresh hcl hR (hlabself _)
      have hres : resolve st.equivalence st.largestLabel st.counts aboveV leftV
          = some (st.equivalence ++ [(st.equivalence.length : Int)],
              (st.equivalence.length : Int) + 1,
              st.counts ++ [⟨(st.equivalence.length : Int), 0⟩],
              (st.equivalence.length : Int)) := by
        unfold resolve EmptyBlob
        rw [if_pos hboth, h.largest]
      have hclen : ((st.equivalence.length : Int)) = (st.counts.length : Int) := by
        rw [h.lab.len]
      have hidx : idx (st.counts ++ [(⟨(st.equivalence.length : Int), 0⟩ : Blob)])
          (st.equivalence.length : Int) = some ⟨(st.equivalence.length : Int), 0⟩ := by
        have := idx_append_length st.counts (⟨(st.equivalence.length : Int), 0⟩ : Blob)
        rw [← hclen] at this
        exact this
      have hupd : upd (st.counts ++ [(⟨(st.equivalence.length : Int), 0⟩ : Blob)])
          (st.equivalence.length : Int) ⟨(st.equivalence.length : Int), 0 + 1⟩
          = some (st.counts ++ [⟨(st.equivalence.length : Int), 1⟩]) := by
        rw [upd_of_inRange _ (idx_inRange hidx)]
        have : ((st.equivalence.length : Int)).toNat = st.counts.length := by
          rw [hclen]; simp
        rw [this, set_append_last]
        rfl
      obtain ⟨pix1, ab1, hset, hupd2, hinv⟩ := h.finish hw hx hlen
        (st.equivalence ++ [(st.equivalence.length : Int)]) ((st.equivalence.length : Int) + 1)
        (st.counts ++ [⟨(st.equivalence.length : Int), 1⟩]) (st.equivalence.length : Int) aboveV
        hfresh (by simp) (by
          constructor
          · intro e; omega
          · intro e; exact absurd hfg e)
      refine ⟨_, _, ?_, hinv⟩
      simp only [pixelStep, hb, Bool.false_eq_true, if_false, habove, hleft, hres, hidx, hupd,
        hset, hupd2]
    · -- labeled neighbours: their classes are merged
      obtain ⟨eq2, c, hres, hlen2, hc1, hU1, hU2⟩ :=
        resolve_merge st.largestLabel st.counts hA1 hL1 hboth
      obtain ⟨l0, hl0, hl0c⟩ := hc1
      have hcr : InRange st.counts.length c := by
        rw [h.lab.len]; exact hl0c.root_inRange
      obtain ⟨bc, hbc⟩ := idx_isSome_of_inRange hcr
      have hmerge := (hlabk c).merge hcl
        ((if aboveV = -1 then [] else [aboveV]) ++ (if leftV = -1 then [] else [leftV]))
        (fun n hn => by
          obtain ⟨-, hfgn, h1 | ⟨h1, h2⟩⟩ := hn
          · obtain ⟨e1, e2⟩ := hA3 n h1 hfgn
            rw [labOf_append_lt _ (by omega), e1]
            simp [e2]
          · obtain ⟨e1, e2⟩ := hL3 n h1 h2 hfgn
            rw [labOf_append_lt _ (by omega), e1]
            simp [e2])
        (fun l hl => by
          rw [List.mem_append] at hl
          rcases hl with hl | hl
          · by_cases hA : aboveV = -1
            · simp [hA] at hl
            · simp [hA] at hl
              subst hl
              obtain ⟨n, hn, hfgn, hnl⟩ := hA2 hA
              exact ⟨n, ⟨hfg, hfgn, Or.inl hn⟩, by rw [labOf_append_lt _ (by omega)]; exact hnl⟩
          · by_cases hL : leftV = -1
            · simp [hL] at hl
            · simp [hL] at hl
              subst hl
              obtain ⟨n, hn, hkw, hfgn, hnl⟩ := hL2 hL
              exact ⟨n, ⟨hfg, hfgn, Or.inr ⟨hn, hkw⟩⟩,
                by rw [labOf_append_lt _ (by omega)]; exact hnl⟩)
        (fun l hl => by
          rw [List.mem_append] at hl
          rcases hl with hl | hl
          · by_cases hA : aboveV = -1
            · simp [hA] at hl
            · simp [hA] at hl
              subst hl
              exact hA1.resolve_left hA
          · by_cases hL : leftV = -1
            · simp [hL] at hl
            · simp [hL] at hl
              subst hl
              exact hL1.resolve_left hL)
        ⟨l0, hl0, hl0c⟩ (hlabself c) hlen2 hU1 hU2 hbc
      obtain ⟨pix1, ab1, hset, hupd2, hinv⟩ := h.finish hw hx hlen eq2 st.largestLabel
        (st.counts.set c.toNat { bc with Size := bc.Size + 1 }) c aboveV hmerge
        (by rw [hlen2]; exact h.largest) (by
          constructor
          · intro e
            have := hcr.1
            omega
          · intro e; exact absurd hfg e)
      refine ⟨_, _, ?_, hinv⟩
      simp only [pixelStep, hb, Bool.false_eq_true, if_false, habove, hleft, hres, hbc,
        upd_of_inRange _ hcr, hset, hupd2]

/-- The first pass of `CCLImage` returns, having dealt with every pixel. -/
theorem firstPassImage_spec {w h : Nat} (hw : 0 < w) (pix0 : List (Fin 256))
    (hlen : pix0.length = 4 * w * h) :
    ∃ st raw, (List.range h).foldlM
        (fun st y => (List.range w).foldlM (fun st x => pixelStep y x st) st)
        { pix := pix0, imgPix := 0, labelsPix := 0, equivalence := [], largestLabel := 0
          aboveBuf := List.replicate w 0
          cur := EmptyBlob, above := EmptyBlob, left := EmptyBlob, counts := [] } = some st ∧
      ImgInv w pix0 (h * w) raw st := by
  obtain ⟨st, hrun, raw, hinv⟩ := foldlM_raster_inv pixelStep
    (fun k st => ∃ raw, ImgInv w pix0 k raw st) w h
    (fun y x s hy hx hp => by
      obtain ⟨raw, hinv⟩ := hp
      have hk : y * w + x < h * w := by
        have : (y + 1) * w ≤ h * w := Nat.mul_le_mul_right w (by omega)
        have e : (y + 1) * w = y * w + w := by ring
        omega
      obtain ⟨st2, c, hstep, hinv2⟩ := hinv.pixel hw (y := y) (x := x)
        (by rw [Nat.mul_comm, Nat.mul_add_mod, Nat.mod_eq_of_lt hx])
        (by
          constructor
          · intro e; subst e; omega
          · intro hlt
            by_contra hy0
            have : w ≤ y * w := Nat.le_mul_of_pos_left w (by omega)
            omega)
        (by
          rw [hlen]
          have : 4 * w * h = 4 * (h * w) := by ring
          omega)
      exact ⟨st2, hstep, _, hinv2⟩)
    { pix := pix0, imgPix := 0, labelsPix := 0, equivalence := [], largestLabel := 0
      aboveBuf := List.replicate w 0
      cur := EmptyBlob, above := EmptyBlob, left := EmptyBlob, counts := [] }
    ⟨[], rfl, rfl, fun j c hj => by omega, fun i _ => rfl, rfl, rfl, rfl, List.length_replicate _ _,
      fun j hj => by omega, fun hk => by omega, fun j hj => by omega, LabInv.empty _ _ _⟩
  exact ⟨st, raw, hrun, hinv⟩

/-! ## The second pass of `CCLImage` -/

theorem chan_decode (c : NRGBA) : BlobFromColor (chan c 0) (chan c 1) (chan c 2) (chan c 3)
    = decode c := rfl

theorem secondPassImage_spec (w h : Nat) (mapping : List Int) (raw : List Int)
    (pix1 : List (Fin 256)) (hlen : pix1.length = 4 * w * h)
    (henc : ∀ j c, j < h * w → c < 4 →
      pix1[4 * j + c]? = some (chan (ColorFromBlob (labOf raw j)) c))
    (hmap : ∀ j, j < h * w → decode (ColorFromBlob (labOf raw j)) ≠ -1 →
      ∃ v, idx mapping (decode (ColorFromBlob (labOf raw j))) = some v) :
    ∃ pix2 p, (List.range h).foldlM
        (fun st _ => (List.range w).foldlM (fun st _ => relabelStep mapping st) st)
        (pix1, 0) = some (pix2, p) ∧
      pix2.length = pix1.length ∧
      ∀ j c, j < h * w → c < 4 →
        pix2[4 * j + c]? = some (chan (finalColor mapping (labOf raw j)) c) := by
  obtain ⟨⟨pix2, p⟩, hrun, -, hl2, hfin, -⟩ := foldlM_raster_inv
    (fun _ _ st => relabelStep mapping st)
    (fun k (st : List (Fin 256) × Nat) => st.2 = 4 * k ∧ st.1.length = pix1.length ∧
      (∀ j c, j < k → c < 4 → st.1[4 * j + c]? = some (chan (finalColor mapping (labOf raw j)) c)) ∧
      (∀ j c, k ≤ j → j < h * w → c < 4 →
        st.1[4 * j + c]? = some (chan (ColorFromBlob (labOf raw j)) c)))
    w h
    (fun y x s hy hx hp => by
      obtain ⟨pix, p⟩ := s
      obtain ⟨hp1, hp2, hp3, hp4⟩ := hp
      simp only at hp1 hp2 hp3 hp4
      subst hp1
      have hk : y * w + x < h * w := by
        have : (y + 1) * w ≤ h * w := Nat.mul_le_mul_right w (by omega)
        have e : (y + 1) * w = y * w + w := by ring
        omega
      have hN : 4 * (y * w + x) + 3 < pix.length := by
        rw [hp2, hlen]
        have : 4 * w * h = 4 * (h * w) := by ring
        omega
      have r0 := hp4 (y * w + x) 0 (le_refl _) hk (by omega)
      have r1 := hp4 (y * w + x) 1 (le_refl _) hk (by omega)
      have r2 := hp4 (y * w + x) 2 (le_refl _) hk (by omega)
      have r3 := hp4 (y * w + x) 3 (le_refl _) hk (by omega)
      rw [Nat.add_zero] at r0
      by_cases hblob : decode (ColorFromBlob (labOf raw (y * w + x))) = -1
      · refine ⟨(pix, 4 * (y * w + x) + 4), ?_, by simp only; ring, hp2, ?_, ?_⟩
        · simp only [relabelStep, r0, r1, r2, r3, chan_decode, EmptyBlob, hblob, ne_eq,
            not_true_eq_false, if_false]
        · intro j c hj hc
          simp only
          by_cases hjk : j = y * w + x
          · subst hjk
            rw [hp4 _ c (le_refl _) hk hc]
            unfold finalColor
            rw [if_neg (by simp [EmptyBlob, hblob])]
          · exact hp3 j c (by omega) hc
        · intro j c hj1 hj2 hc
          exact hp4 j c (by omega) hj2 hc
      · obtain ⟨v, hv⟩ := hmap _ hk hblob
        obtain ⟨pix2, hset, hplen, hpget⟩ := setLabel_spec pix (4 * (y * w + x)) v hN
        refine ⟨(pix2, 4 * (y * w + x) + 4), ?_, by simp only; ring, by rw [hplen, hp2], ?_, ?_⟩
        · simp only [relabelStep, r0, r1, r2, r3, chan_decode, EmptyBlob, hblob, ne_eq,
            not_false_eq_true, if_true, hv, hset]
        · intro j c hj hc
          simp only
          rw [hpget]
          by_cases hjk : j = y * w + x
          · subst hjk
            rw [if_pos (by omega)]
            have : 4 * (y * w + x) + c - 4 * (y * w + x) = c := by omega
            rw [this]
            unfold finalColor
            rw [if_pos (by simp [EmptyBlob, hblob]), hv]
          · rw [if_neg (by omega)]
            exact hp3 j c (by omega) hc
        · intro j c hj1 hj2 hc
          simp only
          rw [hpget, if_neg (by omega)]
          exact hp4 j c (by omega) hj2 hc)
    (pix1, 0) ⟨rfl, rfl, fun j c hj => by omega, fun j c _ hj hc => henc j c hj hc⟩
  exact ⟨pix2, p, hrun, hl2, hfin⟩

/-! ## `CCLImage` on a well-formed image -/

theorem relabelFrom_sizes (setID : Bool) : ∀ (bs : List Blob) (i : Nat),
    (relabelFrom setID i bs).map (fun b => b.Size) = bs.map (fun b => b.Size) := by
  intro bs
  induction bs with
  | nil => intro i; rfl
  | cons b rest ih =>
    intro i
    simp only [relabelFrom, List.map_cons, ih (i + 1)]
    congr 1
    by_cases hb : b.Size = 0
    · rw [if_pos hb]
    · rw [if_neg hb]
      cases setID <;> simp

/-- The decoding of a colour lies in the range of the codec. -/
theorem decode_range (c : NRGBA) : -1 ≤ decode c ∧ decode c ≤ 4294967294 :=
  BlobFromColor_range_aux c.R c.G c.B c.A

theorem decode_ColorFromBlob_empty : decode (ColorFromBlob (-1)) = -1 := by decide

theorem CCLImage_spec {img : Image} {w h : Nat} (hwf : img.WellFormed w h)
    {sort : List Blob → List Blob} (hs : SortSpec sort) :
    ∃ (st1 : ImgState) (raw : List Int) (ms : MapState) (pix2 : List (Fin 256))
      (roots : List Int),
      ImgInv w img.Pix (h * w) raw st1 ∧
      labelCount img = st1.equivalence.length ∧
      CCLImage sort img = Except.ok ({ img with Pix := pix2 }, ms.done.take ms.numNotEmpty) ∧
      pix2.length = img.Pix.length ∧
      (∀ j c, j < h * w → c < 4 →
        pix2[4 * j + c]? = some (chan (finalColor ms.mapping (labOf raw j)) c)) ∧
      ms.mapping.length = st1.equivalence.length ∧
      roots.Nodup ∧
      (∀ l, InRange st1.equivalence.length l → ∃ (p : Nat) (r : Int), roots[p]? = some r ∧
        RootOf st1.equivalence l r ∧ idx ms.mapping l = some (p : Int)) ∧
      (∀ (p : Nat) (r : Int), roots[p]? = some r → RootOf st1.equivalence r r) ∧
      (ms.done.take ms.numNotEmpty).length = roots.length ∧
      (∀ (p : Nat) (r : Int), roots[p]? = some r →
        (ms.done.take ms.numNotEmpty)[p]? = some ⟨(p : Int),
          wsum (h * w) (fun _ => 1) (fun j => rootIs st1.equivalence (labOf raw j) r)⟩) ∧
      ((ms.done.take ms.numNotEmpty).map (fun b => b.Size)).Pairwise (fun a b => b ≤ a) := by
  obtain ⟨hminx, hminy, hmaxx, hmaxy, hw, hh, -, hlen⟩ := hwf
  obtain ⟨st1, raw, hfold, hinv⟩ := firstPassImage_spec (w := w) (h := h) (by omega) img.Pix hlen
  obtain ⟨eq2, blobs2, ms, hagg, hfill, hmlen, roots, hnodup, hmap, hroot, hrlen, hsz⟩ :=
    finalize_spec true hinv.lab (fun _ _ => le_refl _) hs
  have hpix1 : st1.pix.length = 4 * w * h := by rw [hinv.pix_len, hlen]
  obtain ⟨pix2, p, hsecond, hlen2, hfin⟩ := secondPassImage_spec w h ms.mapping raw st1.pix hpix1
    hinv.pix_done
    (fun j hj hne => by
      apply idx_isSome_of_inRange
      rw [hmlen]
      rcases hinv.lab.range j hj with h1 | h1
      · rw [h1, decode_ColorFromBlob_empty] at hne
        exact absurd rfl hne
      · have hr := decode_range (ColorFromBlob (labOf raw j))
        by_cases hbig : (st1.equivalence.length : Int) ≤ 4294967295
        · rw [decode_ColorFromBlob_aux _ (by have := h1.1; omega) (by have := h1.2; omega)]
          exact h1
        · exact ⟨by omega, by omega⟩)
  have hw0 : ((w : Int)).toNat = w := by simp
  have hh0 : ((h : Int)).toNat = h := by simp
  refine ⟨st1, raw, ms, pix2, roots, hinv, ?_, ?_, by rw [hlen2, hinv.pix_len], hfin, hmlen,
    hnodup, hmap, hroot, hrlen, ?_, ?_⟩
  · unfold labelCount
    rw [hmaxx, hmaxy, hw0, hh0, hfold]
  · have hne : ¬ (img.MinX ≠ 0 ∨ img.MinY ≠ 0) := by
      rw [hminx, hminy]; simp
    have hpos : ¬ img.Pix.length = 0 := by
      rw [hlen]
      have := Nat.mul_pos (Nat.mul_pos (by omega : 0 < 4) (by omega : 0 < w)) (by omega : 0 < h)
      omega
    unfold CCLImage
    rw [if_neg hne]
    unfold CCLImageBody
    have hwn2 : ¬ (w : Int) < 0 := by omega
    simp only [if_neg hpos, hmaxx, hmaxy, if_neg hwn2, hw0, hh0, hfold, hagg, hfill, hsecond]
  · intro p r hp
    have := hsz p r hp
    simpa using this
  · obtain ⟨hdone, -⟩ := fillMapping_done true _ 0 _ ms hfill
    simp only [List.nil_append] at hdone
    rw [hdone, List.map_take, relabelFrom_sizes]
    exact List.Pairwise.sublist (List.take_sublist _ _)
      (List.pairwise_map.2 (hs blobs2).2)

/-! ## Claims on `CCLImage` -/

theorem wellFormed_exampleImage : exampleImage.WellFormed 3 2 := by
  unfold Image.WellFormed exampleImage
  decide

/-- C7: for every image with origin `(0,0)`, width and height at least 1 and
`Stride = 4 * width`, the list returned by `CCLImage` has at every index `i` a record whose
ID is `i`, its sizes are non-increasing along the list and all at least 1. -/
theorem cclimage_list_ranked (img : Image) (w h : Nat) (sort : List Blob → List Blob)
    (hwf : img.WellFormed w h) (hs : SortSpec sort) :
    ∃ img2 counts, CCLImage sort img = Except.ok (img2, counts) ∧
      (∀ (i : Nat) (b : Blob), counts[i]? = some b → b.ID = (i : Int) ∧ 1 ≤ b.Size) ∧
      (∀ (i : Nat) (a b : Blob), counts[i]? = some a → counts[i + 1]? = some b →
        b.Size ≤ a.Size) := by
  obtain ⟨st1, raw, ms, pix2, roots, hinv, -, hrun, -, -, -, -, -, hroot, hrlen, hsz, hdesc⟩ :=
    CCLImage_spec hwf hs
  refine ⟨_, _, hrun, ?_, ?_⟩
  · intro i b hb
    have hi : i < roots.length := by
      rw [← hrlen]; exact (List.getElem?_eq_some.1 hb).1
    have hr := hroot i _ (List.getElem?_eq_getElem hi)
    rw [hsz i _ (List.getElem?_eq_getElem hi)] at hb
    cases Option.some.inj hb
    refine ⟨rfl, ?_⟩
    obtain ⟨j, hj, hjr⟩ := hinv.lab.inhabited _ hr.inRange
    exact wsum_pos (fun _ _ => le_refl _) hj (by simp only [hjr]; exact rootIs_iff.2 hr)
  · intro i a b ha hb
    obtain ⟨hi, hia⟩ := List.getElem?_eq_some.1 ha
    obtain ⟨hj, hjb⟩ := List.getElem?_eq_some.1 hb
    have h1 : i < ((ms.done.take ms.numNotEmpty).map (fun b => b.Size)).length := by
      simpa using hi
    have h2 : i + 1 < ((ms.done.take ms.numNotEmpty).map (fun b => b.Size)).length := by
      simpa using hj
    have := List.pairwise_iff_getElem.1 hdesc i (i + 1) h1 h2 (by omega)
    simp only [List.getElem_map] at this
    rw [hia, hjb] at this
    exact this

theorem cclimage_list_ranked_witness :
    exampleImage.WellFormed 3 2 ∧ SortSpec insertionSortBlobs ∧
    ∃ img2 counts, CCLImage insertionSortBlobs exampleImage = Except.ok (img2, counts) ∧
      (∀ (i : Nat) (b : Blob), counts[i]? = some b → b.ID = (i : Int) ∧ 1 ≤ b.Size) ∧
      (∀ (i : Nat) (a b : Blob), counts[i]? = some a → counts[i + 1]? = some b →
        b.Size ≤ a.Size) :=
  ⟨wellFormed_exampleImage, insertionSortBlobs_spec,
    cclimage_list_ranked exampleImage 3 2 insertionSortBlobs wellFormed_exampleImage
      insertionSortBlobs_spec⟩

/-! ## Pixels and coordinates -/

theorem pixel_lt {w h x y : Nat} (hx : x < w) (hy : y < h) : y * w + x < h * w := by
  have : (y + 1) * w ≤ h * w := Nat.mul_le_mul_right w (by omega)
  have e : (y + 1) * w = y * w + w := by ring
  omega

theorem pixOffset_eq {img : Image} {w h : Nat} (hwf : img.WellFormed w h) (x y : Nat) :
    img.PixOffset (x : Int) (y : Int) = ((4 * (y * w + x) : Nat) : Int) := by
  obtain ⟨hminx, hminy, -, -, -, -, hstride, -⟩ := hwf
  unfold Image.PixOffset
  rw [hminx, hminy, hstride]
  push_cast
  ring

theorem isForeground_iff {img : Image} {w h : Nat} (hwf : img.WellFormed w h) (x y : Nat) :
    img.isForeground x y ↔ fgAt img.Pix (y * w + x) := by
  unfold Image.isForeground fgAt
  simp only [pixOffset_eq hwf]
  have e1 : ((4 * (y * w + x) : Nat) : Int) + 1 = ((4 * (y * w + x) + 1 : Nat) : Int) := by
    push_cast; ring
  have e2 : ((4 * (y * w + x) : Nat) : Int) + 2 = ((4 * (y * w + x) + 2 : Nat) : Int) := by
    push_cast; ring
  rw [e1, e2, idx_natCast, idx_natCast, idx_natCast]

theorem blobAt_eq {img : Image} {w h : Nat} (hwf : img.WellFormed w h) (pix2 : List (Fin 256))
    (x y : Nat) (c : NRGBA)
    (hc : ∀ i, i < 4 → pix2[4 * (y * w + x) + i]? = some (chan c i)) :
    Image.blobAt { img with Pix := pix2 } x y = some (decode c) := by
  have hwf2 : Image.WellFormed { img with Pix := img.Pix } w h := hwf
  unfold Image.blobAt
  have hoff : Image.PixOffset { img with Pix := pix2 } (x : Int) (y : Int)
      = ((4 * (y * w + x) : Nat) : Int) := pixOffset_eq hwf x y
  simp only [hoff]
  have e1 : ((4 * (y * w + x) : Nat) : Int) + 1 = ((4 * (y * w + x) + 1 : Nat) : Int) := by
    push_cast; ring
  have e2 : ((4 * (y * w + x) : Nat) : Int) + 2 = ((4 * (y * w + x) + 2 : Nat) : Int) := by
    push_cast; ring
  have e3 : ((4 * (y * w + x) : Nat) : Int) + 3 = ((4 * (y * w + x) + 3 : Nat) : Int) := by
    push_cast; ring
  have h0 := hc 0 (by omega)
  rw [Nat.add_zero] at h0
  rw [e1, e2, e3, idx_natCast, idx_natCast, idx_natCast, idx_natCast, h0, hc 1 (by omega),
    hc 2 (by omega), hc 3 (by omega)]
  rfl

theorem nodup_length_le {roots : List Int} {L : Nat} (hn : roots.Nodup)
    (hr : ∀ r, r ∈ roots → InRange L r) : roots.length ≤ L := by
  have h1 : roots.toFinset ⊆ Finset.Ico (0 : Int) (L : Int) := by
    intro r hr2
    rw [List.mem_toFinset] at hr2
    rw [Finset.mem_Ico]
    exact hr r hr2
  have h2 := Finset.card_le_card h1
  rw [List.toFinset_card_of_nodup hn, Int.card_Ico] at h2
  simpa using h2

/-! ## Chains of 4-adjacent foreground pixels -/

theorem adjacent4_swap {p q : Nat × Nat} (h : Adjacent4 p q) : Adjacent4 q p := by
  unfold Adjacent4 at *
  rcases h with ⟨h1, h2⟩ | ⟨h1, h2⟩
  · exact Or.inl ⟨h1.symm, h2.symm⟩
  · exact Or.inr ⟨h1.symm, h2.symm⟩

theorem fgLink_swap {img : Image} {w h : Nat} {p q : Nat × Nat} (hl : FgLink img w h p q) :
    FgLink img w h q p := by
  obtain ⟨h1, h2, h3, h4, h5, h6, h7⟩ := hl
  exact ⟨h3, h4, h1, h2, h6, h5, adjacent4_swap h7⟩

theorem fgLink_chain_symm {img : Image} {w h : Nat} {p q : Nat × Nat}
    (hc : Relation.ReflTransGen (FgLink img w h) p q) :
    Relation.ReflTransGen (FgLink img w h) q p :=
  Relation.ReflTransGen.symmetric (fun _ _ hl => fgLink_swap hl) hc

theorem div_mod_pred {w i j : Nat} (hw : 0 < w) (hji : j + 1 = i) (hi : i % w ≠ 0) :
    j / w = i / w ∧ j % w + 1 = i % w := by
  have h1 := Nat.div_add_mod i w
  have h2 : (i % w - 1) + w * (i / w) = j ∧ i % w - 1 < w := by
    have := Nat.mod_lt i hw
    constructor <;> omega
  have h3 := (Nat.div_mod_unique hw).2 h2
  constructor
  · exact h3.1
  · rw [h3.2]; omega

theorem coords_of_pixel {w x y : Nat} (hx : x < w) :
    (y * w + x) % w = x ∧ (y * w + x) / w = y := by
  have hw : 0 < w := by omega
  have := (Nat.div_mod_unique hw).2 ⟨(by ring : x + w * y = y * w + x), hx⟩
  exact ⟨this.2, this.1⟩

/-- A link of the raster scan is a link between 4-adjacent foreground pixels. -/
theorem fgLink_of_imgNbr {img : Image} {w h : Nat} (hwf : img.WellFormed w h) {i j : Nat}
    (hi : i < h * w) (hn : ImgNbr w (fgAt img.Pix) i j) :
    FgLink img w h (i % w, i / w) (j % w, j / w) := by
  have hw : 0 < w := by have := hwf.2.2.2.2.1; omega
  obtain ⟨hfi, hfj, hadj⟩ := hn
  have hji : j < i := by rcases hadj with h1 | ⟨h1, -⟩ <;> omega
  have hdiv : ∀ {a : Nat}, a < h * w → a / w < h := by
    intro a ha
    apply Nat.div_lt_of_lt_mul
    rw [Nat.mul_comm]; exact ha
  refine ⟨Nat.mod_lt _ hw, hdiv hi, Nat.mod_lt _ hw, hdiv (by omega), ?_, ?_, ?_⟩
  · rw [isForeground_iff hwf, Nat.div_add_mod']; exact hfi
  · rw [isForeground_iff hwf, Nat.div_add_mod']; exact hfj
  · unfold Adjacent4
    simp only
    rcases hadj with h1 | ⟨h1, h2⟩
    · subst h1
      left
      exact ⟨Nat.add_mod_right j w, Or.inr (by rw [Nat.add_div_right j hw])⟩
    · obtain ⟨e1, e2⟩ := div_mod_pred hw h1 h2
      right
      exact ⟨e1.symm, Or.inr e2⟩

/-- A link between 4-adjacent foreground pixels is a link of the raster scan, in one
direction or the other. -/
theorem conn_of_fgLink {img : Image} {w h : Nat} (hwf : img.WellFormed w h) {p q : Nat × Nat}
    (hl : FgLink img w h p q) :
    ConnUpTo (ImgNbr w (fgAt img.Pix)) (h * w) (p.2 * w + p.1) (q.2 * w + q.1) := by
  have key : ∀ {p q : Nat × Nat}, FgLink img w h p q →
      (p.1 = q.1 ∧ q.2 + 1 = p.2) ∨ (p.2 = q.2 ∧ q.1 + 1 = p.1) →
      ConnUpTo (ImgNbr w (fgAt img.Pix)) (h * w) (p.2 * w + p.1) (q.2 * w + q.1) := by
    rintro ⟨x1, y1⟩ ⟨x2, y2⟩ ⟨h1, h2, h3, h4, h5, h6, -⟩ hcase
    simp only at h1 h2 h3 h4 h5 h6 hcase ⊢
    apply Relation.EqvGen.rel
    refine ⟨pixel_lt h1 h2, (isForeground_iff hwf _ _).1 h5, (isForeground_iff hwf _ _).1 h6, ?_⟩
    rcases hcase with ⟨e1, e2⟩ | ⟨e1, e2⟩
    · subst e1 e2
      left
      ring
    · subst e1 e2
      right
      refine ⟨by ring, ?_⟩
      rw [(coords_of_pixel h1).1]
      omega
  have hadj := hl.2.2.2.2.2.2
  unfold Adjacent4 at hadj
  rcases hadj with ⟨e1, e2 | e2⟩ | ⟨e1, e2 | e2⟩
  · exact (key (fgLink_swap hl) (Or.inl ⟨e1.symm, e2⟩)).symm
  · exact key hl (Or.inl ⟨e1, e2⟩)
  · exact (key (fgLink_swap hl) (Or.inr ⟨e1.symm, e2⟩)).symm
  · exact key hl (Or.inr ⟨e1, e2⟩)

/-- Two pixels are joined by a chain of links of the raster scan exactly when they are
joined by a chain of 4-adjacent foreground pixels. -/
theorem conn_iff_chain {img : Image} {w h : Nat} (hwf : img.WellFormed w h) {x1 y1 x2 y2 : Nat}
    (hx1 : x1 < w) (hx2 : x2 < w) :
    ConnUpTo (ImgNbr w (fgAt img.Pix)) (h * w) (y1 * w + x1) (y2 * w + x2) ↔
      Relation.ReflTransGen (FgLink img w h) (x1, y1) (x2, y2) := by
  constructor
  · intro hc
    have key : ∀ {i j : Nat}, ConnUpTo (ImgNbr w (fgAt img.Pix)) (h * w) i j →
        Relation.ReflTransGen (FgLink img w h) (i % w, i / w) (j % w, j / w) := by
      intro i j hij
      induction hij with
      | rel a b hab => exact Relation.ReflTransGen.single (fgLink_of_imgNbr hwf hab.1 hab.2)
      | refl a => exact Relation.ReflTransGen.refl
      | symm a b _ ih => exact fgLink_chain_symm ih
      | trans a b c _ _ ih1 ih2 => exact ih1.trans ih2
    have := key hc
    rw [(coords_of_pixel hx1).1, (coords_of_pixel hx1).2, (coords_of_pixel hx2).1,
      (coords_of_pixel hx2).2] at this
    exact this
  · intro hc
    have key : ∀ {p q : Nat × Nat}, Relation.ReflTransGen (FgLink img w h) p q →
        ConnUpTo (ImgNbr w (fgAt img.Pix)) (h * w) (p.2 * w + p.1) (q.2 * w + q.1) := by
      intro p q hpq
      induction hpq with
      | refl => exact ConnUpTo.refl _ _ _
      | tail _ hl ih => exact ih.trans (conn_of_fgLink hwf hl)
    exact key hc

/-- Under the codec range, the pixel of a foreground pixel decodes after `CCLImage` to the
rank of its class. -/
theorem finalColor_decode {mapping : List Int} {l : Int} {L p : Nat}
    (hl : InRange L l) (hL : (L : Int) ≤ 4294967295) (hp : p < L)
    (hm : idx mapping l = some (p : Int)) : decode (finalColor mapping l) = (p : Int) := by
  have h1 : decode (ColorFromBlob l) = l :=
    decode_ColorFromBlob_aux l (by have := hl.1; omega) (by have := hl.2; omega)
  unfold finalColor
  rw [h1, if_pos (by unfold EmptyBlob; have := hl.1; omega), hm]
  exact decode_ColorFromBlob_aux _ (by omega) (by omega)

theorem finalColor_background (mapping : List Int) : decode (finalColor mapping (-1)) = -1 := by
  unfold finalColor
  rw [decode_ColorFromBlob_empty, if_neg (by simp [EmptyBlob])]
  exact decode_ColorFromBlob_empty

/-- What `CCLImage` leaves in the pixels when the labels fit the codec: a background pixel
decodes to `-1`, a foreground pixel to the rank of its class in the list `roots`, and the
returned record number `p` holds the number of pixels of the class of rank `p`. -/
theorem CCLImage_ranks {img : Image} {w h : Nat} (hwf : img.WellFormed w h)
    {sort : List Blob → List Blob} (hs : SortSpec sort)
    (hcodec : (labelCount img : Int) ≤ 2 ^ 32 - 1) :
    ∃ (pix2 : List (Fin 256)) (counts : List Blob) (fin : Nat → Int) (cls : Nat → Int)
      (roots : List Int),
      CCLImage sort img = Except.ok ({ img with Pix := pix2 }, counts) ∧
      pix2.length = img.Pix.length ∧
      (∀ x y, x < w → y < h →
        Image.blobAt { img with Pix := pix2 } x y = some (fin (y * w + x))) ∧
      (∀ j, j < h * w → ¬ fgAt img.Pix j → fin j = -1) ∧
      roots.Nodup ∧ counts.length = roots.length ∧
      (∀ j, j < h * w → fgAt img.Pix j →
        ∃ p : Nat, roots[p]? = some (cls j) ∧ fin j = (p : Int)) ∧
      (∀ (p : Nat) (r : Int), roots[p]? = some r →
        ∃ j, j < h * w ∧ fgAt img.Pix j ∧ cls j = r) ∧
      (∀ p : Nat, p < counts.length →
        counts[p]? = some ⟨(p : Int), wsum (h * w) (fun _ => 1) (fun j => fin j = (p : Int))⟩) ∧
      (∀ i j, i < h * w → j < h * w → fgAt img.Pix i → fgAt img.Pix j →
        (cls i = cls j ↔ ConnUpTo (ImgNbr w (fgAt img.Pix)) (h * w) i j)) := by
  obtain ⟨st1, raw, ms, pix2, roots, hinv, hcount, hrun, hlen2, hfin, hmlen, hnodup, hmap,
    hroot, hrlen, hsz, -⟩ := CCLImage_spec hwf hs
  have hL : (st1.equivalence.length : Int) ≤ 4294967295 := by
    rw [hcount] at hcodec
    norm_num at hcodec
    exact_mod_cast hcodec
  have hrootsL : roots.length ≤ st1.equivalence.length :=
    nodup_length_le hnodup (fun r hr => by
      obtain ⟨p, hp, hpr⟩ := List.getElem_of_mem hr
      exact (hroot p r (by rw [List.getElem?_eq_getElem hp, hpr])).inRange)
  have hfgr : ∀ j, j < h * w → fgAt img.Pix j → InRange st1.equivalence.length (labOf raw j) := by
    intro j hj hfg
    rcases hinv.lab.range j hj with h1 | h1
    · exact absurd hfg ((hinv.bg j hj).1 h1)
    · exact h1
  refine ⟨pix2, _, fun j => decode (finalColor ms.mapping (labOf raw j)),
    clsOf st1.equivalence (labOf raw), roots, hrun, hlen2, ?_, ?_, hnodup, hrlen, ?_, ?_, ?_, ?_⟩
  · intro x y hx hy
    exact blobAt_eq hwf pix2 x y _ (fun i hi => hfin _ i (pixel_lt hx hy) hi)
  · intro j hj hnfg
    simp only
    rw [(hinv.bg j hj).2 hnfg]
    exact finalColor_background _
  · intro j hj hfg
    obtain ⟨p, r, hp, hr, hidx⟩ := hmap _ (hfgr j hj hfg)
    refine ⟨p, by rw [clsOf_spec hr]; exact hp, ?_⟩
    exact finalColor_decode (hfgr j hj hfg) hL
      (by have := (List.getElem?_eq_some.1 hp).1; omega) hidx
  · intro p r hp
    obtain ⟨j, hj, hjr⟩ := hinv.lab.inhabited r (hroot p r hp).inRange
    refine ⟨j, hj, ?_, clsOf_spec (by rw [hjr]; exact hroot p r hp)⟩
    by_contra hnfg
    have := (hinv.bg j hj).2 hnfg
    rw [hjr] at this
    have := (hroot p r hp).inRange.1
    omega
  · intro p hp
    rw [hrlen] at hp
    rw [hsz p _ (List.getElem?_eq_getElem hp)]
    congr 2
    apply wsum_congr
    intro j hj
    simp only
    by_cases hfg : fgAt img.Pix j
    · obtain ⟨q, r, hq, hr, hidx⟩ := hmap _ (hfgr j hj hfg)
      rw [finalColor_decode (hfgr j hj hfg) hL
        (by have := (List.getElem?_eq_some.1 hq).1; omega) hidx]
      constructor
      · intro h1
        have e := RootOf.unique hr (rootIs_iff.1 h1)
        have := getElem?_inj_of_nodup_map (fun x : Int => x) (by simpa using hnodup) q p _ _ hq
          (List.getElem?_eq_getElem hp) e.symm
        rw [this]
      · intro h1
        have e : q = p := by omega
        subst e
        rw [List.getElem?_eq_getElem hp] at hq
        rw [Option.some.inj hq]
        exact rootIs_iff.2 hr
    · have hl := (hinv.bg j hj).2 hfg
      rw [hl, finalColor_background]
      constructor
      · intro h1
        exact absurd (rootIs_iff.1 h1) (not_rootOf_neg_one _ _)
      · intro h1
        omega
  · intro i j hi hj hfi hfj
    exact hinv.lab.conn i j hi hj _ _
      (rootOf_clsOf hinv.lab.forest (hfgr i hi hfi))
      (rootOf_clsOf hinv.lab.forest (hfgr j hj hfj))

theorem labelCount_exampleImage : (labelCount exampleImage : Int) ≤ 2 ^ 32 - 1 := by
  decide

/-- C1: for every image with origin `(0,0)`, width and height at least 1 and
`Stride = 4 * width`, with few enough labels to fit the codec range, after `CCLImage` two
foreground pixels decode via `BlobFromColor` to the same id if and only if they are joined
by a chain of foreground pixels in which consecutive pixels are 4-adjacent. -/
theorem cclimage_same_id_iff_chain (img : Image) (w h : Nat) (sort : List Blob → List Blob)
    (hwf : img.WellFormed w h) (hs : SortSpec sort)
    (hcodec : (labelCount img : Int) ≤ 2 ^ 32 - 1) :
    ∃ img2 counts, CCLImage sort img = Except.ok (img2, counts) ∧
      ∀ x1 y1 x2 y2, x1 < w → y1 < h → x2 < w → y2 < h →
        img.isForeground x1 y1 → img.isForeground x2 y2 →
        ∃ id1 id2, img2.blobAt x1 y1 = some id1 ∧ img2.blobAt x2 y2 = some id2 ∧
          (id1 = id2 ↔ Relation.ReflTransGen (FgLink img w h) (x1, y1) (x2, y2)) := by
  obtain ⟨pix2, counts, fin, cls, roots, hrun, -, hblob, -, hnodup, -, hfin, -, -, hconn⟩ :=
    CCLImage_ranks hwf hs hcodec
  refine ⟨_, _, hrun, ?_⟩
  intro x1 y1 x2 y2 hx1 hy1 hx2 hy2 hf1 hf2
  refine ⟨_, _, hblob x1 y1 hx1 hy1, hblob x2 y2 hx2 hy2, ?_⟩
  rw [isForeground_iff hwf] at hf1 hf2
  rw [← conn_iff_chain hwf hx1 hx2,
    ← hconn _ _ (pixel_lt hx1 hy1) (pixel_lt hx2 hy2) hf1 hf2]
  obtain ⟨p, hp, hpi⟩ := hfin _ (pixel_lt hx1 hy1) hf1
  obtain ⟨q, hq, hqj⟩ := hfin _ (pixel_lt hx2 hy2) hf2
  rw [hpi, hqj]
  constructor
  · intro e
    have e2 : p = q := by omega
    subst e2
    rw [hp] at hq
    exact Option.some.inj hq
  · intro e
    rw [e] at hp
    have := getElem?_inj_of_nodup_map (fun x : Int => x) (by simpa using hnodup) p q _ _ hp hq rfl
    rw [this]

theorem cclimage_same_id_iff_chain_witness :
    exampleImage.WellFormed 3 2 ∧ SortSpec insertionSortBlobs ∧
    (labelCount exampleImage : Int) ≤ 2 ^ 32 - 1 ∧
    ∃ img2 counts, CCLImage insertionSortBlobs exampleImage = Except.ok (img2, counts) ∧
      ∀ x1 y1 x2 y2, x1 < 3 → y1 < 2 → x2 < 3 → y2 < 2 →
        exampleImage.isForeground x1 y1 → exampleImage.isForeground x2 y2 →
        ∃ id1 id2, img2.blobAt x1 y1 = some id1 ∧ img2.blobAt x2 y2 = some id2 ∧
          (id1 = id2 ↔ Relation.ReflTransGen (FgLink exampleImage 3 2) (x1, y1) (x2, y2)) :=
  ⟨wellFormed_exampleImage, insertionSortBlobs_spec, labelCount_exampleImage,
    cclimage_same_id_iff_chain exampleImage 3 2 insertionSortBlobs wellFormed_exampleImage
      insertionSortBlobs_spec labelCount_exampleImage⟩

/-! ## `CollectBlobs` -/

theorem collectStep_of_blobAt {img : Image} {x y : Nat} {v : Int} (blobs : List Blob)
    (h : img.blobAt x y = some v) :
    collectStep img (y : Int) (x : Int) blobs =
      if v = EmptyBlob then some blobs
      else
        match idx (if v ≥ (blobs.length : Int) then
            blobs ++ List.replicate (v + 1 - (blobs.length : Int)).toNat { ID := 0, Size := 0 }
          else blobs) v with
        | none => none
        | some bl =>
          match upd (if v ≥ (blobs.length : Int) then
              blobs ++ List.replicate (v + 1 - (blobs.length : Int)).toNat { ID := 0, Size := 0 }
            else blobs) v { bl with ID := v } with
          | none => none
          | some blobs2 =>
            match idx blobs2 v with
            | none => none
            | some bl2 => upd blobs2 v { bl2 with Size := bl2.Size + 1 } := by
  unfold Image.blobAt at h
  unfold collectStep
  simp only at h ⊢
  cases h0 : idx img.Pix (img.PixOffset (x : Int) (y : Int)) with
  | none => simp [h0] at h
  | some r =>
    cases h1 : idx img.Pix (img.PixOffset (x : Int) (y : Int) + 1) with
    | none => simp [h0, h1] at h
    | some g =>
      cases h2 : idx img.Pix (img.PixOffset (x : Int) (y : Int) + 2) with
      | none => simp [h0, h1, h2] at h
      | some b =>
        cases h3 : idx img.Pix (img.PixOffset (x : Int) (y : Int) + 3) with
        | none => simp [h0, h1, h2, h3] at h
        | some a =>
          simp only [h0, h1, h2, h3, Option.some.injEq] at h
          subst h
          rfl

/-- One iteration of the inner loop of `CollectBlobs`, on a pixel that decodes to `v`: the
slice holds, for each id below its length, the number of pixels seen so far that decode to
this id, and this id as ID as soon as there is such a pixel. -/
theorem collect_pixel {fin : Nat → Int} {m K : Nat} {blobs : List Blob} (v : Int)
    (hv : fin m = v) (hvr : v = -1 ∨ InRange K v)
    (hlen : blobs.length ≤ K)
    (hseen : ∀ j, j < m → fin j ≠ -1 → fin j < (blobs.length : Int))
    (hent : ∀ p : Nat, p < blobs.length → blobs[p]? = some
      ⟨if wsum m (fun _ => 1) (fun j => fin j = (p : Int)) = 0 then 0 else (p : Int),
        wsum m (fun _ => 1) (fun j => fin j = (p : Int))⟩) :
    ∃ blobs2,
      (if v = EmptyBlob then some blobs
      else
        match idx (if v ≥ (blobs.length : Int) then
            blobs ++ List.replicate (v + 1 - (blobs.length : Int)).toNat { ID := 0, Size := 0 }
          else blobs) v with
        | none => none
        | some bl =>
          match upd (if v ≥ (blobs.length : Int) then
              blobs ++ List.replicate (v + 1 - (blobs.length : Int)).toNat { ID := 0, Size := 0 }
            else blobs) v { bl with ID := v } with
          | none => none
          | some blobs2 =>
            match idx blobs2 v with
            | none => none
            | some bl2 => upd blobs2 v { bl2 with Size := bl2.Size + 1 }) = some blobs2 ∧
      blobs2.length ≤ K ∧
      (∀ j, j < m + 1 → fin j ≠ -1 → fin j < (blobs2.length : Int)) ∧
      (∀ p : Nat, p < blobs2.length → blobs2[p]? = some
        ⟨if wsum (m + 1) (fun _ => 1) (fun j => fin j = (p : Int)) = 0 then 0 else (p : Int),
          wsum (m + 1) (fun _ => 1) (fun j => fin j = (p : Int))⟩) := by
  by_cases hempty : v = -1
  · refine ⟨blobs, by rw [if_pos (by unfold EmptyBlob; exact hempty)], hlen, ?_, ?_⟩
    · intro j hj hne
      by_cases hjm : j = m
      · subst hjm; rw [hv] at hne; exact absurd hempty hne
      · exact hseen j (by omega) hne
    · intro p hp
      have hws : wsum (m + 1) (fun _ => 1) (fun j => fin j = (p : Int))
          = wsum m (fun _ => 1) (fun j => fin j = (p : Int)) := by
        rw [wsum_succ, if_neg (by rw [hv, hempty]; omega), add_zero]
      rw [hws]
      exact hent p hp
  · have hvK := hvr.resolve_left hempty
    -- the slice after the padding
    set blobs1 : List Blob := if v ≥ (blobs.length : Int) then
        blobs ++ List.replicate (v + 1 - (blobs.length : Int)).toNat { ID := 0, Size := 0 }
      else blobs with hb1
    have hlen1 : blobs1.length = max blobs.length (v.toNat + 1) := by
      rw [hb1]
      by_cases hge : v ≥ (blobs.length : Int)
      · rw [if_pos hge, List.length_append, List.length_replicate]
        have := hvK.1
        omega
      · rw [if_neg hge]
        have := hvK.1
        omega
    have hent1 : ∀ p : Nat, p < blobs1.length → blobs1[p]? = some
        ⟨if wsum m (fun _ => 1) (fun j => fin j = (p : Int)) = 0 then 0 else (p : Int),
          wsum m (fun _ => 1) (fun j => fin j = (p : Int))⟩ := by
      intro p hp
      by_cases hpl : p < blobs.length
      · have : blobs1[p]? = blobs[p]? := by
          rw [hb1]
          by_cases hge : v ≥ (blobs.length : Int)
          · rw [if_pos hge, List.getElem?_append_left hpl]
          · rw [if_neg hge]
        rw [this]
        exact hent p hpl
      · have hge : v ≥ (blobs.length : Int) := by
          by_contra hlt
          rw [hb1, if_neg hlt] at hp
          exact hpl hp
        have hzero : wsum m (fun _ => 1) (fun j => fin j = (p : Int)) = 0 := by
          apply wsum_false
          intro j hj e
          have := hseen j hj (by rw [e]; omega)
          rw [e] at this
          omega
        rw [hzero, if_pos rfl]
        have hp2 := hp
        rw [hb1, if_pos hge, List.length_append, List.length_replicate] at hp2
        rw [hb1, if_pos hge, List.getElem?_append_right (by omega), List.getElem?_replicate,
          if_pos (by omega)]
    have hvr1 : InRange blobs1.length v := by
      rw [hlen1]
      exact ⟨hvK.1, by have := hvK.1; omega⟩
    have hvn : ((v.toNat : Nat) : Int) = v := Int.toNat_of_nonneg hvK.1
    have hidx1 : idx blobs1 v = some
        ⟨if wsum m (fun _ => 1) (fun j => fin j = v) = 0 then 0 else v,
          wsum m (fun _ => 1) (fun j => fin j = v)⟩ := by
      have := hent1 v.toNat (by have := hvr1.2; omega)
      rw [hvn] at this
      rw [idx_eq_some_iff]
      exact ⟨hvK.1, this⟩
    have hvr2 : InRange (blobs1.set v.toNat
        ⟨v, wsum m (fun _ => 1) (fun j => fin j = v)⟩).length v := by
      rw [List.length_set]; exact hvr1
    refine ⟨(blobs1.set v.toNat ⟨v, wsum m (fun _ => 1) (fun j => fin j = v)⟩).set v.toNat
      ⟨v, wsum m (fun _ => 1) (fun j => fin j = v) + 1⟩, ?_, ?_, ?_, ?_⟩
    · rw [if_neg (by unfold EmptyBlob; exact hempty)]
      simp only [hidx1, upd_of_inRange _ hvr1, idx_set_self hvr1, upd_of_inRange _ hvr2]
    · rw [List.length_set, List.length_set, hlen1]
      have := hvK.2
      omega
    · intro j hj hne
      rw [List.length_set, List.length_set, hlen1]
      by_cases hjm : j = m
      · subst hjm
        rw [hv]
        have := hvK.1
        omega
      · have := hseen j (by omega) hne
        omega
    · intro p hp
      rw [List.length_set, List.length_set] at hp
      by_cases hpv : p = v.toNat
      · subst hpv
        have hws : wsum (m + 1) (fun _ => 1) (fun j => fin j = ((v.toNat : Nat) : Int))
            = wsum m (fun _ => 1) (fun j => fin j = v) + 1 := by
          rw [wsum_succ, hvn, if_pos hv]
        have hnn : 0 ≤ wsum m (fun _ => 1) (fun j => fin j = v) :=
          wsum_nonneg (fun _ _ => by omega)
        rw [List.getElem?_set_self (by rw [List.length_set]; exact hp), hws, hvn,
          if_neg (by omega)]
      · have hne : ¬ fin m = (p : Int) := by
          rw [hv]
          intro e
          apply hpv
          rw [e]
          simp
        have hws : wsum (m + 1) (fun _ => 1) (fun j => fin j = (p : Int))
            = wsum m (fun _ => 1) (fun j => fin j = (p : Int)) := by
          rw [wsum_succ, if_neg hne, add_zero]
        rw [List.getElem?_set_ne (Ne.symm hpv), List.getElem?_set_ne (Ne.symm hpv), hws]
        exact hent1 p hp

/-- On an image whose pixels decode to `-1` or to the ids `0 .. K-1`, each of them met,
`CollectBlobs` returns for each id the number of pixels that decode to it. -/
theorem CollectBlobs_spec {img : Image} {w h : Nat} (hwf : img.WellFormed w h) (fin : Nat → Int)
    (K : Nat) (hblob : ∀ x y, x < w → y < h → img.blobAt x y = some (fin (y * w + x)))
    (hr : ∀ j, j < h * w → fin j = -1 ∨ InRange K (fin j))
    (hsurj : ∀ p : Nat, p < K → ∃ j, j < h * w ∧ fin j = (p : Int)) :
    CollectBlobs img = some ((List.range K).map (fun (p : Nat) =>
      (⟨(p : Int), wsum (h * w) (fun _ => 1) (fun j => fin j = (p : Int))⟩ : Blob))) := by
  obtain ⟨hminx, hminy, hmaxx, hmaxy, -, -, -, -⟩ := hwf
  obtain ⟨blobs, hrun, hlen, hseen, hent⟩ := foldlM_raster_inv
    (fun y x blobs => collectStep img (img.MinY + (y : Int)) (img.MinX + (x : Int)) blobs)
    (fun m (blobs : List Blob) => blobs.length ≤ K ∧
      (∀ j, j < m → fin j ≠ -1 → fin j < (blobs.length : Int)) ∧
      (∀ p : Nat, p < blobs.length → blobs[p]? = some
        ⟨if wsum m (fun _ => 1) (fun j => fin j = (p : Int)) = 0 then 0 else (p : Int),
          wsum m (fun _ => 1) (fun j => fin j = (p : Int))⟩))
    w h
    (fun y x blobs hy hx hp => by
      obtain ⟨h1, h2, h3⟩ := hp
      obtain ⟨blobs2, hstep, h4, h5, h6⟩ := collect_pixel (fin (y * w + x)) rfl
        (hr _ (pixel_lt hx hy)) h1 h2 h3
      refine ⟨blobs2, ?_, h4, h5, h6⟩
      simp only [hminx, hminy, zero_add]
      rw [collectStep_of_blobAt blobs (hblob x y hx hy)]
      exact hstep)
    [] ⟨Nat.zero_le _, fun j hj => by omega, fun p hp => by simp at hp⟩
  have hK : blobs.length = K := by
    apply Nat.le_antisymm hlen
    by_contra hlt
    obtain ⟨j, hj, hjp⟩ := hsurj (K - 1) (by omega)
    have := hseen j hj (by rw [hjp]; omega)
    rw [hjp] at this
    omega
  unfold CollectBlobs
  have e1 : (img.MaxY - img.MinY).toNat = h := by rw [hmaxy, hminy]; simp
  have e2 : (img.MaxX - img.MinX).toNat = w := by rw [hmaxx, hminx]; simp
  rw [e1, e2, hrun]
  congr 1
  apply list_eq_map_range _ hK
  intro p hp
  rw [hent p (by omega)]
  obtain ⟨j, hj, hjp⟩ := hsurj p hp
  have hpos : 1 ≤ wsum (h * w) (fun _ => 1) (fun j => fin j = (p : Int)) :=
    wsum_pos (fun _ _ => le_refl _) hj hjp
  rw [if_neg (by omega)]

/-- Under the codec range, `CollectBlobs` applied to the image as `CCLImage` left it returns
the list that `CCLImage` returned. -/
theorem CollectBlobs_CCLImage {img : Image} {w h : Nat} (hwf : img.WellFormed w h)
    {sort : List Blob → List Blob} (hs : SortSpec sort)
    (hcodec : (labelCount img : Int) ≤ 2 ^ 32 - 1) :
    ∃ img2 counts, CCLImage sort img = Except.ok (img2, counts) ∧
      CollectBlobs img2 = some counts ∧
      ∀ (i : Nat) (b : Blob), counts[i]? = some b →
        b.ID = (i : Int) ∧
        b.Size = wsum (h * w) (fun _ => 1) (fun j => img2.blobAt (j % w) (j / w) = some (i : Int))
      := by
  obtain ⟨pix2, counts, fin, cls, roots, hrun, hlen2, hblob, hbg, hnodup, hclen, hfin, hsurj,
    hcounts, -⟩ := CCLImage_ranks hwf hs hcodec
  have hw : 0 < w := by have := hwf.2.2.2.2.1; omega
  have hwf2 : Image.WellFormed { img with Pix := pix2 } w h := by
    obtain ⟨h1, h2, h3, h4, h5, h6, h7, h8⟩ := hwf
    exact ⟨h1, h2, h3, h4, h5, h6, h7, by simp only [hlen2]; exact h8⟩
  have hcl : counts = (List.range counts.length).map (fun (p : Nat) =>
      (⟨(p : Int), wsum (h * w) (fun _ => 1) (fun j => fin j = (p : Int))⟩ : Blob)) := by
    apply list_eq_map_range _ rfl
    intro p hp
    exact hcounts p hp
  refine ⟨_, counts, hrun, ?_, ?_⟩
  · rw [CollectBlobs_spec hwf2 fin counts.length hblob ?_ ?_]
    · rw [← hcl]
    · intro j hj
      by_cases hfg : fgAt img.Pix j
      · obtain ⟨p, hp, hpj⟩ := hfin j hj hfg
        right
        rw [hpj, hclen]
        exact ⟨by omega, by have := (List.getElem?_eq_some.1 hp).1; omega⟩
      · exact Or.inl (hbg j hj hfg)
    · intro p hp
      rw [hclen] at hp
      obtain ⟨j, hj, hfg, hjr⟩ := hsurj p _ (List.getElem?_eq_getElem hp)
      obtain ⟨q, hq, hqj⟩ := hfin j hj hfg
      refine ⟨j, hj, ?_⟩
      rw [hqj]
      rw [hjr] at hq
      have := getElem?_inj_of_nodup_map (fun x : Int => x) (by simpa using hnodup) q p _ _ hq
        (List.getElem?_eq_getElem hp) rfl
      rw [this]
  · intro i b hb
    have hi := (List.getElem?_eq_some.1 hb).1
    rw [hcounts i hi] at hb
    cases Option.some.inj hb
    refine ⟨rfl, ?_⟩
    apply wsum_congr
    intro j hj
    have hdiv : j / w < h := by
      apply Nat.div_lt_of_lt_mul
      rw [Nat.mul_comm]; exact hj
    rw [hblob (j % w) (j / w) (Nat.mod_lt _ hw) hdiv, Nat.div_add_mod']
    exact ⟨fun e => by rw [e], fun e => Option.some.inj e⟩

/-! ## `CollectBlobs` beyond the codec range -/

/-- The list returned by `CollectBlobs` is never longer than the number of ids that a colour
can decode to. -/
theorem CollectBlobs_length_le {img : Image} {w h : Nat} (hwf : img.WellFormed w h)
    (fin : Nat → Int) (hblob : ∀ x y, x < w → y < h → img.blobAt x y = some (fin (y * w + x)))
    (hr : ∀ j, j < h * w → -1 ≤ fin j ∧ fin j ≤ 4294967294) {c : List Blob}
    (hc : CollectBlobs img = some c) : c.length ≤ 4294967295 := by
  obtain ⟨hminx, hminy, hmaxx, hmaxy, -, -, -, -⟩ := hwf
  obtain ⟨blobs, hrun, hlen, -, -⟩ := foldlM_raster_inv
    (fun y x blobs => collectStep img (img.MinY + (y : Int)) (img.MinX + (x : Int)) blobs)
    (fun m (blobs : List Blob) => blobs.length ≤ 4294967295 ∧
      (∀ j, j < m → fin j ≠ -1 → fin j < (blobs.length : Int)) ∧
      (∀ p : Nat, p < blobs.length → blobs[p]? = some
        ⟨if wsum m (fun _ => 1) (fun j => fin j = (p : Int)) = 0 then 0 else (p : Int),
          wsum m (fun _ => 1) (fun j => fin j = (p : Int))⟩))
    w h
    (fun y x blobs hy hx hp => by
      obtain ⟨h1, h2, h3⟩ := hp
      have hv := hr _ (pixel_lt hx hy)
      obtain ⟨blobs2, hstep, h4, h5, h6⟩ := collect_pixel (K := 4294967295) (fin (y * w + x)) rfl
        (by
          by_cases e : fin (y * w + x) = -1
          · exact Or.inl e
          · exact Or.inr ⟨by omega, by push_cast; omega⟩) h1 h2 h3
      refine ⟨blobs2, ?_, h4, h5, h6⟩
      simp only [hminx, hminy, zero_add]
      rw [collectStep_of_blobAt blobs (hblob x y hx hy)]
      exact hstep)
    [] ⟨Nat.zero_le _, fun j hj => by omega, fun p hp => by simp at hp⟩
  unfold CollectBlobs at hc
  have e1 : (img.MaxY - img.MinY).toNat = h := by rw [hmaxy, hminy]; simp
  have e2 : (img.MaxX - img.MinX).toNat = w := by rw [hmaxx, hminx]; simp
  rw [e1, e2, hrun] at hc
  cases Option.some.inj hc
  exact hlen

theorem stripes_wellFormed {w : Nat} (hw : 1 ≤ w) : (stripes w).WellFormed w 1 := by
  unfold Image.WellFormed stripes
  simp
  omega

theorem stripes_get {w i : Nat} (hi : i < 4 * w) :
    (stripes w).Pix[i]? = some (if i % 8 = 0 then (1 : Fin 256) else 0) := by
  unfold stripes
  simp only
  rw [List.getElem?_map, List.getElem?_range hi]
  rfl

theorem stripes_fg {w j : Nat} (hj : j < w) : fgAt (stripes w).Pix j ↔ j % 2 = 0 := by
  unfold fgAt
  rw [stripes_get (by omega), stripes_get (by omega), stripes_get (by omega)]
  have h1 : ¬ (4 * j + 1) % 8 = 0 := by omega
  have h2 : ¬ (4 * j + 2) % 8 = 0 := by omega
  rw [if_neg h1, if_neg h2]
  by_cases he : j % 2 = 0
  · have : (4 * j) % 8 = 0 := by omega
    rw [if_pos this]
    simp [he]
  · have : ¬ (4 * j) % 8 = 0 := by omega
    rw [if_neg this]
    simp [he]

theorem stripes_no_link {w : Nat} : ∀ i j, i < 1 * w →
    ¬ ImgNbr w (fgAt (stripes w).Pix) i j := by
  rintro i j hi ⟨hfi, hfj, h1 | ⟨h1, -⟩⟩
  · omega
  · rw [stripes_fg (by omega)] at hfi hfj
    omega

theorem connUpTo_eq_of_no_link {R : Nat → Nat → Prop} {n : Nat}
    (hno : ∀ i j, i < n → ¬ R i j) {i j : Nat} (h : ConnUpTo R n i j) : i = j := by
  induction h with
  | rel a b hab => exact absurd hab.2 (hno a b hab.1)
  | refl a => rfl
  | symm a b _ ih => exact ih.symm
  | trans a b c _ _ ih1 ih2 => exact ih1.trans ih2

/-- After `CCLImage` on the striped image of width `2^33 - 1`, which has `2^32` foreground
pixels no two of which are adjacent, the returned list has `2^32` records. -/
theorem stripes_many_blobs {sort : List Blob → List Blob} (hs : SortSpec sort) :
    ∃ (pix2 : List (Fin 256)) (counts : List Blob) (fin : Nat → Int),
      CCLImage sort (stripes 8589934591) = Except.ok ({ stripes 8589934591 with Pix := pix2 },
        counts) ∧
      pix2.length = (stripes 8589934591).Pix.length ∧
      (∀ x y, x < 8589934591 → y < 1 →
        Image.blobAt { stripes 8589934591 with Pix := pix2 } x y
          = some (fin (y * 8589934591 + x))) ∧
      (∀ j, -1 ≤ fin j ∧ fin j ≤ 4294967294) ∧
      4294967296 ≤ counts.length := by
  have hwf := stripes_wellFormed (w := 8589934591) (by omega)
  obtain ⟨st1, raw, ms, pix2, roots, hinv, -, hrun, hlen2, hfin, -, hnodup, hmap, -, hrlen,
    -, -⟩ := CCLImage_spec hwf hs
  refine ⟨pix2, _, fun j => decode (finalColor ms.mapping (labOf raw j)), hrun, hlen2, ?_,
    fun j => decode_range _, ?_⟩
  · intro x y hx hy
    exact blobAt_eq hwf pix2 x y _ (fun i hi => hfin _ i (pixel_lt hx hy) hi)
  · rw [hrlen]
    -- the classes of the foreground pixels are pairwise distinct elements of `roots`
    have hfgr : ∀ i : Nat, i < 4294967296 →
        InRange st1.equivalence.length (labOf raw (2 * i)) := by
      intro i hi
      have h2 : 2 * i < 1 * 8589934591 := by omega
      rcases hinv.lab.range (2 * i) h2 with h1 | h1
      · exfalso
        exact (hinv.bg (2 * i) h2).1 h1 ((stripes_fg (by omega)).2 (by omega))
      · exact h1
    have hcard := Finset.card_le_card_of_injOn
      (s := Finset.range 4294967296) (t := roots.toFinset)
      (fun i => clsOf st1.equivalence (labOf raw) (2 * i))
      (by
        intro i hi
        rw [Finset.mem_range] at hi
        obtain ⟨p, r, hp, hr, -⟩ := hmap _ (hfgr i hi)
        show clsOf st1.equivalence (labOf raw) (2 * i) ∈ roots.toFinset
        rw [List.mem_toFinset, clsOf_spec hr]
        exact List.mem_iff_getElem?.2 ⟨p, hp⟩)
      (by
        intro i hi i2 hi2 e
        rw [Finset.mem_coe, Finset.mem_range] at hi hi2
        have hc := (hinv.lab.conn (2 * i) (2 * i2) (by omega) (by omega) _ _
          (rootOf_clsOf hinv.lab.forest (hfgr i hi))
          (rootOf_clsOf hinv.lab.forest (hfgr i2 hi2))).1 e
        have := connUpTo_eq_of_no_link stripes_no_link hc
        omega)
    rw [Finset.card_range, List.toFinset_card_of_nodup hnodup] at hcard
    exact hcard

/-- C4, as stated, fails beyond the codec range: on the striped image of width `2^33 - 1`
(one row, `2^32` isolated foreground pixels) `CCLImage` returns a list of at least `2^32`
records, while `CollectBlobs` on the image it left returns at most `2^32 - 1` records, so
the two lists differ. -/
theorem collectBlobs_counterexample :
    (stripes 8589934591).WellFormed 8589934591 1 ∧ SortSpec insertionSortBlobs ∧
    ∃ img2 counts, CCLImage insertionSortBlobs (stripes 8589934591)
        = Except.ok (img2, counts) ∧
      4294967296 ≤ counts.length ∧
      (∀ c, CollectBlobs img2 = some c → c.length ≤ 4294967295) ∧
      CollectBlobs img2 ≠ some counts := by
  refine ⟨stripes_wellFormed (by omega), insertionSortBlobs_spec, ?_⟩
  obtain ⟨pix2, counts, fin, hrun, hlen2, hblob, hrange, hbig⟩ :=
    stripes_many_blobs insertionSortBlobs_spec
  have hwf := stripes_wellFormed (w := 8589934591) (by omega)
  have hwf2 : Image.WellFormed { stripes 8589934591 with Pix := pix2 } 8589934591 1 := by
    obtain ⟨h1, h2, h3, h4, h5, h6, h7, h8⟩ := hwf
    exact ⟨h1, h2, h3, h4, h5, h6, h7, by simp only [hlen2]; exact h8⟩
  have hle : ∀ c, CollectBlobs { stripes 8589934591 with Pix := pix2 } = some c →
      c.length ≤ 4294967295 :=
    fun c hc => CollectBlobs_length_le hwf2 fin hblob (fun j _ => hrange j) hc
  refine ⟨_, counts, hrun, hbig, hle, fun hc => ?_⟩
  have := hle counts hc
  omega

/-- C4, amended: for every image with origin `(0,0)`, width and height at least 1 and
`Stride = 4 * width`, with few enough labels to fit the codec range, `CollectBlobs` applied
to the image as `CCLImage` left it returns exactly the list `CCLImage` returned; at each
index `i` the record has ID `i`, and its Size is the number of pixels that finally decode to
`i`. -/
theorem collectBlobs_after_cclimage (img : Image) (w h : Nat) (sort : List Blob → List Blob)
    (hwf : img.WellFormed w h) (hs : SortSpec sort)
    (hcodec : (labelCount img : Int) ≤ 2 ^ 32 - 1) :
    ∃ img2 counts, CCLImage sort img = Except.ok (img2, counts) ∧
      CollectBlobs img2 = some counts ∧
      ∀ (i : Nat) (b : Blob), counts[i]? = some b →
        b.ID = (i : Int) ∧
        b.Size = wsum (h * w) (fun _ => 1)
          (fun j => img2.blobAt (j % w) (j / w) = some (i : Int)) :=
  CollectBlobs_CCLImage hwf hs hcodec

theorem collectBlobs_after_cclimage_witness :
    exampleImage.WellFormed 3 2 ∧ SortSpec insertionSortBlobs ∧
    (labelCount exampleImage : Int) ≤ 2 ^ 32 - 1 ∧
    ∃ img2 counts, CCLImage insertionSortBlobs exampleImage = Except.ok (img2, counts) ∧
      CollectBlobs img2 = some counts ∧
      ∀ (i : Nat) (b : Blob), counts[i]? = some b →
        b.ID = (i : Int) ∧
        b.Size = wsum (2 * 3) (fun _ => 1)
          (fun j => img2.blobAt (j % 3) (j / 3) = some (i : Int)) :=
  ⟨wellFormed_exampleImage, insertionSortBlobs_spec, labelCount_exampleImage,
    collectBlobs_after_cclimage exampleImage 3 2 insertionSortBlobs wellFormed_exampleImage
      insertionSortBlobs_spec labelCount_exampleImage⟩

/-! ## Pixels after `CCLImage` -/

/-- The first pass on the striped image of width `2^33 - 1` creates at least `2^32` labels:
its `2^32` foreground pixels are given pairwise different labels. -/
theorem stripes_labels {raw : List Int} {st1 : ImgState}
    (hinv : ImgInv 8589934591 (stripes 8589934591).Pix (1 * 8589934591) raw st1) :
    4294967296 ≤ st1.equivalence.length := by
  have hfgr : ∀ i : Nat, i < 4294967296 →
      InRange st1.equivalence.length (labOf raw (2 * i)) := by
    intro i hi
    have h2 : 2 * i < 1 * 8589934591 := by omega
    rcases hinv.lab.range (2 * i) h2 with h1 | h1
    · exfalso
      exact (hinv.bg (2 * i) h2).1 h1 ((stripes_fg (by omega)).2 (by omega))
    · exact h1
  have hcard := Finset.card_le_card_of_injOn
    (s := Finset.range 4294967296) (t := Finset.range st1.equivalence.length)
    (fun i => (labOf raw (2 * i)).toNat)
    (by
      intro i hi
      rw [Finset.mem_range] at hi
      have := hfgr i hi
      show (labOf raw (2 * i)).toNat ∈ Finset.range st1.equivalence.length
      rw [Finset.mem_range]
      have h1 := this.1
      have h2 := this.2
      omega)
    (by
      intro i hi i2 hi2 e
      rw [Finset.mem_coe, Finset.mem_range] at hi hi2
      have e2 : labOf raw (2 * i) = labOf raw (2 * i2) := by
        have h1 := (hfgr i hi).1
        have h2 := (hfgr i2 hi2).1
        have e3 : (labOf raw (2 * i)).toNat = (labOf raw (2 * i2)).toNat := e
        omega
      obtain ⟨r, hr⟩ := hinv.lab.forest _ (hfgr i hi)
      have hr2 : RootOf st1.equivalence (labOf raw (2 * i2)) r := by rw [← e2]; exact hr
      have hc := (hinv.lab.conn (2 * i) (2 * i2) (by omega) (by omega) _ _ hr hr2).1 rfl
      have := connUpTo_eq_of_no_link stripes_no_link hc
      omega)
  rw [Finset.card_range, Finset.card_range] at hcard
  exact hcard

theorem finalColor_overflow (mapping : List Int) :
    decode (finalColor mapping 4294967295) = -1 := by
  have h : decode (ColorFromBlob 4294967295) = -1 := by decide
  unfold finalColor
  rw [if_neg (by rw [h]; simp [EmptyBlob])]
  exact h

/-- C11, as stated, fails beyond the codec range: on the striped image of width `2^33 - 1`
(one row, `2^32` isolated foreground pixels) a foreground pixel decodes to `-1` after
`CCLImage`, which is no id in `[0, k)`. -/
theorem cclimage_pixel_ids_counterexample :
    (stripes 8589934591).WellFormed 8589934591 1 ∧ SortSpec insertionSortBlobs ∧
    ∃ img2 counts, CCLImage insertionSortBlobs (stripes 8589934591)
        = Except.ok (img2, counts) ∧
      ∃ x, x < 8589934591 ∧ (stripes 8589934591).isForeground x 0 ∧
        img2.blobAt x 0 = some (-1) := by
  have hwf := stripes_wellFormed (w := 8589934591) (by omega)
  refine ⟨hwf, insertionSortBlobs_spec, ?_⟩
  obtain ⟨st1, raw, ms, pix2, roots, hinv, -, hrun, -, hfin, -⟩ :=
    CCLImage_spec hwf insertionSortBlobs_spec
  have hbig := stripes_labels hinv
  obtain ⟨j, hj, hlab⟩ := hinv.lab.inhabited 4294967295 ⟨by omega, by omega⟩
  have hj2 : j < 8589934591 := by omega
  refine ⟨_, _, hrun, j, hj2, ?_, ?_⟩
  · rw [isForeground_iff hwf, Nat.zero_mul, Nat.zero_add]
    by_contra hbg
    have := (hinv.bg j hj).2 hbg
    rw [hlab] at this
    omega
  · have := blobAt_eq hwf pix2 j 0 (finalColor ms.mapping (labOf raw j))
      (fun i hi => by
        rw [Nat.zero_mul, Nat.zero_add]
        exact hfin j i hj hi)
    rw [this, hlab, finalColor_overflow]

/-- C11, amended: for every image with origin `(0,0)`, width and height at least 1 and
`Stride = 4 * width`, after `CCLImage` every pixel that was background on input decodes to
`EmptyBlob`, and, with few enough labels to fit the codec range, every pixel that was
foreground decodes to an id in `[0, k)`, where `k` is the length of the returned list. -/
theorem cclimage_pixel_ids (img : Image) (w h : Nat) (sort : List Blob → List Blob)
    (hwf : img.WellFormed w h) (hs : SortSpec sort) :
    ∃ img2 counts, CCLImage sort img = Except.ok (img2, counts) ∧
      (∀ x y, x < w → y < h → ¬ img.isForeground x y → img2.blobAt x y = some EmptyBlob) ∧
      ((labelCount img : Int) ≤ 2 ^ 32 - 1 →
        ∀ x y, x < w → y < h → img.isForeground x y →
          ∃ id, img2.blobAt x y = some id ∧ 0 ≤ id ∧ id < (counts.length : Int)) := by
  obtain ⟨st1, raw, ms, pix2, roots, hinv, -, hrun, -, hfin, -⟩ := CCLImage_spec hwf hs
  refine ⟨_, _, hrun, ?_, ?_⟩
  · intro x y hx hy hbg
    rw [isForeground_iff hwf] at hbg
    have hj := pixel_lt hx hy
    have hl := (hinv.bg _ hj).2 hbg
    rw [blobAt_eq hwf pix2 x y (finalColor ms.mapping (labOf raw (y * w + x)))
      (fun i hi => hfin _ i hj hi), hl, finalColor_background]
    rfl
  · intro hcodec x y hx hy hfg
    obtain ⟨pix3, counts3, fin, cls, roots3, hrun3, -, hblob, -, -, hclen, hfgp, -⟩ :=
      CCLImage_ranks hwf hs hcodec
    rw [hrun] at hrun3
    have e := Except.ok.inj hrun3
    have e1 := (Prod.mk.inj e).1
    have e2 := (Prod.mk.inj e).2
    rw [e1, e2]
    rw [isForeground_iff hwf] at hfg
    obtain ⟨p, hp, hfinp⟩ := hfgp _ (pixel_lt hx hy) hfg
    refine ⟨_, hblob x y hx hy, by rw [hfinp]; omega, ?_⟩
    rw [hfinp, hclen]
    have := (List.getElem?_eq_some.1 hp).1
    exact_mod_cast this

theorem cclimage_pixel_ids_witness :
    exampleImage.WellFormed 3 2 ∧ SortSpec insertionSortBlobs ∧
    (labelCount exampleImage : Int) ≤ 2 ^ 32 - 1 ∧
    ∃ img2 counts, CCLImage insertionSortBlobs exampleImage = Except.ok (img2, counts) ∧
      (∀ x y, x < 3 → y < 2 → ¬ exampleImage.isForeground x y →
        img2.blobAt x y = some EmptyBlob) ∧
      (∀ x y, x < 3 → y < 2 → exampleImage.isForeground x y →
        ∃ id, img2.blobAt x y = some id ∧ 0 ≤ id ∧ id < (counts.length : Int)) := by
  obtain ⟨img2, counts, hrun, hbg, hfg⟩ :=
    cclimage_pixel_ids exampleImage 3 2 insertionSortBlobs wellFormed_exampleImage
      insertionSortBlobs_spec
  exact ⟨wellFormed_exampleImage, insertionSortBlobs_spec, labelCount_exampleImage,
    img2, counts, hrun, hbg, hfg labelCount_exampleImage⟩

/-- C12: `CCLImage` rejects every image whose bounds do not start at `(0,0)`: the call ends
in `log.Fatalf`, and the pixel buffer at that point is the one that was passed in. -/
theorem cclimage_rejects_origin (img : Image) (sort : List Blob → List Blob)
    (h : img.MinX ≠ 0 ∨ img.MinY ≠ 0) :
    CCLImage sort img = Except.error (Failure.fatal img.Pix) := by
  unfold CCLImage
  rw [if_pos h]

theorem cclimage_rejects_origin_witness :
    (shiftedImage.MinX ≠ 0 ∨ shiftedImage.MinY ≠ 0) ∧
    CCLImage insertionSortBlobs shiftedImage = Except.error (Failure.fatal shiftedImage.Pix) :=
  ⟨Or.inl (by decide), cclimage_rejects_origin shiftedImage insertionSortBlobs
    (Or.inl (by decide))⟩

/-! ## Path compression -/

theorem onChain_root {eq : List Int} {r i : Int} (hr : idx eq r = some r)
    (h : OnChain eq r i) : i = r := by
  induction h with
  | refl => rfl
  | tail _ hbc ih =>
    subst ih
    rw [hr] at hbc
    exact (Option.some.inj hbc).symm

theorem onChain_head {eq : List Int} {l p i : Int} (hp : idx eq l = some p) :
    OnChain eq l i ↔ i = l ∨ OnChain eq p i := by
  constructor
  · intro h
    rcases Relation.ReflTransGen.cases_head h with e | ⟨c, hc, hci⟩
    · exact Or.inl e.symm
    · rw [hp] at hc
      cases Option.some.inj hc
      exact Or.inr hci
  · rintro (e | h)
    · subst e; exact Relation.ReflTransGen.refl
    · exact Relation.ReflTransGen.head hp h

/-- A label on the chain from `a` is at most as far from the root as `a`. -/
theorem onChain_depth {eq : List Int} {a r i : Int} {d : Nat} (hd : RootD eq a r d)
    (h : OnChain eq a i) : ∃ d2, d2 ≤ d ∧ RootD eq i r d2 := by
  induction h with
  | refl => exact ⟨d, le_refl _, hd⟩
  | @tail b c _ hbc ih =>
    obtain ⟨d2, hle, hd2⟩ := ih
    cases hd2 with
    | root hb =>
      rw [hb] at hbc
      cases Option.some.inj hbc
      exact ⟨0, by omega, RootD.root hb⟩
    | @step _ p _ d3 hb hne hp =>
      rw [hb] at hbc
      cases Option.some.inj hbc
      exact ⟨d3, by omega, hp⟩

theorem rootD_onChain {eq : List Int} {l r : Int} {d : Nat} (hd : RootD eq l r d) :
    OnChain eq l r := by
  induction hd with
  | root _ => exact Relation.ReflTransGen.refl
  | step h _ _ ih => exact Relation.ReflTransGen.head h ih

/-- Changing the entry of a label that is not on the chain from `p` leaves this chain as it
is. -/
theorem onChain_set {eq : List Int} {x p : Int} (v : Int) (hx0 : 0 ≤ x)
    (hoff : ∀ i, OnChain eq p i → i ≠ x) (i : Int) :
    OnChain (eq.set x.toNat v) p i ↔ OnChain eq p i := by
  constructor
  · intro h
    induction h with
    | refl => exact Relation.ReflTransGen.refl
    | @tail b c _ hbc ih =>
      have hb := hoff b ih
      rw [idx_set_ne hx0 (Ne.symm hb)] at hbc
      exact Relation.ReflTransGen.tail ih hbc
  · intro h
    induction h with
    | refl => exact Relation.ReflTransGen.refl
    | @tail b c hpb hbc ih =>
      have hb := hoff b hpb
      exact Relation.ReflTransGen.tail ih (by rw [idx_set_ne hx0 (Ne.symm hb)]; exact hbc)

/-- The squashing loop points every label of the chain from `label` at the root and leaves
the other entries alone. -/
theorem squash_entries : ∀ (fuel : Nat) (eq : List Int) (r label : Int) (d : Nat),
    RootD eq label r d → d < fuel →
    ∃ eq2, squash fuel eq r label = some eq2 ∧
      (∀ i, OnChain eq label i → idx eq2 i = some r) ∧
      (∀ i, ¬ OnChain eq label i → idx eq2 i = idx eq i) := by
  intro fuel
  induction fuel with
  | zero => intro eq r label d _ hf; omega
  | succ f ih =>
    intro eq r label d hd hf
    cases hd with
    | root h =>
      refine ⟨eq, by simp [squash, h], ?_, fun _ _ => rfl⟩
      intro i hi
      rw [onChain_root h hi]
      exact h
    | @step _ p _ d2 h hne hp =>
      have hx : RootOf eq label r := ⟨_, RootD.step h hne hp⟩
      have hx0 : 0 ≤ label := hx.inRange.1
      have hoff : ∀ i, OnChain eq p i → i ≠ label := by
        intro i hi e
        subst e
        obtain ⟨d3, hle, hd3⟩ := onChain_depth hp hi
        have := ((RootD.step h hne hp).unique_depth hd3).2
        omega
      have hp1 : RootOf (eq.set label.toNat r) p r := (rootOf_set_iff hx p r).2 ⟨_, hp⟩
      obtain ⟨d3, hd3⟩ := hp1
      -- the walk from `p` has not become longer
      have hd3le : d3 ≤ d2 := by
        have key : ∀ {i q : Int} {e : Nat}, RootD eq i q e → (∀ j, OnChain eq i j → j ≠ label) →
            RootD (eq.set label.toNat r) i q e := by
          intro i q e hd
          induction hd with
          | @root q h2 =>
            intro ho
            have := ho q Relation.ReflTransGen.refl
            exact RootD.root (by rw [idx_set_ne hx0 (Ne.symm this)]; exact h2)
          | @step i p2 q e h2 hne2 _ ih2 =>
            intro ho
            have := ho i Relation.ReflTransGen.refl
            exact RootD.step (by rw [idx_set_ne hx0 (Ne.symm this)]; exact h2) hne2
              (ih2 (fun j hj => ho j (Relation.ReflTransGen.head h2 hj)))
        have := (hd3.unique_depth (key hp hoff)).2
        omega
      obtain ⟨eq2, he, hon, hoffc⟩ := ih (eq.set label.toNat r) r p d3 hd3 (by omega)
      refine ⟨eq2, ?_, ?_, ?_⟩
      · simp only [squash, h, if_pos hne, upd_of_inRange r hx.inRange]
        exact he
      · intro i hi
        rcases (onChain_head h).1 hi with e | hpi
        · subst e
          rw [hoffc i (fun hc => hoff i ((onChain_set r hx0 hoff i).1 hc) rfl)]
          exact idx_set_self hx.inRange
        · exact hon i ((onChain_set r hx0 hoff i).2 hpi)
      · intro i hi
        have hil : i ≠ label := fun e => hi ((onChain_head h).2 (Or.inl e))
        have hpi : ¬ OnChain eq p i := fun hc => hi ((onChain_head h).2 (Or.inr hc))
        rw [hoffc i (fun hc => hpi ((onChain_set r hx0 hoff i).1 hc))]
        exact idx_set_ne hx0 (Ne.symm hil)

/-- On a forest `find` returns the root, points every label of the chain at it, and leaves
the other entries and every root as they are. -/
theorem find_chain_spec (eq : List Int) (l : Int) (hf : Forest eq)
    (hl : InRange eq.length l) :
    ∃ eq2 r, find eq l = some (eq2, r) ∧
      OnChain eq l r ∧ idx eq r = some r ∧
      eq2.length = eq.length ∧
      (∀ i, OnChain eq l i → idx eq2 i = some r) ∧
      (∀ i, ¬ OnChain eq l i → idx eq2 i = idx eq i) ∧
      (∀ i q, RootOf eq2 i q ↔ RootOf eq i q) := by
  obtain ⟨r, hr⟩ := hf l hl
  obtain ⟨eq2, hfind, hlen, hroots⟩ := find_spec hr
  obtain ⟨d, hd⟩ := hr
  obtain ⟨eq3, he, hon, hoff⟩ := squash_entries (eq.length + 1) eq r l d hd
    (by have := hd.depth_lt; omega)
  have e : eq3 = eq2 := by
    have h2 : find eq l = some (eq3, r) := by
      simp [find, findParent_of_rootOf ⟨d, hd⟩, he]
    rw [hfind] at h2
    exact ((Prod.mk.inj (Option.some.inj h2)).1).symm
  subst e
  exact ⟨eq3, r, hfind, rootD_onChain hd, hd.root_fixed, hlen, hon, hoff, hroots⟩

/-- C14: on a forest, for a valid label `l`, `find` returns the root `r` of `l`, the fixed
point reached by following entries from `l`; after the call every label that was on the
chain from `l` to `r` points directly at `r`, every other entry is unchanged, and every
label has the same root as before. -/
theorem find_compresses (eq : List Int) (l : Int) (hf : Forest eq)
    (hl : InRange eq.length l) :
    ∃ eq2 r, find eq l = some (eq2, r) ∧
      OnChain eq l r ∧ idx eq r = some r ∧
      eq2.length = eq.length ∧
      (∀ i, OnChain eq l i → idx eq2 i = some r) ∧
      (∀ i, ¬ OnChain eq l i → idx eq2 i = idx eq i) ∧
      (∀ i q, RootOf eq2 i q ↔ RootOf eq i q) :=
  find_chain_spec eq l hf hl

theorem forest_exampleForest : Forest exampleForest := by
  intro i hi
  obtain ⟨h0, h1⟩ := hi
  have h2 : i < 5 := h1
  have : i = 0 ∨ i = 1 ∨ i = 2 ∨ i = 3 ∨ i = 4 := by omega
  rcases this with rfl | rfl | rfl | rfl | rfl
  · exact ⟨0, rootOf_of_findParent 6 _ _ _ (by decide)⟩
  · exact ⟨0, rootOf_of_findParent 6 _ _ _ (by decide)⟩
  · exact ⟨2, rootOf_of_findParent 6 _ _ _ (by decide)⟩
  · exact ⟨0, rootOf_of_findParent 6 _ _ _ (by decide)⟩
  · exact ⟨0, rootOf_of_findParent 6 _ _ _ (by decide)⟩

theorem find_compresses_witness :
    Forest exampleForest ∧ InRange exampleForest.length 4 ∧
    ∃ eq2 r, find exampleForest 4 = some (eq2, r) ∧
      OnChain exampleForest 4 r ∧ idx exampleForest r = some r ∧
      eq2.length = exampleForest.length ∧
      (∀ i, OnChain exampleForest 4 i → idx eq2 i = some r) ∧
      (∀ i, ¬ OnChain exampleForest 4 i → idx eq2 i = idx exampleForest i) ∧
      (∀ i q, RootOf eq2 i q ↔ RootOf exampleForest i q) :=
  ⟨forest_exampleForest, by unfold InRange exampleForest; decide,
    find_compresses exampleForest 4 forest_exampleForest
      (by unfold InRange exampleForest; decide)⟩

/-- C17: `find` is idempotent: on a forest, for a valid label `l`, a second `find l` right
after the first returns the same root and leaves the array as the first call left it, and
`find` of the root that was returned returns that root, again without changing the array. -/
theorem find_idempotent (eq : List Int) (l : Int) (hf : Forest eq)
    (hl : InRange eq.length l) :
    ∃ eq2 r, find eq l = some (eq2, r) ∧ find eq2 l = some (eq2, r) ∧
      find eq2 r = some (eq2, r) := by
  obtain ⟨eq2, r, hfind, hlr, hrr, hlen, hon, hoff, hroots⟩ := find_chain_spec eq l hf hl
  have hl2 : idx eq2 l = some r := hon l Relation.ReflTransGen.refl
  have hr2 : idx eq2 r = some r := hon r hlr
  have hrr2 : RootOf eq2 r r := RootOf.of_isRoot hr2
  have hlr2 : RootOf eq2 l r := RootOf.step hl2 hrr2
  obtain ⟨k, hk⟩ : ∃ k, eq2.length = k + 1 := by
    have h0 := hl.1
    have h1 := hl.2
    exact ⟨eq2.length - 1, by omega⟩
  refine ⟨eq2, r, hfind, ?_, ?_⟩
  · unfold find
    rw [findParent_of_rootOf hlr2]
    simp only [hk]
    by_cases hne : r ≠ l
    · have hin : InRange eq2.length l := by rw [hlen]; exact hl
      simp only [squash, hl2, if_pos hne, upd_of_inRange r hin, set_eq_self_of_idx hl2, hr2,
        ne_eq, not_true_eq_false, if_false]
    · have e : r = l := not_not.1 hne
      subst e
      simp only [squash, hr2, ne_eq, not_true_eq_false, if_false]
  · unfold find
    rw [findParent_of_rootOf hrr2]
    simp only [hk, squash, hr2, ne_eq, not_true_eq_false, if_false]

theorem find_idempotent_witness :
    Forest exampleForest ∧ InRange exampleForest.length 4 ∧
    ∃ eq2 r, find exampleForest 4 = some (eq2, r) ∧ find eq2 4 = some (eq2, r) ∧
      find eq2 r = some (eq2, r) :=
  ⟨forest_exampleForest, by unfold InRange exampleForest; decide,
    find_idempotent exampleForest 4 forest_exampleForest
      (by unfold InRange exampleForest; decide)⟩

/-! ## Runs with more fuel -/

theorem secondPass_mono {σ : Type} (labeler : CCLabeler σ) (mapping : List Int) :
    ∀ (f : Nat) (s r : σ), secondPass labeler mapping f s = some r →
    ∀ k, secondPass labeler mapping (f + k) s = some r := by
  intro f
  induction f with
  | zero => intro s r h; simp [secondPass] at h
  | succ f ih =>
    intro s r h k
    rw [show f + 1 + k = (f + k) + 1 by omega]
    unfold secondPass at h ⊢
    repeat' split at h
    all_goals first
      | (simp at h; done)
      | (simp only [*] at *; try first | exact h | exact ih _ _ h k)

/-! ## Ranks in a sorted slice -/

/-- In a slice sorted by decreasing size, a record whose size no other record has stands
after the records of larger size and before all others. -/
theorem sorted_rank : ∀ (l : List Blob) (c : Blob), l.Pairwise (fun a b => b.Size ≤ a.Size) →
    c ∈ l → (∀ b, b ∈ l → b.Size = c.Size → b = c) →
    l[l.countP (fun b => decide (c.Size < b.Size))]? = some c := by
  intro l
  induction l with
  | nil => intro c _ hc; simp at hc
  | cons a t ih =>
    intro c hd hc huniq
    rw [List.pairwise_cons] at hd
    rw [List.countP_cons]
    by_cases hac : a = c
    · subst hac
      have h0 : t.countP (fun b => decide (a.Size < b.Size)) = 0 := by
        rw [List.countP_eq_zero]
        intro b hb
        have := hd.1 b hb
        simp only [decide_eq_true_eq]
        omega
      rw [h0]
      simp
    · have hct : c ∈ t := by
        rcases List.mem_cons.1 hc with e | e
        · exact absurd e.symm hac
        · exact e
      have h1 := hd.1 c hct
      have h2 : a.Size ≠ c.Size := fun e => hac (huniq a (List.mem_cons_self _ _) e)
      have h3 : decide (c.Size < a.Size) = true := by
        simp only [decide_eq_true_eq]
        omega
      rw [h3]
      simp only [if_true, List.getElem?_cons_succ]
      exact ih c hd.2 hct (fun b hb e => huniq b (List.mem_cons_of_mem _ hb) e)

/-! ## Inputs on which the code departs from its specification -/

/-- C19: on the empty image (origin `(0,0)`, width 0, height 0, `Stride = 0`) `CCLImage`
does not return a list: taking the address `&img.Pix[0]` indexes the empty pixel buffer out
of range. -/
theorem cclimage_empty_image_panics (sort : List Blob → List Blob) :
    CCLImage sort emptyImage = Except.error Failure.panic := by
  rfl

/-! ## The turns of the first pass -/

/-- The loop of the first pass, unrolled once. -/
theorem firstPassExact_succ {σ : Type} (labeler : CCLabeler σ) (fuel : Nat) (s : σ) (st : HKState) :
    firstPassExact labeler (fuel + 1) s st =
      match labeler.Next s with
      | none => none
      | some (false, s1) => some (s1, st)
      | some (true, s1) =>
        match firstPassBodyExact labeler s1 st with
        | none => none
        | some (s2, st2) => firstPassExact labeler fuel s2 st2 := by
  rw [firstPassExact]
  unfold firstPassBodyExact
  repeat' split
  all_goals simp_all

/-- The run of the first pass goes through the state reached after `n` turns. -/
theorem firstPassExact_steps {σ : Type} (labeler : CCLabeler σ) : ∀ (n : Nat) (s s2 : σ)
    (st st2 : HKState), firstPassStepsExact labeler n s st = some (s2, st2) →
    ∀ fuel, firstPassExact labeler (n + fuel) s st = firstPassExact labeler fuel s2 st2 := by
  intro n
  induction n with
  | zero =>
    intro s s2 st st2 h fuel
    simp only [firstPassStepsExact, Option.some.injEq, Prod.mk.injEq] at h
    rw [h.1, h.2, Nat.zero_add]
  | succ n ih =>
    intro s s2 st st2 h fuel
    rw [show n + 1 + fuel = (n + fuel) + 1 by omega, firstPassExact_succ]
    unfold firstPassStepsExact at h
    cases hN : labeler.Next s with
    | none => simp [hN] at h
    | some p =>
      obtain ⟨b, s1⟩ := p
      cases b with
      | false => simp [hN] at h
      | true =>
        simp only [hN] at h ⊢
        cases hB : firstPassBodyExact labeler s1 st with
        | none => simp [hB] at h
        | some q =>
          obtain ⟨s3, st3⟩ := q
          simp only [hB] at h ⊢
          exact ih s3 s2 st3 st2 h fuel

theorem firstPassStepsExact_snoc {σ : Type} (labeler : CCLabeler σ) : ∀ (n : Nat) (s s2 s3 s4 : σ)
    (st st2 st4 : HKState), firstPassStepsExact labeler n s st = some (s2, st2) →
    labeler.Next s2 = some (true, s3) → firstPassBodyExact labeler s3 st2 = some (s4, st4) →
    firstPassStepsExact labeler (n + 1) s st = some (s4, st4) := by
  intro n
  induction n with
  | zero =>
    intro s s2 s3 s4 st st2 st4 h hN hB
    simp only [firstPassStepsExact, Option.some.injEq, Prod.mk.injEq] at h
    obtain ⟨rfl, rfl⟩ := h
    simp only [firstPassStepsExact, hN, hB]
  | succ n ih =>
    intro s s2 s3 s4 st st2 st4 h hN hB
    rw [firstPassStepsExact] at h
    rw [firstPassStepsExact]
    cases hN1 : labeler.Next s with
    | none => simp [hN1] at h
    | some p =>
      obtain ⟨b, s1⟩ := p
      cases b with
      | false => simp [hN1] at h
      | true =>
        simp only [hN1] at h ⊢
        cases hB1 : firstPassBodyExact labeler s1 st with
        | none => simp [hB1] at h
        | some q =>
          obtain ⟨s5, st5⟩ := q
          simp only [hB1] at h ⊢
          exact ih s5 s2 s3 s4 st5 st2 st4 h hN hB

/-! ## Entries that point downwards -/

theorem rootD_le {eq : List Int} (hd : Descending eq) {l r : Int} {d : Nat}
    (h : RootD eq l r d) : r ≤ l := by
  induction h with
  | root _ => exact le_refl _
  | step h _ _ ih => exact le_trans ih (hd _ _ h)

theorem rootOf_le {eq : List Int} (hd : Descending eq) {l r : Int} (h : RootOf eq l r) :
    r ≤ l := by
  obtain ⟨d, h⟩ := h
  exact rootD_le hd h

/-- Whenever `find` returns, the labels on the chain point at the root and the other entries
are unchanged. -/
theorem find_entries {eq eq2 : List Int} {l r : Int} (h : find eq l = some (eq2, r)) :
    (∀ i, OnChain eq l i → idx eq2 i = some r) ∧
      (∀ i, ¬ OnChain eq l i → idx eq2 i = idx eq i) := by
  obtain ⟨hr, -, -⟩ := find_sound h
  obtain ⟨d, hd⟩ := hr
  obtain ⟨eq3, he, hon, hoff⟩ := squash_entries (eq.length + 1) eq r l d hd
    (by have := hd.depth_lt; omega)
  have e : eq3 = eq2 := by
    have h2 : find eq l = some (eq3, r) := by
      simp [find, findParent_of_rootOf ⟨d, hd⟩, he]
    rw [h] at h2
    exact ((Prod.mk.inj (Option.some.inj h2)).1).symm
  subst e
  exact ⟨hon, hoff⟩

theorem find_desc {eq eq2 : List Int} {l r : Int} (hd : Descending eq)
    (h : find eq l = some (eq2, r)) : Descending eq2 := by
  obtain ⟨hr, -, -⟩ := find_sound h
  obtain ⟨hon, hoff⟩ := find_entries h
  intro i p hip
  by_cases hc : OnChain eq l i
  · rw [hon i hc] at hip
    cases Option.some.inj hip
    obtain ⟨d, hrd⟩ := hr
    obtain ⟨d2, -, hd2⟩ := onChain_depth hrd hc
    exact rootD_le hd hd2
  · rw [hoff i hc] at hip
    exact hd i p hip

theorem findRoots_desc : ∀ (neighbors eq roots : List Int) (min : Int) (eq2 roots2 : List Int)
    (min2 : Int), Descending eq → findRoots eq neighbors roots min = some (eq2, roots2, min2) →
    Descending eq2 := by
  intro neighbors
  induction neighbors with
  | nil =>
    intro eq roots min eq2 roots2 min2 hd h
    simp only [findRoots, Option.some.injEq, Prod.mk.injEq] at h
    rw [← h.1]
    exact hd
  | cons n rest ih =>
    intro eq roots min eq2 roots2 min2 hd h
    rw [findRoots] at h
    cases hf : find eq n with
    | none => simp [hf] at h
    | some p =>
      obtain ⟨eq1, root⟩ := p
      simp only [hf] at h
      exact ih eq1 _ _ eq2 roots2 min2 (find_desc hd hf) h

theorem set_desc {eq : List Int} {x v : Int} (hd : Descending eq) (hx : InRange eq.length x)
    (hv : v ≤ x) : Descending (eq.set x.toNat v) := by
  intro i p hip
  by_cases hi : i = x
  · subst hi
    rw [idx_set_self hx] at hip
    cases Option.some.inj hip
    exact hv
  · rw [idx_set_ne hx.1 (Ne.symm hi)] at hip
    exact hd i p hip

theorem linkRoots_desc (neighbors : List Int) (min : Int) : ∀ (rest eq : List Int) (i : Nat)
    (eq2 : List Int), Descending eq → (∀ ρ, ρ ∈ rest → min ≤ ρ) →
    linkRoots neighbors min eq i rest = some eq2 → Descending eq2 := by
  intro rest
  induction rest with
  | nil =>
    intro eq i eq2 hd _ h
    simp only [linkRoots, Option.some.injEq] at h
    rw [← h]
    exact hd
  | cons ρ rest ih =>
    intro eq i eq2 hd hmin h
    rw [linkRoots] at h
    cases hu : upd eq ρ min with
    | none => simp [hu] at h
    | some eq1 =>
      simp only [hu] at h
      obtain ⟨hρ, rfl⟩ := upd_eq_some_iff.1 hu
      cases hn : idx neighbors (i : Int) with
      | none => simp [hn] at h
      | some n =>
        simp only [hn] at h
        cases hf : find (eq.set ρ.toNat min) n with
        | none => simp [hf] at h
        | some p =>
          obtain ⟨eq3, root⟩ := p
          simp only [hf] at h
          exact ih eq3 (i + 1) eq2
            (find_desc (set_desc hd hρ (hmin ρ (List.mem_cons_self _ _))) hf)
            (fun q hq => hmin q (List.mem_cons_of_mem _ hq)) h

theorem append_desc {eq : List Int} (hd : Descending eq) :
    Descending (eq ++ [(eq.length : Int)]) := by
  intro i p hip
  have hi := idx_inRange hip
  simp only [List.length_append, List.length_singleton] at hi
  rcases inRange_succ hi with h1 | h1
  · rw [idx_append_left h1] at hip
    exact hd i p hip
  · subst h1
    rw [idx_append_length] at hip
    cases Option.some.inj hip
    exact le_refl _

/-! ## One turn of the first pass over a causal node source, in detail -/

theorem firstPassBodyExact_fresh {σ : Type} (labeler : CCLabeler σ) (s1 s2 : σ)
    (st : HKState) (size : Int)
    (hn : labeler.Neighbors s1 = some []) (hs : labeler.SetLabel s1 st.largestLabel = some s2)
    (hz : labeler.Size s2 = some size) :
    firstPassBodyExact labeler s1 st = some (s2,
      { equivalence := st.equivalence ++ [st.largestLabel]
        largestLabel := st.largestLabel + 1
        blobs := st.blobs ++ [⟨st.largestLabel, size⟩] }) := by
  simp only [firstPassBodyExact, hn, List.length_nil, if_true, hs, hz]

theorem firstPassBodyExact_merge {σ : Type} (labeler : CCLabeler σ) (s1 s2 : σ)
    (st : HKState) (size : Int) (neighbors eq1 roots eq2 : List Int) (min : Int) (b : Blob)
    (blobs1 : List Blob)
    (hn : labeler.Neighbors s1 = some neighbors) (hne : neighbors ≠ [])
    (hf : findRoots st.equivalence neighbors [] MaxInt = some (eq1, roots, min))
    (hl : linkRoots neighbors min eq1 0 roots = some eq2)
    (hs : labeler.SetLabel s1 min = some s2) (hz : labeler.Size s2 = some size)
    (hb : idx st.blobs min = some b)
    (hu : upd st.blobs min { b with Size := b.Size + size } = some blobs1) :
    firstPassBodyExact labeler s1 st = some (s2,
      { equivalence := eq2, largestLabel := st.largestLabel, blobs := blobs1 }) := by
  have hlen : ¬ neighbors.length = 0 := by
    intro e
    exact hne (List.length_eq_zero.1 e)
  simp only [firstPassBodyExact, hn, if_neg hlen, hf, hl, hs, hz, hb, hu]

/-- One turn of the first pass over a causal node source: what `Next` and `Neighbors`
return, what the loops over the neighbours compute, and the state the turn leaves. -/
theorem HKInv.turn {nodes : List GNode} (hc : Causal nodes)
    (hbig : (nodes.length : Int) ≤ MaxInt) {m : Nat} {s : Source} {st : HKState}
    (h : HKInv nodes m s st) (hm : m < nodes.length) :
    ∃ nd s1 s2 st2, nodes[m]? = some nd ∧
      Source.labeler.Next s = some (true, s1) ∧
      Source.labeler.Neighbors s1 = some (nd.nbrs.map (labOf s.labels)) ∧
      firstPassBodyExact Source.labeler s1 st = some (s2, st2) ∧
      HKInv nodes (m + 1) s2 st2 ∧
      (∀ j, j < m → labOf s2.labels j = labOf s.labels j) ∧
      (nd.nbrs = [] →
        st2.equivalence = st.equivalence ++ [(st.equivalence.length : Int)] ∧
        labOf s2.labels m = (st.equivalence.length : Int)) ∧
      (nd.nbrs ≠ [] → ∃ eq1 roots min,
        findRoots st.equivalence (nd.nbrs.map (labOf s.labels)) [] MaxInt
          = some (eq1, roots, min) ∧
        eq1.length = st.equivalence.length ∧
        (∀ i q, RootOf eq1 i q ↔ RootOf st.equivalence i q) ∧
        linkRoots (nd.nbrs.map (labOf s.labels)) min eq1 0 roots = some st2.equivalence ∧
        st2.equivalence.length = st.equivalence.length ∧
        InRange st.equivalence.length min ∧
        labOf s2.labels m = min ∧
        min ∈ roots ∧ (∀ r, r ∈ roots → min ≤ r) ∧
        (∀ r, r ∈ roots ↔
          ∃ l, l ∈ nd.nbrs.map (labOf s.labels) ∧ RootOf st.equivalence l r) ∧
        (∀ l r, RootOf st.equivalence l r →
          RootOf st2.equivalence l (if r ∈ roots then min else r))) ∧
      (Descending st.equivalence → Descending st2.equivalence) := by
  obtain ⟨snodes, labels, pos⟩ := s
  obtain ⟨eq, ll, blobs⟩ := st
  have e1 := h.nodes_eq
  have e2 := h.pos_eq
  have e3 := h.largest
  simp only at e1 e2 e3
  subst e1 e2 e3
  obtain ⟨nd, hnd⟩ : ∃ nd, snodes[pos]? = some nd := ⟨snodes[pos], List.getElem?_eq_getElem hm⟩
  have hcl := causal_lt hc
  have hnb : ∀ j, j ∈ nd.nbrs → j < pos := fun j hj => hcl pos j ⟨nd, hnd, hj⟩
  have hlablen : labels.length = snodes.length := h.labels_len
  have hnext : Source.labeler.Next ⟨snodes, labels, pos⟩ = some (true, ⟨snodes, labels, pos + 1⟩) := by
    simp only [Source.labeler]
    rw [if_pos hm]
  have hneigh : Source.labeler.Neighbors ⟨snodes, labels, pos + 1⟩
      = some (nd.nbrs.map (labOf labels)) := by
    simp only [Source.labeler, Nat.add_sub_cancel, hnd]
    rw [if_neg (by omega)]
    exact mapM_labels labels nd.nbrs (fun j hj => by rw [hlablen]; have := hnb j hj; omega)
  have hset : ∀ c, Source.labeler.SetLabel ⟨snodes, labels, pos + 1⟩ c
      = some ⟨snodes, labels.set pos c, pos + 1⟩ := by
    intro c
    simp only [Source.labeler, Nat.add_sub_cancel]
    rw [if_neg (by omega)]
  have hsize : ∀ c, Source.labeler.Size ⟨snodes, labels.set pos c, pos + 1⟩
      = some (sizeAt snodes pos) := by
    intro c
    simp only [Source.labeler, Nat.add_sub_cancel, hnd, sizeAt]
    rw [if_neg (by omega)]
  have hmlen : pos < labels.length := by rw [hlablen]; exact hm
  have hbound : eq.length ≤ pos := h.bound
  have hlabelled : ∀ j, j < pos → InRange eq.length (labOf labels j) := h.labelled
  have hlab0 : LabInv (Nbr snodes) (sizeAt snodes) (labOf labels) pos eq blobs := h.lab
  have hlab : ∀ c, LabInv (Nbr snodes) (sizeAt snodes) (labOf (labels.set pos c)) pos eq blobs :=
    fun c => hlab0.congr (fun i hi => labOf_set_ne c (by omega))
  have hR : ∀ n, Nbr snodes pos n ↔ n ∈ nd.nbrs := by
    intro n
    constructor
    · rintro ⟨nd2, hnd2, hn⟩
      rw [hnd] at hnd2
      cases Option.some.inj hnd2
      exact hn
    · intro hn
      exact ⟨nd, hnd, hn⟩
  have hkeep : ∀ c j, j < pos → labOf (labels.set pos c) j = labOf labels j :=
    fun c j hj => labOf_set_ne c (by omega)
  by_cases hnil : nd.nbrs = []
  · -- no neighbour: a new label
    refine ⟨nd, ⟨snodes, labels, pos + 1⟩, ⟨snodes, labels.set pos (eq.length : Int), pos + 1⟩,
      { equivalence := eq ++ [(eq.length : Int)]
        largestLabel := (eq.length : Int) + 1
        blobs := blobs ++ [⟨(eq.length : Int), sizeAt snodes pos⟩] }, hnd, hnext, hneigh,
      ?_, ?_, hkeep _, fun _ => ⟨rfl, labOf_set_self _ hmlen⟩, fun hne => absurd hnil hne,
      fun hd => append_desc hd⟩
    · exact firstPassBodyExact_fresh _ _ _ _ _ (by rw [hneigh, hnil]; rfl) (hset _) (hsize _)
    · have hfresh := (hlab (eq.length : Int)).fresh hcl
        (fun n hn => by rw [hR, hnil] at hn; simp at hn)
        (labOf_set_self _ hmlen)
      refine ⟨rfl, rfl, hm, by simp only [List.length_set]; exact hlablen, ?_, hfresh, ?_, ?_⟩
      · simp only [List.length_append, List.length_singleton]
        push_cast
        rfl
      · intro j hj
        simp only [List.length_append, List.length_singleton]
        by_cases hjm : j = pos
        · subst hjm
          rw [labOf_set_self _ hmlen]
          exact ⟨by omega, by push_cast; omega⟩
        · rw [labOf_set_ne _ hjm]
          have := hlabelled j (by omega)
          exact ⟨this.1, by have := this.2; push_cast; omega⟩
      · simp only [List.length_append, List.length_singleton]
        omega
  · -- neighbours: merge their classes
    have hNroot : ∀ l, l ∈ nd.nbrs.map (labOf labels) → ∃ r, RootOf eq l r := by
      intro l hl
      obtain ⟨j, hj, rfl⟩ := List.mem_map.1 hl
      exact hlab0.forest _ (hlabelled j (hnb j hj))
    obtain ⟨eq1, rs, min, hfr, hlen1, hroots1, hall, hmin, -, hlow⟩ :=
      findRoots_spec (nd.nbrs.map (labOf labels)) eq [] MaxInt hNroot
    rw [List.nil_append] at hfr
    have hne : nd.nbrs.map (labOf labels) ≠ [] := by
      intro e
      exact hnil (List.map_eq_nil_iff.1 e)
    have hrs : ∀ r, r ∈ rs → ∃ l, l ∈ nd.nbrs.map (labOf labels) ∧ RootOf eq l r := by
      intro r hr
      obtain ⟨k, hk, rfl⟩ := List.getElem_of_mem hr
      have hk2 : k < (nd.nbrs.map (labOf labels)).length := by rw [hall.length_eq]; exact hk
      exact ⟨_, List.getElem_mem hk2, List.Forall₂.get hall hk2 hk⟩
    have hminrs : min ∈ rs := by
      rcases hmin with h1 | h1
      · exfalso
        obtain ⟨l0, hl0⟩ := List.exists_mem_of_ne_nil _ hne
        obtain ⟨k, hk, hk2⟩ := List.getElem_of_mem hl0
        have hk3 : k < rs.length := by rw [← hall.length_eq]; exact hk
        have h2 := hlow _ (List.getElem_mem hk3)
        obtain ⟨l, -, hl⟩ := hrs _ (List.getElem_mem hk3)
        have h3 := hl.root_inRange.2
        rw [h1] at h2
        omega
      · exact h1
    obtain ⟨lmin, hlmin, hrmin⟩ := hrs min hminrs
    have hminroot1 : RootOf eq1 min min := (hroots1 _ _).2 hrmin.root_root
    obtain ⟨eq2, hlink, hlen2, hfinal⟩ := linkRoots_spec (nd.nbrs.map (labOf labels)) min eq1
      hminroot1 rs eq1 0 [] (fun ρ hρ => by
        obtain ⟨l, -, hl⟩ := hrs ρ hρ
        exact (hroots1 _ _).2 hl.root_root) rfl
      (fun l r hr => by simpa using hr)
      (fun k _ hk => by
        have hk2 : k < (nd.nbrs.map (labOf labels)).length := by
          rw [hall.length_eq]; omega
        obtain ⟨r, hr⟩ := hNroot _ (List.getElem_mem hk2)
        exact ⟨_, r, List.getElem?_eq_getElem hk2, (hroots1 _ _).2 hr⟩)
    have hminr : InRange blobs.length min := by
      rw [hlab0.len]; exact hrmin.root_inRange
    obtain ⟨b, hb⟩ := idx_isSome_of_inRange hminr
    have hmem : ∀ r, (∃ l2, l2 ∈ nd.nbrs.map (labOf labels) ∧ RootOf eq l2 r) ↔ r ∈ rs := by
      intro r
      constructor
      · rintro ⟨l2, hl2, hr2⟩
        obtain ⟨k, hk, rfl⟩ := List.getElem_of_mem hl2
        have hk3 : k < rs.length := by rw [← hall.length_eq]; exact hk
        have := RootOf.unique hr2 (List.Forall₂.get hall hk hk3)
        rw [← this]
        exact List.getElem_mem hk3
      · exact hrs r
    have hfinal2 : ∀ l r, RootOf eq l r → RootOf eq2 l (if r ∈ rs then min else r) := by
      intro l r hr
      have := hfinal l r ((hroots1 _ _).2 hr)
      by_cases hrr : r ∈ rs
      · rw [if_pos (Or.inr hrr)] at this
        rw [if_pos hrr]
        exact this
      · rw [if_neg (by
          rintro (h1 | h1)
          · simp at h1
          · exact hrr h1)] at this
        rw [if_neg hrr]
        exact this
    refine ⟨nd, ⟨snodes, labels, pos + 1⟩, ⟨snodes, labels.set pos min, pos + 1⟩,
      { equivalence := eq2, largestLabel := (eq.length : Int)
        blobs := blobs.set min.toNat { b with Size := b.Size + sizeAt snodes pos } },
      hnd, hnext, hneigh, ?_, ?_, hkeep _, fun e => absurd e hnil,
      fun _ => ⟨eq1, rs, min, hfr, hlen1, hroots1, hlink, hlen2.trans hlen1, hrmin.root_inRange,
        labOf_set_self _ hmlen, hminrs,
        hlow, fun r => (hmem r).symm, hfinal2⟩,
      fun hd => linkRoots_desc _ _ _ _ _ _ (findRoots_desc _ _ _ _ _ _ _ hd hfr) hlow hlink⟩
    · exact firstPassBodyExact_merge _ _ _ _ _ _ eq1 rs eq2 min b _ hneigh hne hfr hlink
        (hset _) (hsize _) hb (upd_of_inRange _ hminr)
    · have hmapeq : nd.nbrs.map (labOf (labels.set pos min)) = nd.nbrs.map (labOf labels) := by
        apply List.map_congr_left
        intro j hj
        exact labOf_set_ne _ (by have := hnb j hj; omega)
      have hmerge := (hlab min).merge hcl (nd.nbrs.map (labOf labels))
        (fun n hn => by
          rw [hR] at hn
          rw [← hmapeq]
          exact List.mem_map_of_mem _ hn)
        (fun l hl => by
          rw [← hmapeq] at hl
          obtain ⟨j, hj, rfl⟩ := List.mem_map.1 hl
          exact ⟨j, (hR j).2 hj, rfl⟩)
        hNroot ⟨lmin, hlmin, hrmin⟩ (labOf_set_self _ hmlen) (by rw [hlen2, hlen1])
        (fun l r hr hM => by
          have := hfinal2 l r hr
          rw [if_pos ((hmem r).1 hM)] at this
          exact this)
        (fun l r hr hM => by
          have := hfinal2 l r hr
          rw [if_neg (fun h1 => hM ((hmem r).2 h1))] at this
          exact this) hb
      refine ⟨rfl, rfl, hm, by simp only [List.length_set]; exact hlablen, ?_, hmerge, ?_, ?_⟩
      · simp only [hlen2, hlen1]
      · intro j hj
        simp only [hlen2, hlen1]
        by_cases hjm : j = pos
        · subst hjm
          rw [labOf_set_self _ hmlen]
          exact hrmin.root_inRange
        · rw [labOf_set_ne _ hjm]
          exact hlabelled j (by omega)
      · simp only [hlen2, hlen1]
        omega

/-- The state of the first pass over a causal node source after `m` turns. -/
theorem firstPassStepsExact_inv {nodes : List GNode} (hc : Causal nodes)
    (hbig : (nodes.length : Int) ≤ MaxInt) : ∀ m, m ≤ nodes.length →
    ∃ s st, firstPassStepsExact Source.labeler m (Source.init nodes)
        { equivalence := [], largestLabel := 0, blobs := [] } = some (s, st) ∧
      HKInv nodes m s st ∧ Descending st.equivalence := by
  intro m
  induction m with
  | zero =>
    intro _
    exact ⟨_, _, rfl, HKInv.init nodes, fun i p hip => by simp [idx] at hip⟩
  | succ m ih =>
    intro hm
    obtain ⟨s, st, hrun, hinv, hd⟩ := ih (by omega)
    obtain ⟨nd, s1, s2, st2, -, hnext, -, hbody, hinv2, -, -, -, hd2⟩ :=
      hinv.turn hc hbig (by omega)
    exact ⟨s2, st2, firstPassStepsExact_snoc _ _ _ _ _ _ _ _ _ hrun hnext hbody, hinv2, hd2 hd⟩

/-! ## Indices and roots during the first pass -/

/-- With the sizes added exactly:
for every node source obeying the causal contract, `HoshenKopelmanExact` returns, that
is, no access to `equivalence`, `blobs` or `mapping` is out of range; and in every turn of
the first pass in which the node has neighbours, the label `min` computed by the loop over
the neighbours is an index below the number of labels created so far, which is the length of
`blobs`. -/
theorem no_out_of_range_exact (nodes : List GNode) (sort : List Blob → List Blob) (fuel : Nat)
    (hc : Causal nodes) (hs : SortSpec sort) (hbig : (nodes.length : Int) ≤ MaxInt)
    (hf : nodes.length < fuel) :
    (∃ s sizes, HoshenKopelmanExact Source.labeler sort fuel (Source.init nodes)
      = some (s, sizes)) ∧
    ∀ m, m < nodes.length →
      ∃ s st s1 neighbors,
        firstPassStepsExact Source.labeler m (Source.init nodes)
          { equivalence := [], largestLabel := 0, blobs := [] } = some (s, st) ∧
        Source.labeler.Next s = some (true, s1) ∧
        Source.labeler.Neighbors s1 = some neighbors ∧
        (neighbors ≠ [] → ∃ eq1 roots min,
          findRoots st.equivalence neighbors [] MaxInt = some (eq1, roots, min) ∧
          0 ≤ min ∧ min < st.largestLabel ∧ min < (st.blobs.length : Int)) := by
  constructor
  · obtain ⟨s1, st1, s3, -, -, hrun⟩ := HoshenKopelmanExact_total hc hbig hs hf
    exact ⟨_, _, hrun⟩
  · intro m hm
    obtain ⟨s, st, hrun, hinv, -⟩ := firstPassStepsExact_inv hc hbig m (by omega)
    obtain ⟨nd, s1, s2, st2, -, hnext, hneigh, -, -, -, -, hmerge, -⟩ := hinv.turn hc hbig hm
    refine ⟨s, st, s1, _, hrun, hnext, hneigh, fun hne => ?_⟩
    obtain ⟨eq1, roots, min, hfr, -, -, -, -, hmin, -⟩ :=
      hmerge (fun e => hne (by rw [e]; rfl))
    refine ⟨eq1, roots, min, hfr, hmin.1, ?_, ?_⟩
    · rw [hinv.largest]; exact hmin.2
    · rw [hinv.lab.len]; exact hmin.2

/-- With the sizes added exactly:
throughout the first pass of `HoshenKopelmanExact` over a causal node source, after any
number of turns, `equivalence[i] <= i` for every raw label `i`, so that the root of a label
is the smallest raw label of its class; and in a turn whose node has neighbours, the label
`c` given to the node is a root whose class is the union of the classes that the neighbours
had before the turn, `c` is the smallest raw label of this class, and every neighbour label
resolves (`find`) to `c` after the turn. -/
theorem min_root_exact (nodes : List GNode) (hc : Causal nodes)
    (hbig : (nodes.length : Int) ≤ MaxInt) :
    (∀ m, m ≤ nodes.length →
      ∃ s st, firstPassStepsExact Source.labeler m (Source.init nodes)
          { equivalence := [], largestLabel := 0, blobs := [] } = some (s, st) ∧
        (∀ i p, idx st.equivalence i = some p → p ≤ i) ∧
        (∀ l r, RootOf st.equivalence l r → r ≤ l)) ∧
    (∀ m nd, nodes[m]? = some nd → nd.nbrs ≠ [] →
      ∃ s st s2 st2 c,
        firstPassStepsExact Source.labeler m (Source.init nodes)
          { equivalence := [], largestLabel := 0, blobs := [] } = some (s, st) ∧
        firstPassStepsExact Source.labeler (m + 1) (Source.init nodes)
          { equivalence := [], largestLabel := 0, blobs := [] } = some (s2, st2) ∧
        s2.labels[m]? = some c ∧
        idx st2.equivalence c = some c ∧
        (∀ l, RootOf st2.equivalence l c ↔
          ∃ j, j ∈ nd.nbrs ∧ ∃ r, RootOf st.equivalence (labOf s.labels j) r ∧
            RootOf st.equivalence l r) ∧
        (∀ l, RootOf st2.equivalence l c → c ≤ l) ∧
        (∀ j, j ∈ nd.nbrs →
          ∃ eq3, find st2.equivalence (labOf s.labels j) = some (eq3, c))) := by
  constructor
  · intro m hm
    obtain ⟨s, st, hrun, -, hd⟩ := firstPassStepsExact_inv hc hbig m hm
    exact ⟨s, st, hrun, hd, fun l r hr => rootOf_le hd hr⟩
  · intro m nd hnd hne
    have hm : m < nodes.length := (List.getElem?_eq_some.1 hnd).1
    obtain ⟨s, st, hrun, hinv, hd⟩ := firstPassStepsExact_inv hc hbig m (by omega)
    obtain ⟨nd2, s1, s2, st2, hnd2, hnext, hneigh, hbody, hinv2, -, -, hmerge, hd2⟩ :=
      hinv.turn hc hbig hm
    rw [hnd] at hnd2
    cases Option.some.inj hnd2
    obtain ⟨eq1, roots, min, hfr, -, -, hlink, hlen, hmin, hlabel, hminroots, hlow, hroots,
      hfinal⟩ :=
      hmerge hne
    have hrun2 := firstPassStepsExact_snoc _ _ _ _ _ _ _ _ _ hrun hnext hbody
    have hminroot : RootOf st2.equivalence min min := by
      obtain ⟨l, hl, hlr⟩ := (hroots min).1 hminroots
      have := hfinal _ _ hlr.root_root
      rw [if_pos hminroots] at this
      exact this
    have hclass : ∀ l, RootOf st2.equivalence l min ↔
        ∃ j, j ∈ nd.nbrs ∧ ∃ r, RootOf st.equivalence (labOf s.labels j) r ∧
          RootOf st.equivalence l r := by
      intro l
      constructor
      · intro hl
        have hlr : InRange st.equivalence.length l := by
          rw [← hlen]
          exact hl.inRange
        obtain ⟨r, hr⟩ := hinv.lab.forest l hlr
        have h2 := hfinal l r hr
        by_cases hrr : r ∈ roots
        · obtain ⟨l2, hl2, hl2r⟩ := (hroots r).1 hrr
          obtain ⟨j, hj, rfl⟩ := List.mem_map.1 hl2
          exact ⟨j, hj, r, hl2r, hr⟩
        · rw [if_neg hrr] at h2
          have := RootOf.unique hl h2
          exact absurd (this ▸ hminroots) hrr
      · rintro ⟨j, hj, r, hjr, hlr⟩
        have hrr : r ∈ roots := (hroots r).2 ⟨_, List.mem_map_of_mem _ hj, hjr⟩
        have := hfinal l r hlr
        rw [if_pos hrr] at this
        exact this
    have hlm : s2.labels[m]? = some min := by
      rw [← hlabel]
      exact labOf_of_lt (by rw [hinv2.labels_len]; exact hm)
    refine ⟨s, st, s2, st2, min, hrun, hrun2, hlm, hminroot.isRoot, hclass,
      fun l hl => rootOf_le (hd2 hd) hl, fun j hj => ?_⟩
    obtain ⟨r, hr⟩ := hinv.lab.forest _ (hinv.labelled j (causal_lt hc m j ⟨nd, hnd, hj⟩))
    have hjm : RootOf st2.equivalence (labOf s.labels j) min := (hclass _).2 ⟨j, hj, r, hr, hr⟩
    obtain ⟨eq3, hfind, -⟩ := find_spec hjm
    exact ⟨eq3, hfind⟩

/-! ## The equivalence array is a forest throughout -/

theorem isForest_iff {eq : List Int} : IsForest eq ↔ Forest eq := by
  constructor
  · intro h i hi
    obtain ⟨r, d, hd, -⟩ := h.2 i hi
    exact ⟨r, d, hd⟩
  · intro h
    refine ⟨fun i p hip => ?_, fun i hi => ?_⟩
    · obtain ⟨r, hr⟩ := h i (idx_inRange hip)
      exact (RootOf.parent hip hr).inRange
    · obtain ⟨r, d, hd⟩ := h i hi
      exact ⟨r, d, hd, hd.depth_lt⟩

theorem foldlM_congr_mem {σ α : Type} (f g : σ → α → Option σ) : ∀ (l : List α) (s : σ),
    (∀ x, x ∈ l → ∀ s, f s x = g s x) → l.foldlM f s = l.foldlM g s := by
  intro l
  induction l with
  | nil => intro s _; rfl
  | cons a t ih =>
    intro s h
    simp only [List.foldlM_cons]
    rw [h a (List.mem_cons_self _ _) s]
    cases g s a with
    | none => rfl
    | some s2 => exact ih s2 (fun x hx => h x (List.mem_cons_of_mem _ hx))

/-- A loop over the rows that contains a loop over the columns is a single loop over the
pixels in raster order. -/
theorem raster_flat {σ : Type} (f : Nat → Nat → σ → Option σ) (w : Nat) (hw : 0 < w) :
    ∀ (h : Nat) (s0 : σ),
    (List.range h).foldlM (fun st y => (List.range w).foldlM (fun st x => f y x st) st) s0
      = (List.range (h * w)).foldlM (fun st j => f (j / w) (j % w) st) s0 := by
  intro h
  induction h with
  | zero => intro s0; simp
  | succ h ih =>
    intro s0
    rw [List.range_succ, List.foldlM_append, ih s0]
    rw [show (h + 1) * w = h * w + w by ring, List.range_add, List.foldlM_append]
    cases (List.range (h * w)).foldlM (fun st j => f (j / w) (j % w) st) s0 with
    | none => rfl
    | some s1 =>
      simp only [Option.some_bind, List.foldlM_cons, List.foldlM_nil, Option.bind_eq_bind,
        Option.pure_def, Option.bind_some, List.foldlM_map]
      apply foldlM_congr_mem
      intro x hx s
      rw [List.mem_range] at hx
      have h1 : (h * w + x) / w = h := by
        rw [Nat.mul_comm, Nat.mul_add_div hw, Nat.div_eq_of_lt hx, Nat.add_zero]
      have h2 : (h * w + x) % w = x := by
        rw [Nat.mul_comm, Nat.mul_add_mod, Nat.mod_eq_of_lt hx]
      rw [h1, h2]

/-- The state of the first pass of `CCLImage` after `k` pixels. -/
theorem firstPassImage_inv {img : Image} {w h : Nat} (hwf : img.WellFormed w h) :
    ∀ k, k ≤ h * w → ∃ st raw, firstPassImage img k = some st ∧ ImgInv w img.Pix k raw st := by
  obtain ⟨-, -, hmaxx, -, hw, -, -, hlen⟩ := hwf
  intro k hk
  have hw0 : img.MaxX.toNat = w := by rw [hmaxx]; simp
  unfold firstPassImage
  rw [hw0]
  obtain ⟨st, hrun, raw, hinv⟩ := foldlM_range_inv
    (fun st j => pixelStep (j / w) (j % w) st)
    (fun k st => ∃ raw, ImgInv w img.Pix k raw st) k
    (fun j s hj hp => by
      obtain ⟨raw, hinv⟩ := hp
      obtain ⟨st2, c, hstep, hinv2⟩ := hinv.pixel (by omega) (y := j / w) (x := j % w) rfl
        (by
          rw [Nat.div_eq_zero_iff (by omega)])
        (by
          rw [hlen]
          have : 4 * w * h = 4 * (h * w) := by ring
          omega)
      exact ⟨st2, hstep, _, hinv2⟩)
    { pix := img.Pix, imgPix := 0, labelsPix := 0, equivalence := [], largestLabel := 0
      aboveBuf := List.replicate w 0
      cur := EmptyBlob, above := EmptyBlob, left := EmptyBlob, counts := [] }
    ⟨[], rfl, rfl, fun j c hj => by omega, fun i _ => rfl, rfl, rfl, rfl, List.length_replicate _ _,
      fun j hj => by omega, fun hk => by omega, fun j hj => by omega, LabInv.empty _ _ _⟩
  exact ⟨st, raw, hrun, hinv⟩

/-- Whenever the loop that fills `mapping` returns, it has changed no root. -/
theorem fillMapping_roots (setID : Bool) : ∀ (bs : List Blob) (i : Nat) (st ms : MapState),
    fillMapping setID bs i st = some ms →
    ms.equivalence.length = st.equivalence.length ∧
      ∀ x q, RootOf ms.equivalence x q ↔ RootOf st.equivalence x q := by
  intro bs
  induction bs with
  | nil =>
    intro i st ms h
    simp only [fillMapping, Option.some.injEq] at h
    subst h
    exact ⟨rfl, fun _ _ => Iff.rfl⟩
  | cons b rest ih =>
    intro i st ms h
    rw [fillMapping] at h
    by_cases hz : b.Size = 0
    · rw [if_pos hz] at h
      cases hf : find st.equivalence b.ID with
      | none => simp [hf] at h
      | some p =>
        obtain ⟨eq1, root⟩ := p
        simp only [hf] at h
        cases hm : idx st.mapping root with
        | none => simp [hm] at h
        | some v =>
          simp only [hm] at h
          cases hu : upd st.mapping b.ID v with
          | none => simp [hu] at h
          | some mapping1 =>
            simp only [hu] at h
            obtain ⟨h1, h2⟩ := ih _ _ _ h
            obtain ⟨-, h3, h4⟩ := find_sound hf
            exact ⟨h1.trans h3, fun x q => (h2 x q).trans (h4 x q)⟩
    · rw [if_neg hz] at h
      cases hu : upd st.mapping b.ID (i : Int) with
      | none => simp [hu] at h
      | some mapping1 =>
        simp only [hu] at h
        obtain ⟨h1, h2⟩ := ih _ _ _ h
        exact ⟨h1, h2⟩

theorem forest_link {eq : List Int} {a b : Int} (hf : Forest eq) (ha : idx eq a = some a)
    (hb : idx eq b = some b) : Forest (eq.set a.toNat b) := by
  intro i hi
  rw [List.length_set] at hi
  obtain ⟨r, hr⟩ := hf i hi
  exact ⟨_, rootOf_link ha hb hr⟩

/-- With the sizes added exactly:
in `HoshenKopelmanExact` over a causal node source and in `CCLImage`, the equivalence
array is a forest in every state that the first pass reaches at the head of its loop and in
the states that the finalization leaves: every entry is a valid index and following entries
from any label reaches a fixed point without visiting a label twice.  A new label is
appended pointing at itself, `find` on a forest returns and leaves a forest, linking a root
to a root leaves a forest, and the labels that the loop of `HoshenKopelmanExact` links are roots;
so every call of `find` returns, and both runs return. -/
theorem forest_throughout_exact (nodes : List GNode) (img : Image) (w h : Nat)
    (sort : List Blob → List Blob) (fuel : Nat) (hc : Causal nodes)
    (hbig : (nodes.length : Int) ≤ MaxInt) (hf : nodes.length < fuel)
    (hwf : img.WellFormed w h) (hs : SortSpec sort) :
    -- the three ways in which the array changes
    (∀ eq, IsForest eq → IsForest (eq ++ [(eq.length : Int)]) ∧
      idx (eq ++ [(eq.length : Int)]) (eq.length : Int) = some (eq.length : Int)) ∧
    (∀ eq l, IsForest eq → InRange eq.length l →
      ∃ eq2 r, find eq l = some (eq2, r) ∧ IsForest eq2) ∧
    (∀ eq a b, IsForest eq → idx eq a = some a → idx eq b = some b →
      IsForest (eq.set a.toNat b)) ∧
    -- the first pass of HoshenKopelman
    (∀ m, m ≤ nodes.length →
      ∃ s st, firstPassStepsExact Source.labeler m (Source.init nodes)
          { equivalence := [], largestLabel := 0, blobs := [] } = some (s, st) ∧
        IsForest st.equivalence ∧ st.largestLabel = (st.equivalence.length : Int)) ∧
    (∀ m nd, nodes[m]? = some nd → nd.nbrs ≠ [] →
      ∃ s st eq1 roots min,
        firstPassStepsExact Source.labeler m (Source.init nodes)
          { equivalence := [], largestLabel := 0, blobs := [] } = some (s, st) ∧
        findRoots st.equivalence (nd.nbrs.map (labOf s.labels)) [] MaxInt
          = some (eq1, roots, min) ∧
        IsForest eq1 ∧ idx eq1 min = some min ∧ ∀ ρ, ρ ∈ roots → idx eq1 ρ = some ρ) ∧
    -- the finalization of HoshenKopelman
    (∃ s1 st1 eq1 blobs1 ms r,
      firstPassExact Source.labeler fuel (Source.init nodes)
        { equivalence := [], largestLabel := 0, blobs := [] } = some (s1, st1) ∧
      IsForest st1.equivalence ∧
      aggregate st1.blobs.length 0 st1.equivalence st1.blobs = some (eq1, blobs1) ∧
      IsForest eq1 ∧
      fillMapping false (sort blobs1) 0
        { equivalence := eq1, mapping := List.replicate (sort blobs1).length 0
          numNotEmpty := 0, done := [] } = some ms ∧
      IsForest ms.equivalence ∧
      HoshenKopelmanExact Source.labeler sort fuel (Source.init nodes) = some r) ∧
    -- the first pass of CCLImage
    (∀ k, k ≤ h * w →
      ∃ st, firstPassImage img k = some st ∧ IsForest st.equivalence ∧
        st.largestLabel = (st.equivalence.length : Int)) ∧
    -- the finalization of CCLImage
    (∃ st1 eq1 counts1 ms r,
      firstPassImage img (h * w) = some st1 ∧
      aggregate st1.counts.length 0 st1.equivalence st1.counts = some (eq1, counts1) ∧
      IsForest eq1 ∧
      fillMapping true (sort counts1) 0
        { equivalence := eq1, mapping := List.replicate (sort counts1).length 0
          numNotEmpty := 0, done := [] } = some ms ∧
      IsForest ms.equivalence ∧
      CCLImage sort img = Except.ok r) := by
  refine ⟨?_, ?_, ?_, ?_, ?_, ?_, ?_, ?_⟩
  · intro eq hfo
    exact ⟨isForest_iff.2 (Forest.append (isForest_iff.1 hfo)), idx_append_length _ _⟩
  · intro eq l hfo hl
    obtain ⟨r, hr⟩ := isForest_iff.1 hfo l hl
    obtain ⟨eq2, hfind, hlen, hroots⟩ := find_spec hr
    exact ⟨eq2, r, hfind, isForest_iff.2 ((isForest_iff.1 hfo).of_iff hlen hroots)⟩
  · intro eq a b hfo ha hb
    exact isForest_iff.2 (forest_link (isForest_iff.1 hfo) ha hb)
  · intro m hm
    obtain ⟨s, st, hrun, hinv, -⟩ := firstPassStepsExact_inv hc hbig m hm
    exact ⟨s, st, hrun, isForest_iff.2 hinv.lab.forest, hinv.largest⟩
  · intro m nd hnd hne
    have hm : m < nodes.length := (List.getElem?_eq_some.1 hnd).1
    obtain ⟨s, st, hrun, hinv, -⟩ := firstPassStepsExact_inv hc hbig m (by omega)
    obtain ⟨nd2, s1, s2, st2, hnd2, -, -, -, -, -, -, hmerge, -⟩ := hinv.turn hc hbig hm
    rw [hnd] at hnd2
    cases Option.some.inj hnd2
    obtain ⟨eq1, roots, min, hfr, hlen1, hroots1, -, -, -, -, hminroots, -, hroots, -⟩ :=
      hmerge hne
    have hroot : ∀ ρ, ρ ∈ roots → idx eq1 ρ = some ρ := by
      intro ρ hρ
      obtain ⟨l, -, hl⟩ := (hroots ρ).1 hρ
      exact ((hroots1 _ _).2 hl.root_root).isRoot
    exact ⟨s, st, eq1, roots, min, hrun, hfr,
      isForest_iff.2 (hinv.lab.forest.of_iff hlen1 hroots1), hroot min hminroots, hroot⟩
  · obtain ⟨s1, st1, hfp, hinv⟩ := firstPassExact_spec hc hbig fuel 0 (Source.init nodes) _
      (HKInv.init nodes) (by omega)
    obtain ⟨eq2, hagg, hlen2, hroots2⟩ := aggregate_list hinv.lab
    rw [hinv.lab.len] at hagg
    set blobs2 : List Blob := (List.range st1.equivalence.length).map (fun (i : Nat) =>
      (⟨(i : Int), classSize nodes.length (sizeAt nodes) (labOf s1.labels)
        st1.equivalence (i : Int)⟩ : Blob)) with hblobs2
    obtain ⟨hperm, -⟩ := hs blobs2
    have hslen : (sort blobs2).length = st1.equivalence.length := by
      rw [hperm.length_eq, hblobs2]; simp
    have hmem : ∀ b, b ∈ sort blobs2 → InRange st1.equivalence.length b.ID := by
      intro b hb
      rw [hperm.mem_iff, hblobs2] at hb
      obtain ⟨i, hi, rfl⟩ := List.mem_map.1 hb
      rw [List.mem_range] at hi
      exact ⟨by simp, by simp; omega⟩
    have hfo2 : Forest eq2 := hinv.lab.forest.of_iff hlen2 hroots2
    obtain ⟨ms, hfill, -⟩ := fillMapping_total false st1.equivalence.length (sort blobs2) 0
      { equivalence := eq2, mapping := List.replicate (sort blobs2).length 0
        numNotEmpty := 0, done := [] } hmem (by simp [hslen]) hlen2 hfo2
    obtain ⟨hl3, hr3⟩ := fillMapping_roots false _ _ _ _ hfill
    obtain ⟨_, _, s3, -, -, hrun⟩ := HoshenKopelmanExact_total hc hbig hs hf
    exact ⟨s1, st1, eq2, blobs2, ms, _, hfp, isForest_iff.2 hinv.lab.forest,
      by rw [hinv.lab.len]; exact hagg, isForest_iff.2 hfo2, hfill,
      isForest_iff.2 (hfo2.of_iff hl3 hr3), hrun⟩
  · intro k hk
    obtain ⟨st, raw, hrun, hinv⟩ := firstPassImage_inv hwf k hk
    exact ⟨st, hrun, isForest_iff.2 hinv.lab.forest, hinv.largest⟩
  · obtain ⟨st1, raw, hrun, hinv⟩ := firstPassImage_inv hwf (h * w) (le_refl _)
    obtain ⟨eq2, blobs2, ms, hagg, hfill, -⟩ :=
      finalize_spec true hinv.lab (fun _ _ => le_refl _) hs
    obtain ⟨eq3, blobs3, hagg3, hlen3, hroots3, -⟩ := aggregate_spec hinv.lab
    rw [hagg] at hagg3
    obtain ⟨e1, e2⟩ := Prod.mk.inj (Option.some.inj hagg3)
    subst e1 e2
    have hfo2 : Forest eq2 := hinv.lab.forest.of_iff hlen3 hroots3
    obtain ⟨hl4, hr4⟩ := fillMapping_roots true _ _ _ _ hfill
    obtain ⟨_, _, _, _, _, -, -, hok, -⟩ := CCLImage_spec hwf hs
    exact ⟨st1, eq2, blobs2, ms, _, hrun, hagg, isForest_iff.2 hfo2, hfill,
      isForest_iff.2 (hfo2.of_iff hl4 hr4), hok⟩

/-! ## Sizes that wrap around -/

theorem wrapInt_mod (i : Int) :
    wrapInt i % 18446744073709551616 = i % 18446744073709551616 := by
  unfold wrapInt
  omega

theorem wrapInt_inInt (i : Int) : InInt (wrapInt i) := by
  unfold wrapInt InInt
  omega

theorem wrapInt_of_inInt {i : Int} (h : InInt i) : wrapInt i = i := by
  unfold InInt at h
  unfold wrapInt
  omega

theorem sizesAgree_refl (bs : List Blob) : SizesAgree bs bs := by
  refine ⟨rfl, fun i b c hb hc => ?_⟩
  rw [hb] at hc
  cases Option.some.inj hc
  exact ⟨rfl, rfl⟩

theorem sizesAgree_idx {bw be : List Blob} (h : SizesAgree bw be) {i : Int} {c : Blob}
    (hc : idx be i = some c) :
    ∃ b, idx bw i = some b ∧ b.ID = c.ID ∧
      b.Size % 18446744073709551616 = c.Size % 18446744073709551616 := by
  have hr := idx_inRange hc
  rw [← h.1] at hr
  obtain ⟨b, hb⟩ := idx_isSome_of_inRange hr
  obtain ⟨h0, hcn⟩ := idx_eq_some_iff.1 hc
  obtain ⟨-, hbn⟩ := idx_eq_some_iff.1 hb
  exact ⟨b, hb, h.2 _ b c hbn hcn⟩

theorem sizesAgree_upd {bw be be2 : List Blob} (h : SizesAgree bw be) {i : Int} {b c : Blob}
    (hu : upd be i c = some be2) (hid : b.ID = c.ID)
    (hsz : b.Size % 18446744073709551616 = c.Size % 18446744073709551616) :
    ∃ bw2, upd bw i b = some bw2 ∧ SizesAgree bw2 be2 := by
  obtain ⟨hr, rfl⟩ := upd_eq_some_iff.1 hu
  have hrw : InRange bw.length i := by rw [h.1]; exact hr
  refine ⟨bw.set i.toNat b, upd_of_inRange b hrw, ?_, ?_⟩
  · simp only [List.length_set]; exact h.1
  · intro j x y hx hy
    rw [List.getElem?_set] at hx hy
    by_cases hj : i.toNat = j
    · rw [if_pos hj] at hx hy
      have hjw : j < bw.length := by
        have h0 := hrw.1
        have h1 := hrw.2
        omega
      have hje : j < be.length := by rw [← h.1]; exact hjw
      rw [if_pos (by omega)] at hx
      rw [if_pos (by omega)] at hy
      cases Option.some.inj hx
      cases Option.some.inj hy
      exact ⟨hid, hsz⟩
    · rw [if_neg hj] at hx hy
      exact h.2 j x y hx hy

theorem sizesAgree_append {bw be : List Blob} (h : SizesAgree bw be) (b : Blob) :
    SizesAgree (bw ++ [b]) (be ++ [b]) := by
  refine ⟨by simp only [List.length_append, h.1], fun i x y hx hy => ?_⟩
  by_cases hi : i < bw.length
  · rw [List.getElem?_append_left hi] at hx
    rw [List.getElem?_append_left (by rw [← h.1]; exact hi)] at hy
    exact h.2 i x y hx hy
  · rw [List.getElem?_append_right (by omega)] at hx
    rw [List.getElem?_append_right (by rw [← h.1]; omega), ← h.1] at hy
    rw [hx] at hy
    cases Option.some.inj hy
    exact ⟨rfl, rfl⟩

/-- Sizes that agree up to multiples of `2^64` and fit an `int` are equal. -/
theorem sizesAgree_eq {bw be : List Blob} (h : SizesAgree bw be)
    (hw : ∀ b, b ∈ bw → InInt b.Size) (he : ∀ b, b ∈ be → InInt b.Size) : bw = be := by
  apply List.ext_getElem?
  intro i
  by_cases hi : i < bw.length
  · have hie : i < be.length := by rw [← h.1]; exact hi
    rw [List.getElem?_eq_getElem hi, List.getElem?_eq_getElem hie]
    obtain ⟨h1, h2⟩ := h.2 i _ _ (List.getElem?_eq_getElem hi) (List.getElem?_eq_getElem hie)
    have h3 := hw _ (List.getElem_mem hi)
    have h4 := he _ (List.getElem_mem hie)
    unfold InInt at h3 h4
    have h5 : (bw[i]).Size = (be[i]).Size := by omega
    congr 1
    cases hb : bw[i] with
    | mk id1 sz1 =>
      cases hc : be[i] with
      | mk id2 sz2 =>
        rw [hb, hc] at h1 h5
        simp only at h1 h5
        rw [h1, h5]
  · rw [List.getElem?_eq_none (by omega), List.getElem?_eq_none (by rw [← h.1]; omega)]

/-! ## The run with wrapping sizes follows the run with exact sizes -/

/-- One turn of the first pass: the two runs take the same branches and leave states that
differ only by multiples of `2^64` in the sizes. -/
theorem firstPassBody_agree {σ : Type} (labeler : CCLabeler σ) {s1 s2 : σ}
    {stw ste st2e : HKState} (ha : StateAgree stw ste)
    (h : firstPassBodyExact labeler s1 ste = some (s2, st2e)) :
    ∃ st2w, firstPassBody labeler s1 stw = some (s2, st2w) ∧ StateAgree st2w st2e := by
  obtain ⟨he, hl, hb⟩ := ha
  unfold firstPassBodyExact at h
  unfold firstPassBody
  rw [he, hl]
  cases hN : labeler.Neighbors s1 with
  | none => simp [hN] at h
  | some nbrs =>
    simp only [hN] at h ⊢
    by_cases hz : nbrs.length = 0
    · rw [if_pos hz] at h ⊢
      cases hS : labeler.SetLabel s1 ste.largestLabel with
      | none => simp [hS] at h
      | some s3 =>
        simp only [hS] at h ⊢
        cases hZ : labeler.Size s3 with
        | none => simp [hZ] at h
        | some size =>
          simp only [hZ, Option.some.injEq, Prod.mk.injEq] at h ⊢
          obtain ⟨rfl, rfl⟩ := h
          exact ⟨_, ⟨rfl, rfl⟩, rfl, rfl, sizesAgree_append hb _⟩
    · rw [if_neg hz] at h ⊢
      cases hF : findRoots ste.equivalence nbrs [] MaxInt with
      | none => simp [hF] at h
      | some p =>
        obtain ⟨eq1, roots, min⟩ := p
        simp only [hF] at h ⊢
        cases hL : linkRoots nbrs min eq1 0 roots with
        | none => simp [hL] at h
        | some eq2 =>
          simp only [hL] at h ⊢
          cases hS : labeler.SetLabel s1 min with
          | none => simp [hS] at h
          | some s3 =>
            simp only [hS] at h ⊢
            cases hZ : labeler.Size s3 with
            | none => simp [hZ] at h
            | some size =>
              simp only [hZ] at h ⊢
              cases hI : idx ste.blobs min with
              | none => simp [hI] at h
              | some c =>
                simp only [hI] at h
                cases hU : upd ste.blobs min { c with Size := c.Size + size } with
                | none => simp [hU] at h
                | some be2 =>
                  simp only [hU, Option.some.injEq, Prod.mk.injEq] at h
                  obtain ⟨rfl, rfl⟩ := h
                  obtain ⟨b, hbI, hid, hsz⟩ := sizesAgree_idx hb hI
                  obtain ⟨bw2, hbU, hagree⟩ := sizesAgree_upd (b :=
                    { b with Size := wrapInt (b.Size + size) }) hb hU hid (by
                      simp only
                      rw [wrapInt_mod]
                      omega)
                  simp only [hbI, hbU]
                  exact ⟨_, rfl, rfl, rfl, hagree⟩

/-! ## The loops of `HoshenKopelman`, unrolled -/

theorem firstPass_done {σ : Type} (labeler : CCLabeler σ) (fuel : Nat) (s s1 : σ) (st : HKState)
    (h : labeler.Next s = some (false, s1)) :
    firstPass labeler (fuel + 1) s st = some (s1, st) := by
  simp only [firstPass, h]

/-- The loop of the first pass, unrolled once. -/
theorem firstPass_succ {σ : Type} (labeler : CCLabeler σ) (fuel : Nat) (s : σ) (st : HKState) :
    firstPass labeler (fuel + 1) s st =
      match labeler.Next s with
      | none => none
      | some (false, s1) => some (s1, st)
      | some (true, s1) =>
        match firstPassBody labeler s1 st with
        | none => none
        | some (s2, st2) => firstPass labeler fuel s2 st2 := by
  rw [firstPass]
  unfold firstPassBody
  repeat' split
  all_goals simp_all

/-- The run of the first pass goes through the state reached after `n` turns. -/
theorem firstPass_steps {σ : Type} (labeler : CCLabeler σ) : ∀ (n : Nat) (s s2 : σ)
    (st st2 : HKState), firstPassSteps labeler n s st = some (s2, st2) →
    ∀ fuel, firstPass labeler (n + fuel) s st = firstPass labeler fuel s2 st2 := by
  intro n
  induction n with
  | zero =>
    intro s s2 st st2 h fuel
    simp only [firstPassSteps, Option.some.injEq, Prod.mk.injEq] at h
    rw [h.1, h.2, Nat.zero_add]
  | succ n ih =>
    intro s s2 st st2 h fuel
    rw [show n + 1 + fuel = (n + fuel) + 1 by omega, firstPass_succ]
    unfold firstPassSteps at h
    cases hN : labeler.Next s with
    | none => simp [hN] at h
    | some p =>
      obtain ⟨b, s1⟩ := p
      cases b with
      | false => simp [hN] at h
      | true =>
        simp only [hN] at h ⊢
        cases hB : firstPassBody labeler s1 st with
        | none => simp [hB] at h
        | some q =>
          obtain ⟨s3, st3⟩ := q
          simp only [hB] at h ⊢
          exact ih s3 s2 st3 st2 h fuel

theorem firstPassSteps_snoc {σ : Type} (labeler : CCLabeler σ) : ∀ (n : Nat) (s s2 s3 s4 : σ)
    (st st2 st4 : HKState), firstPassSteps labeler n s st = some (s2, st2) →
    labeler.Next s2 = some (true, s3) → firstPassBody labeler s3 st2 = some (s4, st4) →
    firstPassSteps labeler (n + 1) s st = some (s4, st4) := by
  intro n
  induction n with
  | zero =>
    intro s s2 s3 s4 st st2 st4 h hN hB
    simp only [firstPassSteps, Option.some.injEq, Prod.mk.injEq] at h
    obtain ⟨rfl, rfl⟩ := h
    simp only [firstPassSteps, hN, hB]
  | succ n ih =>
    intro s s2 s3 s4 st st2 st4 h hN hB
    rw [firstPassSteps] at h
    rw [firstPassSteps]
    cases hN1 : labeler.Next s with
    | none => simp [hN1] at h
    | some p =>
      obtain ⟨b, s1⟩ := p
      cases b with
      | false => simp [hN1] at h
      | true =>
        simp only [hN1] at h ⊢
        cases hB1 : firstPassBody labeler s1 st with
        | none => simp [hB1] at h
        | some q =>
          obtain ⟨s5, st5⟩ := q
          simp only [hB1] at h ⊢
          exact ih s5 s2 s3 s4 st5 st2 st4 h hN hB

/-- A first pass that returns with some bound on the calls of `Next` returns the same with a
larger bound. -/
theorem firstPass_mono {σ : Type} (labeler : CCLabeler σ) : ∀ (f : Nat) (s : σ) (st : HKState)
    (r : σ × HKState), firstPass labeler f s st = some r →
    ∀ k, firstPass labeler (f + k) s st = some r := by
  intro f
  induction f with
  | zero => intro s st r h; simp [firstPass] at h
  | succ f ih =>
    intro s st r h k
    rw [show f + 1 + k = (f + k) + 1 by omega]
    unfold firstPass at h ⊢
    repeat' split at h
    all_goals first
      | (simp at h; done)
      | (simp only [*] at *; try first | exact h | exact ih _ _ _ h k)

/-- Whenever `HoshenKopelman` returns, the returned slice is an initial part of the sorted slice of
size records. -/
theorem HoshenKopelman_sizes_take {σ : Type} (labeler : CCLabeler σ)
    (sort : List Blob → List Blob) (fuel : Nat) (s s2 : σ) (sizes : List Int)
    (h : HoshenKopelman labeler sort fuel s = some (s2, sizes)) :
    ∃ (blobs1 : List Blob) (k : Nat), sizes = ((sort blobs1).take k).map (fun b => b.Size) := by
  unfold HoshenKopelman at h
  cases h1 : firstPass labeler fuel s { equivalence := [], largestLabel := 0, blobs := [] } with
  | none => simp [h1] at h
  | some p1 =>
    obtain ⟨s1, st⟩ := p1
    simp only [h1] at h
    cases h2 : aggregateWrap st.blobs.length 0 st.equivalence st.blobs with
    | none => simp [h2] at h
    | some p2 =>
      obtain ⟨eq1, blobs1⟩ := p2
      simp only [h2] at h
      cases h3 : fillMapping false (sort blobs1) 0
          { equivalence := eq1, mapping := List.replicate (sort blobs1).length 0
            numNotEmpty := 0, done := [] } with
      | none => simp [h3] at h
      | some ms =>
        simp only [h3] at h
        cases h4 : labeler.Reset s1 with
        | none => simp [h4] at h
        | some s4 =>
          simp only [h4] at h
          cases h5 : secondPass labeler ms.mapping fuel s4 with
          | none => simp [h5] at h
          | some s5 =>
            simp only [h5] at h
            obtain ⟨hdone, -⟩ := fillMapping_done false _ 0 _ ms h3
            simp only [List.nil_append, relabelFrom_false] at hdone
            refine ⟨blobs1, ms.numNotEmpty, ?_⟩
            have := (Prod.mk.inj (Option.some.inj h)).2
            rw [← this, hdone]

/-- The first `n` turns of the first pass: the run with wrapping sizes reaches the same
container as the run with exact sizes, in a state that differs only by multiples of `2^64`
in the sizes. -/
theorem firstPassSteps_agree {σ : Type} (labeler : CCLabeler σ) : ∀ (n : Nat) (s s2 : σ)
    (stw ste st2e : HKState), StateAgree stw ste →
    firstPassStepsExact labeler n s ste = some (s2, st2e) →
    ∃ st2w, firstPassSteps labeler n s stw = some (s2, st2w) ∧ StateAgree st2w st2e := by
  intro n
  induction n with
  | zero =>
    intro s s2 stw ste st2e ha h
    simp only [firstPassStepsExact, Option.some.injEq, Prod.mk.injEq] at h
    obtain ⟨rfl, rfl⟩ := h
    exact ⟨stw, rfl, ha⟩
  | succ n ih =>
    intro s s2 stw ste st2e ha h
    rw [firstPassStepsExact] at h
    rw [firstPassSteps]
    cases hN : labeler.Next s with
    | none => simp [hN] at h
    | some p =>
      obtain ⟨b, s1⟩ := p
      cases b with
      | false => simp [hN] at h
      | true =>
        simp only [hN] at h ⊢
        cases hB : firstPassBodyExact labeler s1 ste with
        | none => simp [hB] at h
        | some q =>
          obtain ⟨s3, st3⟩ := q
          simp only [hB] at h
          obtain ⟨st3w, hBw, ha3⟩ := firstPassBody_agree labeler ha hB
          simp only [hBw]
          exact ih s3 s2 st3w st3 st2e ha3 h

theorem firstPass_agree {σ : Type} (labeler : CCLabeler σ) : ∀ (fuel : Nat) (s s2 : σ)
    (stw ste st2e : HKState), StateAgree stw ste →
    firstPassExact labeler fuel s ste = some (s2, st2e) →
    ∃ st2w, firstPass labeler fuel s stw = some (s2, st2w) ∧ StateAgree st2w st2e := by
  intro fuel
  induction fuel with
  | zero => intro s s2 stw ste st2e _ h; simp [firstPassExact] at h
  | succ f ih =>
    intro s s2 stw ste st2e ha h
    rw [firstPassExact_succ] at h
    rw [firstPass_succ]
    cases hN : labeler.Next s with
    | none => simp [hN] at h
    | some p =>
      obtain ⟨b, s1⟩ := p
      cases b with
      | false =>
        simp only [hN, Option.some.injEq, Prod.mk.injEq] at h ⊢
        obtain ⟨rfl, rfl⟩ := h
        exact ⟨stw, ⟨rfl, rfl⟩, ha⟩
      | true =>
        simp only [hN] at h ⊢
        cases hB : firstPassBodyExact labeler s1 ste with
        | none => simp [hB] at h
        | some q =>
          obtain ⟨s3, st3⟩ := q
          simp only [hB] at h
          obtain ⟨st3w, hBw, ha3⟩ := firstPassBody_agree labeler ha hB
          simp only [hBw]
          exact ih s3 s2 st3w st3 st2e ha3 h

/-- The loop that moves the sizes to the roots: the run with wrapping sizes leaves the same
equivalence array, and records that differ only by multiples of `2^64` in the sizes. -/
theorem aggregate_agree : ∀ (k i : Nat) (eq eq2 : List Int) (bw be be2 : List Blob),
    SizesAgree bw be → aggregate k i eq be = some (eq2, be2) →
    ∃ bw2, aggregateWrap k i eq bw = some (eq2, bw2) ∧ SizesAgree bw2 be2 := by
  intro k
  induction k with
  | zero =>
    intro i eq eq2 bw be be2 ha h
    simp only [aggregate, Option.some.injEq, Prod.mk.injEq] at h
    obtain ⟨rfl, rfl⟩ := h
    exact ⟨bw, rfl, ha⟩
  | succ k ih =>
    intro i eq eq2 bw be be2 ha h
    rw [aggregate] at h
    rw [aggregateWrap]
    cases hc : be[i]? with
    | none => simp [hc] at h
    | some c =>
      simp only [hc] at h
      have hi : i < bw.length := by rw [ha.1]; exact (List.getElem?_eq_some.1 hc).1
      obtain ⟨hid, hsz⟩ := ha.2 i _ c (List.getElem?_eq_getElem hi) hc
      simp only [List.getElem?_eq_getElem hi, hid]
      cases hf : find eq c.ID with
      | none => simp [hf] at h
      | some p =>
        obtain ⟨eq1, root⟩ := p
        simp only [hf] at h ⊢
        by_cases hr : root = c.ID
        · rw [if_pos hr] at h ⊢
          exact ih (i + 1) eq1 eq2 bw be be2 ha h
        · rw [if_neg hr] at h ⊢
          cases hI : idx be root with
          | none => simp [hI] at h
          | some cr =>
            simp only [hI] at h
            cases hU : upd be root { cr with Size := cr.Size + c.Size } with
            | none => simp [hU] at h
            | some be1 =>
              simp only [hU] at h
              cases hI2 : idx be1 c.ID with
              | none => simp [hI2] at h
              | some cl =>
                simp only [hI2] at h
                cases hU2 : upd be1 c.ID { cl with Size := 0 } with
                | none => simp [hU2] at h
                | some be3 =>
                  simp only [hU2] at h
                  obtain ⟨br, hbI, hbid, hbsz⟩ := sizesAgree_idx ha hI
                  obtain ⟨bw1, hbU, ha1⟩ := sizesAgree_upd (b :=
                    { br with Size := wrapInt (br.Size + (bw[i]).Size) }) ha hU hbid (by
                      simp only
                      rw [wrapInt_mod]
                      omega)
                  obtain ⟨bl, hbI2, hlid, -⟩ := sizesAgree_idx ha1 hI2
                  obtain ⟨bw3, hbU2, ha3⟩ := sizesAgree_upd (b := { bl with Size := 0 })
                    ha1 hU2 hlid rfl
                  simp only [hbI, hbU, hbI2, hbU2]
                  exact ih (i + 1) eq1 eq2 bw3 be3 be2 ha3 h

/-- The loop that moves the sizes to the roots leaves sizes that fit an `int`. -/
theorem aggregateWrap_inInt : ∀ (k i : Nat) (eq eq2 : List Int) (bw bw2 : List Blob),
    (∀ b, b ∈ bw → InInt b.Size) → aggregateWrap k i eq bw = some (eq2, bw2) →
    ∀ b, b ∈ bw2 → InInt b.Size := by
  intro k
  induction k with
  | zero =>
    intro i eq eq2 bw bw2 hin h
    simp only [aggregateWrap, Option.some.injEq, Prod.mk.injEq] at h
    obtain ⟨rfl, rfl⟩ := h
    exact hin
  | succ k ih =>
    intro i eq eq2 bw bw2 hin h
    rw [aggregateWrap] at h
    cases hc : bw[i]? with
    | none => simp [hc] at h
    | some c =>
      simp only [hc] at h
      cases hf : find eq c.ID with
      | none => simp [hf] at h
      | some p =>
        obtain ⟨eq1, root⟩ := p
        simp only [hf] at h
        by_cases hr : root = c.ID
        · rw [if_pos hr] at h
          exact ih (i + 1) eq1 eq2 bw bw2 hin h
        · rw [if_neg hr] at h
          cases hI : idx bw root with
          | none => simp [hI] at h
          | some cr =>
            simp only [hI] at h
            cases hU : upd bw root { cr with Size := wrapInt (cr.Size + c.Size) } with
            | none => simp [hU] at h
            | some bw1 =>
              simp only [hU] at h
              cases hI2 : idx bw1 c.ID with
              | none => simp [hI2] at h
              | some cl =>
                simp only [hI2] at h
                cases hU2 : upd bw1 c.ID { cl with Size := 0 } with
                | none => simp [hU2] at h
                | some bw3 =>
                  simp only [hU2] at h
                  obtain ⟨-, rfl⟩ := upd_eq_some_iff.1 hU
                  obtain ⟨-, rfl⟩ := upd_eq_some_iff.1 hU2
                  refine ih (i + 1) eq1 eq2 _ bw2 (fun b hb => ?_) h
                  rcases List.mem_or_eq_of_mem_set hb with h1 | h1
                  · rcases List.mem_or_eq_of_mem_set h1 with h2 | h2
                    · exact hin b h2
                    · rw [h2]; exact wrapInt_inInt _
                  · rw [h1]
                    unfold InInt
                    simp

/-! ## Sizes that add up within the range of `int` -/

theorem sizeAt_nonneg {nodes : List GNode} (hw : ∀ nd, nd ∈ nodes → 0 ≤ nd.size) (j : Nat) :
    0 ≤ sizeAt nodes j := by
  unfold sizeAt
  cases h : nodes[j]? with
  | none => exact le_refl _
  | some nd => exact hw nd (List.mem_iff_getElem?.2 ⟨j, h⟩)

theorem wsum_le_total {w : Nat → Int} (hw : ∀ j, 0 ≤ w j) {m n : Nat} (hmn : m ≤ n)
    (P : Nat → Prop) [DecidablePred P] :
    0 ≤ wsum m w P ∧ wsum m w P ≤ ∑ j in Finset.range n, w j := by
  refine ⟨wsum_nonneg (fun j _ => hw j), ?_⟩
  unfold wsum
  calc (∑ j in Finset.range m, if P j then w j else 0)
      ≤ ∑ j in Finset.range m, w j := by
        apply Finset.sum_le_sum
        intro j _
        by_cases hp : P j
        · rw [if_pos hp]
        · rw [if_neg hp]; exact hw j
    _ ≤ ∑ j in Finset.range n, w j := by
        apply Finset.sum_le_sum_of_subset_of_nonneg
        · exact Finset.range_mono hmn
        · intro j _ _
          exact hw j

/-- When the sizes are not negative and add up to at most `math.MaxInt`, every size record of
the first pass with exact sizes fits an `int`. -/
theorem hkInv_inInt {nodes : List GNode} (hw : ∀ nd, nd ∈ nodes → 0 ≤ nd.size)
    (hsum : (nodes.map (fun nd => nd.size)).sum ≤ MaxInt) {m : Nat} {s : Source}
    {st : HKState} (h : HKInv nodes m s st) : ∀ b, b ∈ st.blobs → InInt b.Size := by
  intro b hb
  obtain ⟨i, hi, rfl⟩ := List.getElem_of_mem hb
  have hr : InRange st.equivalence.length (i : Int) := by
    rw [← h.lab.len]
    exact ⟨by omega, by exact_mod_cast hi⟩
  have hsz := h.lab.size _ hr
  rw [idx_natCast, List.getElem?_eq_getElem hi] at hsz
  rw [Option.some.inj hsz]
  obtain ⟨h1, h2⟩ := wsum_le_total (sizeAt_nonneg hw) h.le
    (fun j => labOf s.labels j = (i : Int))
  rw [← sum_sizes_eq] at h2
  unfold MaxInt at hsum
  unfold InInt
  simp only
  omega

/-- A turn that leaves sizes within the range of `int` is the same with wrapping sizes. -/
theorem firstPassBody_eq {σ : Type} (labeler : CCLabeler σ) {s1 s2 : σ} {st st2 : HKState}
    (h : firstPassBodyExact labeler s1 st = some (s2, st2))
    (hin : ∀ b, b ∈ st2.blobs → InInt b.Size) :
    firstPassBody labeler s1 st = some (s2, st2) := by
  unfold firstPassBodyExact at h
  unfold firstPassBody
  cases hN : labeler.Neighbors s1 with
  | none => simp [hN] at h
  | some nbrs =>
    simp only [hN] at h ⊢
    by_cases hz : nbrs.length = 0
    · rw [if_pos hz] at h ⊢
      exact h
    · rw [if_neg hz] at h ⊢
      cases hF : findRoots st.equivalence nbrs [] MaxInt with
      | none => simp [hF] at h
      | some p =>
        obtain ⟨eq1, roots, min⟩ := p
        simp only [hF] at h ⊢
        cases hL : linkRoots nbrs min eq1 0 roots with
        | none => simp [hL] at h
        | some eq2 =>
          simp only [hL] at h ⊢
          cases hS : labeler.SetLabel s1 min with
          | none => simp [hS] at h
          | some s3 =>
            simp only [hS] at h ⊢
            cases hZ : labeler.Size s3 with
            | none => simp [hZ] at h
            | some size =>
              simp only [hZ] at h ⊢
              cases hI : idx st.blobs min with
              | none => simp [hI] at h
              | some c =>
                simp only [hI] at h ⊢
                cases hU : upd st.blobs min { c with Size := c.Size + size } with
                | none => simp [hU] at h
                | some be2 =>
                  simp only [hU, Option.some.injEq, Prod.mk.injEq] at h
                  obtain ⟨rfl, rfl⟩ := h
                  obtain ⟨hr, rfl⟩ := upd_eq_some_iff.1 hU
                  have hmem : ({ c with Size := c.Size + size } : Blob) ∈
                      st.blobs.set min.toNat { c with Size := c.Size + size } := by
                    apply List.mem_iff_getElem?.2
                    refine ⟨min.toNat, ?_⟩
                    rw [List.getElem?_set_self]
                    have h0 := hr.1
                    have h1 := hr.2
                    omega
                  have := hin _ hmem
                  simp only at this
                  rw [wrapInt_of_inInt this, hU]

/-- When the sizes are not negative and add up to at most `math.MaxInt`, the first pass with
wrapping sizes goes through the same states as the first pass with exact sizes. -/
theorem firstPassSteps_eq {nodes : List GNode} (hc : Causal nodes)
    (hbig : (nodes.length : Int) ≤ MaxInt) (hw : ∀ nd, nd ∈ nodes → 0 ≤ nd.size)
    (hsum : (nodes.map (fun nd => nd.size)).sum ≤ MaxInt) : ∀ m, m ≤ nodes.length →
    ∃ s st, firstPassSteps Source.labeler m (Source.init nodes)
        { equivalence := [], largestLabel := 0, blobs := [] } = some (s, st) ∧
      firstPassStepsExact Source.labeler m (Source.init nodes)
        { equivalence := [], largestLabel := 0, blobs := [] } = some (s, st) ∧
      HKInv nodes m s st := by
  intro m
  induction m with
  | zero =>
    intro _
    exact ⟨_, _, rfl, rfl, HKInv.init nodes⟩
  | succ m ih =>
    intro hm
    obtain ⟨s, st, hrun, hrune, hinv⟩ := ih (by omega)
    obtain ⟨nd, s1, s2, st2, -, hnext, -, hbody, hinv2, -⟩ := hinv.turn hc hbig (by omega)
    have hbodyw := firstPassBody_eq Source.labeler hbody (hkInv_inInt hw hsum hinv2)
    exact ⟨s2, st2, firstPassSteps_snoc _ _ _ _ _ _ _ _ _ hrun hnext hbodyw,
      firstPassStepsExact_snoc _ _ _ _ _ _ _ _ _ hrune hnext hbody, hinv2⟩

theorem classSize_inInt {nodes : List GNode} (hw : ∀ nd, nd ∈ nodes → 0 ≤ nd.size)
    (hsum : (nodes.map (fun nd => nd.size)).sum ≤ MaxInt) (lab : Nat → Int) (eq0 : List Int)
    (l : Int) : InInt (classSize nodes.length (sizeAt nodes) lab eq0 l) := by
  unfold classSize
  unfold MaxInt at hsum
  by_cases h : rootIs eq0 l l
  · rw [if_pos h]
    obtain ⟨h1, h2⟩ := wsum_le_total (sizeAt_nonneg hw) (le_refl nodes.length)
      (fun j => rootIs eq0 (lab j) l)
    rw [← sum_sizes_eq] at h2
    unfold InInt
    omega
  · rw [if_neg h]
    unfold InInt
    omega

/-- When the sizes are not negative and add up to at most `math.MaxInt`, no sum of sizes
wraps around: `HoshenKopelman` is `HoshenKopelmanExact`. -/
theorem HoshenKopelman_eq_exact {nodes : List GNode} (hc : Causal nodes)
    (hbig : (nodes.length : Int) ≤ MaxInt) (hw : ∀ nd, nd ∈ nodes → 0 ≤ nd.size)
    (hsum : (nodes.map (fun nd => nd.size)).sum ≤ MaxInt) (sort : List Blob → List Blob)
    {fuel : Nat} (hf : nodes.length < fuel) :
    HoshenKopelman Source.labeler sort fuel (Source.init nodes)
      = HoshenKopelmanExact Source.labeler sort fuel (Source.init nodes) := by
  obtain ⟨s1, st1, hrun, hrune, hinv⟩ := firstPassSteps_eq hc hbig hw hsum nodes.length
    (le_refl _)
  obtain ⟨k, rfl⟩ : ∃ k, fuel = nodes.length + (k + 1) := ⟨fuel - nodes.length - 1, by omega⟩
  have hnext : Source.labeler.Next s1 = some (false, s1) := by
    simp only [Source.labeler]
    rw [if_neg (by rw [hinv.pos_eq, hinv.nodes_eq]; omega)]
  have hfp : firstPass Source.labeler (nodes.length + (k + 1)) (Source.init nodes)
      { equivalence := [], largestLabel := 0, blobs := [] } = some (s1, st1) := by
    rw [firstPass_steps _ _ _ _ _ _ hrun]
    exact firstPass_done _ _ _ _ _ hnext
  have hfpe : firstPassExact Source.labeler (nodes.length + (k + 1)) (Source.init nodes)
      { equivalence := [], largestLabel := 0, blobs := [] } = some (s1, st1) := by
    rw [firstPassExact_steps _ _ _ _ _ _ hrune]
    exact firstPassExact_done _ _ _ _ _ hnext
  obtain ⟨eq2, hagg, -, -⟩ := aggregate_list hinv.lab
  obtain ⟨bw2, haggw, hagree⟩ := aggregate_agree _ _ _ _ _ _ _ (sizesAgree_refl st1.blobs) hagg
  have hbw : bw2 = (List.range st1.equivalence.length).map (fun (i : Nat) =>
      (⟨(i : Int), classSize nodes.length (sizeAt nodes) (labOf s1.labels)
        st1.equivalence (i : Int)⟩ : Blob)) := by
    apply sizesAgree_eq hagree
    · exact aggregateWrap_inInt _ _ _ _ _ _ (hkInv_inInt hw hsum hinv) haggw
    · intro b hb
      obtain ⟨i, -, rfl⟩ := List.mem_map.1 hb
      exact classSize_inInt hw hsum _ _ _
  subst hbw
  unfold HoshenKopelman HoshenKopelmanExact
  rw [hfp, hfpe]
  simp only [haggw, hagg]

/-! ## `HoshenKopelman` over a causal node source -/

theorem stateAgree_refl (st : HKState) : StateAgree st st :=
  ⟨rfl, rfl, sizesAgree_refl _⟩

/-- Whatever sizes the nodes report, `HoshenKopelman` over a causal node source returns; its
first pass ends in the state of `firstPassExact`, up to multiples of `2^64` in the sizes, and
the loops of the finalization change no root. -/
theorem HoshenKopelman_total {nodes : List GNode} (hc : Causal nodes)
    (hbig : (nodes.length : Int) ≤ MaxInt) {sort : List Blob → List Blob} (hs : SortSpec sort)
    {fuel : Nat} (hf : nodes.length < fuel) :
    ∃ (s1 : Source) (st1 stw : HKState) (eq2 : List Int) (bw2 : List Blob) (ms : MapState)
      (s3 : Source),
      HKInv nodes nodes.length s1 st1 ∧
      firstPass Source.labeler fuel (Source.init nodes)
        { equivalence := [], largestLabel := 0, blobs := [] } = some (s1, stw) ∧
      StateAgree stw st1 ∧
      aggregateWrap stw.blobs.length 0 stw.equivalence stw.blobs = some (eq2, bw2) ∧
      eq2.length = st1.equivalence.length ∧
      (∀ x q, RootOf eq2 x q ↔ RootOf st1.equivalence x q) ∧
      fillMapping false (sort bw2) 0
        { equivalence := eq2, mapping := List.replicate (sort bw2).length 0
          numNotEmpty := 0, done := [] } = some ms ∧
      s3.labels.length = nodes.length ∧
      HoshenKopelman Source.labeler sort fuel (Source.init nodes)
        = some (s3, (ms.done.take ms.numNotEmpty).map (fun b => b.Size)) := by
  obtain ⟨s1, st1, hfpe, hinv⟩ := firstPassExact_spec hc hbig fuel 0 (Source.init nodes) _
    (HKInv.init nodes) (by omega)
  obtain ⟨stw, hfp, ha⟩ := firstPass_agree Source.labeler fuel _ _ _ _ _
    (stateAgree_refl _) hfpe
  obtain ⟨eq2, hagg, hlen2, hroots2⟩ := aggregate_list hinv.lab
  obtain ⟨bw2, haggw, hagree⟩ := aggregate_agree _ _ _ _ _ _ _ ha.2.2 hagg
  rw [← ha.2.2.1, ← ha.1] at haggw
  obtain ⟨hperm, -⟩ := hs bw2
  have hbwlen : bw2.length = st1.equivalence.length := by
    rw [hagree.1]; simp
  have hslen : (sort bw2).length = st1.equivalence.length := by
    rw [hperm.length_eq, hbwlen]
  have hmem : ∀ b, b ∈ sort bw2 → InRange st1.equivalence.length b.ID := by
    intro b hb
    rw [hperm.mem_iff] at hb
    obtain ⟨i, hi, rfl⟩ := List.getElem_of_mem hb
    have hi2 : i < st1.equivalence.length := by rw [← hbwlen]; exact hi
    obtain ⟨hid, -⟩ := hagree.2 i _ ⟨(i : Int), classSize nodes.length (sizeAt nodes)
      (labOf s1.labels) st1.equivalence (i : Int)⟩ (List.getElem?_eq_getElem hi) (by
        rw [List.getElem?_map, List.getElem?_range hi2]
        rfl)
    rw [hid]
    exact ⟨by simp, by simp; omega⟩
  obtain ⟨ms, hfill, hmlen⟩ := fillMapping_total false st1.equivalence.length (sort bw2) 0
    { equivalence := eq2, mapping := List.replicate (sort bw2).length 0
      numNotEmpty := 0, done := [] } hmem (by simp [hslen]) hlen2
    (hinv.lab.forest.of_iff hlen2 hroots2)
  have hreset : Source.labeler.Reset s1 = some { s1 with pos := 0 } := rfl
  obtain ⟨s3, hsp, hn3, hl3, -⟩ := secondPass_spec nodes ms.mapping fuel 0 { s1 with pos := 0 }
    hinv.nodes_eq rfl (Nat.zero_le _) hinv.labels_len
    (fun j _ hj => idx_isSome_of_inRange (by rw [hmlen]; exact hinv.labelled j hj)) (by omega)
  refine ⟨s1, st1, stw, eq2, bw2, ms, s3, hinv, hfp, ha, haggw, hlen2, hroots2, hfill, hl3, ?_⟩
  simp only [HoshenKopelman, hfp, haggw, hfill, hreset, hsp]

/-! ## Claims on `HoshenKopelman`, whatever the sizes -/

/-- C8: for every node source, whatever sizes its nodes report, the list returned by
`HoshenKopelman` is in descending order: `sizes[i] ≥ sizes[i+1]` for every valid `i`.
(For a causal node source the call does return, whatever the sizes.) -/
theorem hk_sizes_descending (sort : List Blob → List Blob) (hs : SortSpec sort) :
    (∀ (σ : Type) (labeler : CCLabeler σ) (fuel : Nat) (s s2 : σ) (sizes : List Int),
      HoshenKopelman labeler sort fuel s = some (s2, sizes) →
      ∀ (i : Nat) (a b : Int), sizes[i]? = some a → sizes[i + 1]? = some b → b ≤ a) ∧
    (∀ (nodes : List GNode) (fuel : Nat), Causal nodes → (nodes.length : Int) ≤ MaxInt →
      nodes.length < fuel →
      ∃ s2 sizes, HoshenKopelman Source.labeler sort fuel (Source.init nodes)
        = some (s2, sizes)) := by
  constructor
  · intro σ labeler fuel s s2 sizes h i a b ha hb
    obtain ⟨blobs1, k, rfl⟩ := HoshenKopelman_sizes_take labeler sort fuel s s2 sizes h
    have hp : (((sort blobs1).take k).map (fun b => b.Size)).Pairwise (fun x y => y ≤ x) := by
      rw [List.pairwise_map]
      exact List.Pairwise.sublist (List.take_sublist _ _) (hs blobs1).2
    obtain ⟨hi, hia⟩ := List.getElem?_eq_some.1 ha
    obtain ⟨hj, hjb⟩ := List.getElem?_eq_some.1 hb
    have := List.pairwise_iff_getElem.1 hp i (i + 1) hi hj (by omega)
    rw [hia, hjb] at this
    exact this
  · intro nodes fuel hc hbig hf
    obtain ⟨s1, st1, stw, eq2, bw2, ms, s3, -, -, -, -, -, -, -, -, hrun⟩ :=
      HoshenKopelman_total hc hbig hs hf
    exact ⟨s3, _, hrun⟩

theorem hk_sizes_descending_witness :
    SortSpec insertionSortBlobs ∧
    (∀ (i : Nat) (a b : Int), ([4, 2, 1] : List Int)[i]? = some a →
      ([4, 2, 1] : List Int)[i + 1]? = some b → b ≤ a) :=
  ⟨insertionSortBlobs_spec,
    (hk_sizes_descending insertionSortBlobs insertionSortBlobs_spec).1 Source
      Source.labeler 8 (Source.init exampleNodes)
      ⟨exampleNodes, [1, 0, 1, 0, 0, 0, 2], 7⟩ [4, 2, 1] (by decide)⟩

/-- C16: for every node source obeying the causal contract, `HoshenKopelman` returns, that
is, no access to `equivalence`, `blobs` or `mapping` is out of range; and in every turn of
the first pass in which the node has neighbours, the label `min` computed by the loop over
the neighbours is an index below the number of labels created so far, which is the length of
`blobs`. -/
theorem hk_no_out_of_range (nodes : List GNode) (sort : List Blob → List Blob) (fuel : Nat)
    (hc : Causal nodes) (hs : SortSpec sort) (hbig : (nodes.length : Int) ≤ MaxInt)
    (hf : nodes.length < fuel) :
    (∃ s sizes, HoshenKopelman Source.labeler sort fuel (Source.init nodes)
      = some (s, sizes)) ∧
    ∀ m, m < nodes.length →
      ∃ s st s1 neighbors,
        firstPassSteps Source.labeler m (Source.init nodes)
          { equivalence := [], largestLabel := 0, blobs := [] } = some (s, st) ∧
        Source.labeler.Next s = some (true, s1) ∧
        Source.labeler.Neighbors s1 = some neighbors ∧
        (neighbors ≠ [] → ∃ eq1 roots min,
          findRoots st.equivalence neighbors [] MaxInt = some (eq1, roots, min) ∧
          0 ≤ min ∧ min < st.largestLabel ∧ min < (st.blobs.length : Int)) := by
  constructor
  · obtain ⟨s1, st1, stw, eq2, bw2, ms, s3, -, -, -, -, -, -, -, -, hrun⟩ :=
      HoshenKopelman_total hc hbig hs hf
    exact ⟨_, _, hrun⟩
  · intro m hm
    obtain ⟨s, st, s1, neighbors, hrune, hnext, hneigh, hmin⟩ :=
      (no_out_of_range_exact nodes sort fuel hc hs hbig hf).2 m hm
    obtain ⟨stw, hrunw, ha⟩ := firstPassSteps_agree Source.labeler m _ _ _ _ _
      (stateAgree_refl _) hrune
    refine ⟨s, stw, s1, neighbors, hrunw, hnext, hneigh, fun hne => ?_⟩
    obtain ⟨eq1, roots, min, hfr, h0, h1, h2⟩ := hmin hne
    exact ⟨eq1, roots, min, by rw [ha.1]; exact hfr, h0, by rw [ha.2.1]; exact h1,
      by rw [ha.2.2.1]; exact h2⟩

theorem hk_no_out_of_range_witness :
    Causal exampleNodes ∧ SortSpec insertionSortBlobs ∧
    (exampleNodes.length : Int) ≤ MaxInt ∧ exampleNodes.length < 8 ∧
    (∃ s sizes, HoshenKopelman Source.labeler insertionSortBlobs 8 (Source.init exampleNodes)
      = some (s, sizes)) ∧
    ∀ m, m < exampleNodes.length →
      ∃ s st s1 neighbors,
        firstPassSteps Source.labeler m (Source.init exampleNodes)
          { equivalence := [], largestLabel := 0, blobs := [] } = some (s, st) ∧
        Source.labeler.Next s = some (true, s1) ∧
        Source.labeler.Neighbors s1 = some neighbors ∧
        (neighbors ≠ [] → ∃ eq1 roots min,
          findRoots st.equivalence neighbors [] MaxInt = some (eq1, roots, min) ∧
          0 ≤ min ∧ min < st.largestLabel ∧ min < (st.blobs.length : Int)) :=
  ⟨causal_exampleNodes, insertionSortBlobs_spec, big_exampleNodes, by decide,
    hk_no_out_of_range exampleNodes insertionSortBlobs 8 causal_exampleNodes
      insertionSortBlobs_spec big_exampleNodes (by decide)⟩

/-- C20: throughout the first pass of `HoshenKopelman` over a causal node source, after any
number of turns, `equivalence[i] <= i` for every raw label `i`, so that the root of a label
is the smallest raw label of its class; and in a turn whose node has neighbours, the label
`c` given to the node is a root whose class is the union of the classes that the neighbours
had before the turn, `c` is the smallest raw label of this class, and every neighbour label
resolves (`find`) to `c` after the turn. -/
theorem hk_min_root (nodes : List GNode) (hc : Causal nodes)
    (hbig : (nodes.length : Int) ≤ MaxInt) :
    (∀ m, m ≤ nodes.length →
      ∃ s st, firstPassSteps Source.labeler m (Source.init nodes)
          { equivalence := [], largestLabel := 0, blobs := [] } = some (s, st) ∧
        (∀ i p, idx st.equivalence i = some p → p ≤ i) ∧
        (∀ l r, RootOf st.equivalence l r → r ≤ l)) ∧
    (∀ m nd, nodes[m]? = some nd → nd.nbrs ≠ [] →
      ∃ s st s2 st2 c,
        firstPassSteps Source.labeler m (Source.init nodes)
          { equivalence := [], largestLabel := 0, blobs := [] } = some (s, st) ∧
        firstPassSteps Source.labeler (m + 1) (Source.init nodes)
          { equivalence := [], largestLabel := 0, blobs := [] } = some (s2, st2) ∧
        s2.labels[m]? = some c ∧
        idx st2.equivalence c = some c ∧
        (∀ l, RootOf st2.equivalence l c ↔
          ∃ j, j ∈ nd.nbrs ∧ ∃ r, RootOf st.equivalence (labOf s.labels j) r ∧
            RootOf st.equivalence l r) ∧
        (∀ l, RootOf st2.equivalence l c → c ≤ l) ∧
        (∀ j, j ∈ nd.nbrs →
          ∃ eq3, find st2.equivalence (labOf s.labels j) = some (eq3, c))) := by
  obtain ⟨hall, hturn⟩ := min_root_exact nodes hc hbig
  constructor
  · intro m hm
    obtain ⟨s, st, hrune, hd, hr⟩ := hall m hm
    obtain ⟨stw, hrunw, ha⟩ := firstPassSteps_agree Source.labeler m _ _ _ _ _
      (stateAgree_refl _) hrune
    refine ⟨s, stw, hrunw, ?_, ?_⟩
    · rw [ha.1]; exact hd
    · rw [ha.1]; exact hr
  · intro m nd hnd hne
    obtain ⟨s, st, s2, st2, c, hrune, hrune2, hlab, hroot, hclass, hleast, hfind⟩ :=
      hturn m nd hnd hne
    obtain ⟨stw, hrunw, ha⟩ := firstPassSteps_agree Source.labeler m _ _ _ _ _
      (stateAgree_refl _) hrune
    obtain ⟨st2w, hrunw2, ha2⟩ := firstPassSteps_agree Source.labeler (m + 1) _ _ _ _ _
      (stateAgree_refl _) hrune2
    refine ⟨s, stw, s2, st2w, c, hrunw, hrunw2, hlab, ?_, ?_, ?_, ?_⟩
    · rw [ha2.1]; exact hroot
    · rw [ha2.1, ha.1]; exact hclass
    · rw [ha2.1]; exact hleast
    · rw [ha2.1]; exact hfind

theorem hk_min_root_witness :
    Causal exampleNodes ∧ (exampleNodes.length : Int) ≤ MaxInt ∧
    exampleNodes[4]? = some ⟨[3, 1], 1⟩ ∧ ([3, 1] : List Nat) ≠ [] ∧
    ∃ s st s2 st2 c,
      firstPassSteps Source.labeler 4 (Source.init exampleNodes)
        { equivalence := [], largestLabel := 0, blobs := [] } = some (s, st) ∧
      firstPassSteps Source.labeler (4 + 1) (Source.init exampleNodes)
        { equivalence := [], largestLabel := 0, blobs := [] } = some (s2, st2) ∧
      s2.labels[4]? = some c ∧
      idx st2.equivalence c = some c ∧
      (∀ l, RootOf st2.equivalence l c ↔
        ∃ j, j ∈ ([3, 1] : List Nat) ∧ ∃ r, RootOf st.equivalence (labOf s.labels j) r ∧
          RootOf st.equivalence l r) ∧
      (∀ l, RootOf st2.equivalence l c → c ≤ l) ∧
      (∀ j, j ∈ ([3, 1] : List Nat) →
        ∃ eq3, find st2.equivalence (labOf s.labels j) = some (eq3, c)) :=
  ⟨causal_exampleNodes, big_exampleNodes, by decide, by decide,
    (hk_min_root exampleNodes causal_exampleNodes big_exampleNodes).2 4 ⟨[3, 1], 1⟩
      (by decide) (by decide)⟩

/-- C15: in `HoshenKopelman` over a causal node source and in `CCLImage`, the equivalence
array is a forest in every state that the first pass reaches at the head of its loop and in
the states that the finalization leaves: every entry is a valid index and following entries
from any label reaches a fixed point without visiting a label twice.  A new label is
appended pointing at itself, `find` on a forest returns and leaves a forest, linking a root
to a root leaves a forest, and the labels that the loop of `HoshenKopelman` links are roots;
so every call of `find` returns, and both runs return. -/
theorem equivalence_forest_throughout (nodes : List GNode) (img : Image) (w h : Nat)
    (sort : List Blob → List Blob) (fuel : Nat) (hc : Causal nodes)
    (hbig : (nodes.length : Int) ≤ MaxInt) (hf : nodes.length < fuel)
    (hwf : img.WellFormed w h) (hs : SortSpec sort) :
    -- the three ways in which the array changes
    (∀ eq, IsForest eq → IsForest (eq ++ [(eq.length : Int)]) ∧
      idx (eq ++ [(eq.length : Int)]) (eq.length : Int) = some (eq.length : Int)) ∧
    (∀ eq l, IsForest eq → InRange eq.length l →
      ∃ eq2 r, find eq l = some (eq2, r) ∧ IsForest eq2) ∧
    (∀ eq a b, IsForest eq → idx eq a = some a → idx eq b = some b →
      IsForest (eq.set a.toNat b)) ∧
    -- the first pass of HoshenKopelman
    (∀ m, m ≤ nodes.length →
      ∃ s st, firstPassSteps Source.labeler m (Source.init nodes)
          { equivalence := [], largestLabel := 0, blobs := [] } = some (s, st) ∧
        IsForest st.equivalence ∧ st.largestLabel = (st.equivalence.length : Int)) ∧
    (∀ m nd, nodes[m]? = some nd → nd.nbrs ≠ [] →
      ∃ s st eq1 roots min,
        firstPassSteps Source.labeler m (Source.init nodes)
          { equivalence := [], largestLabel := 0, blobs := [] } = some (s, st) ∧
        findRoots st.equivalence (nd.nbrs.map (labOf s.labels)) [] MaxInt
          = some (eq1, roots, min) ∧
        IsForest eq1 ∧ idx eq1 min = some min ∧ ∀ ρ, ρ ∈ roots → idx eq1 ρ = some ρ) ∧
    -- the finalization of HoshenKopelman
    (∃ s1 st1 eq1 blobs1 ms r,
      firstPass Source.labeler fuel (Source.init nodes)
        { equivalence := [], largestLabel := 0, blobs := [] } = some (s1, st1) ∧
      IsForest st1.equivalence ∧
      aggregateWrap st1.blobs.length 0 st1.equivalence st1.blobs = some (eq1, blobs1) ∧
      IsForest eq1 ∧
      fillMapping false (sort blobs1) 0
        { equivalence := eq1, mapping := List.replicate (sort blobs1).length 0
          numNotEmpty := 0, done := [] } = some ms ∧
      IsForest ms.equivalence ∧
      HoshenKopelman Source.labeler sort fuel (Source.init nodes) = some r) ∧
    -- the first pass of CCLImage
    (∀ k, k ≤ h * w →
      ∃ st, firstPassImage img k = some st ∧ IsForest st.equivalence ∧
        st.largestLabel = (st.equivalence.length : Int)) ∧
    -- the finalization of CCLImage
    (∃ st1 eq1 counts1 ms r,
      firstPassImage img (h * w) = some st1 ∧
      aggregate st1.counts.length 0 st1.equivalence st1.counts = some (eq1, counts1) ∧
      IsForest eq1 ∧
      fillMapping true (sort counts1) 0
        { equivalence := eq1, mapping := List.replicate (sort counts1).length 0
          numNotEmpty := 0, done := [] } = some ms ∧
      IsForest ms.equivalence ∧
      CCLImage sort img = Except.ok r) := by
  obtain ⟨h1, h2, h3, h4, h5, -, h7, h8⟩ :=
    forest_throughout_exact nodes img w h sort fuel hc hbig hf hwf hs
  refine ⟨h1, h2, h3, ?_, ?_, ?_, h7, h8⟩
  · intro m hm
    obtain ⟨s, st, hrune, hfo, hl⟩ := h4 m hm
    obtain ⟨stw, hrunw, ha⟩ := firstPassSteps_agree Source.labeler m _ _ _ _ _
      (stateAgree_refl _) hrune
    exact ⟨s, stw, hrunw, by rw [ha.1]; exact hfo, by rw [ha.2.1, ha.1]; exact hl⟩
  · intro m nd hnd hne
    obtain ⟨s, st, eq1, roots, min, hrune, hfr, hrest⟩ := h5 m nd hnd hne
    obtain ⟨stw, hrunw, ha⟩ := firstPassSteps_agree Source.labeler m _ _ _ _ _
      (stateAgree_refl _) hrune
    exact ⟨s, stw, eq1, roots, min, hrunw, by rw [ha.1]; exact hfr, hrest⟩
  · obtain ⟨s1, st1, stw, eq2, bw2, ms, s3, hinv, hfp, ha, haggw, hlen2, hroots2, hfill, -,
      hrun⟩ := HoshenKopelman_total hc hbig hs hf
    have hfo2 : Forest eq2 := hinv.lab.forest.of_iff hlen2 hroots2
    obtain ⟨hl3, hr3⟩ := fillMapping_roots false _ _ _ _ hfill
    exact ⟨s1, stw, eq2, bw2, ms, _, hfp, by rw [ha.1]; exact isForest_iff.2 hinv.lab.forest,
      haggw, isForest_iff.2 hfo2, hfill, isForest_iff.2 (hfo2.of_iff hl3 hr3), hrun⟩

theorem equivalence_forest_throughout_witness :
    Causal exampleNodes ∧ (exampleNodes.length : Int) ≤ MaxInt ∧ exampleNodes.length < 8 ∧
    exampleImage.WellFormed 3 2 ∧ SortSpec insertionSortBlobs ∧
    (∀ m, m ≤ exampleNodes.length →
      ∃ s st, firstPassSteps Source.labeler m (Source.init exampleNodes)
          { equivalence := [], largestLabel := 0, blobs := [] } = some (s, st) ∧
        IsForest st.equivalence ∧ st.largestLabel = (st.equivalence.length : Int)) ∧
    (∀ k, k ≤ 2 * 3 →
      ∃ st, firstPassImage exampleImage k = some st ∧ IsForest st.equivalence ∧
        st.largestLabel = (st.equivalence.length : Int)) :=
  ⟨causal_exampleNodes, big_exampleNodes, by decide, wellFormed_exampleImage,
    insertionSortBlobs_spec,
    (equivalence_forest_throughout exampleNodes exampleImage 3 2 insertionSortBlobs 8
      causal_exampleNodes big_exampleNodes (by decide) wellFormed_exampleImage
      insertionSortBlobs_spec).2.2.2.1,
    (equivalence_forest_throughout exampleNodes exampleImage 3 2 insertionSortBlobs 8
      causal_exampleNodes big_exampleNodes (by decide) wellFormed_exampleImage
      insertionSortBlobs_spec).2.2.2.2.2.2.1⟩

/-! ## Sizes that add up beyond the largest `int` -/

theorem causal_overflowNodes : Causal overflowNodes := by
  unfold Causal overflowNodes
  decide

theorem sizes_overflowNodes : ∀ nd, nd ∈ overflowNodes → 1 ≤ nd.size := by
  unfold overflowNodes
  decide

theorem sum_exampleNodes : (exampleNodes.map (fun nd => nd.size)).sum ≤ MaxInt := by
  decide

/-- The run of `HoshenKopelman` over `overflowNodes`: the sum `(2^63 - 1) + 1` of the third turn
wraps to `-2^63`, the record of the only class ends with the size `-2^63 + 1` and is sorted
behind the emptied record of label 1, which therefore reads `mapping[0]` before it is set. -/
theorem overflow_run :
    HoshenKopelman Source.labeler insertionSortBlobs 4 (Source.init overflowNodes)
      = some (⟨overflowNodes, [1, 0, 1], 3⟩, [0]) := by
  decide

/-- Node 0 and node 1 of `overflowNodes` are linked by a chain through node 2. -/
theorem overflow_chain : Relation.EqvGen (Nbr overflowNodes) 0 1 :=
  Relation.EqvGen.trans 0 2 1
    (Relation.EqvGen.symm 2 0 (Relation.EqvGen.rel 2 0 ⟨⟨[0, 1], 1⟩, rfl, by decide⟩))
    (Relation.EqvGen.rel 2 1 ⟨⟨[0, 1], 1⟩, rfl, by decide⟩)

/-! ## Claims on `HoshenKopelman` that need the sizes to fit an `int` -/

/-- C2, as stated, fails: the three nodes of `overflowNodes` report sizes of at least 1 and are
linked by a chain, but their sizes add up to `2^63 + 1`, the sum wraps, and the run ends with
node 0 labelled 1 and node 1 labelled 0. -/
theorem hk_same_label_counterexample :
    Causal overflowNodes ∧ (∀ nd, nd ∈ overflowNodes → 1 ≤ nd.size) ∧
    SortSpec insertionSortBlobs ∧ (overflowNodes.length : Int) ≤ MaxInt ∧
    HoshenKopelman Source.labeler insertionSortBlobs 4 (Source.init overflowNodes)
      = some (⟨overflowNodes, [1, 0, 1], 3⟩, [0]) ∧
    Relation.EqvGen (Nbr overflowNodes) 0 1 ∧
    ([1, 0, 1] : List Int)[0]? ≠ ([1, 0, 1] : List Int)[1]? :=
  ⟨causal_overflowNodes, sizes_overflowNodes, insertionSortBlobs_spec, by decide, overflow_run,
    overflow_chain, by decide⟩

/-- C2, amended: for every causal node source whose nodes all report a size of at least 1 and
whose sizes add up to at most `2^63 - 1`, after `HoshenKopelman` two visited nodes hold the
same label if and only if they are linked by a chain of the neighbour relation. -/
theorem hk_same_label_iff_chain (nodes : List GNode) (sort : List Blob → List Blob)
    (fuel : Nat) (hc : Causal nodes) (hw : ∀ nd, nd ∈ nodes → 1 ≤ nd.size)
    (hs : SortSpec sort) (hbig : (nodes.length : Int) ≤ MaxInt)
    (hsum : (nodes.map (fun nd => nd.size)).sum ≤ MaxInt) (hf : nodes.length < fuel) :
    ∃ s sizes, HoshenKopelman Source.labeler sort fuel (Source.init nodes) = some (s, sizes) ∧
      s.labels.length = nodes.length ∧
      ∀ i j, i < nodes.length → j < nodes.length →
        (s.labels[i]? = s.labels[j]? ↔ Relation.EqvGen (Nbr nodes) i j) := by
  rw [HoshenKopelman_eq_exact hc hbig (fun nd h => by have := hw nd h; omega) hsum sort hf]
  exact same_label_iff_chain_exact nodes sort fuel hc hw hs hbig hf

theorem hk_same_label_iff_chain_witness :
    Causal exampleNodes ∧ (∀ nd, nd ∈ exampleNodes → 1 ≤ nd.size) ∧
    SortSpec insertionSortBlobs ∧ (exampleNodes.length : Int) ≤ MaxInt ∧
    (exampleNodes.map (fun nd => nd.size)).sum ≤ MaxInt ∧
    exampleNodes.length < 8 ∧
    ∃ s sizes, HoshenKopelman Source.labeler insertionSortBlobs 8 (Source.init exampleNodes)
        = some (s, sizes) ∧
      s.labels.length = exampleNodes.length ∧
      ∀ i j, i < exampleNodes.length → j < exampleNodes.length →
        (s.labels[i]? = s.labels[j]? ↔ Relation.EqvGen (Nbr exampleNodes) i j) :=
  ⟨causal_exampleNodes, sizes_exampleNodes, insertionSortBlobs_spec, big_exampleNodes,
    sum_exampleNodes, by decide,
    hk_same_label_iff_chain exampleNodes insertionSortBlobs 8 causal_exampleNodes
      sizes_exampleNodes insertionSortBlobs_spec big_exampleNodes
      sum_exampleNodes (by decide)⟩

/-- C3, as stated, fails: on `overflowNodes` (sizes of at least 1 that add up to `2^63 + 1`)
one size is returned, nodes 0 and 2 end with label 1, which is not below the number of
returned sizes, and the size returned for label 0 is 0 while node 1, the only node labelled
0, reports size 1. -/
theorem hk_sizes_indexed_counterexample :
    Causal overflowNodes ∧ (∀ nd, nd ∈ overflowNodes → 1 ≤ nd.size) ∧
    SortSpec insertionSortBlobs ∧ (overflowNodes.length : Int) ≤ MaxInt ∧
    HoshenKopelman Source.labeler insertionSortBlobs 4 (Source.init overflowNodes)
      = some (⟨overflowNodes, [1, 0, 1], 3⟩, [0]) ∧
    ([1, 0, 1] : List Int)[0]? = some 1 ∧ ¬ (1 < ([0] : List Int).length) ∧
    ([0] : List Int)[0]? = some 0 ∧
    wsum overflowNodes.length (sizeAt overflowNodes)
      (fun j => ([1, 0, 1] : List Int)[j]? = some ((0 : Nat) : Int)) = 1 :=
  ⟨causal_overflowNodes, sizes_overflowNodes, insertionSortBlobs_spec, by decide, overflow_run,
    by decide, by decide, by decide, by decide⟩

/-- C3, amended: for every causal node source whose nodes all report a size of at least 1 and
whose sizes add up to at most `2^63 - 1`, the list `sizes` returned by `HoshenKopelman` is
indexable by final label: every visited node ends with a label in `[0, len(sizes))`, and
`sizes[p]` is the sum of the sizes of the visited nodes whose final label is `p`. -/
theorem hk_sizes_indexed_by_label (nodes : List GNode) (sort : List Blob → List Blob)
    (fuel : Nat) (hc : Causal nodes) (hw : ∀ nd, nd ∈ nodes → 1 ≤ nd.size)
    (hs : SortSpec sort) (hbig : (nodes.length : Int) ≤ MaxInt)
    (hsum : (nodes.map (fun nd => nd.size)).sum ≤ MaxInt) (hf : nodes.length < fuel) :
    ∃ s sizes, HoshenKopelman Source.labeler sort fuel (Source.init nodes) = some (s, sizes) ∧
      s.labels.length = nodes.length ∧
      (∀ j, j < nodes.length → ∃ p : Nat, p < sizes.length ∧ s.labels[j]? = some (p : Int)) ∧
      ∀ p : Nat, p < sizes.length →
        sizes[p]? = some (wsum nodes.length (sizeAt nodes)
          (fun j => s.labels[j]? = some (p : Int))) := by
  rw [HoshenKopelman_eq_exact hc hbig (fun nd h => by have := hw nd h; omega) hsum sort hf]
  exact sizes_indexed_by_label_exact nodes sort fuel hc hw hs hbig hf

theorem hk_sizes_indexed_by_label_witness :
    Causal exampleNodes ∧ (∀ nd, nd ∈ exampleNodes → 1 ≤ nd.size) ∧
    SortSpec insertionSortBlobs ∧ (exampleNodes.length : Int) ≤ MaxInt ∧
    (exampleNodes.map (fun nd => nd.size)).sum ≤ MaxInt ∧
    exampleNodes.length < 8 ∧
    ∃ s sizes, HoshenKopelman Source.labeler insertionSortBlobs 8 (Source.init exampleNodes)
        = some (s, sizes) ∧
      s.labels.length = exampleNodes.length ∧
      (∀ j, j < exampleNodes.length →
        ∃ p : Nat, p < sizes.length ∧ s.labels[j]? = some (p : Int)) ∧
      ∀ p : Nat, p < sizes.length →
        sizes[p]? = some (wsum exampleNodes.length (sizeAt exampleNodes)
          (fun j => s.labels[j]? = some (p : Int))) :=
  ⟨causal_exampleNodes, sizes_exampleNodes, insertionSortBlobs_spec, big_exampleNodes,
    sum_exampleNodes, by decide,
    hk_sizes_indexed_by_label exampleNodes insertionSortBlobs 8 causal_exampleNodes
      sizes_exampleNodes insertionSortBlobs_spec big_exampleNodes
      sum_exampleNodes (by decide)⟩

/-- C9, as stated, fails: the nodes of `overflowNodes` report non-negative sizes that add up to
`2^63 + 1`; the returned sizes add up to 0, which is neither that sum nor that sum wrapped to
an `int`. -/
theorem hk_sizes_sum_counterexample :
    Causal overflowNodes ∧ (∀ nd, nd ∈ overflowNodes → 0 ≤ nd.size) ∧
    SortSpec insertionSortBlobs ∧ (overflowNodes.length : Int) ≤ MaxInt ∧
    HoshenKopelman Source.labeler insertionSortBlobs 4 (Source.init overflowNodes)
      = some (⟨overflowNodes, [1, 0, 1], 3⟩, [0]) ∧
    ([0] : List Int).sum ≠ (overflowNodes.map (fun nd => nd.size)).sum ∧
    ([0] : List Int).sum ≠ wrapInt (overflowNodes.map (fun nd => nd.size)).sum :=
  ⟨causal_overflowNodes, by unfold overflowNodes; decide, insertionSortBlobs_spec, by decide,
    overflow_run, by decide, by decide⟩

/-- C9, amended: for every causal node source whose nodes report non-negative sizes that add up
to at most `2^63 - 1`, the sum of the sizes returned by `HoshenKopelman` equals the sum of the
sizes of all the nodes visited in the first pass. -/
theorem hk_sizes_sum (nodes : List GNode) (sort : List Blob → List Blob)
    (fuel : Nat) (hc : Causal nodes) (hw : ∀ nd, nd ∈ nodes → 0 ≤ nd.size)
    (hs : SortSpec sort) (hbig : (nodes.length : Int) ≤ MaxInt)
    (hsum : (nodes.map (fun nd => nd.size)).sum ≤ MaxInt) (hf : nodes.length < fuel) :
    ∃ s sizes, HoshenKopelman Source.labeler sort fuel (Source.init nodes) = some (s, sizes) ∧
      sizes.sum = (nodes.map (fun nd => nd.size)).sum := by
  rw [HoshenKopelman_eq_exact hc hbig hw hsum sort hf]
  exact sizes_sum_exact nodes sort fuel hc hw hs hbig hf

theorem hk_sizes_sum_witness :
    Causal exampleNodes ∧ (∀ nd, nd ∈ exampleNodes → 0 ≤ nd.size) ∧
    SortSpec insertionSortBlobs ∧ (exampleNodes.length : Int) ≤ MaxInt ∧
    (exampleNodes.map (fun nd => nd.size)).sum ≤ MaxInt ∧
    exampleNodes.length < 8 ∧
    ∃ s sizes, HoshenKopelman Source.labeler insertionSortBlobs 8 (Source.init exampleNodes)
        = some (s, sizes) ∧
      sizes.sum = (exampleNodes.map (fun nd => nd.size)).sum :=
  ⟨causal_exampleNodes, by unfold exampleNodes; decide, insertionSortBlobs_spec,
    big_exampleNodes, sum_exampleNodes, by decide,
    hk_sizes_sum exampleNodes insertionSortBlobs 8 causal_exampleNodes
      (by unfold exampleNodes; decide) insertionSortBlobs_spec big_exampleNodes
      sum_exampleNodes (by decide)⟩

/-- C10, as stated, fails: a single node that reports size 0 is given label 0, and no size
is returned, so the number of returned sizes (0) is not the number of distinct labels (1);
and on `overflowNodes`, whose sizes of at least 1 add up to `2^63 + 1`, one size is returned
while the labels 0 and 1 are held. -/
theorem hk_label_range_counterexample :
    Causal [⟨[], 0⟩] ∧
    HoshenKopelman Source.labeler insertionSortBlobs 2 (Source.init [⟨[], 0⟩])
      = some (⟨[⟨[], 0⟩], [0], 1⟩, []) ∧
    ([0] : List Int).dedup.length ≠ ([] : List Int).length ∧
    Causal overflowNodes ∧ (∀ nd, nd ∈ overflowNodes → 1 ≤ nd.size) ∧
    HoshenKopelman Source.labeler insertionSortBlobs 4 (Source.init overflowNodes)
      = some (⟨overflowNodes, [1, 0, 1], 3⟩, [0]) ∧
    ([1, 0, 1] : List Int).dedup.length ≠ ([0] : List Int).length := by
  refine ⟨by unfold Causal; decide, by decide, by decide, causal_overflowNodes,
    sizes_overflowNodes, overflow_run, by decide⟩

/-- C10, amended: for every causal node source whose nodes all report a size of at least 1 and
whose sizes add up to at most `2^63 - 1`, after `HoshenKopelman` the number `k` of returned
sizes equals the number of distinct labels held by visited nodes, and those labels are
exactly the range `0 .. k-1`. -/
theorem hk_label_range (nodes : List GNode) (sort : List Blob → List Blob)
    (fuel : Nat) (hc : Causal nodes) (hw : ∀ nd, nd ∈ nodes → 1 ≤ nd.size)
    (hs : SortSpec sort) (hbig : (nodes.length : Int) ≤ MaxInt)
    (hsum : (nodes.map (fun nd => nd.size)).sum ≤ MaxInt) (hf : nodes.length < fuel) :
    ∃ s sizes, HoshenKopelman Source.labeler sort fuel (Source.init nodes) = some (s, sizes) ∧
      s.labels.length = nodes.length ∧
      (∀ j, j < nodes.length → ∃ p : Nat, p < sizes.length ∧ s.labels[j]? = some (p : Int)) ∧
      (∀ p : Nat, p < sizes.length → ∃ j, j < nodes.length ∧ s.labels[j]? = some (p : Int)) ∧
      s.labels.dedup.length = sizes.length := by
  rw [HoshenKopelman_eq_exact hc hbig (fun nd h => by have := hw nd h; omega) hsum sort hf]
  exact label_range_exact nodes sort fuel hc hw hs hbig hf

theorem hk_label_range_witness :
    Causal exampleNodes ∧ (∀ nd, nd ∈ exampleNodes → 1 ≤ nd.size) ∧
    SortSpec insertionSortBlobs ∧ (exampleNodes.length : Int) ≤ MaxInt ∧
    (exampleNodes.map (fun nd => nd.size)).sum ≤ MaxInt ∧
    exampleNodes.length < 8 ∧
    ∃ s sizes, HoshenKopelman Source.labeler insertionSortBlobs 8 (Source.init exampleNodes)
        = some (s, sizes) ∧
      s.labels.length = exampleNodes.length ∧
      (∀ j, j < exampleNodes.length →
        ∃ p : Nat, p < sizes.length ∧ s.labels[j]? = some (p : Int)) ∧
      (∀ p : Nat, p < sizes.length →
        ∃ j, j < exampleNodes.length ∧ s.labels[j]? = some (p : Int)) ∧
      s.labels.dedup.length = sizes.length :=
  ⟨causal_exampleNodes, sizes_exampleNodes, insertionSortBlobs_spec, big_exampleNodes,
    sum_exampleNodes, by decide,
    hk_label_range exampleNodes insertionSortBlobs 8 causal_exampleNodes
      sizes_exampleNodes insertionSortBlobs_spec big_exampleNodes
      sum_exampleNodes (by decide)⟩

/-! ## The grid adapter of the test `Example` -/

theorem example_firstPass :
    firstPass Bitmap.labeler 45 (newBitmap exampleData)
      { equivalence := [], largestLabel := 0, blobs := [] }
    = some (⟨exampleData, exampleRawLabels, 0, 10⟩,
        ⟨exampleEquivalence, 10, [⟨0, 14⟩, ⟨1, 6⟩, ⟨2, 1⟩, ⟨3, 2⟩, ⟨4, 12⟩, ⟨5, 1⟩, ⟨6, 5⟩,
          ⟨7, 1⟩, ⟨8, 1⟩, ⟨9, 1⟩]⟩) := by
  decide

theorem example_aggregate :
    aggregateWrap 10 0 exampleEquivalence [⟨0, 14⟩, ⟨1, 6⟩, ⟨2, 1⟩, ⟨3, 2⟩, ⟨4, 12⟩, ⟨5, 1⟩,
      ⟨6, 5⟩, ⟨7, 1⟩, ⟨8, 1⟩, ⟨9, 1⟩] = some (exampleEquivalence, exampleBlobs) := by
  decide

theorem example_secondPass :
    secondPass Bitmap.labeler exampleMapping 45 ⟨exampleData, exampleRawLabels, 0, 0⟩
      = some ⟨exampleData, exampleLabels, 0, 10⟩ := by
  decide

/-- Whatever the order in which `sort.Slice` leaves records of equal size, the loop that
fills `mapping` gives the same result on the records of the test `Example`. -/
theorem example_fillMapping {sort : List Blob → List Blob} (hs : SortSpec sort) :
    ∃ ms, fillMapping false (sort exampleBlobs) 0
        { equivalence := exampleEquivalence
          mapping := List.replicate (sort exampleBlobs).length 0
          numNotEmpty := 0, done := [] } = some ms ∧
      ms.mapping = exampleMapping ∧
      (ms.done.take ms.numNotEmpty).map (fun b => b.Size) = [23, 13, 7, 1] := by
  obtain ⟨hp, hd⟩ := hs exampleBlobs
  generalize sort exampleBlobs = l at hp hd
  have hmem : ∀ b, b ∈ l ↔ b ∈ exampleBlobs := fun b => hp.mem_iff
  have hlen : l.length = 10 := hp.length_eq
  have hnodupID : (l.map (fun b => b.ID)).Nodup :=
    (hp.map _).nodup_iff.2 (by decide)
  have hinj := getElem?_inj_of_nodup_map (fun b : Blob => b.ID) hnodupID
  -- where the records of non-zero size are
  have hrank : ∀ c, c ∈ exampleBlobs → c.Size ≠ 0 →
      l[exampleBlobs.countP (fun b => decide (c.Size < b.Size))]? = some c := by
    intro c hc hnz
    rw [← hp.countP_eq]
    refine sorted_rank l c hd ((hmem c).2 hc) (fun b hb e => ?_)
    have h1 : ∀ c, c ∈ exampleBlobs → c.Size ≠ 0 → ∀ b, b ∈ exampleBlobs → b.Size = c.Size →
        b = c := by decide
    exact h1 c hc hnz b ((hmem b).1 hb) e
  obtain ⟨ms, hms, hmlen, hmap⟩ := fillMapping_spec false exampleEquivalence l
    (fun b hb => by
      have h1 : ∀ b, b ∈ exampleBlobs → 0 ≤ b.ID ∧ b.ID < 10 := by decide
      exact h1 b ((hmem b).1 hb))
    hinj hd
    (fun b hb hnz => by
      have h1 : ∀ b, b ∈ exampleBlobs → b.Size ≠ 0 →
          findParent 11 exampleEquivalence b.ID = some b.ID := by decide
      exact rootOf_of_findParent _ _ _ _ (h1 b ((hmem b).1 hb) hnz))
    (fun b hb hz => by
      have h1 : ∀ b, b ∈ exampleBlobs → b.Size = 0 → ∃ c, c ∈ exampleBlobs ∧
          findParent 11 exampleEquivalence b.ID = some c.ID ∧ 0 < c.Size := by decide
      obtain ⟨c, hc, hr, hpos⟩ := h1 b ((hmem b).1 hb) hz
      exact ⟨c.ID, c, rootOf_of_findParent _ _ _ _ hr, (hmem c).2 hc, rfl, hpos⟩)
    l [] { equivalence := exampleEquivalence, mapping := List.replicate l.length 0
           numNotEmpty := 0, done := [] }
    rfl (by simp [hlen, exampleEquivalence]) rfl (fun _ _ => Iff.rfl)
    (fun p b hp => by simp at hp)
  refine ⟨ms, hms, ?_, ?_⟩
  · -- the entries of `mapping`
    have hentry : ∀ b, b ∈ exampleBlobs → idx ms.mapping b.ID = idx exampleMapping b.ID := by
      intro b hb
      obtain ⟨p, hpb⟩ := List.mem_iff_getElem?.1 ((hmem b).2 hb)
      obtain ⟨q, c, hqc, hcnz, hroot, hidx⟩ := hmap p b hpb
      have hc : c ∈ exampleBlobs := (hmem c).1 (List.mem_iff_getElem?.2 ⟨q, hqc⟩)
      have hq : q = exampleBlobs.countP (fun b => decide (c.Size < b.Size)) :=
        hinj q _ c c hqc (hrank c hc hcnz) rfl
      have hfp : findParent 11 exampleEquivalence b.ID = some c.ID := findParent_of_rootOf hroot
      have h1 : ∀ b, b ∈ exampleBlobs → ∀ c, c ∈ exampleBlobs → c.Size ≠ 0 →
          findParent 11 exampleEquivalence b.ID = some c.ID →
          idx exampleMapping b.ID
            = some ((exampleBlobs.countP (fun b => decide (c.Size < b.Size)) : Nat) : Int) := by
        decide
      rw [hidx, hq, h1 b hb c hc hcnz hfp]
    apply List.ext_getElem?
    intro i
    by_cases hi : i < 10
    · have h1 : ∀ i : Nat, i < 10 → ∃ b, b ∈ exampleBlobs ∧ b.ID = (i : Int) := by decide
      obtain ⟨b, hb, hbi⟩ := h1 i hi
      have := hentry b hb
      rw [hbi, idx_natCast, idx_natCast] at this
      exact this
    · rw [List.getElem?_eq_none (by rw [hmlen]; simp [exampleEquivalence]; omega),
        List.getElem?_eq_none (by simp [exampleMapping]; omega)]
  · obtain ⟨hdone, hnum⟩ := fillMapping_done false l 0 _ ms hms
    rw [relabelFrom_false] at hdone
    simp only [List.nil_append, Nat.zero_add] at hdone hnum
    rw [hp.countP_eq] at hnum
    have hnum4 : ms.numNotEmpty = 4 := by rw [hnum]; decide
    have h0 := hrank ⟨0, 23⟩ (by decide) (by decide)
    have h1 := hrank ⟨4, 13⟩ (by decide) (by decide)
    have h2 := hrank ⟨6, 7⟩ (by decide) (by decide)
    have h3 := hrank ⟨8, 1⟩ (by decide) (by decide)
    have e0 : exampleBlobs.countP (fun b => decide ((⟨0, 23⟩ : Blob).Size < b.Size)) = 0 := by
      decide
    have e1 : exampleBlobs.countP (fun b => decide ((⟨4, 13⟩ : Blob).Size < b.Size)) = 1 := by
      decide
    have e2 : exampleBlobs.countP (fun b => decide ((⟨6, 7⟩ : Blob).Size < b.Size)) = 2 := by
      decide
    have e3 : exampleBlobs.countP (fun b => decide ((⟨8, 1⟩ : Blob).Size < b.Size)) = 3 := by
      decide
    rw [e0] at h0
    rw [e1] at h1
    rw [e2] at h2
    rw [e3] at h3
    rw [hdone, hnum4]
    rcases l with _ | ⟨a0, _ | ⟨a1, _ | ⟨a2, _ | ⟨a3, rest⟩⟩⟩⟩
    · simp at hlen
    · simp at hlen
    · simp at hlen
    · simp at hlen
    · simp only [List.getElem?_cons_zero, List.getElem?_cons_succ, Option.some.injEq] at h0 h1 h2 h3
      subst h0 h1 h2 h3
      rfl

/-- C13: the worked scenario.  Running `HoshenKopelman` over the grid adapter for the grid
of the test `Example` returns exactly `[23, 13, 7, 1]`, and the label grid it leaves is the
layout printed in the test, whatever the order in which `sort.Slice` leaves records of equal
size and for every bound of at least 45 on the calls of `Next` in a pass. -/
theorem example_scenario (sort : List Blob → List Blob) (fuel : Nat) (hs : SortSpec sort)
    (hf : 45 ≤ fuel) :
    HoshenKopelman Bitmap.labeler sort fuel (newBitmap exampleData)
      = some (⟨exampleData, exampleLabels, 0, 10⟩, [23, 13, 7, 1]) := by
  obtain ⟨k, rfl⟩ : ∃ k, fuel = 45 + k := ⟨fuel - 45, by omega⟩
  obtain ⟨ms, hms, hmapping, hsizes⟩ := example_fillMapping hs
  have h1 := firstPass_mono Bitmap.labeler 45 _ _ _ example_firstPass k
  have h2 := secondPass_mono Bitmap.labeler exampleMapping 45 _ _ example_secondPass k
  unfold HoshenKopelman
  rw [h1]
  simp only [List.length_cons, List.length_nil]
  rw [example_aggregate]
  simp only
  rw [hms]
  simp only [Bitmap.labeler, hmapping]
  have h2b : secondPass Bitmap.labeler exampleMapping (45 + k)
      ⟨exampleData, exampleRawLabels, 0, 0⟩ = some ⟨exampleData, exampleLabels, 0, 10⟩ := h2
  simp only [Bitmap.labeler] at h2b
  rw [h2b]
  simp only [hsizes]

theorem example_scenario_witness :
    SortSpec insertionSortBlobs ∧ 45 ≤ 45 ∧
    HoshenKopelman Bitmap.labeler insertionSortBlobs 45 (newBitmap exampleData)
      = some (⟨exampleData, exampleLabels, 0, 10⟩, [23, 13, 7, 1]) :=
  ⟨insertionSortBlobs_spec, le_refl _,
    example_scenario insertionSortBlobs 45 insertionSortBlobs_spec (le_refl _)⟩

/-- C18: the grid adapter does not visit the cell `(0, 0)`.  On the grid `[[1]]` the run of
`HoshenKopelman` completes with no node visited: the non-zero cell keeps `NullLabel` and no
size is returned.  On the grid `[[1, 1]]` the cell `(1, 0)` reports the label `-1` of the
unvisited cell `(0, 0)` as a neighbour label, and `find(-1)` indexes `equivalence` out of
range in the first turn of the first pass. -/
theorem bitmap_skips_first_cell :
    (∀ fuel, HoshenKopelman Bitmap.labeler insertionSortBlobs (fuel + 1) (newBitmap [[1]])
      = some (⟨[[1]], [[-1]], 0, 1⟩, [])) ∧
    (∀ (sort : List Blob → List Blob) (fuel : Nat),
      HoshenKopelman Bitmap.labeler sort (fuel + 1) (newBitmap [[1, 1]]) = none) ∧
    Bitmap.Next (newBitmap [[1, 1]]) = some (true, ⟨[[1, 1]], [[-1, -1]], 1, 0⟩) ∧
    Bitmap.Neighbors ⟨[[1, 1]], [[-1, -1]], 1, 0⟩ = some [-1] ∧
    find [] (-1) = none := by
  refine ⟨fun fuel => rfl, fun sort fuel => rfl, by decide, by decide, by decide⟩

end ccl
